import Mathlib

/-!
A shallow embedding of `submitted-mm.c`

A segregated-free-list allocator with boundary tags (first fit, immediate
coalescing), embedded as Lean functions over an explicit machine state.

* Memory is a byte map indexed by address; words are little-endian.
* `size_t` and pointers are 64 bits wide: arithmetic on them is taken modulo
  `2^64 = 18446744073709551616`.  Header and footer words are `unsigned int`,
  32 bits wide: `PUT` keeps the low 32 bits of what it is given.
* The C globals (`grouparr`, `arrsize`, `heap_listp`, `lo`, `hi`) are fields of
  the state, next to the three variables of the host memory module.
* Loops whose trip count is not bounded by the code (walks along `next` links
  and along the arena) take a fuel argument and return `none` when it runs out.
-/

namespace MM

/-! ## Memory -/

/-- Byte-addressed memory; a cell is read modulo 256. -/
abbrev Mem := Nat → Nat

/-- Addition of `size_t` / pointer values. -/
def add64 (a b : Nat) : Nat := (a + b) % 18446744073709551616

/-- Addition of `unsigned int` values. -/
def add32 (a b : Nat) : Nat := (a + b) % 4294967296

/-- Subtraction of `size_t` / pointer values. -/
def sub64 (a b : Nat) : Nat :=
  (a + (18446744073709551616 - b % 18446744073709551616)) % 18446744073709551616

/-- Multiplication of `size_t` values. -/
def mul64 (a b : Nat) : Nat := (a * b) % 18446744073709551616

def read8 (m : Mem) (a : Nat) : Nat := m a % 256

/-- Read an `unsigned int` (little-endian). -/
def read32 (m : Mem) (a : Nat) : Nat :=
  read8 m a + 256 * read8 m (a + 1) + 65536 * read8 m (a + 2) + 16777216 * read8 m (a + 3)

/-- Read a pointer (8 bytes, little-endian). -/
def read64 (m : Mem) (a : Nat) : Nat := read32 m a + 4294967296 * read32 m (a + 4)

/-- Store the low 32 bits of `v` at `a`. -/
def write32 (m : Mem) (a v : Nat) : Mem := fun x =>
  if x = a then v % 256
  else if x = a + 1 then v / 256 % 256
  else if x = a + 2 then v / 65536 % 256
  else if x = a + 3 then v / 16777216 % 256
  else m x

/-- Store the low 64 bits of `v` at `a`. -/
def write64 (m : Mem) (a v : Nat) : Mem :=
  write32 (write32 m a v) (a + 4) (v / 4294967296)

/-- Store one byte. -/
def write8 (m : Mem) (a v : Nat) : Mem := fun x => if x = a then v % 256 else m x

/-- The effect of `memcpy(dst, src, n)` for regions that do not overlap. -/
def memcpy (m : Mem) (dst src n : Nat) : Mem := fun x =>
  if dst ≤ x ∧ x < dst + n then m (src + (x - dst)) else m x

/-! ## Constants and macros -/

def WSIZE : Nat := 4
def DSIZE : Nat := 8
def CHUNKSIZE : Nat := 64
def MINBLKSIZE : Nat := 24
def SMALLBLK : Nat := 5
def MINCLASS : Nat := 6
def MAXCLASS : Nat := 22

/-- The macro `ALIGN(size)`, which is `(size + 7) & ~0x7` on `size_t`. -/
def ALIGN (size : Nat) : Nat := add64 size 7 &&& 18446744073709551608

/-- The macro `PACK(size, alloc)`. -/
def PACK (size alloc : Nat) : Nat := size ||| alloc

def GET (m : Mem) (p : Nat) : Nat := read32 m p

/-- The macro `GET_SIZE(p)`: `GET(p) & ~0x7`, an `unsigned int`. -/
def GET_SIZE (m : Mem) (p : Nat) : Nat := GET m p &&& 4294967288

def GET_ALLOC (m : Mem) (p : Nat) : Nat := GET m p &&& 1

def HDRP (bp : Nat) : Nat := sub64 bp 4

def FTRP (m : Mem) (bp : Nat) : Nat := sub64 (add64 bp (GET_SIZE m (HDRP bp))) 8

def NEXT_BLKP (m : Mem) (bp : Nat) : Nat := add64 bp (GET_SIZE m (sub64 bp 4))

def PREV_BLKP (m : Mem) (bp : Nat) : Nat := sub64 bp (GET_SIZE m (sub64 bp 8))

def NEXT_LL (m : Mem) (bp : Nat) : Nat := read64 m bp

def PREV_LL (m : Mem) (bp : Nat) : Nat := read64 m (add64 bp 8)

/-! ## State -/

/-- The allocator's globals and the host memory module's variables. -/
structure State where
  mem : Mem
  mem_start_brk : Nat
  mem_brk : Nat
  mem_max_addr : Nat
  grouparr : Nat
  arrsize : Nat
  heap_listp : Nat
  lo : Nat
  hi : Nat

/-- The state with its memory replaced. -/
def State.setMem (s : State) (m : Mem) : State := { s with mem := m }

/-- The assignment `PUT(p, val)`. -/
def State.put32 (s : State) (p val : Nat) : State := s.setMem (write32 s.mem p val)

/-- An assignment through a `void **`. -/
def State.put64 (s : State) (p val : Nat) : State := s.setMem (write64 s.mem p val)

/-- Modelled from the spec: the arena-growth primitive `mem_sbrk` of the host
memory module, which is not among the sources.  It grows the arena by `incr`
bytes and returns the old break, or fails with `(void *)-1`, changing nothing,
when the arena would pass its limit `mem_max_addr`. -/
def mem_sbrk (s : State) (incr : Nat) : State × Nat :=
  if s.mem_brk + incr > s.mem_max_addr then (s, 18446744073709551615)
  else ({ s with mem_brk := s.mem_brk + incr }, s.mem_brk)

/-- Modelled from the spec: `mem_heap_lo`, the address of the first byte of the arena. -/
def mem_heap_lo (s : State) : Nat := s.mem_start_brk

/-- Modelled from the spec: `mem_heap_hi`, the address of the last byte of the arena. -/
def mem_heap_hi (s : State) : Nat := sub64 s.mem_brk 1

/-- Address of `grouparr[k]`. -/
def slotAddr (s : State) (k : Nat) : Nat := add64 s.grouparr (mul64 8 k)

/-! ## Free-list functions -/

/-- The function `rmvll`. -/
def rmvll (s : State) (bp : Nat) : State :=
  let s1 := if PREV_LL s.mem bp ≠ 0 then s.put64 (PREV_LL s.mem bp) (NEXT_LL s.mem bp) else s
  if NEXT_LL s1.mem bp ≠ 0 then s1.put64 (add64 (NEXT_LL s1.mem bp) 8) (PREV_LL s1.mem bp)
  else s1

/-- The loop `for(i=0; i<SMALLBLK; i++) if (size <= i*8 + 24) ...`, run for `n`
more rounds from `i`: the first `i` that passes the test, if any. -/
def smallClass (size : Nat) : Nat → Nat → Option Nat
  | 0, _ => none
  | n + 1, i => if size ≤ i * 8 + 24 then some i else smallClass size n (i + 1)

/-- The loop `for(j=MINCLASS; j<MAXCLASS; j++) if (size <= (1<<j)) ...`, run for
`n` more rounds from `j`. -/
def powClass (size : Nat) : Nat → Nat → Option Nat
  | 0, _ => none
  | n + 1, j => if size ≤ 2 ^ j then some j else powClass size n (j + 1)

/-- The index of the slot under which `addfree` files a block of size `asize`,
`arrsize` being the value of the global of that name. -/
def addfree_index (arrsize asize : Nat) : Nat :=
  if asize < 64 then
    match smallClass asize SMALLBLK 0 with
    | some i => i
    | none => sub64 arrsize 1
  else if asize < 2 ^ MAXCLASS then
    match powClass asize (MAXCLASS - MINCLASS) MINCLASS with
    | some j => j - 1
    | none => sub64 arrsize 1
  else sub64 arrsize 1

/-- The four statements by which `addfree` pushes `bp` on slot `k`. -/
def insert_at (s : State) (k bp : Nat) : State :=
  let s1 := s.put64 bp (read64 s.mem (slotAddr s k))
  let s2 := s1.put64 (add64 bp 8) (slotAddr s k)
  let s3 := if NEXT_LL s2.mem bp ≠ 0 then s2.put64 (add64 (NEXT_LL s2.mem bp) 8) bp else s2
  s3.put64 (slotAddr s k) bp

/-- The function `addfree`. -/
def addfree (s : State) (bp asize : Nat) : State :=
  insert_at s (addfree_index s.arrsize asize) bp

/-! ## Placement and coalescing -/

/-- The branch of `place` that splits the block. -/
def place_split (s : State) (bp asize : Nat) : State :=
  let csize := GET_SIZE s.mem (HDRP bp)
  let s1 := rmvll s bp
  let s2 := s1.put32 (HDRP bp) (PACK asize 1)
  let s3 := s2.put32 (FTRP s2.mem bp) (PACK asize 1)
  let bp2 := NEXT_BLKP s3.mem bp
  let s4 := s3.put32 (HDRP bp2) (PACK (sub64 csize asize) 0)
  let s5 := s4.put32 (FTRP s4.mem bp2) (PACK (sub64 csize asize) 0)
  addfree s5 bp2 (sub64 csize asize)

/-- The branch of `place` that takes the whole block. -/
def place_whole (s : State) (bp : Nat) : State :=
  let csize := GET_SIZE s.mem (HDRP bp)
  let s1 := rmvll s bp
  let s2 := s1.put32 (HDRP bp) (PACK csize 1)
  s2.put32 (FTRP s2.mem bp) (PACK csize 1)

/-- The function `place`. -/
def place (s : State) (bp asize : Nat) : State :=
  let csize := GET_SIZE s.mem (HDRP bp)
  if sub64 csize asize ≥ MINBLKSIZE then place_split s bp asize
  else place_whole s bp

/-- Case 2 of `coalesce`: the previous block is allocated and the next block is free. -/
def coalesce_case2 (s : State) (bp : Nat) : State × Nat :=
  let size := GET_SIZE s.mem (HDRP bp)
  let size := add64 size (GET_SIZE s.mem (HDRP (NEXT_BLKP s.mem bp)))
  let s1 := rmvll s (NEXT_BLKP s.mem bp)
  let s2 := s1.put32 (HDRP bp) (PACK size 0)
  let s3 := s2.put32 (FTRP s2.mem bp) (PACK size 0)
  (addfree s3 bp size, bp)

/-- Case 3 of `coalesce`: the previous block is free and the next block is allocated. -/
def coalesce_case3 (s : State) (bp : Nat) : State × Nat :=
  let size := GET_SIZE s.mem (HDRP bp)
  let size := add64 size (GET_SIZE s.mem (HDRP (PREV_BLKP s.mem bp)))
  let s1 := s.put32 (FTRP s.mem bp) (PACK size 0)
  let s2 := s1.put32 (HDRP (PREV_BLKP s1.mem bp)) (PACK size 0)
  let s3 := rmvll s2 (PREV_BLKP s2.mem bp)
  let s4 := addfree s3 (PREV_BLKP s3.mem bp) size
  (s4, PREV_BLKP s4.mem bp)

/-- Case 4 of `coalesce`: the previous and next blocks are both free.  The two
sizes read from the neighbours are `unsigned int` and are added as such before
the sum is added to the `size_t`. -/
def coalesce_case4 (s : State) (bp : Nat) : State × Nat :=
  let size := GET_SIZE s.mem (HDRP bp)
  let size := add64 size (add32 (GET_SIZE s.mem (HDRP (PREV_BLKP s.mem bp)))
    (GET_SIZE s.mem (FTRP s.mem (NEXT_BLKP s.mem bp))))
  let s1 := rmvll s (NEXT_BLKP s.mem bp)
  let s2 := s1.put32 (HDRP (PREV_BLKP s1.mem bp)) (PACK size 0)
  let s3 := s2.put32 (FTRP s2.mem (NEXT_BLKP s2.mem bp)) (PACK size 0)
  let s4 := rmvll s3 (PREV_BLKP s3.mem bp)
  let s5 := addfree s4 (PREV_BLKP s4.mem bp) size
  (s5, PREV_BLKP s5.mem bp)

/-- The function `coalesce`; the result is the new state and the returned
pointer.  Case 1, both neighbours allocated, is the first branch. -/
def coalesce (s : State) (bp : Nat) : State × Nat :=
  let prev_alloc := GET_ALLOC s.mem (FTRP s.mem (PREV_BLKP s.mem bp))
  let next_alloc := GET_ALLOC s.mem (HDRP (NEXT_BLKP s.mem bp))
  let size := GET_SIZE s.mem (HDRP bp)
  if prev_alloc ≠ 0 ∧ next_alloc ≠ 0 then (addfree s bp size, bp)
  else if prev_alloc ≠ 0 ∧ next_alloc = 0 then coalesce_case2 s bp
  else if prev_alloc = 0 ∧ next_alloc ≠ 0 then coalesce_case3 s bp
  else coalesce_case4 s bp

/-! ## Debugging predicates -/

/-- The function `in_heap`. -/
def in_heap (s : State) (p : Nat) : Nat :=
  if p < mem_heap_hi s ∧ p ≥ mem_heap_lo s then 1 else 0

/-- The function `allocated`. -/
def allocated (s : State) (p : Nat) : Nat :=
  if GET_ALLOC s.mem (HDRP p) ≠ 0 then 1 else 0

/-! ## The allocator interface -/

/-- The function `extend_heap`; a returned pointer `0` is `NULL`. -/
def extend_heap (s : State) (words : Nat) : State × Nat :=
  let size := if words % 2 ≠ 0 then mul64 (add64 words 1) WSIZE else mul64 words WSIZE
  let r := mem_sbrk s size
  if r.2 = 18446744073709551615 then (r.1, 0)
  else
    let bp := r.2
    let s2 := r.1.put32 (HDRP bp) (PACK size 0)
    let s3 := s2.put32 (FTRP s2.mem bp) (PACK size 0)
    let s4 := s3.put32 (HDRP (NEXT_BLKP s3.mem bp)) (PACK 0 1)
    let s5 := { s4 with hi := mem_heap_hi s4 }
    coalesce s5 bp

/-- The loop `for(i=0;i<arrsize;i++) grouparr[i] = NULL`, run for `n` more rounds from `i`. -/
def init_slots (s : State) : Nat → Nat → State
  | 0, _ => s
  | n + 1, i => init_slots (s.put64 (slotAddr s i) 0) n (i + 1)

/-- The statements of `mm_init` between its two requests for memory: the
padding word, the prologue, the epilogue, the globals and the emptied table.
On entry `heap_listp` holds what the first `mem_sbrk` returned. -/
def init_arena (s1 : State) : State :=
  let s2 := { s1 with grouparr := s1.heap_listp }
  let s3 := s2.put32 (add64 s2.heap_listp s2.arrsize) 0
  let s4 := s3.put32 (add64 s3.heap_listp (s3.arrsize + 1 * WSIZE)) (PACK DSIZE 1)
  let s5 := s4.put32 (add64 s4.heap_listp (s4.arrsize + 2 * WSIZE)) (PACK DSIZE 1)
  let s6 := s5.put32 (add64 s5.heap_listp (s5.arrsize + 3 * WSIZE)) (PACK 0 1)
  let s7 := { s6 with heap_listp := add64 s6.heap_listp (s6.arrsize + 2 * DSIZE) }
  let s8 := { s7 with arrsize := s7.arrsize / 8 }
  init_slots s8 s8.arrsize 0

/-- The function `mm_init`; the second component is the returned `int`. -/
def mm_init (s : State) : State × Int :=
  let s0 := { s with arrsize := (MAXCLASS - MINCLASS + SMALLBLK) * 8 }
  let r := mem_sbrk s0 (s0.arrsize + 4 * WSIZE)
  let s1 := { r.1 with heap_listp := r.2 }
  if r.2 = 18446744073709551615 then (s1, -1)
  else
    let e := extend_heap (init_arena s1) (CHUNKSIZE / WSIZE)
    if e.2 = 0 then (e.1, -1)
    else ({ e.1 with lo := mem_heap_lo e.1, hi := mem_heap_hi e.1 }, 0)

/-- The block size `mm_malloc` and `mm_realloc` derive from a request. -/
def adjust (size : Nat) : Nat :=
  if size ≤ 2 * DSIZE then MINBLKSIZE else ALIGN (add64 size DSIZE)

/-- The value of `i` with which `mm_malloc` enters its search loop, `arrsize`
being the value of the global of that name. -/
def malloc_index (arrsize size : Nat) : Nat :=
  if size < 64 then
    match smallClass size SMALLBLK 0 with
    | some i => i
    | none => SMALLBLK
  else if size < 2 ^ MAXCLASS then
    match powClass size (MAXCLASS - MINCLASS) MINCLASS with
    | some j => j - 1
    | none => MAXCLASS
  else sub64 arrsize 1

/-- The inner loop of the search, `for(bp=...; bp!=NULL; bp=NEXT_LL(bp))`: the
first block of size at least `size`, or `0` at the end of the list. -/
def find_in_list (m : Mem) (size : Nat) : Nat → Nat → Option Nat
  | 0, _ => none
  | fuel + 1, bp =>
    if bp = 0 then some 0
    else if GET_SIZE m (HDRP bp) ≥ size then some bp
    else find_in_list m size fuel (NEXT_LL m bp)

/-- The outer loop of the search, `for(;i<arrsize; i++)`, run for `n` more
rounds from `i`: the value of `bp` on leaving it. -/
def find_fit (s : State) (size fuel : Nat) : Nat → Nat → Option Nat
  | 0, _ => some 0
  | n + 1, i =>
    match find_in_list s.mem size fuel (read64 s.mem (slotAddr s i)) with
    | none => none
    | some bp => if bp ≠ 0 then some bp else find_fit s size fuel n (i + 1)

/-- The function `mm_malloc`: the new state and the returned pointer (`0` is `NULL`). -/
def mm_malloc (fuel : Nat) (s : State) (size : Nat) : Option (State × Nat) :=
  if size = 0 then some (s, 0)
  else
    let size := adjust size
    let i := malloc_index s.arrsize size
    match find_fit s size fuel (s.arrsize - i) i with
    | none => none
    | some bp =>
      if bp ≠ 0 then some (place s bp size, bp)
      else
        let extendsize := max size CHUNKSIZE
        let e := extend_heap s (extendsize / WSIZE)
        if e.2 = 0 then some (e.1, 0)
        else some (place e.1 e.2 size, e.2)

/-- The function `mm_free`. -/
def mm_free (s : State) (bp : Nat) : State :=
  if allocated s bp = 0 ∨ in_heap s bp = 0 then s
  else
    let size := GET_SIZE s.mem (HDRP bp)
    let s1 := s.put32 (HDRP bp) (PACK size 0)
    let s2 := s1.put32 (FTRP s1.mem bp) (PACK size 0)
    (coalesce s2 bp).1

/-- The tail of `mm_realloc`, taken when the block is not grown in place:
allocate, copy, free. -/
def realloc_move (fuel : Nat) (s : State) (bp size : Nat) : Option (State × Nat) :=
  match mm_malloc fuel s size with
  | none => none
  | some (s1, newbp) =>
    if newbp = 0 then some (s1, 0)
    else
      let oldsize := GET_SIZE s1.mem (HDRP bp)
      let oldsize := if size < oldsize then size else oldsize
      let s2 := s1.setMem (memcpy s1.mem newbp bp oldsize)
      some (mm_free s2 bp, newbp)

/-- The branch of `mm_realloc` that grows the block in place and splits off the
rest of the next block. -/
def realloc_split (s : State) (bp size : Nat) : State :=
  let oldsize := GET_SIZE s.mem (HDRP bp)
  let next := NEXT_BLKP s.mem bp
  let nextsize := GET_SIZE s.mem (HDRP next)
  let extra := sub64 size oldsize
  let s1 := rmvll s next
  let s2 := s1.put32 (HDRP bp) (PACK size 1)
  let s3 := s2.put32 (FTRP s2.mem bp) (PACK size 1)
  let next := NEXT_BLKP s3.mem bp
  let s4 := s3.put32 (HDRP next) (PACK (sub64 nextsize extra) 0)
  let s5 := s4.put32 (FTRP s4.mem next) (PACK (sub64 nextsize extra) 0)
  addfree s5 next (sub64 nextsize extra)

/-- The branch of `mm_realloc` that grows the block in place over the whole next block. -/
def realloc_whole (s : State) (bp : Nat) : State :=
  let oldsize := GET_SIZE s.mem (HDRP bp)
  let next := NEXT_BLKP s.mem bp
  let nextsize := GET_SIZE s.mem (HDRP next)
  let s1 := rmvll s next
  let s2 := s1.put32 (HDRP bp) (PACK (add64 oldsize nextsize) 1)
  let s3 := s2.put32 (FTRP s2.mem bp) (PACK (add64 oldsize nextsize) 1)
  rmvll s3 next

/-- The function `mm_realloc`. -/
def mm_realloc (fuel : Nat) (s : State) (bp size : Nat) : Option (State × Nat) :=
  if size = 0 then some (mm_free s bp, 0)
  else if bp = 0 then mm_malloc fuel s size
  else if in_heap s bp = 0 then some (s, 0)
  else if GET_ALLOC s.mem (HDRP (NEXT_BLKP s.mem bp)) = 0 then
    let size := adjust size
    let oldsize := GET_SIZE s.mem (HDRP bp)
    let next := NEXT_BLKP s.mem bp
    let nextsize := GET_SIZE s.mem (HDRP next)
    let extra := sub64 size oldsize
    if nextsize ≥ extra then
      if sub64 nextsize extra ≥ MINBLKSIZE then some (realloc_split s bp size, bp)
      else some (realloc_whole s bp, bp)
    else realloc_move fuel s bp size
  else realloc_move fuel s bp size

/-- The first loop of `mm_check`, `while(cp < hi - 7)`. -/
def check_blocks (s : State) : Nat → Nat → Option Nat
  | 0, _ => none
  | fuel + 1, cp =>
    if cp < sub64 s.hi 7 then
      if GET_SIZE s.mem (HDRP cp) < MINBLKSIZE then some 0
      else check_blocks s fuel (NEXT_BLKP s.mem cp)
    else some 1

/-- The inner loop of the second pass of `mm_check`. -/
def check_list (s : State) : Nat → Nat → Option Nat
  | 0, _ => none
  | fuel + 1, cp =>
    if cp = 0 then some 1
    else if allocated s cp = 1 then some 0
    else check_list s fuel (NEXT_LL s.mem cp)

/-- The second pass of `mm_check`, `for(i = 0; i < MAXCLASS-MINCLASS+SMALLBLK; i++)`,
run for `n` more rounds from `i`. -/
def check_lists (s : State) (fuel : Nat) : Nat → Nat → Option Nat
  | 0, _ => some 1
  | n + 1, i =>
    match check_list s fuel (read64 s.mem (slotAddr s i)) with
    | none => none
    | some r => if r = 0 then some 0 else check_lists s fuel n (i + 1)

/-- The function `mm_check` (its printing left out). -/
def mm_check (fuel : Nat) (s : State) : Option Nat :=
  match check_blocks s fuel s.heap_listp with
  | none => none
  | some r =>
    if r = 0 then some 0
    else check_lists s fuel (MAXCLASS - MINCLASS + SMALLBLK) 0

/-! ## The well-formed heap -/

/-- A block of the arena walk: the address of its payload, its size and its flag. -/
structure Blk where
  addr : Nat
  size : Nat
  alloc : Bool

/-- The header (and footer) word of a block. -/
def Blk.word (b : Blk) : Nat := b.size + b.alloc.toNat

/-- The blocks `bl` tile the arena from the payload address `a` to `e`: each has
a size that is a multiple of 8 and at least 24, and its header and footer hold
its word. -/
def Chain (m : Mem) : Nat → List Blk → Nat → Prop
  | a, [], e => a = e
  | a, b :: bs, e => b.addr = a ∧ 24 ≤ b.size ∧ b.size % 8 = 0 ∧
      read32 m (a - 4) = b.word ∧ read32 m (a + b.size - 8) = b.word ∧
      Chain m (a + b.size) bs e

/-- The cell at `p` starts a null-terminated list of the nodes `l`, each node
storing at offset 8 the address of the cell that points to it. -/
def FList (m : Mem) : Nat → List Nat → Prop
  | p, [] => read64 m p = 0
  | p, x :: xs => read64 m p = x ∧ x ≠ 0 ∧ read64 m (x + 8) = p ∧ FList m x xs

/-- The last element of `q :: l`: the cell that points to what follows `l`. -/
def lastOr (q : Nat) : List Nat → Nat
  | [] => q
  | y :: ys => lastOr y ys

/-- Two nodes (or a slot and a node) whose link fields cannot overlap. -/
def Far (a b : Nat) : Prop := a + 16 ≤ b ∨ b + 16 ≤ a

/-- The memory after the header and the footer of the block of size `sz` at `a`
have been set to `sz` with flag `al`. -/
def tag (m : Mem) (a sz : Nat) (al : Bool) : Mem :=
  write32 (write32 m (a - 4) (sz + al.toNat)) (a + sz - 8) (sz + al.toNat)

/-- The part of well-formedness that every step inside an operation keeps: the
layout of the arena, the block walk `bl`, and the 21 lists `fl` holding
addresses of free blocks. -/
structure Core (s : State) (bl : List Blk) (fl : Nat → List Nat) : Prop where
  base_pos : 0 < s.mem_start_brk
  max_lt : s.mem_max_addr < s.mem_start_brk + 4294967296
  max_lt64 : s.mem_max_addr < 18446744073709551615
  brk_le : s.mem_brk ≤ s.mem_max_addr
  grouparr_eq : s.grouparr = s.mem_start_brk
  arrsize_eq : s.arrsize = 21
  hl_eq : s.heap_listp = s.mem_start_brk + 184
  pro_hdr : read32 s.mem (s.mem_start_brk + 172) = 9
  pro_ftr : read32 s.mem (s.mem_start_brk + 176) = 9
  chain : Chain s.mem (s.mem_start_brk + 184) bl s.mem_brk
  epi : read32 s.mem (s.mem_brk - 4) = 1
  flist : ∀ i, i < 21 → FList s.mem (s.mem_start_brk + 8 * i) (fl i)
  fl_out : ∀ i, 21 ≤ i → fl i = []
  fl_nodup : ∀ i, (fl i).Nodup
  fl_disj : ∀ i j x, x ∈ fl i → x ∈ fl j → i = j
  fl_free : ∀ i x, x ∈ fl i → ∃ b, b ∈ bl ∧ b.addr = x ∧ b.alloc = false

/-- The memory `m2` differs from that of `s` only inside the table of slots and
inside the link fields of the free blocks of `bl`. -/
def LinkOnly (s : State) (bl : List Blk) (m2 : Mem) : Prop :=
  ∀ a, s.mem_start_brk + 168 ≤ a →
    (∀ b, b ∈ bl → b.alloc = false → ¬ (b.addr ≤ a ∧ a < b.addr + 16)) → m2 a = s.mem a

/-- The memory `m2` differs from that of `s` only inside the table of slots and
inside the free blocks of `bl`, their headers and footers included. -/
def FreeOnly (s : State) (bl : List Blk) (m2 : Mem) : Prop :=
  ∀ a, s.mem_start_brk + 168 ≤ a →
    (∀ b, b ∈ bl → b.alloc = false → ¬ (b.addr - 4 ≤ a ∧ a < b.addr + b.size - 4)) →
    m2 a = s.mem a

/-- The two states differ in memory at most. -/
def SameFields (s s2 : State) : Prop :=
  s2.mem_start_brk = s.mem_start_brk ∧ s2.mem_brk = s.mem_brk ∧
  s2.mem_max_addr = s.mem_max_addr ∧ s2.grouparr = s.grouparr ∧
  s2.arrsize = s.arrsize ∧ s2.heap_listp = s.heap_listp ∧ s2.lo = s.lo ∧ s2.hi = s.hi

/-- Two neighbours of the walk are not both free. -/
def NA (b c : Blk) : Prop := b.alloc = true ∨ c.alloc = true

/-- A well-formed heap: the core, no two neighbours both free, and every free
block filed once, under the slot of its size. -/
structure WF (s : State) (bl : List Blk) (fl : Nat → List Nat) : Prop where
  core : Core s bl fl
  noadj : bl.Chain' NA
  fl_class : ∀ i x, x ∈ fl i → ∀ b, b ∈ bl → b.addr = x → addfree_index 21 b.size = i
  fl_all : ∀ b, b ∈ bl → b.alloc = false → b.addr ∈ fl (addfree_index 21 b.size)

/-- What is assumed of the host memory module before `mm_init`: an empty arena
at a non-null address whose limit keeps every size within 32 bits. -/
def HostOK (s : State) : Prop :=
  0 < s.mem_start_brk ∧ s.mem_brk = s.mem_start_brk ∧
  s.mem_max_addr < s.mem_start_brk + 4294967296 ∧ s.mem_max_addr < 18446744073709551615

/-! ## Notions used to state the results -/

/-- The globals `lo` and `hi` hold the bounds of the arena. -/
def Bounds (s : State) : Prop := s.lo = s.mem_start_brk ∧ s.hi = s.mem_brk - 1

/-- The test of the search loop of `mm_malloc` on the block at `x`. -/
def fits (m : Mem) (size x : Nat) : Bool := decide (GET_SIZE m (HDRP x) ≥ size)

/-- The block on which the search loop of `mm_malloc` settles when the slots
hold the lists `fl`: the first fitting block of the first slot, among the `n`
slots from `i` on, that has one; `0` if there is none. -/
def firstFit (m : Mem) (fl : Nat → List Nat) (size : Nat) : Nat → Nat → Nat
  | 0, _ => 0
  | n + 1, i =>
    match (fl i).find? (fits m size) with
    | some x => x
    | none => firstFit m fl size n (i + 1)

/-- The walk of the arena: from the payload address `bp`, go from block to block
by `NEXT_BLKP` until a header of size 0 is met.  The result lists the payload
addresses of the blocks visited and gives the address at which the walk stops. -/
def walk (m : Mem) : Nat → Nat → Option (List Nat × Nat)
  | 0, _ => none
  | fuel + 1, bp =>
    if GET_SIZE m (HDRP bp) = 0 then some ([], bp)
    else
      match walk m fuel (NEXT_BLKP m bp) with
      | none => none
      | some r => some (bp :: r.1, r.2)

/-- The list of a slot: from its head `bp`, follow `NEXT_LL` until `NULL`. -/
def chase (m : Mem) : Nat → Nat → Option (List Nat)
  | 0, _ => none
  | fuel + 1, bp =>
    if bp = 0 then some []
    else
      match chase m fuel (NEXT_LL m bp) with
      | none => none
      | some l => some (bp :: l)

/-- The size predicate of slot `i` of the table, in the words of the specification:
`24 + 8 i` for the five small slots, 64 for slot 5, `(2^i, 2^(i+1)]` for slots
6 to 19, and everything above `2^20` for slot 20. -/
def slotPred (i sz : Nat) : Prop :=
  (i < 5 ∧ sz = 24 + 8 * i) ∨ (i = 5 ∧ sz = 64) ∨
  (6 ≤ i ∧ i ≤ 19 ∧ 2 ^ i < sz ∧ sz ≤ 2 ^ (i + 1)) ∨ (i = 20 ∧ 2 ^ 20 < sz)

/-- The states reached from `mm_init` on the host state `s0`, each with the list
of its live pointers: those returned by `mm_malloc` or `mm_realloc` and not
freed or resized since.  The client calls `mm_malloc` and `mm_realloc` with
sizes below `2^31`, calls `mm_free` on live pointers and `mm_realloc` on live
pointers or on `NULL`, and stores bytes into the payloads of live blocks. -/
inductive Reach (s0 : State) : State → List Nat → Prop
  | init : HostOK s0 → (mm_init s0).2 = 0 → Reach s0 (mm_init s0).1 []
  | malloc (s s2 : State) (L : List Nat) (fuel n p : Nat) :
      Reach s0 s L → n < 2147483648 → mm_malloc fuel s n = some (s2, p) →
      Reach s0 s2 (if p = 0 then L else p :: L)
  | free (s : State) (L : List Nat) (p : Nat) :
      Reach s0 s L → p ∈ L → Reach s0 (mm_free s p) (L.erase p)
  | realloc (s s2 : State) (L : List Nat) (fuel p n q : Nat) :
      Reach s0 s L → p ∈ L → n < 2147483648 → mm_realloc fuel s p n = some (s2, q) →
      Reach s0 s2 (if n = 0 then L.erase p else if q = 0 then L else q :: L.erase p)
  | realloc_null (s s2 : State) (L : List Nat) (fuel n q : Nat) :
      Reach s0 s L → n < 2147483648 → mm_realloc fuel s 0 n = some (s2, q) →
      Reach s0 s2 (if q = 0 then L else q :: L)
  | store (s : State) (L : List Nat) (p a v : Nat) :
      Reach s0 s L → p ∈ L → p ≤ a → a < p + (GET_SIZE s.mem (HDRP p) - 8) →
      Reach s0 (s.setMem (write8 s.mem a v)) L

/-- What holds of every reached state: the heap is well-formed, the globals
hold the bounds of the arena, and the live pointers are the payload addresses
of the allocated blocks, each once. -/
def Good (s : State) (L : List Nat) : Prop :=
  ∃ bl fl, WF s bl fl ∧ Bounds s ∧ L.Nodup ∧
    ∀ p, p ∈ L ↔ ∃ b, b ∈ bl ∧ b.alloc = true ∧ b.addr = p

/-- A host state before `mm_init`: an empty arena at address 4096 with room for
one megabyte. -/
def hostState : State :=
  { mem := fun _ => 0, mem_start_brk := 4096, mem_brk := 4096,
    mem_max_addr := 4096 + 1048576, grouparr := 0, arrsize := 0, heap_listp := 0,
    lo := 0, hi := 0 }

/-- A well-formed heap: some walk and some lists make the state well-formed. -/
def Heap (s : State) : Prop := ∃ bl fl, WF s bl fl

/-- The pointer `p` is the payload address of an allocated block of the
well-formed heap `s`. -/
def Allocated (s : State) (p : Nat) : Prop :=
  ∃ bl fl, WF s bl fl ∧ ∃ b, b ∈ bl ∧ b.alloc = true ∧ b.addr = p

/-- The state after `mm_init` on `hostState`. -/
def initState : State := (mm_init hostState).1

/-- The state after `mm_init` and `mm_malloc(16)` on `hostState`. -/
def oneBlock : State :=
  match mm_malloc 10 initState 16 with
  | some r => r.1
  | none => initState

/-! ## Notions used to state the results on resizing, searching and checking -/

/-- The rounding of a request in the words of the specification: 24 for a
request of at most 16 bytes, and otherwise the request plus 8, rounded up to a
multiple of 8. -/
def rounded (n : Nat) : Nat := if n ≤ 16 then 24 else (n + 8 + 7) / 8 * 8

/-- The sequence to which the specification compares a relocating resize:
`q = mm_malloc(n)`; copy `min(old size, n)` bytes from `p` to `q`; `mm_free(p)`;
return `q`.  The old size is the size held by the header of `p`. -/
def alloc_copy_free (fuel : Nat) (s : State) (p n : Nat) : Option (State × Nat) :=
  match mm_malloc fuel s n with
  | none => none
  | some (s1, q) =>
    let s2 := s1.setMem (memcpy s1.mem q p (min (GET_SIZE s.mem (HDRP p)) n))
    some (mm_free s2 p, q)

/-- The blocks met from `cp` on, going from block to block by `NEXT_BLKP` as
long as the block pointer is below `stop`. -/
def visited (m : Mem) (stop : Nat) : Nat → Nat → Option (List Nat)
  | 0, _ => none
  | fuel + 1, cp =>
    if cp < stop then
      match visited m stop fuel (NEXT_BLKP m cp) with
      | none => none
      | some l => some (cp :: l)
    else some []

/-- The lists `fl` once the nodes of `del` have been taken off them and the
node `x` has been pushed on slot `k`. -/
def relist (fl : Nat → List Nat) (del : List Nat) (k x : Nat) : Nat → List Nat :=
  fun i => if i = k then x :: del.foldl List.erase (fl i) else del.foldl List.erase (fl i)

/-- The lists `fl` once the nodes of `del` have been taken off them. -/
def unlist (fl : Nat → List Nat) (del : List Nat) : Nat → List Nat :=
  fun i => del.foldl List.erase (fl i)

/-- The state `s` is a well-formed heap but for the block `b` of its walk, which
has just been marked free: `b` is on no list, and a neighbour of `b` may be
free.  This is the state in which `mm_free` and `extend_heap` call `coalesce`. -/
structure FreedIn (s : State) (pre : List Blk) (b : Blk) (post : List Blk)
    (fl : Nat → List Nat) : Prop where
  core : Core s (pre ++ b :: post) fl
  free : b.alloc = false
  unlisted : ∀ i, b.addr ∉ fl i
  fl_class : ∀ i x, x ∈ fl i → ∀ c, c ∈ pre ++ b :: post → c.addr = x →
    addfree_index 21 c.size = i
  fl_all : ∀ c, c ∈ pre ++ post → c.alloc = false → c.addr ∈ fl (addfree_index 21 c.size)
  noadj_pre : pre.Chain' NA
  noadj_post : post.Chain' NA

/-- The first request of `mm_init` to the growth primitive: the bytes of the
table and of the four words of padding, prologue and epilogue. -/
def init_sbrk1 (s : State) : State × Nat :=
  mem_sbrk { s with arrsize := (MAXCLASS - MINCLASS + SMALLBLK) * 8 }
    ((MAXCLASS - MINCLASS + SMALLBLK) * 8 + 4 * WSIZE)

/-- The second request of `mm_init` to the growth primitive, made by
`extend_heap` once the table and the sentinels are laid out: one chunk. -/
def init_sbrk2 (s : State) : State × Nat :=
  mem_sbrk (init_arena { (init_sbrk1 s).1 with heap_listp := (init_sbrk1 s).2 })
    (mul64 (CHUNKSIZE / WSIZE) WSIZE)

/-! ## More concrete states -/

/-- The lists of the slots after `mm_init` on `hostState`: the block 4280 on slot 5. -/
def initLists : Nat → List Nat := fun i => if i = 5 then [4280] else []

/-- The state after `mm_init` on `hostState` once 24 bytes have been placed in
its block: an allocated block of 24 bytes and a free block of 40 bytes. -/
def placedState : State := place initState 4280 24

/-- The lists of the slots of `placedState`: the block 4304 on slot 2. -/
def placedLists : Nat → List Nat := relist initLists [4280] (addfree_index 21 40) 4304

/-- The state `placedState` with its allocated block marked free, as `mm_free`
marks it before it calls `coalesce`. -/
def markedState : State := placedState.setMem (tag placedState.mem 4280 24 false)

/-- The state `placedState` once 24 bytes have been placed in its free block,
which is taken whole: two allocated blocks, of 24 and of 40 bytes. -/
def filledState : State := place placedState 4304 24

/-- The state after `mm_init` and `mm_malloc(32)` on `hostState`: an allocated
block of 40 bytes followed by a free block of 24 bytes. -/
def twoBlocks : State :=
  match mm_malloc 10 initState 32 with
  | some r => r.1
  | none => initState

/-- A host state with room for eight megabytes. -/
def wideHost : State :=
  { mem := fun _ => 0, mem_start_brk := 4096, mem_brk := 4096,
    mem_max_addr := 4096 + 8388608, grouparr := 0, arrsize := 0, heap_listp := 0,
    lo := 0, hi := 0 }

/-- The state after `mm_init` on `wideHost`. -/
def wideInit : State := (mm_init wideHost).1

/-- The state after `mm_init` and `mm_malloc(2097152)` on `wideHost`. -/
def bigBlock : State :=
  match mm_malloc 10 wideInit 2097152 with
  | some r => r.1
  | none => wideInit

/-- The state after `mm_init`, `p = mm_malloc(2097152)` and `mm_free(p)` on
`wideHost`: one free block of 2097224 bytes. -/
def bigFree : State := mm_free bigBlock 4280

theorem write32_out (m : Mem) (a v x : Nat) (h : x < a ∨ a + 4 ≤ x) : write32 m a v x = m x := by
  unfold write32
  have h0 : x ≠ a := by omega
  have h1 : x ≠ a + 1 := by omega
  have h2 : x ≠ a + 2 := by omega
  have h3 : x ≠ a + 3 := by omega
  simp [h0, h1, h2, h3]

theorem write64_out (m : Mem) (a v x : Nat) (h : x < a ∨ a + 8 ≤ x) : write64 m a v x = m x := by
  unfold write64
  rw [write32_out _ _ _ _ (by omega), write32_out _ _ _ _ (by omega)]

theorem write8_out (m : Mem) (a v x : Nat) (h : x ≠ a) : write8 m a v x = m x := by
  simp [write8, h]

theorem memcpy_out (m : Mem) (dst src n x : Nat) (h : x < dst ∨ dst + n ≤ x) :
    memcpy m dst src n x = m x := by
  unfold memcpy
  have : ¬ (dst ≤ x ∧ x < dst + n) := by omega
  simp [this]

theorem memcpy_in (m : Mem) (dst src n x : Nat) (h1 : dst ≤ x) (h2 : x < dst + n) :
    memcpy m dst src n x = m (src + (x - dst)) := by
  unfold memcpy
  simp [h1, h2]

theorem read32_congr (m m2 : Mem) (a : Nat) (h : ∀ x, a ≤ x → x < a + 4 → m2 x = m x) :
    read32 m2 a = read32 m a := by
  unfold read32 read8
  rw [h a (by omega) (by omega), h (a + 1) (by omega) (by omega),
    h (a + 2) (by omega) (by omega), h (a + 3) (by omega) (by omega)]

theorem read64_congr (m m2 : Mem) (a : Nat) (h : ∀ x, a ≤ x → x < a + 8 → m2 x = m x) :
    read64 m2 a = read64 m a := by
  unfold read64
  rw [read32_congr m m2 a (fun x h1 h2 => h x h1 (by omega)),
    read32_congr m m2 (a + 4) (fun x h1 h2 => h x (by omega) (by omega))]

theorem read32_lt (m : Mem) (a : Nat) : read32 m a < 4294967296 := by
  unfold read32 read8
  omega

theorem read64_lt (m : Mem) (a : Nat) : read64 m a < 18446744073709551616 := by
  unfold read64
  have h1 := read32_lt m a
  have h2 := read32_lt m (a + 4)
  omega

theorem read32_write32_same (m : Mem) (a v : Nat) :
    read32 (write32 m a v) a = v % 4294967296 := by
  simp [read32, read8, write32]
  omega

theorem read32_write32_ne (m : Mem) (a b v : Nat) (h : a + 4 ≤ b ∨ b + 4 ≤ a) :
    read32 (write32 m a v) b = read32 m b :=
  read32_congr _ _ _ (fun x h1 h2 => write32_out _ _ _ _ (by omega))

theorem read32_write64_ne (m : Mem) (a b v : Nat) (h : a + 8 ≤ b ∨ b + 4 ≤ a) :
    read32 (write64 m a v) b = read32 m b :=
  read32_congr _ _ _ (fun x h1 h2 => write64_out _ _ _ _ (by omega))

theorem read64_write32_ne (m : Mem) (a b v : Nat) (h : a + 4 ≤ b ∨ b + 8 ≤ a) :
    read64 (write32 m a v) b = read64 m b :=
  read64_congr _ _ _ (fun x h1 h2 => write32_out _ _ _ _ (by omega))

theorem read64_write64_ne (m : Mem) (a b v : Nat) (h : a + 8 ≤ b ∨ b + 8 ≤ a) :
    read64 (write64 m a v) b = read64 m b :=
  read64_congr _ _ _ (fun x h1 h2 => write64_out _ _ _ _ (by omega))

theorem read64_write64_same (m : Mem) (a v : Nat) :
    read64 (write64 m a v) a = v % 18446744073709551616 := by
  unfold read64 write64
  rw [read32_write32_same, read32_write32_ne _ _ _ _ (by omega), read32_write32_same]
  omega

/-! ## Word arithmetic -/

theorem add64_eq (a b : Nat) (h : a + b < 18446744073709551616) : add64 a b = a + b := by
  unfold add64; omega

theorem sub64_eq (a b : Nat) (h : b ≤ a) (h2 : a < 18446744073709551616) : sub64 a b = a - b := by
  unfold sub64; omega

theorem mul64_eq (a b : Nat) (h : a * b < 18446744073709551616) : mul64 a b = a * b := by
  unfold mul64; exact Nat.mod_eq_of_lt h

theorem and_mask32 (x : Nat) (h : x < 4294967296) : x &&& 4294967288 = x - x % 8 := by
  have e1 : (x &&& 4294967288) % 2 = 0 := by
    have := @Nat.and_mod_two_eq_one x 4294967288
    omega
  have d1 : (x &&& 4294967288) / 2 = x / 2 &&& 2147483644 := Nat.and_div_two
  have e2 : (x / 2 &&& 2147483644) % 2 = 0 := by
    have := @Nat.and_mod_two_eq_one (x / 2) 2147483644
    omega
  have d2 : (x / 2 &&& 2147483644) / 2 = x / 2 / 2 &&& 1073741822 := Nat.and_div_two
  have e3 : (x / 2 / 2 &&& 1073741822) % 2 = 0 := by
    have := @Nat.and_mod_two_eq_one (x / 2 / 2) 1073741822
    omega
  have d3 : (x / 2 / 2 &&& 1073741822) / 2 = x / 2 / 2 / 2 &&& 536870911 := Nat.and_div_two
  have e4 : x / 2 / 2 / 2 &&& 536870911 = x / 2 / 2 / 2 := by
    have := @Nat.and_pow_two_sub_one_of_lt_two_pow 29 (x / 2 / 2 / 2) (by norm_num; omega)
    simpa using this
  omega

theorem and_mask64 (x : Nat) (h : x < 18446744073709551616) :
    x &&& 18446744073709551608 = x - x % 8 := by
  have e1 : (x &&& 18446744073709551608) % 2 = 0 := by
    have := @Nat.and_mod_two_eq_one x 18446744073709551608
    omega
  have d1 : (x &&& 18446744073709551608) / 2 = x / 2 &&& 9223372036854775804 := Nat.and_div_two
  have e2 : (x / 2 &&& 9223372036854775804) % 2 = 0 := by
    have := @Nat.and_mod_two_eq_one (x / 2) 9223372036854775804
    omega
  have d2 : (x / 2 &&& 9223372036854775804) / 2 = x / 2 / 2 &&& 4611686018427387902 :=
    Nat.and_div_two
  have e3 : (x / 2 / 2 &&& 4611686018427387902) % 2 = 0 := by
    have := @Nat.and_mod_two_eq_one (x / 2 / 2) 4611686018427387902
    omega
  have d3 : (x / 2 / 2 &&& 4611686018427387902) / 2 = x / 2 / 2 / 2 &&& 2305843009213693951 :=
    Nat.and_div_two
  have e4 : x / 2 / 2 / 2 &&& 2305843009213693951 = x / 2 / 2 / 2 := by
    have := @Nat.and_pow_two_sub_one_of_lt_two_pow 61 (x / 2 / 2 / 2) (by norm_num; omega)
    simpa using this
  omega

theorem or_one_even (x : Nat) (h : x % 2 = 0) : x ||| 1 = x + 1 := by
  have h1 : (x ||| 1) % 2 = 1 := by
    have := @Nat.or_mod_two_eq_one x 1
    omega
  have h2 : (x ||| 1) / 2 = x / 2 ||| 0 := Nat.or_div_two
  rw [Nat.or_zero] at h2
  omega

theorem PACK_zero (x : Nat) : PACK x 0 = x := by
  simp [PACK]

theorem PACK_one (x : Nat) (h : x % 8 = 0) : PACK x 1 = x + 1 := by
  unfold PACK
  exact or_one_even x (by omega)

/-! ## The block walk -/

theorem Chain_append (m : Mem) (l1 l2 : List Blk) :
    ∀ (a e : Nat), Chain m a (l1 ++ l2) e ↔ ∃ c, Chain m a l1 c ∧ Chain m c l2 e := by
  induction l1 with
  | nil =>
    intro a e
    simp [Chain]
  | cons b bs ih =>
    intro a e
    constructor
    · intro h
      have h0 : Chain m a (b :: (bs ++ l2)) e := h
      obtain ⟨h1, h2, h3, h4, h5, h6⟩ := h0
      obtain ⟨c, h7, h8⟩ := (ih _ _).1 h6
      exact ⟨c, ⟨h1, h2, h3, h4, h5, h7⟩, h8⟩
    · rintro ⟨c, ⟨h1, h2, h3, h4, h5, h6⟩, h7⟩
      have h8 := (ih _ _).2 ⟨c, h6, h7⟩
      exact (⟨h1, h2, h3, h4, h5, h8⟩ : Chain m a (b :: (bs ++ l2)) e)

theorem Chain_le (m : Mem) (l : List Blk) : ∀ (a e : Nat), Chain m a l e → a ≤ e := by
  induction l with
  | nil => intro a e h; simp [Chain] at h; omega
  | cons b bs ih =>
    intro a e h
    obtain ⟨_, _, _, _, _, h6⟩ := h
    have := ih _ _ h6
    omega

theorem Chain_fun (m : Mem) (l : List Blk) :
    ∀ (a e e2 : Nat), Chain m a l e → Chain m a l e2 → e = e2 := by
  induction l with
  | nil => intro a e e2 h h2; simp [Chain] at h h2; omega
  | cons b bs ih =>
    intro a e e2 h h2
    exact ih _ _ _ h.2.2.2.2.2 h2.2.2.2.2.2

theorem Chain_mem (m : Mem) (l : List Blk) :
    ∀ (a e : Nat), Chain m a l e → ∀ b, b ∈ l →
      a ≤ b.addr ∧ b.addr + b.size ≤ e ∧ 24 ≤ b.size ∧ b.size % 8 = 0 ∧
      read32 m (b.addr - 4) = b.word ∧ read32 m (b.addr + b.size - 8) = b.word := by
  induction l with
  | nil => intro a e _ b hb; simp at hb
  | cons c cs ih =>
    intro a e h b hb
    obtain ⟨h1, h2, h3, h4, h5, h6⟩ := h
    have hle := Chain_le m cs _ _ h6
    rcases List.mem_cons.1 hb with rfl | hb
    · subst h1
      exact ⟨le_refl _, hle, h2, h3, h4, h5⟩
    · have := ih _ _ h6 b hb
      refine ⟨by omega, this.2.1, this.2.2⟩

theorem Chain_al (m : Mem) (l : List Blk) (L : Nat) :
    ∀ (a e : Nat), Chain m a l e → L ≤ a → (a - L) % 8 = 0 →
      (e - L) % 8 = 0 ∧ ∀ b, b ∈ l → (b.addr - L) % 8 = 0 := by
  induction l with
  | nil => intro a e h _ ha; simp [Chain] at h; subst h; simp [ha]
  | cons c cs ih =>
    intro a e h hL ha
    obtain ⟨h1, h2, h3, h4, h5, h6⟩ := h
    have := ih _ _ h6 (by omega) (by omega)
    refine ⟨this.1, ?_⟩
    intro b hb
    rcases List.mem_cons.1 hb with rfl | hb
    · omega
    · exact this.2 b hb

theorem Chain_congr (m m2 : Mem) (l : List Blk) :
    ∀ (a e : Nat), Chain m a l e →
      (∀ b, b ∈ l → read32 m2 (b.addr - 4) = read32 m (b.addr - 4) ∧
        read32 m2 (b.addr + b.size - 8) = read32 m (b.addr + b.size - 8)) →
      Chain m2 a l e := by
  induction l with
  | nil => intro a e h _; exact h
  | cons c cs ih =>
    intro a e h hc
    obtain ⟨h1, h2, h3, h4, h5, h6⟩ := h
    have hcc := hc c (List.mem_cons_self _ _)
    rw [h1] at hcc
    refine ⟨h1, h2, h3, by rw [hcc.1]; exact h4, by rw [hcc.2]; exact h5, ?_⟩
    exact ih _ _ h6 (fun b hb => hc b (List.mem_cons_of_mem _ hb))

theorem Chain_pairwise (m : Mem) (l : List Blk) :
    ∀ (a e : Nat), Chain m a l e → l.Pairwise (fun b c => b.addr + b.size ≤ c.addr) := by
  induction l with
  | nil => intro a e _; exact List.Pairwise.nil
  | cons c cs ih =>
    intro a e h
    obtain ⟨h1, h2, h3, h4, h5, h6⟩ := h
    refine List.Pairwise.cons ?_ (ih _ _ h6)
    intro b hb
    have := Chain_mem m cs _ _ h6 b hb
    omega

theorem Chain_disj (m : Mem) (l : List Blk) (a e : Nat) (h : Chain m a l e) (b c : Blk)
    (hb : b ∈ l) (hc : c ∈ l) :
    b = c ∨ b.addr + b.size ≤ c.addr ∨ c.addr + c.size ≤ b.addr := by
  have hp := Chain_pairwise m l a e h
  by_cases hbc : b = c
  · exact Or.inl hbc
  · right
    have hs : Symmetric (fun b c : Blk => b.addr + b.size ≤ c.addr ∨ c.addr + c.size ≤ b.addr) := by
      intro x y hxy
      exact hxy.symm
    have hp2 : l.Pairwise (fun b c => b.addr + b.size ≤ c.addr ∨ c.addr + c.size ≤ b.addr) :=
      hp.imp (fun h => Or.inl h)
    exact hp2.forall hs hb hc hbc

theorem Chain_inj (m : Mem) (l : List Blk) (a e : Nat) (h : Chain m a l e) (b c : Blk)
    (hb : b ∈ l) (hc : c ∈ l) (hbc : b.addr = c.addr) : b = c := by
  rcases Chain_disj m l a e h b c hb hc with h1 | h1 | h1
  · exact h1
  · have := Chain_mem m l a e h b hb; omega
  · have := Chain_mem m l a e h c hc; omega

theorem Chain_split (m : Mem) (pre post : List Blk) (b : Blk) (a e : Nat)
    (h : Chain m a (pre ++ b :: post) e) :
    Chain m a pre b.addr ∧ Chain m (b.addr + b.size) post e ∧ 24 ≤ b.size ∧ b.size % 8 = 0 ∧
      read32 m (b.addr - 4) = b.word ∧ read32 m (b.addr + b.size - 8) = b.word := by
  obtain ⟨c, h1, h2⟩ := (Chain_append m pre (b :: post) a e).1 h
  obtain ⟨h3, h4, h5, h6, h7, h8⟩ := h2
  subst h3
  exact ⟨h1, h8, h4, h5, h6, h7⟩

theorem Chain_join (m : Mem) (pre post : List Blk) (b : Blk) (a e : Nat)
    (h1 : Chain m a pre b.addr) (h2 : Chain m (b.addr + b.size) post e)
    (h3 : 24 ≤ b.size) (h4 : b.size % 8 = 0)
    (h5 : read32 m (b.addr - 4) = b.word) (h6 : read32 m (b.addr + b.size - 8) = b.word) :
    Chain m a (pre ++ b :: post) e :=
  (Chain_append m pre (b :: post) a e).2 ⟨b.addr, h1, rfl, h3, h4, h5, h6, h2⟩

/-- The last block of a walk ends where the walk ends. -/
theorem Chain_last (m : Mem) (pre : List Blk) (q : Blk) (a e : Nat)
    (h : Chain m a (pre ++ [q]) e) : q.addr + q.size = e := by
  have := (Chain_split m pre [] q a e h).2.1
  simpa [Chain] using this

/-- The first block of a walk starts where the walk starts. -/
theorem Chain_head (m : Mem) (q : Blk) (post : List Blk) (a e : Nat)
    (h : Chain m a (q :: post) e) : q.addr = a := h.1

/-! ## Words of a block -/

theorem toNat_le_one (a : Bool) : a.toNat ≤ 1 := by
  cases a <;> simp

theorem Blk.word_lt (b : Blk) (h : b.size < 4294967295) : b.word < 4294967296 := by
  unfold Blk.word
  have := toNat_le_one b.alloc
  omega

theorem GET_SIZE_eq (m : Mem) (p : Nat) (b : Blk) (h : read32 m p = b.word)
    (h8 : b.size % 8 = 0) : GET_SIZE m p = b.size := by
  unfold GET_SIZE GET
  rw [and_mask32 _ (read32_lt m p), h]
  unfold Blk.word
  have := toNat_le_one b.alloc
  omega

theorem GET_ALLOC_eq (m : Mem) (p : Nat) (b : Blk) (h : read32 m p = b.word)
    (h8 : b.size % 8 = 0) : GET_ALLOC m p = b.alloc.toNat := by
  unfold GET_ALLOC GET
  rw [Nat.and_one_is_mod, h]
  unfold Blk.word
  have := toNat_le_one b.alloc
  omega

theorem GET_SIZE_val (m : Mem) (p w : Nat) (h : read32 m p = w) :
    GET_SIZE m p = w - w % 8 := by
  unfold GET_SIZE GET
  rw [and_mask32 _ (read32_lt m p), h]

theorem GET_ALLOC_val (m : Mem) (p w : Nat) (h : read32 m p = w) :
    GET_ALLOC m p = w % 2 := by
  unfold GET_ALLOC GET
  rw [Nat.and_one_is_mod, h]

/-! ## Free lists in memory -/

theorem lastOr_mem (l : List Nat) : ∀ q, lastOr q l ∈ q :: l := by
  induction l with
  | nil => intro q; simp [lastOr]
  | cons y ys ih =>
    intro q
    have := ih y
    simp only [lastOr]
    exact List.mem_cons_of_mem _ this

theorem lastOr_append (l1 : List Nat) (x : Nat) (l2 : List Nat) :
    ∀ q, lastOr q (l1 ++ x :: l2) = lastOr x l2 := by
  induction l1 with
  | nil => intro q; simp [lastOr]
  | cons y ys ih => intro q; simp [lastOr, ih]

theorem FList_congr (m m2 : Mem) (l : List Nat) :
    ∀ p, FList m p l → read64 m2 p = read64 m p →
      (∀ x, x ∈ l → read64 m2 x = read64 m x ∧ read64 m2 (x + 8) = read64 m (x + 8)) →
      FList m2 p l := by
  induction l with
  | nil => intro p h hp _; simp only [FList] at h ⊢; rw [hp]; exact h
  | cons y ys ih =>
    intro p h hp hl
    obtain ⟨h1, h2, h3, h4⟩ := h
    have hy := hl y (List.mem_cons_self _ _)
    refine ⟨by rw [hp]; exact h1, h2, by rw [hy.2]; exact h3, ?_⟩
    exact ih y h4 hy.1 (fun x hx => hl x (List.mem_cons_of_mem _ hx))

theorem FList_ne_zero (m : Mem) (l : List Nat) :
    ∀ p, FList m p l → ∀ x, x ∈ l → x ≠ 0 := by
  induction l with
  | nil => intro p _ x hx; simp at hx
  | cons y ys ih =>
    intro p h x hx
    obtain ⟨h1, h2, h3, h4⟩ := h
    rcases List.mem_cons.1 hx with rfl | hx
    · exact h2
    · exact ih y h4 x hx

/-- The two link fields of a node inside a list: its parent cell and its successor. -/
theorem FList_at (m : Mem) (l1 : List Nat) (x : Nat) (l2 : List Nat) :
    ∀ q, FList m q (l1 ++ x :: l2) →
      read64 m (x + 8) = lastOr q l1 ∧ read64 m x = l2.headD 0 ∧ x ≠ 0 := by
  induction l1 with
  | nil =>
    intro q h
    obtain ⟨h1, h2, h3, h4⟩ := h
    refine ⟨h3, ?_, h2⟩
    cases l2 with
    | nil => exact h4
    | cons z zs => exact h4.1
  | cons y ys ih =>
    intro q h
    have h0 : FList m q (y :: (ys ++ x :: l2)) := h
    obtain ⟨h1, h2, h3, h4⟩ := h0
    exact ih y h4

/-! ## `rmvll` on memory -/

@[simp] theorem setMem_mem (s : State) (m : Mem) : (s.setMem m).mem = m := rfl
@[simp] theorem setMem_setMem (s : State) (m m2 : Mem) : (s.setMem m).setMem m2 = s.setMem m2 := rfl
@[simp] theorem setMem_fields (s : State) (m : Mem) :
    (s.setMem m).mem_start_brk = s.mem_start_brk ∧ (s.setMem m).mem_brk = s.mem_brk ∧
    (s.setMem m).mem_max_addr = s.mem_max_addr ∧ (s.setMem m).grouparr = s.grouparr ∧
    (s.setMem m).arrsize = s.arrsize ∧ (s.setMem m).heap_listp = s.heap_listp ∧
    (s.setMem m).lo = s.lo ∧ (s.setMem m).hi = s.hi := ⟨rfl, rfl, rfl, rfl, rfl, rfl, rfl, rfl⟩
@[simp] theorem put64_mem (s : State) (p v : Nat) : (s.put64 p v).mem = write64 s.mem p v := rfl
@[simp] theorem put32_mem (s : State) (p v : Nat) : (s.put32 p v).mem = write32 s.mem p v := rfl
theorem put32_eq (s : State) (p v : Nat) : s.put32 p v = s.setMem (write32 s.mem p v) := rfl
theorem put64_eq (s : State) (p v : Nat) : s.put64 p v = s.setMem (write64 s.mem p v) := rfl

@[simp] theorem rmvll_fields (s : State) (x : Nat) :
    (rmvll s x).mem_start_brk = s.mem_start_brk ∧ (rmvll s x).mem_brk = s.mem_brk ∧
    (rmvll s x).mem_max_addr = s.mem_max_addr ∧ (rmvll s x).grouparr = s.grouparr ∧
    (rmvll s x).arrsize = s.arrsize ∧ (rmvll s x).heap_listp = s.heap_listp ∧
    (rmvll s x).lo = s.lo ∧ (rmvll s x).hi = s.hi := by
  unfold rmvll
  simp only [State.put64, State.setMem]
  split <;> split <;> simp

/-- The memory after `rmvll` of a node with a parent cell. -/
theorem rmvll_mem (s : State) (x : Nat) (hx : x + 16 ≤ 18446744073709551616)
    (hp0 : read64 s.mem (x + 8) ≠ 0)
    (hp : read64 s.mem (x + 8) + 8 ≤ x ∨ x + 16 ≤ read64 s.mem (x + 8))
    (hn : read64 s.mem x + 16 ≤ 18446744073709551616) :
    (rmvll s x).mem =
      if read64 s.mem x = 0 then write64 s.mem (read64 s.mem (x + 8)) 0
      else write64 (write64 s.mem (read64 s.mem (x + 8)) (read64 s.mem x))
        (read64 s.mem x + 8) (read64 s.mem (x + 8)) := by
  have e8 : add64 x 8 = x + 8 := add64_eq _ _ (by omega)
  have en : add64 (read64 s.mem x) 8 = read64 s.mem x + 8 := add64_eq _ _ (by omega)
  unfold rmvll
  simp only [PREV_LL, NEXT_LL, e8, ne_eq, hp0, not_false_eq_true, if_true, put64_mem]
  rw [read64_write64_ne _ _ _ _ (by omega), read64_write64_ne _ _ _ _ (by omega)]
  by_cases h0 : read64 s.mem x = 0
  · simp [h0]
  · simp [h0, en]

theorem rmvll_unch (s : State) (x : Nat) (hx : x + 16 ≤ 18446744073709551616)
    (hp0 : read64 s.mem (x + 8) ≠ 0)
    (hp : read64 s.mem (x + 8) + 8 ≤ x ∨ x + 16 ≤ read64 s.mem (x + 8))
    (hn : read64 s.mem x + 16 ≤ 18446744073709551616) (a : Nat)
    (h1 : ¬ (read64 s.mem (x + 8) ≤ a ∧ a < read64 s.mem (x + 8) + 8))
    (h2 : read64 s.mem x = 0 ∨ ¬ (read64 s.mem x + 8 ≤ a ∧ a < read64 s.mem x + 16)) :
    (rmvll s x).mem a = s.mem a := by
  rw [rmvll_mem s x hx hp0 hp hn]
  by_cases h0 : read64 s.mem x = 0
  · simp only [h0, if_true]
    exact write64_out _ _ _ _ (by omega)
  · simp only [h0, if_false]
    rw [write64_out _ _ _ _ (by omega), write64_out _ _ _ _ (by omega)]

theorem rmvll_val (s : State) (x : Nat) (hx : x + 16 ≤ 18446744073709551616)
    (hp0 : read64 s.mem (x + 8) ≠ 0)
    (hp : read64 s.mem (x + 8) + 8 ≤ x ∨ x + 16 ≤ read64 s.mem (x + 8))
    (hn : read64 s.mem x + 16 ≤ 18446744073709551616)
    (hpn : read64 s.mem x = 0 ∨ read64 s.mem (x + 8) + 8 ≤ read64 s.mem x + 8 ∨
      read64 s.mem x + 16 ≤ read64 s.mem (x + 8)) :
    read64 (rmvll s x).mem (read64 s.mem (x + 8)) = read64 s.mem x ∧
    (read64 s.mem x ≠ 0 →
      read64 (rmvll s x).mem (read64 s.mem x + 8) = read64 s.mem (x + 8)) := by
  rw [rmvll_mem s x hx hp0 hp hn]
  have l1 := read64_lt s.mem x
  have l2 := read64_lt s.mem (x + 8)
  by_cases h0 : read64 s.mem x = 0
  · simp only [h0, if_true, ne_eq, not_true_eq_false, false_implies, and_true]
    rw [read64_write64_same]
  · simp only [h0, if_false, ne_eq, not_false_eq_true, true_implies]
    constructor
    · rw [read64_write64_ne _ _ _ _ (by omega), read64_write64_same]
      omega
    · rw [read64_write64_same]
      omega

/-- Removing a node from a list in memory removes it from the list. -/
theorem rmvll_flist (s : State) (x : Nat) (l2 : List Nat) (l1 : List Nat) :
    ∀ q, FList s.mem q (l1 ++ x :: l2) → q ≠ 0 →
      (q :: (l1 ++ x :: l2)).Pairwise Far →
      (∀ y, y ∈ q :: (l1 ++ x :: l2) → y + 16 ≤ 18446744073709551616) →
      FList (rmvll s x).mem q (l1 ++ l2) := by
  induction l1 with
  | nil =>
    intro q h hq hpw hb
    have hat := FList_at s.mem [] x l2 q h
    simp only [lastOr] at hat
    obtain ⟨h1, h2, h3, h4⟩ := h
    have hbx := hb x (by simp)
    have hqx : Far q x := (List.pairwise_cons.1 hpw).1 x (by simp)
    unfold Far at hqx
    cases l2 with
    | nil =>
      have hn0 : read64 s.mem x = 0 := h4
      have hv := rmvll_val s x hbx (by rw [hat.1]; exact hq) (by rw [hat.1]; omega)
        (by rw [hn0]; omega) (Or.inl hn0)
      rw [hat.1, hn0] at hv
      exact hv.1
    | cons z zs =>
      obtain ⟨g1, g2, g3, g4⟩ := h4
      have hbz := hb z (by simp)
      have hqz : Far q z := (List.pairwise_cons.1 hpw).1 z (by simp)
      have hxz : Far x z :=
        (List.pairwise_cons.1 (List.pairwise_cons.1 hpw).2).1 z (by simp)
      have hzs : ∀ y, y ∈ zs → Far q y ∧ Far z y := by
        intro y hy
        refine ⟨(List.pairwise_cons.1 hpw).1 y (by simp [hy]), ?_⟩
        exact (List.pairwise_cons.1 (List.pairwise_cons.1
          (List.pairwise_cons.1 hpw).2).2).1 y hy
      unfold Far at hqz hxz
      have hv := rmvll_val s x hbx (by rw [hat.1]; exact hq) (by rw [hat.1]; omega)
        (by rw [g1]; omega) (by rw [hat.1, g1]; omega)
      rw [hat.1, g1] at hv
      have hu := rmvll_unch s x hbx (by rw [hat.1]; exact hq) (by rw [hat.1]; omega)
        (by rw [g1]; omega)
      rw [hat.1, g1] at hu
      refine ⟨hv.1, g2, hv.2 g2, ?_⟩
      refine FList_congr s.mem _ zs z g4 ?_ ?_
      · exact read64_congr _ _ _ (fun a ha1 ha2 => hu a (by omega) (Or.inr (by omega)))
      · intro y hy
        have := hzs y hy
        unfold Far at this
        exact ⟨read64_congr _ _ _ (fun a ha1 ha2 => hu a (by omega) (Or.inr (by omega))),
          read64_congr _ _ _ (fun a ha1 ha2 => hu a (by omega) (Or.inr (by omega)))⟩
  | cons y ys ih =>
    intro q h hq hpw hb
    have hat := FList_at s.mem (y :: ys) x l2 q h
    simp only [lastOr] at hat
    have h0 : FList s.mem q (y :: (ys ++ x :: l2)) := h
    obtain ⟨h1, h2, h3, h4⟩ := h0
    have hpw0 : (q :: y :: (ys ++ x :: l2)).Pairwise Far := hpw
    have hpwt := (List.pairwise_cons.1 hpw0).2
    have hih := ih y h4 h2 hpwt (fun z hz => hb z (List.mem_cons_of_mem _ hz))
    have hbx := hb x (by simp)
    have hlm : lastOr y ys ∈ y :: ys := lastOr_mem ys y
    have hpx : Far (lastOr y ys) x := by
      have hh := List.pairwise_append.1 (show ((y :: ys) ++ (x :: l2)).Pairwise Far from hpwt)
      exact hh.2.2 _ hlm x (by simp)
    have hp0 : lastOr y ys ≠ 0 := by
      have := FList_ne_zero s.mem _ q h (lastOr y ys) (by
        have : lastOr y ys ∈ (y :: ys) ++ x :: l2 := List.mem_append_left _ hlm
        simpa using this)
      exact this
    have hnx : read64 s.mem x = 0 ∨ read64 s.mem x ∈ l2 := by
      rw [hat.2.1]
      cases l2 with
      | nil => left; rfl
      | cons z zs => right; simp
    have hnb : read64 s.mem x + 16 ≤ 18446744073709551616 := by
      rcases hnx with h | h
      · omega
      · exact hb _ (by simp [h])
    unfold Far at hpx
    have hu := rmvll_unch s x hbx (by rw [hat.1]; exact hp0) (by rw [hat.1]; omega) hnb
    rw [hat.1] at hu
    have hqall : ∀ z, z ∈ y :: (ys ++ x :: l2) → Far q z := (List.pairwise_cons.1 hpw0).1
    have hyall : ∀ z, z ∈ ys ++ x :: l2 → Far y z := (List.pairwise_cons.1 hpwt).1
    have hql : Far q (lastOr y ys) := hqall _ (by
      have : lastOr y ys ∈ (y :: ys) ++ x :: l2 := List.mem_append_left _ hlm
      simpa using this)
    have hyl : lastOr y ys = y ∨ Far y (lastOr y ys) := by
      rcases List.mem_cons.1 hlm with h | h
      · exact Or.inl h
      · exact Or.inr (hyall _ (List.mem_append_left _ h))
    have hqn : read64 s.mem x = 0 ∨ (Far q (read64 s.mem x) ∧ Far y (read64 s.mem x)) := by
      rcases hnx with h | h
      · exact Or.inl h
      · exact Or.inr ⟨hqall _ (by simp [h]), hyall _ (by simp [h])⟩
    unfold Far at hql hyl hqn
    refine (⟨?_, h2, ?_, hih⟩ : FList (rmvll s x).mem q (y :: (ys ++ l2)))
    · rw [← h1]
      refine read64_congr _ _ _ (fun a ha1 ha2 => hu a (by omega) ?_)
      rcases hqn with h | h
      · exact Or.inl h
      · exact Or.inr (by omega)
    · rw [← h3]
      refine read64_congr _ _ _ (fun a ha1 ha2 => hu a (by omega) ?_)
      rcases hqn with h | h
      · exact Or.inl h
      · exact Or.inr (by omega)

/-! ## `insert_at` on memory -/

@[simp] theorem insert_at_fields (s : State) (k y : Nat) :
    (insert_at s k y).mem_start_brk = s.mem_start_brk ∧ (insert_at s k y).mem_brk = s.mem_brk ∧
    (insert_at s k y).mem_max_addr = s.mem_max_addr ∧ (insert_at s k y).grouparr = s.grouparr ∧
    (insert_at s k y).arrsize = s.arrsize ∧ (insert_at s k y).heap_listp = s.heap_listp ∧
    (insert_at s k y).lo = s.lo ∧ (insert_at s k y).hi = s.hi := by
  unfold insert_at
  simp only [State.put64, State.setMem]
  split <;> simp

/-- The memory after pushing `y` on the slot at `q`. -/
theorem insert_at_mem (s : State) (k y q : Nat) (hq : slotAddr s k = q)
    (hy : y + 16 ≤ 18446744073709551616) (_hqy : Far q y)
    (hh : read64 s.mem q + 16 ≤ 18446744073709551616) :
    (insert_at s k y).mem =
      write64 (if read64 s.mem q = 0 then write64 (write64 s.mem y (read64 s.mem q)) (y + 8) q
        else write64 (write64 (write64 s.mem y (read64 s.mem q)) (y + 8) q)
          (read64 s.mem q + 8) y) q y := by
  have e8 : add64 y 8 = y + 8 := add64_eq _ _ (by omega)
  have en : add64 (read64 s.mem q) 8 = read64 s.mem q + 8 := add64_eq _ _ (by omega)
  have hl := read64_lt s.mem q
  unfold insert_at
  simp only [hq, NEXT_LL, e8, put64_mem]
  rw [read64_write64_ne _ _ _ _ (by omega), read64_write64_same, Nat.mod_eq_of_lt hl]
  by_cases h0 : read64 s.mem q = 0
  · simp [h0]
  · simp [h0, en]

theorem insert_at_unch (s : State) (k y q : Nat) (hq : slotAddr s k = q)
    (hy : y + 16 ≤ 18446744073709551616) (hqy : Far q y)
    (hh : read64 s.mem q + 16 ≤ 18446744073709551616) (a : Nat)
    (h1 : ¬ (y ≤ a ∧ a < y + 16)) (h2 : ¬ (q ≤ a ∧ a < q + 8))
    (h3 : read64 s.mem q = 0 ∨ ¬ (read64 s.mem q + 8 ≤ a ∧ a < read64 s.mem q + 16)) :
    (insert_at s k y).mem a = s.mem a := by
  rw [insert_at_mem s k y q hq hy hqy hh]
  rw [write64_out _ _ _ _ (by omega)]
  by_cases h0 : read64 s.mem q = 0
  · simp only [h0, if_true]
    rw [write64_out _ _ _ _ (by omega), write64_out _ _ _ _ (by omega)]
  · simp only [h0, if_false]
    rw [write64_out _ _ _ _ (by omega), write64_out _ _ _ _ (by omega),
      write64_out _ _ _ _ (by omega)]

/-- Pushing a fresh node on a list in memory puts it at the head of the list. -/
theorem insert_flist (s : State) (k y q : Nat) (l : List Nat) (hq : slotAddr s k = q)
    (h : FList s.mem q l) (hy0 : y ≠ 0) (hpw : (y :: q :: l).Pairwise Far)
    (hb : ∀ z, z ∈ y :: q :: l → z + 16 ≤ 18446744073709551616) :
    FList (insert_at s k y).mem q (y :: l) := by
  have hy := hb y (by simp)
  have hqb := hb q (by simp)
  have hyq : Far y q := (List.pairwise_cons.1 hpw).1 q (by simp)
  have hqy : Far q y := by unfold Far at hyq ⊢; omega
  have hyl : ∀ z, z ∈ l → Far y z := fun z hz => (List.pairwise_cons.1 hpw).1 z (by simp [hz])
  have hql : ∀ z, z ∈ l → Far q z :=
    fun z hz => (List.pairwise_cons.1 (List.pairwise_cons.1 hpw).2).1 z hz
  have hpl : l.Pairwise Far := (List.pairwise_cons.1 (List.pairwise_cons.1 hpw).2).2
  unfold Far at hyq hqy
  cases l with
  | nil =>
    have h0 : read64 s.mem q = 0 := h
    rw [insert_at_mem s k y q hq hy (by unfold Far; omega) (by omega)]
    simp only [h0, if_true]
    refine ⟨?_, hy0, ?_, ?_⟩
    · rw [read64_write64_same]; omega
    · rw [read64_write64_ne _ _ _ _ (by omega), read64_write64_same]; omega
    · show read64 _ y = 0
      rw [read64_write64_ne _ _ _ _ (by omega), read64_write64_ne _ _ _ _ (by omega),
        read64_write64_same]
  | cons z zs =>
    obtain ⟨g1, g2, g3, g4⟩ := h
    have hzb := hb z (by simp)
    have hyz := hyl z (by simp)
    have hqz := hql z (by simp)
    have hzzs : ∀ w, w ∈ zs → Far z w := (List.pairwise_cons.1 hpl).1
    unfold Far at hyz hqz
    have hu := insert_at_unch s k y q hq hy (by unfold Far; omega) (by rw [g1]; omega)
    rw [g1] at hu
    have hmem := insert_at_mem s k y q hq hy (by unfold Far; omega) (by rw [g1]; omega)
    simp only [g1, g2, if_false] at hmem
    rw [hmem]
    refine ⟨?_, hy0, ?_, ?_, g2, ?_, ?_⟩
    · rw [read64_write64_same]; omega
    · rw [read64_write64_ne _ _ _ _ (by omega), read64_write64_ne _ _ _ _ (by omega),
        read64_write64_same]; omega
    · rw [read64_write64_ne _ _ _ _ (by omega), read64_write64_ne _ _ _ _ (by omega),
        read64_write64_ne _ _ _ _ (by omega), read64_write64_same]; omega
    · rw [read64_write64_ne _ _ _ _ (by omega), read64_write64_same]; omega
    · rw [← hmem]
      refine FList_congr s.mem _ zs z g4 ?_ ?_
      · exact read64_congr _ _ _ (fun a ha1 ha2 => hu a (by omega) (by omega) (Or.inr (by omega)))
      · intro w hw
        have w1 := hyl w (by simp [hw])
        have w2 := hql w (by simp [hw])
        have w3 := hzzs w hw
        unfold Far at w1 w2 w3
        exact ⟨read64_congr _ _ _
            (fun a ha1 ha2 => hu a (by omega) (by omega) (Or.inr (by omega))),
          read64_congr _ _ _
            (fun a ha1 ha2 => hu a (by omega) (by omega) (Or.inr (by omega)))⟩

/-! ## Consequences of the core invariant -/

theorem Core.blk {s : State} {bl : List Blk} {fl : Nat → List Nat} (h : Core s bl fl)
    (b : Blk) (hb : b ∈ bl) :
    s.mem_start_brk + 184 ≤ b.addr ∧ b.addr + b.size ≤ s.mem_brk ∧ 24 ≤ b.size ∧
    b.size % 8 = 0 ∧ (b.addr - s.mem_start_brk) % 8 = 0 ∧
    read32 s.mem (b.addr - 4) = b.word ∧ read32 s.mem (b.addr + b.size - 8) = b.word := by
  have h1 := Chain_mem s.mem bl _ _ h.chain b hb
  have h2 := (Chain_al s.mem bl s.mem_start_brk _ _ h.chain (by omega) (by omega)).2 b hb
  exact ⟨h1.1, h1.2.1, h1.2.2.1, h1.2.2.2.1, h2, h1.2.2.2.2.1, h1.2.2.2.2.2⟩

theorem Core.brk_al {s : State} {bl : List Blk} {fl : Nat → List Nat} (h : Core s bl fl) :
    (s.mem_brk - s.mem_start_brk) % 8 = 0 ∧ s.mem_start_brk + 184 ≤ s.mem_brk :=
  ⟨(Chain_al s.mem bl s.mem_start_brk _ _ h.chain (by omega) (by omega)).1,
    Chain_le s.mem bl _ _ h.chain⟩

theorem Core.idx_lt {s : State} {bl : List Blk} {fl : Nat → List Nat} (h : Core s bl fl)
    {i x : Nat} (hx : x ∈ fl i) : i < 21 := by
  by_contra hc
  rw [h.fl_out i (by omega)] at hx
  simp at hx

theorem Core.far_blk {s : State} {bl : List Blk} {fl : Nat → List Nat} (h : Core s bl fl)
    (b c : Blk) (hb : b ∈ bl) (hc : c ∈ bl) (hne : b.addr ≠ c.addr) : Far b.addr c.addr := by
  have hb1 := h.blk b hb
  have hc1 := h.blk c hc
  unfold Far
  rcases Chain_disj s.mem bl _ _ h.chain b c hb hc with h1 | h1 | h1
  · exact absurd (by rw [h1]) hne
  · omega
  · omega

theorem Core.far_nodes {s : State} {bl : List Blk} {fl : Nat → List Nat} (h : Core s bl fl)
    {i j x y : Nat} (hx : x ∈ fl i) (hy : y ∈ fl j) (hne : x ≠ y) : Far x y := by
  obtain ⟨b, hb, hbx, _⟩ := h.fl_free i x hx
  obtain ⟨c, hc, hcy, _⟩ := h.fl_free j y hy
  subst hbx; subst hcy
  exact h.far_blk b c hb hc hne

theorem Core.slot {s : State} {bl : List Blk} {fl : Nat → List Nat} (h : Core s bl fl)
    (i : Nat) (hi : i < 21) : slotAddr s i = s.mem_start_brk + 8 * i := by
  have h1 := h.max_lt64
  have h2 := h.brk_le
  have h3 := h.brk_al
  unfold slotAddr
  rw [h.grouparr_eq, mul64_eq _ _ (by omega), add64_eq _ _ (by omega)]

theorem Core.node_bd {s : State} {bl : List Blk} {fl : Nat → List Nat} (h : Core s bl fl)
    {i x : Nat} (hx : x ∈ fl i) :
    s.mem_start_brk + 184 ≤ x ∧ x + 24 ≤ s.mem_brk := by
  obtain ⟨b, hb, hbx, _⟩ := h.fl_free i x hx
  have := h.blk b hb
  subst hbx
  omega

theorem Core.pairwise {s : State} {bl : List Blk} {fl : Nat → List Nat} (h : Core s bl fl)
    (i : Nat) : ((s.mem_start_brk + 8 * i) :: fl i).Pairwise Far := by
  refine List.pairwise_cons.2 ⟨?_, ?_⟩
  · intro x hx
    have := h.node_bd hx
    have := h.idx_lt hx
    unfold Far
    omega
  · exact (h.fl_nodup i).pairwise_of_forall_ne (fun x hx y hy hne => h.far_nodes hx hy hne)

theorem Core.bd64 {s : State} {bl : List Blk} {fl : Nat → List Nat} (h : Core s bl fl)
    (i : Nat) (hi : i < 21) :
    ∀ y, y ∈ (s.mem_start_brk + 8 * i) :: fl i → y + 16 ≤ 18446744073709551616 := by
  intro y hy
  have h1 := h.max_lt64
  have h2 := h.brk_le
  have h3 := h.brk_al
  rcases List.mem_cons.1 hy with rfl | hy
  · omega
  · have := h.node_bd hy
    omega

/-- A change of memory confined to the table and to the link fields of free
blocks keeps the block walk and the sentinels. -/
theorem Core.meta_congr {s : State} {bl : List Blk} {fl : Nat → List Nat} (h : Core s bl fl)
    (m2 : Mem) (hU : LinkOnly s bl m2) :
    Chain m2 (s.mem_start_brk + 184) bl s.mem_brk ∧
    read32 m2 (s.mem_start_brk + 172) = 9 ∧ read32 m2 (s.mem_start_brk + 176) = 9 ∧
    read32 m2 (s.mem_brk - 4) = 1 := by
  have hbrk := h.brk_al
  refine ⟨?_, ?_, ?_, ?_⟩
  · refine Chain_congr s.mem m2 bl _ _ h.chain ?_
    intro b hb
    have hb1 := h.blk b hb
    constructor
    · refine read32_congr _ _ _ (fun a ha1 ha2 => hU a (by omega) ?_)
      intro c hc _
      have hc1 := h.blk c hc
      rcases Chain_disj s.mem bl _ _ h.chain b c hb hc with h1 | h1 | h1
      · subst h1; omega
      · omega
      · omega
    · refine read32_congr _ _ _ (fun a ha1 ha2 => hU a (by omega) ?_)
      intro c hc _
      have hc1 := h.blk c hc
      rcases Chain_disj s.mem bl _ _ h.chain b c hb hc with h1 | h1 | h1
      · subst h1; omega
      · omega
      · omega
  · rw [← h.pro_hdr]
    refine read32_congr _ _ _ (fun a ha1 ha2 => hU a (by omega) ?_)
    intro c hc _
    have hc1 := h.blk c hc
    omega
  · rw [← h.pro_ftr]
    refine read32_congr _ _ _ (fun a ha1 ha2 => hU a (by omega) ?_)
    intro c hc _
    have hc1 := h.blk c hc
    omega
  · rw [← h.epi]
    refine read32_congr _ _ _ (fun a ha1 ha2 => hU a (by omega) ?_)
    intro c hc _
    have hc1 := h.blk c hc
    omega

theorem erase_split (l1 l2 : List Nat) (x : Nat) (h : (l1 ++ x :: l2).Nodup) :
    (l1 ++ x :: l2).erase x = l1 ++ l2 := by
  have hx : x ∉ l1 := by
    intro hx
    have := (List.nodup_append.1 h).2.2 hx (List.mem_cons_self _ _)
    exact this
  rw [List.erase_append_right _ hx, List.erase_cons_head]

/-- The core invariant after `rmvll` of a listed node: the node has left its list. -/
theorem rmvll_core {s : State} {bl : List Blk} {fl : Nat → List Nat} (h : Core s bl fl)
    {i x : Nat} (hx : x ∈ fl i) :
    Core (rmvll s x) bl (Function.update fl i ((fl i).erase x)) ∧
    LinkOnly s bl (rmvll s x).mem := by
  have hi := h.idx_lt hx
  obtain ⟨l1, l2, hl⟩ := List.append_of_mem hx
  have hfl := h.flist i hi
  have hpw := h.pairwise i
  have hbd := h.bd64 i hi
  have hnd := h.fl_nodup i
  rw [hl] at hfl hpw hbd hnd
  have her : (fl i).erase x = l1 ++ l2 := by rw [hl]; exact erase_split l1 l2 x hnd
  have hat := FList_at s.mem l1 x l2 _ hfl
  have hbx := hbd x (by simp)
  have hL := h.base_pos
  -- the parent cell and the successor
  have hpm : lastOr (s.mem_start_brk + 8 * i) l1 ∈ (s.mem_start_brk + 8 * i) :: l1 :=
    lastOr_mem l1 _
  have hpfar : Far (lastOr (s.mem_start_brk + 8 * i) l1) x := by
    rcases List.mem_cons.1 hpm with e | e
    · rw [e]; exact (List.pairwise_cons.1 hpw).1 x (by simp)
    · have hh := List.pairwise_append.1 (List.pairwise_cons.1 hpw).2
      exact hh.2.2 _ e x (by simp)
  have hp0 : lastOr (s.mem_start_brk + 8 * i) l1 ≠ 0 := by
    rcases List.mem_cons.1 hpm with e | e
    · rw [e]; omega
    · exact FList_ne_zero s.mem _ _ hfl _ (List.mem_append_left _ e)
  have hnx : read64 s.mem x = 0 ∨ read64 s.mem x ∈ l2 := by
    rw [hat.2.1]
    cases l2 with
    | nil => left; rfl
    | cons z zs => right; simp
  have hnb : read64 s.mem x + 16 ≤ 18446744073709551616 := by
    rcases hnx with e | e
    · omega
    · exact hbd _ (by simp [e])
  unfold Far at hpfar
  have hu := rmvll_unch s x hbx (by rw [hat.1]; exact hp0) (by rw [hat.1]; omega) hnb
  rw [hat.1] at hu
  -- where the parent cell and the successor lie
  have hpin : (lastOr (s.mem_start_brk + 8 * i) l1 = s.mem_start_brk + 8 * i) ∨
      lastOr (s.mem_start_brk + 8 * i) l1 ∈ fl i := by
    rcases List.mem_cons.1 hpm with e | e
    · exact Or.inl e
    · right; rw [hl]; exact List.mem_append_left _ e
  have hnin : read64 s.mem x = 0 ∨ read64 s.mem x ∈ fl i := by
    rcases hnx with e | e
    · exact Or.inl e
    · right; rw [hl]; simp [e]
  -- memory outside the link fields of free blocks and the table is unchanged
  have hU : LinkOnly s bl (rmvll s x).mem := by
    intro a ha hfree
    refine hu a ?_ ?_
    · rcases hpin with e | e
      · rw [e]; omega
      · obtain ⟨b, hb, hba, hbf⟩ := h.fl_free i _ e
        have := hfree b hb hbf
        rw [hba] at this
        omega
    · rcases hnin with e | e
      · exact Or.inl e
      · obtain ⟨b, hb, hba, hbf⟩ := h.fl_free i _ e
        have := hfree b hb hbf
        rw [hba] at this
        right; omega
  have hmeta := h.meta_congr (rmvll s x).mem hU
  have hf := rmvll_fields s x
  refine ⟨?_, hU⟩
  refine
    { base_pos := by rw [hf.1]; exact h.base_pos
      max_lt := by rw [hf.1, hf.2.2.1]; exact h.max_lt
      max_lt64 := by rw [hf.2.2.1]; exact h.max_lt64
      brk_le := by rw [hf.2.1, hf.2.2.1]; exact h.brk_le
      grouparr_eq := by rw [hf.1, hf.2.2.2.1]; exact h.grouparr_eq
      arrsize_eq := by rw [hf.2.2.2.2.1]; exact h.arrsize_eq
      hl_eq := by rw [hf.1, hf.2.2.2.2.2.1]; exact h.hl_eq
      pro_hdr := by rw [hf.1]; exact hmeta.2.1
      pro_ftr := by rw [hf.1]; exact hmeta.2.2.1
      chain := by rw [hf.1, hf.2.1]; exact hmeta.1
      epi := by rw [hf.2.1]; exact hmeta.2.2.2
      flist := ?_
      fl_out := ?_
      fl_nodup := ?_
      fl_disj := ?_
      fl_free := ?_ }
  · intro j hj
    rw [hf.1]
    by_cases hji : j = i
    · subst hji
      rw [Function.update_same, her]
      exact rmvll_flist s x l2 l1 _ hfl (by omega) hpw hbd
    · rw [Function.update_noteq hji]
      refine FList_congr s.mem _ _ _ (h.flist j hj) ?_ ?_
      · refine read64_congr _ _ _ (fun a ha1 ha2 => hu a ?_ ?_)
        · rcases hpin with e | e
          · rw [e]; omega
          · have := h.node_bd e; omega
        · rcases hnin with e | e
          · exact Or.inl e
          · have := h.node_bd e; right; omega
      · intro y hy
        have hyx : ∀ w, w ∈ fl i → Far y w := by
          intro w hw
          refine h.far_nodes hy hw ?_
          intro e; subst e
          exact hji (h.fl_disj _ _ _ hy hw)
        have hyb := h.node_bd hy
        have key : ∀ a, y ≤ a → a < y + 16 → (rmvll s x).mem a = s.mem a := by
          intro a ha1 ha2
          refine hu a ?_ ?_
          · rcases hpin with e | e
            · rw [e]; omega
            · have := hyx _ e; unfold Far at this; omega
          · rcases hnin with e | e
            · exact Or.inl e
            · have := hyx _ e; unfold Far at this; right; omega
        exact ⟨read64_congr _ _ _ (fun a ha1 ha2 => key a ha1 (by omega)),
          read64_congr _ _ _ (fun a ha1 ha2 => key a (by omega) (by omega))⟩
  · intro j hj
    have hji : j ≠ i := by omega
    rw [Function.update_noteq hji]
    exact h.fl_out j hj
  · intro j
    by_cases hji : j = i
    · subst hji
      rw [Function.update_same]
      exact (h.fl_nodup j).erase x
    · rw [Function.update_noteq hji]
      exact h.fl_nodup j
  · intro j k y hy hk
    have hy2 : y ∈ fl j := by
      by_cases hji : j = i
      · subst hji
        rw [Function.update_same] at hy
        exact List.mem_of_mem_erase hy
      · rw [Function.update_noteq hji] at hy
        exact hy
    have hk2 : y ∈ fl k := by
      by_cases hki : k = i
      · subst hki
        rw [Function.update_same] at hk
        exact List.mem_of_mem_erase hk
      · rw [Function.update_noteq hki] at hk
        exact hk
    exact h.fl_disj j k y hy2 hk2
  · intro j y hy
    have hy2 : y ∈ fl j := by
      by_cases hji : j = i
      · subst hji
        rw [Function.update_same] at hy
        exact List.mem_of_mem_erase hy
      · rw [Function.update_noteq hji] at hy
        exact hy
    exact h.fl_free j y hy2

theorem FList_head (m : Mem) (q : Nat) (l : List Nat) (h : FList m q l) :
    read64 m q = l.headD 0 := by
  cases l with
  | nil => exact h
  | cons z zs => exact h.1

/-- The core invariant after pushing an unlisted free block on slot `k`. -/
theorem insert_core {s : State} {bl : List Blk} {fl : Nat → List Nat} (h : Core s bl fl)
    {k : Nat} (hk : k < 21) (b : Blk) (hb : b ∈ bl) (hbf : b.alloc = false)
    (hnl : ∀ i, b.addr ∉ fl i) :
    Core (insert_at s k b.addr) bl (Function.update fl k (b.addr :: fl k)) ∧
    LinkOnly s bl (insert_at s k b.addr).mem := by
  have hq := h.slot k hk
  have hfl := h.flist k hk
  have hpw := h.pairwise k
  have hbd := h.bd64 k hk
  have hb1 := h.blk b hb
  have hL := h.base_pos
  have h1 := h.max_lt64
  have h2 := h.brk_le
  have hfar : ∀ j z, z ∈ fl j → Far b.addr z := by
    intro j z hz
    obtain ⟨c, hc, hcz, _⟩ := h.fl_free j z hz
    subst hcz
    refine h.far_blk b c hb hc ?_
    intro e
    rw [e] at hnl
    exact hnl j hz
  have hyq : Far b.addr (s.mem_start_brk + 8 * k) := by unfold Far; omega
  have hpw2 : (b.addr :: (s.mem_start_brk + 8 * k) :: fl k).Pairwise Far := by
    refine List.pairwise_cons.2 ⟨?_, hpw⟩
    intro z hz
    rcases List.mem_cons.1 hz with e | e
    · rw [e]; exact hyq
    · exact hfar k z e
  have hbd2 : ∀ z, z ∈ b.addr :: (s.mem_start_brk + 8 * k) :: fl k →
      z + 16 ≤ 18446744073709551616 := by
    intro z hz
    rcases List.mem_cons.1 hz with e | e
    · rw [e]; omega
    · exact hbd z e
  have hhd := FList_head s.mem _ _ hfl
  have hhin : read64 s.mem (s.mem_start_brk + 8 * k) = 0 ∨
      read64 s.mem (s.mem_start_brk + 8 * k) ∈ fl k := by
    rw [hhd]
    cases fl k with
    | nil => left; rfl
    | cons z zs => right; simp
  have hhb : read64 s.mem (s.mem_start_brk + 8 * k) + 16 ≤ 18446744073709551616 := by
    rcases hhin with e | e
    · omega
    · exact hbd _ (List.mem_cons_of_mem _ e)
  have hu := insert_at_unch s k b.addr _ hq (by omega) (by unfold Far at hyq ⊢; omega) hhb
  have hU : LinkOnly s bl (insert_at s k b.addr).mem := by
    intro a ha hfree
    refine hu a (hfree b hb hbf) (by omega) ?_
    rcases hhin with e | e
    · exact Or.inl e
    · obtain ⟨c, hc, hca, hcf⟩ := h.fl_free k _ e
      have := hfree c hc hcf
      rw [hca] at this
      right; omega
  have hmeta := h.meta_congr (insert_at s k b.addr).mem hU
  have hf := insert_at_fields s k b.addr
  refine ⟨?_, hU⟩
  refine
    { base_pos := by rw [hf.1]; exact h.base_pos
      max_lt := by rw [hf.1, hf.2.2.1]; exact h.max_lt
      max_lt64 := by rw [hf.2.2.1]; exact h.max_lt64
      brk_le := by rw [hf.2.1, hf.2.2.1]; exact h.brk_le
      grouparr_eq := by rw [hf.1, hf.2.2.2.1]; exact h.grouparr_eq
      arrsize_eq := by rw [hf.2.2.2.2.1]; exact h.arrsize_eq
      hl_eq := by rw [hf.1, hf.2.2.2.2.2.1]; exact h.hl_eq
      pro_hdr := by rw [hf.1]; exact hmeta.2.1
      pro_ftr := by rw [hf.1]; exact hmeta.2.2.1
      chain := by rw [hf.1, hf.2.1]; exact hmeta.1
      epi := by rw [hf.2.1]; exact hmeta.2.2.2
      flist := ?_
      fl_out := ?_
      fl_nodup := ?_
      fl_disj := ?_
      fl_free := ?_ }
  · intro j hj
    rw [hf.1]
    by_cases hjk : j = k
    · subst hjk
      rw [Function.update_same]
      exact insert_flist s j b.addr _ (fl j) hq hfl (by omega) hpw2 hbd2
    · rw [Function.update_noteq hjk]
      refine FList_congr s.mem _ _ _ (h.flist j hj) ?_ ?_
      · refine read64_congr _ _ _ (fun a ha1 ha2 => hu a (by omega) (by omega) ?_)
        rcases hhin with e | e
        · exact Or.inl e
        · have := h.node_bd e; right; omega
      · intro y hy
        have hyb := h.node_bd hy
        have hy1 := hfar j y hy
        have key : ∀ a, y ≤ a → a < y + 16 → (insert_at s k b.addr).mem a = s.mem a := by
          intro a ha1 ha2
          refine hu a (by unfold Far at hy1; omega) (by omega) ?_
          rcases hhin with e | e
          · exact Or.inl e
          · have : Far y (read64 s.mem (s.mem_start_brk + 8 * k)) := by
              refine h.far_nodes hy e ?_
              intro e2
              rw [← e2] at e
              exact hjk (h.fl_disj _ _ _ hy e)
            unfold Far at this
            right; omega
        exact ⟨read64_congr _ _ _ (fun a ha1 ha2 => key a ha1 (by omega)),
          read64_congr _ _ _ (fun a ha1 ha2 => key a (by omega) (by omega))⟩
  · intro j hj
    have hjk : j ≠ k := by omega
    rw [Function.update_noteq hjk]
    exact h.fl_out j hj
  · intro j
    by_cases hjk : j = k
    · subst hjk
      rw [Function.update_same]
      exact List.nodup_cons.2 ⟨hnl j, h.fl_nodup j⟩
    · rw [Function.update_noteq hjk]
      exact h.fl_nodup j
  · intro i j y hy hj
    by_cases hyb : y = b.addr
    · subst hyb
      have hi : i = k := by
        by_contra hne
        rw [Function.update_noteq hne] at hy
        exact hnl i hy
      have hj2 : j = k := by
        by_contra hne
        rw [Function.update_noteq hne] at hj
        exact hnl j hj
      omega
    · have hy2 : y ∈ fl i := by
        by_cases hik : i = k
        · subst hik
          rw [Function.update_same] at hy
          rcases List.mem_cons.1 hy with e | e
          · exact absurd e hyb
          · exact e
        · rw [Function.update_noteq hik] at hy
          exact hy
      have hj2 : y ∈ fl j := by
        by_cases hjk : j = k
        · subst hjk
          rw [Function.update_same] at hj
          rcases List.mem_cons.1 hj with e | e
          · exact absurd e hyb
          · exact e
        · rw [Function.update_noteq hjk] at hj
          exact hj
      exact h.fl_disj i j y hy2 hj2
  · intro j y hy
    by_cases hjk : j = k
    · subst hjk
      rw [Function.update_same] at hy
      rcases List.mem_cons.1 hy with e | e
      · exact ⟨b, hb, e.symm, hbf⟩
      · exact h.fl_free j y e
    · rw [Function.update_noteq hjk] at hy
      exact h.fl_free j y hy

/-! ## Rewriting the tags of a run of blocks -/

/-- The core invariant after the headers and footers of the run `mid` of blocks
have been rewritten so that the run reads as `mid2`. -/
theorem retag_core {s : State} {pre mid post : List Blk} {fl : Nat → List Nat}
    (h : Core s (pre ++ mid ++ post) fl) (m2 : Mem) (mid2 : List Blk) (a e : Nat)
    (hpre : Chain s.mem (s.mem_start_brk + 184) pre a)
    (hpost : Chain s.mem e post s.mem_brk)
    (hmid : Chain m2 a mid2 e)
    (hfr : ∀ x, (x < a - 4 ∨ e - 4 ≤ x) → m2 x = s.mem x)
    (hnodes : ∀ i x, x ∈ fl i → ∀ b, b ∈ mid → b.addr = x →
      (∃ b2, b2 ∈ mid2 ∧ b2.addr = x ∧ b2.alloc = false) ∧
      (∀ y, x ≤ y → y < x + 16 → m2 y = s.mem y)) :
    Core (s.setMem m2) (pre ++ mid2 ++ post) fl := by
  have ha : s.mem_start_brk + 184 ≤ a := Chain_le _ _ _ _ hpre
  have hae : a ≤ e := Chain_le _ _ _ _ hmid
  have he : e ≤ s.mem_brk := Chain_le _ _ _ _ hpost
  have hpre2 : Chain m2 (s.mem_start_brk + 184) pre a := by
    refine Chain_congr s.mem m2 pre _ _ hpre ?_
    intro b hb
    have := Chain_mem _ _ _ _ hpre b hb
    exact ⟨read32_congr _ _ _ (fun x h1 h2 => hfr x (by omega)),
      read32_congr _ _ _ (fun x h1 h2 => hfr x (by omega))⟩
  have hpost2 : Chain m2 e post s.mem_brk := by
    refine Chain_congr s.mem m2 post _ _ hpost ?_
    intro b hb
    have := Chain_mem _ _ _ _ hpost b hb
    exact ⟨read32_congr _ _ _ (fun x h1 h2 => hfr x (by omega)),
      read32_congr _ _ _ (fun x h1 h2 => hfr x (by omega))⟩
  have hnode : ∀ i x, x ∈ fl i →
      (∃ b2, b2 ∈ pre ++ mid2 ++ post ∧ b2.addr = x ∧ b2.alloc = false) ∧
      (∀ y, x ≤ y → y < x + 16 → m2 y = s.mem y) := by
    intro i x hx
    obtain ⟨b, hb, hbx, hbf⟩ := h.fl_free i x hx
    rcases List.mem_append.1 hb with hb2 | hb2
    · rcases List.mem_append.1 hb2 with hb3 | hb3
      · have := Chain_mem _ _ _ _ hpre b hb3
        refine ⟨⟨b, by simp [hb3], hbx, hbf⟩, ?_⟩
        intro y hy1 hy2
        exact hfr y (by omega)
      · obtain ⟨⟨b2, hb2m, hb2x, hb2f⟩, hun⟩ := hnodes i x hx b hb3 hbx
        exact ⟨⟨b2, by simp [hb2m], hb2x, hb2f⟩, hun⟩
    · have := Chain_mem _ _ _ _ hpost b hb2
      refine ⟨⟨b, by simp [hb2], hbx, hbf⟩, ?_⟩
      intro y hy1 hy2
      exact hfr y (by omega)
  refine
    { base_pos := h.base_pos
      max_lt := h.max_lt
      max_lt64 := h.max_lt64
      brk_le := h.brk_le
      grouparr_eq := h.grouparr_eq
      arrsize_eq := h.arrsize_eq
      hl_eq := h.hl_eq
      pro_hdr := ?_
      pro_ftr := ?_
      chain := ?_
      epi := ?_
      flist := ?_
      fl_out := h.fl_out
      fl_nodup := h.fl_nodup
      fl_disj := h.fl_disj
      fl_free := fun i x hx => (hnode i x hx).1 }
  · show read32 m2 (s.mem_start_brk + 172) = 9
    rw [← h.pro_hdr]
    exact read32_congr _ _ _ (fun x h1 h2 => hfr x (by omega))
  · show read32 m2 (s.mem_start_brk + 176) = 9
    rw [← h.pro_ftr]
    exact read32_congr _ _ _ (fun x h1 h2 => hfr x (by omega))
  · show Chain m2 (s.mem_start_brk + 184) _ s.mem_brk
    exact (Chain_append m2 _ _ _ _).2 ⟨e, (Chain_append m2 _ _ _ _).2 ⟨a, hpre2, hmid⟩, hpost2⟩
  · show read32 m2 (s.mem_brk - 4) = 1
    rw [← h.epi]
    exact read32_congr _ _ _ (fun x h1 h2 => hfr x (by omega))
  · intro i hi
    show FList m2 (s.mem_start_brk + 8 * i) (fl i)
    refine FList_congr s.mem m2 _ _ (h.flist i hi) ?_ ?_
    · exact read64_congr _ _ _ (fun x h1 h2 => hfr x (by omega))
    · intro x hx
      have := (hnode i x hx).2
      exact ⟨read64_congr _ _ _ (fun y h1 h2 => this y h1 (by omega)),
        read64_congr _ _ _ (fun y h1 h2 => this y (by omega) (by omega))⟩

/-- Splitting the walk of a core state at a run of blocks. -/
theorem Core.split3 {s : State} {pre mid post : List Blk} {fl : Nat → List Nat}
    (h : Core s (pre ++ mid ++ post) fl) :
    ∃ a e, Chain s.mem (s.mem_start_brk + 184) pre a ∧ Chain s.mem a mid e ∧
      Chain s.mem e post s.mem_brk := by
  obtain ⟨e, h1, h2⟩ := (Chain_append _ _ _ _ _).1 h.chain
  obtain ⟨a, h3, h4⟩ := (Chain_append _ _ _ _ _).1 h1
  exact ⟨a, e, h3, h4, h2⟩

/-- A listed address is the address of one block only, and that block is free. -/
theorem Core.node_free {s : State} {bl : List Blk} {fl : Nat → List Nat} (h : Core s bl fl)
    {i x : Nat} (hx : x ∈ fl i) (b : Blk) (hb : b ∈ bl) (hbx : b.addr = x) : b.alloc = false := by
  obtain ⟨c, hc, hcx, hcf⟩ := h.fl_free i x hx
  have := Chain_inj s.mem bl _ _ h.chain b c hb hc (by rw [hbx, hcx])
  rw [this]; exact hcf

/-! ## Evaluating the macros -/

theorem HDRP_eq (x : Nat) (h4 : 4 ≤ x) (hx : x < 18446744073709551616) : HDRP x = x - 4 :=
  sub64_eq _ _ h4 hx

theorem NEXT_BLKP_eq (m : Mem) (x sz : Nat) (h4 : 4 ≤ x) (hsz : GET_SIZE m (x - 4) = sz)
    (hx : x + sz < 18446744073709551616) : NEXT_BLKP m x = x + sz := by
  unfold NEXT_BLKP
  rw [sub64_eq _ _ h4 (by omega), hsz, add64_eq _ _ hx]

theorem FTRP_eq (m : Mem) (x sz : Nat) (h4 : 4 ≤ x) (hsz : GET_SIZE m (x - 4) = sz)
    (h8 : 8 ≤ x + sz) (hx : x + sz < 18446744073709551616) : FTRP m x = x + sz - 8 := by
  unfold FTRP
  rw [HDRP_eq _ h4 (by omega), hsz, add64_eq _ _ hx, sub64_eq _ _ h8 hx]

theorem PREV_BLKP_eq (m : Mem) (x sz : Nat) (h8 : 8 ≤ x) (hsz : GET_SIZE m (x - 8) = sz)
    (hle : sz ≤ x) (hx : x < 18446744073709551616) : PREV_BLKP m x = x - sz := by
  unfold PREV_BLKP
  rw [sub64_eq _ _ h8 hx, hsz, sub64_eq _ _ hle hx]

theorem Core.lt64 {s : State} {bl : List Blk} {fl : Nat → List Nat} (h : Core s bl fl) :
    s.mem_brk < 18446744073709551615 ∧ s.mem_brk < s.mem_start_brk + 4294967296 := by
  have h1 := h.max_lt64
  have h2 := h.brk_le
  have h3 := h.max_lt
  omega

/-- The macros at a block of the walk. -/
theorem Core.macros {s : State} {bl : List Blk} {fl : Nat → List Nat} (h : Core s bl fl)
    (b : Blk) (hb : b ∈ bl) :
    HDRP b.addr = b.addr - 4 ∧ GET_SIZE s.mem (b.addr - 4) = b.size ∧
    GET_ALLOC s.mem (b.addr - 4) = b.alloc.toNat ∧
    NEXT_BLKP s.mem b.addr = b.addr + b.size ∧ FTRP s.mem b.addr = b.addr + b.size - 8 ∧
    GET_SIZE s.mem (b.addr + b.size - 8) = b.size ∧
    GET_ALLOC s.mem (b.addr + b.size - 8) = b.alloc.toNat ∧
    b.size < 4294967296 := by
  have hb1 := h.blk b hb
  have hl := h.lt64
  have e1 : HDRP b.addr = b.addr - 4 := HDRP_eq _ (by omega) (by omega)
  have e2 := GET_SIZE_eq s.mem _ b hb1.2.2.2.2.2.1 hb1.2.2.2.1
  have e3 := GET_ALLOC_eq s.mem _ b hb1.2.2.2.2.2.1 hb1.2.2.2.1
  have e4 := GET_SIZE_eq s.mem _ b hb1.2.2.2.2.2.2 hb1.2.2.2.1
  have e5 := GET_ALLOC_eq s.mem _ b hb1.2.2.2.2.2.2 hb1.2.2.2.1
  refine ⟨e1, e2, e3, NEXT_BLKP_eq _ _ _ (by omega) e2 (by omega),
    FTRP_eq _ _ _ (by omega) e2 (by omega) (by omega), e4, e5, by omega⟩

/-- The block before `b`, read through the footer below `b`: the flag of the
last block of `pre`, or that of the prologue. -/
theorem Core.prev_alloc {s : State} {pre post : List Blk} {b : Blk} {fl : Nat → List Nat}
    (h : Core s (pre ++ b :: post) fl) :
    (pre = [] → GET_ALLOC s.mem (FTRP s.mem (PREV_BLKP s.mem b.addr)) = 1) ∧
    (∀ pre2 q, pre = pre2 ++ [q] →
      q.addr + q.size = b.addr ∧ PREV_BLKP s.mem b.addr = q.addr ∧
      GET_ALLOC s.mem (FTRP s.mem (PREV_BLKP s.mem b.addr)) = q.alloc.toNat) := by
  have hl := h.lt64
  have hL := h.base_pos
  constructor
  · intro hp
    subst hp
    have hb := Chain_head _ _ _ _ _ h.chain
    have es : GET_SIZE s.mem (b.addr - 8) = 8 := by
      rw [GET_SIZE_val _ _ _ (show read32 s.mem (b.addr - 8) = 9 by
        rw [hb]; exact h.pro_ftr)]
    have ep : PREV_BLKP s.mem b.addr = b.addr - 8 :=
      PREV_BLKP_eq _ _ _ (by omega) es (by omega) (by have := h.brk_al; have := h.blk b (by simp); omega)
    have es2 : GET_SIZE s.mem (b.addr - 8 - 4) = 8 := by
      rw [GET_SIZE_val _ _ _ (show read32 s.mem (b.addr - 8 - 4) = 9 by
        rw [hb]; exact h.pro_hdr)]
    have hb1 := h.blk b (by simp)
    rw [ep, FTRP_eq _ _ _ (by omega) es2 (by omega) (by omega)]
    rw [GET_ALLOC_val _ _ _ (show read32 s.mem (b.addr - 8 + 8 - 8) = 9 by
      rw [hb]; exact h.pro_ftr)]
  · intro pre2 q hp
    subst hp
    have hq : q ∈ pre2 ++ [q] ++ b :: post := by simp
    have hq1 := h.blk q hq
    have hqm := h.macros q hq
    have hb1 := h.blk b (by simp)
    have hadj : q.addr + q.size = b.addr := by
      obtain ⟨c, h1, h2⟩ := (Chain_append _ _ _ _ _).1 h.chain
      have := Chain_last _ _ _ _ _ h1
      rw [this, h2.1]
    have es : GET_SIZE s.mem (b.addr - 8) = q.size := by
      rw [← hadj]; exact hqm.2.2.2.2.2.1
    have ep : PREV_BLKP s.mem b.addr = q.addr := by
      rw [PREV_BLKP_eq _ _ _ (by omega) es (by omega) (by omega)]
      omega
    refine ⟨hadj, ep, ?_⟩
    rw [ep, hqm.2.2.2.2.1, hqm.2.2.2.2.2.2.1]

/-- The block after `b`, read through the header above: the flag of the first
block of `post`, or that of the epilogue. -/
theorem Core.next_alloc {s : State} {pre post : List Blk} {b : Blk} {fl : Nat → List Nat}
    (h : Core s (pre ++ b :: post) fl) :
    NEXT_BLKP s.mem b.addr = b.addr + b.size ∧
    (post = [] → b.addr + b.size = s.mem_brk ∧
      GET_ALLOC s.mem (HDRP (NEXT_BLKP s.mem b.addr)) = 1) ∧
    (∀ r post2, post = r :: post2 →
      r.addr = b.addr + b.size ∧
      GET_ALLOC s.mem (HDRP (NEXT_BLKP s.mem b.addr)) = r.alloc.toNat) := by
  have hl := h.lt64
  have hbm := h.macros b (by simp)
  have hb1 := h.blk b (by simp)
  have hsp := Chain_split _ _ _ _ _ _ h.chain
  refine ⟨hbm.2.2.2.1, ?_, ?_⟩
  · intro hp
    subst hp
    have he : b.addr + b.size = s.mem_brk := hsp.2.1
    refine ⟨he, ?_⟩
    rw [hbm.2.2.2.1, HDRP_eq _ (by omega) (by omega), he]
    rw [GET_ALLOC_val _ _ _ h.epi]
  · intro r post2 hp
    subst hp
    have hr : r ∈ pre ++ b :: r :: post2 := by simp
    have hrm := h.macros r hr
    have hra : r.addr = b.addr + b.size := hsp.2.1.1
    refine ⟨hra, ?_⟩
    rw [hbm.2.2.2.1, ← hra, hrm.1, hrm.2.2.1]

/-! ## Size classes -/

theorem smallClass_spec (size : Nat) : ∀ n i k, smallClass size n i = some k →
    i ≤ k ∧ k < i + n ∧ size ≤ k * 8 + 24 ∧ ∀ j, i ≤ j → j < k → ¬ size ≤ j * 8 + 24 := by
  intro n
  induction n with
  | zero => intro i k h; simp [smallClass] at h
  | succ n ih =>
    intro i k h
    unfold smallClass at h
    by_cases hc : size ≤ i * 8 + 24
    · rw [if_pos hc] at h
      have : i = k := by simpa using h
      subst this
      exact ⟨le_refl _, by omega, hc, fun j h1 h2 => by omega⟩
    · rw [if_neg hc] at h
      obtain ⟨h1, h2, h3, h4⟩ := ih (i + 1) k h
      refine ⟨by omega, by omega, h3, ?_⟩
      intro j hj1 hj2
      by_cases hji : j = i
      · subst hji; exact hc
      · exact h4 j (by omega) hj2

theorem powClass_spec (size : Nat) : ∀ n i k, powClass size n i = some k →
    i ≤ k ∧ k < i + n ∧ size ≤ 2 ^ k ∧ ∀ j, i ≤ j → j < k → ¬ size ≤ 2 ^ j := by
  intro n
  induction n with
  | zero => intro i k h; simp [powClass] at h
  | succ n ih =>
    intro i k h
    unfold powClass at h
    by_cases hc : size ≤ 2 ^ i
    · rw [if_pos hc] at h
      have : i = k := by simpa using h
      subst this
      exact ⟨le_refl _, by omega, hc, fun j h1 h2 => by omega⟩
    · rw [if_neg hc] at h
      obtain ⟨h1, h2, h3, h4⟩ := ih (i + 1) k h
      refine ⟨by omega, by omega, h3, ?_⟩
      intro j hj1 hj2
      by_cases hji : j = i
      · subst hji; exact hc
      · exact h4 j (by omega) hj2

theorem addfree_index_lt (size : Nat) : addfree_index 21 size < 21 := by
  have e : sub64 21 1 = 20 := by decide
  unfold addfree_index
  rw [e]
  split
  · split
    · rename_i i hi
      have := smallClass_spec size _ _ _ hi
      simp only [SMALLBLK] at this
      omega
    · omega
  · split
    · split
      · rename_i j hj
        have := powClass_spec size _ _ _ hj
        simp only [MAXCLASS, MINCLASS] at this
        omega
      · omega
    · omega

/-! ## Frames -/

/-- A change confined to link fields and table leaves alone every byte of a
block that is allocated, and every byte of a free block outside its link fields. -/
theorem LinkOnly.unch {s : State} {bl : List Blk} {fl : Nat → List Nat} {m2 : Mem}
    (h : Core s bl fl) (hU : LinkOnly s bl m2) (c : Blk) (hc : c ∈ bl) (a : Nat)
    (ha1 : c.addr - 4 ≤ a) (ha2 : a < c.addr + c.size - 4)
    (hor : c.alloc = true ∨ a < c.addr ∨ c.addr + 16 ≤ a) : m2 a = s.mem a := by
  have hc1 := h.blk c hc
  refine hU a (by omega) ?_
  intro d hd hdf
  have hd1 := h.blk d hd
  rcases Chain_disj s.mem bl _ _ h.chain c d hc hd with e | e | e
  · subst e
    rcases hor with h1 | h1
    · rw [h1] at hdf; exact absurd hdf (by simp)
    · omega
  · omega
  · omega

/-- The epilogue header and the bytes beyond are not link fields. -/
theorem LinkOnly.unch_hi {s : State} {bl : List Blk} {fl : Nat → List Nat} {m2 : Mem}
    (h : Core s bl fl) (hU : LinkOnly s bl m2) (a : Nat) (ha : s.mem_brk - 8 ≤ a) :
    m2 a = s.mem a := by
  have hb := h.brk_al
  refine hU a (by omega) ?_
  intro d hd hdf
  have hd1 := h.blk d hd
  omega

theorem addfree_eq {s : State} {bl : List Blk} {fl : Nat → List Nat} (h : Core s bl fl)
    (bp asize : Nat) : addfree s bp asize = insert_at s (addfree_index 21 asize) bp := by
  unfold addfree
  rw [h.arrsize_eq]

/-! ## Coalescing -/

/-- Case 1 of `coalesce`: both neighbours allocated. -/
theorem coalesce_c1 {s : State} {pre post : List Blk} {b : Blk} {fl : Nat → List Nat}
    (h : Core s (pre ++ b :: post) fl) (_hbf : b.alloc = false) (_hnl : ∀ i, b.addr ∉ fl i)
    (hp : pre = [] ∨ ∃ pre2 q, pre = pre2 ++ [q] ∧ q.alloc = true)
    (hn : post = [] ∨ ∃ r post2, post = r :: post2 ∧ r.alloc = true) :
    coalesce s b.addr = (insert_at s (addfree_index 21 b.size) b.addr, b.addr) := by
  have hpa : GET_ALLOC s.mem (FTRP s.mem (PREV_BLKP s.mem b.addr)) = 1 := by
    rcases hp with e | ⟨pre2, q, e, hq⟩
    · exact h.prev_alloc.1 e
    · rw [(h.prev_alloc.2 pre2 q e).2.2, hq]; rfl
  have hna : GET_ALLOC s.mem (HDRP (NEXT_BLKP s.mem b.addr)) = 1 := by
    rcases hn with e | ⟨r, post2, e, hr⟩
    · exact (h.next_alloc.2.1 e).2
    · rw [(h.next_alloc.2.2 r post2 e).2, hr]; rfl
  have hbm := h.macros b (by simp)
  unfold coalesce
  simp only [hpa, hna, hbm.1, hbm.2.1]
  simp [addfree_eq h]

theorem LinkOnly.freeOnly {s : State} {bl : List Blk} {fl : Nat → List Nat} {m2 : Mem}
    (h : Core s bl fl) (hU : LinkOnly s bl m2) : FreeOnly s bl m2 := by
  intro a ha hf
  refine hU a ha ?_
  intro b hb hbf
  have := hf b hb hbf
  have := h.blk b hb
  omega

theorem mem_update_erase {fl : Nat → List Nat} {j i x y : Nat}
    (h : x ∈ Function.update fl j ((fl j).erase y) i) : x ∈ fl i := by
  by_cases hij : i = j
  · subst hij
    rw [Function.update_same] at h
    exact List.mem_of_mem_erase h
  · rw [Function.update_noteq hij] at h
    exact h

/-- After `rmvll` the removed node is on no list. -/
theorem Core.not_mem_erase {s : State} {bl : List Blk} {fl : Nat → List Nat} (h : Core s bl fl)
    {j x : Nat} (hx : x ∈ fl j) (i : Nat) :
    x ∉ Function.update fl j ((fl j).erase x) i := by
  intro hc
  by_cases hij : i = j
  · subst hij
    rw [Function.update_same] at hc
    exact (List.Nodup.not_mem_erase (h.fl_nodup i)) hc
  · rw [Function.update_noteq hij] at hc
    exact hij (h.fl_disj _ _ _ hc hx)

theorem write32_comm (m : Mem) (a v b w : Nat) (h : a + 4 ≤ b ∨ b + 4 ≤ a) :
    write32 (write32 m a v) b w = write32 (write32 m b w) a v := by
  funext x
  by_cases h1 : x < b ∨ b + 4 ≤ x
  · rw [write32_out _ b _ _ h1]
    by_cases h2 : x < a ∨ a + 4 ≤ x
    · rw [write32_out _ a _ _ h2, write32_out _ a _ _ h2, write32_out _ b _ _ h1]
    · unfold write32
      have hb0 : x ≠ b := by omega
      have hb1 : x ≠ b + 1 := by omega
      have hb2 : x ≠ b + 2 := by omega
      have hb3 : x ≠ b + 3 := by omega
      simp only [hb0, hb1, hb2, hb3, if_false]
  · have h2 : x < a ∨ a + 4 ≤ x := by omega
    rw [write32_out _ a _ _ h2]
    unfold write32
    have ha0 : x ≠ a := by omega
    have ha1 : x ≠ a + 1 := by omega
    have ha2 : x ≠ a + 2 := by omega
    have ha3 : x ≠ a + 3 := by omega
    simp only [ha0, ha1, ha2, ha3, if_false]

/-- Rewriting the tags of a run of blocks into those of one block. -/
theorem retag1 {s : State} {pre mid post : List Blk} {fl : Nat → List Nat}
    (h : Core s (pre ++ mid ++ post) fl) (a sz : Nat) (al : Bool)
    (hpre : Chain s.mem (s.mem_start_brk + 184) pre a)
    (_hmid : Chain s.mem a mid (a + sz))
    (hpost : Chain s.mem (a + sz) post s.mem_brk)
    (h24 : 24 ≤ sz) (h8 : sz % 8 = 0)
    (hn : ∀ i x, x ∈ fl i → ∀ c, c ∈ mid → c.addr = x → x = a ∧ al = false) :
    Core (s.setMem (tag s.mem a sz al)) (pre ++ [⟨a, sz, al⟩] ++ post) fl := by
  unfold tag
  have ha : s.mem_start_brk + 184 ≤ a := Chain_le _ _ _ _ hpre
  have he : a + sz ≤ s.mem_brk := Chain_le _ _ _ _ hpost
  have hl := h.lt64
  have hal := toNat_le_one al
  refine retag_core h _ _ a (a + sz) hpre hpost ?_ ?_ ?_
  · refine ⟨rfl, h24, h8, ?_, ?_, rfl⟩
    · show read32 _ (a - 4) = sz + al.toNat
      rw [read32_write32_ne _ _ _ _ (by omega), read32_write32_same]
      omega
    · show read32 _ (a + sz - 8) = sz + al.toNat
      rw [read32_write32_same]
      omega
  · intro x hx
    have hx1 : x < a + sz - 8 ∨ a + sz - 8 + 4 ≤ x := by omega
    have hx2 : x < a - 4 ∨ a - 4 + 4 ≤ x := by omega
    exact (write32_out _ _ _ _ hx1).trans (write32_out _ _ _ _ hx2)
  · intro i x hx c hc hcx
    obtain ⟨e1, e2⟩ := hn i x hx c hc hcx
    refine ⟨⟨⟨a, sz, al⟩, by simp, e1.symm, e2⟩, ?_⟩
    intro y hy1 hy2
    have hx1 : y < a + sz - 8 ∨ a + sz - 8 + 4 ≤ y := by omega
    have hx2 : y < a - 4 ∨ a - 4 + 4 ≤ y := by omega
    exact (write32_out _ _ _ _ hx1).trans (write32_out _ _ _ _ hx2)

/-- The flag read below a block whose predecessor is allocated (or is the prologue). -/
theorem Core.prev_alloc_one {s : State} {pre post : List Blk} {b : Blk} {fl : Nat → List Nat}
    (h : Core s (pre ++ b :: post) fl)
    (hp : pre = [] ∨ ∃ pre2 q, pre = pre2 ++ [q] ∧ q.alloc = true) :
    GET_ALLOC s.mem (FTRP s.mem (PREV_BLKP s.mem b.addr)) = 1 := by
  rcases hp with e | ⟨pre2, q, e, hq⟩
  · exact h.prev_alloc.1 e
  · rw [(h.prev_alloc.2 pre2 q e).2.2, hq]; rfl

/-- The flag read above a block whose successor is allocated (or is the epilogue). -/
theorem Core.next_alloc_one {s : State} {pre post : List Blk} {b : Blk} {fl : Nat → List Nat}
    (h : Core s (pre ++ b :: post) fl)
    (hn : post = [] ∨ ∃ r post2, post = r :: post2 ∧ r.alloc = true) :
    GET_ALLOC s.mem (HDRP (NEXT_BLKP s.mem b.addr)) = 1 := by
  rcases hn with e | ⟨r, post2, e, hr⟩
  · exact (h.next_alloc.2.1 e).2
  · rw [(h.next_alloc.2.2 r post2 e).2, hr]; rfl

/-- What `coalesce` computes in case 2. -/
theorem coalesce_c2_eq {s : State} {pre post2 : List Blk} {b r : Blk} {fl : Nat → List Nat}
    (h : Core s (pre ++ b :: r :: post2) fl)
    (hp : pre = [] ∨ ∃ pre2 q, pre = pre2 ++ [q] ∧ q.alloc = true)
    (hrf : r.alloc = false) {j : Nat} (_hrj : r.addr ∈ fl j) :
    coalesce s b.addr =
      (insert_at ((rmvll s r.addr).setMem (tag (rmvll s r.addr).mem b.addr (b.size + r.size) false))
        (addfree_index 21 (b.size + r.size)) b.addr, b.addr) := by
  have hbin : b ∈ pre ++ b :: r :: post2 := by simp
  have hrin : r ∈ pre ++ b :: r :: post2 := by simp
  have hl := h.lt64
  have hpa := h.prev_alloc_one hp
  have hnx := h.next_alloc
  have hra : r.addr = b.addr + b.size := (hnx.2.2 r post2 rfl).1
  have hna : GET_ALLOC s.mem (HDRP (NEXT_BLKP s.mem b.addr)) = 0 := by
    rw [(hnx.2.2 r post2 rfl).2, hrf]; rfl
  have hnb : NEXT_BLKP s.mem b.addr = r.addr := by rw [hnx.1, hra]
  obtain ⟨hb1, hb2, -, hb4, -, -, -⟩ := h.blk b hbin
  obtain ⟨-, hr2, -, hr4, -, -, -⟩ := h.blk r hrin
  obtain ⟨hbH, hbS, -, -, -, -, -, -⟩ := h.macros b hbin
  obtain ⟨hrH, hrS, -, -, -, -, -, -⟩ := h.macros r hrin
  have hsum : add64 b.size r.size = b.size + r.size := add64_eq _ _ (by omega)
  have hF : FTRP (write32 (rmvll s r.addr).mem (b.addr - 4) (b.size + r.size)) b.addr =
      b.addr + (b.size + r.size) - 8 := by
    refine FTRP_eq _ _ _ (by omega) ?_ (by omega) (by omega)
    rw [GET_SIZE_val _ _ _ (read32_write32_same _ _ _)]
    omega
  have har : (rmvll s r.addr).arrsize = 21 := by rw [(rmvll_fields s r.addr).2.2.2.2.1, h.arrsize_eq]
  unfold coalesce
  simp only [hpa, hna]
  rw [if_neg (by simp), if_pos (by simp)]
  unfold coalesce_case2
  simp only [hnb, hbH, hbS, hrH, hrS, hsum, PACK_zero, put32_eq, setMem_mem,
    setMem_setMem, hF, addfree, setMem_fields, har, Bool.toNat_false, Nat.add_zero, tag]

theorem SameFields.refl (s : State) : SameFields s s := ⟨rfl, rfl, rfl, rfl, rfl, rfl, rfl, rfl⟩

theorem SameFields.trans {s s2 s3 : State} (h1 : SameFields s s2) (h2 : SameFields s2 s3) :
    SameFields s s3 := by
  obtain ⟨a1, a2, a3, a4, a5, a6, a7, a8⟩ := h1
  obtain ⟨b1, b2, b3, b4, b5, b6, b7, b8⟩ := h2
  exact ⟨b1.trans a1, b2.trans a2, b3.trans a3, b4.trans a4, b5.trans a5, b6.trans a6,
    b7.trans a7, b8.trans a8⟩

theorem SameFields.rmvll (s : State) (x : Nat) : SameFields s (rmvll s x) := rmvll_fields s x

theorem SameFields.insert_at (s : State) (k x : Nat) : SameFields s (insert_at s k x) :=
  insert_at_fields s k x

theorem SameFields.setMem (s : State) (m : Mem) : SameFields s (s.setMem m) :=
  setMem_fields s m

/-- Case 2 of `coalesce`: the block after is free, the block before is not. -/
theorem coalesce_c2 {s : State} {pre post2 : List Blk} {b r : Blk} {fl : Nat → List Nat}
    (h : Core s (pre ++ b :: r :: post2) fl) (hbf : b.alloc = false)
    (hnl : ∀ i, b.addr ∉ fl i)
    (hp : pre = [] ∨ ∃ pre2 q, pre = pre2 ++ [q] ∧ q.alloc = true)
    (hrf : r.alloc = false) {j : Nat} (hrj : r.addr ∈ fl j) :
    (coalesce s b.addr).2 = b.addr ∧
    Core (coalesce s b.addr).1 (pre ++ ⟨b.addr, b.size + r.size, false⟩ :: post2)
      (Function.update (Function.update fl j ((fl j).erase r.addr))
        (addfree_index 21 (b.size + r.size))
        (b.addr :: Function.update fl j ((fl j).erase r.addr)
          (addfree_index 21 (b.size + r.size)))) ∧
    FreeOnly s (pre ++ b :: r :: post2) (coalesce s b.addr).1.mem ∧
    SameFields s (coalesce s b.addr).1 := by
  rw [coalesce_c2_eq h hp hrf hrj]
  obtain ⟨hc1, hlo1⟩ := rmvll_core h hrj
  have hfo1 := hlo1.freeOnly h
  have hc1b : Core (rmvll s r.addr) (pre ++ [b, r] ++ post2)
      (Function.update fl j ((fl j).erase r.addr)) := by simpa using hc1
  obtain ⟨a, e, g1, g2, g3⟩ := hc1b.split3
  have g2c := g2
  obtain ⟨ga, gb24, gb8, -, -, gr, gr24, gr8, -, -, ge⟩ := g2c
  have ge2 : a + (b.size + r.size) = e := by
    have ge3 : a + b.size + r.size = e := ge
    omega
  subst ge2
  have hL1 : (rmvll s r.addr).mem_start_brk = s.mem_start_brk := (rmvll_fields s r.addr).1
  have hc3 := retag1 hc1b a (b.size + r.size) false g1 g2 g3 (by omega) (by omega) (by
    intro i x hx c hc hcx
    exfalso
    have hx2 := mem_update_erase hx
    rcases List.mem_cons.1 hc with e1 | e1
    · subst e1; exact hnl i (hcx ▸ hx2)
    · have e2 : c = r := by simpa using e1
      subst e2
      rw [← hcx] at hx
      exact h.not_mem_erase hrj i hx)
  rw [← ga] at hc3
  have hnl3 : ∀ i, (⟨b.addr, b.size + r.size, false⟩ : Blk).addr ∉
      Function.update fl j ((fl j).erase r.addr) i := fun i hx => hnl i (mem_update_erase hx)
  obtain ⟨hc4, hlo4⟩ := insert_core hc3 (addfree_index_lt (b.size + r.size))
    ⟨b.addr, b.size + r.size, false⟩ (by simp) rfl hnl3
  refine ⟨rfl, by simpa using hc4, ?_, ?_⟩
  · intro x hx hfree
    have hbin : b ∈ pre ++ b :: r :: post2 := by simp
    have hrin : r ∈ pre ++ b :: r :: post2 := by simp
    have fb := hfree b hbin hbf
    have fr := hfree r hrin hrf
    have e4 : (insert_at ((rmvll s r.addr).setMem
        (tag (rmvll s r.addr).mem b.addr (b.size + r.size) false))
        (addfree_index 21 (b.size + r.size)) b.addr).mem x =
        (tag (rmvll s r.addr).mem b.addr (b.size + r.size) false) x := by
      refine hlo4 x (by rw [(setMem_fields _ _).1, hL1]; exact hx) ?_
      intro c hc hcf
      have hc2 : c ∈ pre ∨ c = ⟨b.addr, b.size + r.size, false⟩ ∨ c ∈ post2 := by
        simpa using hc
      rcases hc2 with e1 | e1 | e1
      · have := hfree c (by simp [e1]) hcf
        have := (h.blk c (by simp [e1])).2.2.1
        omega
      · subst e1
        show ¬ (b.addr ≤ x ∧ x < b.addr + 16)
        omega
      · have := hfree c (by simp [e1]) hcf
        have := (h.blk c (by simp [e1])).2.2.1
        omega
    rw [e4]
    unfold tag
    rw [write32_out _ _ _ _ (by omega), write32_out _ _ _ _ (by omega)]
    exact hfo1 x hx hfree
  · exact ((SameFields.rmvll s r.addr).trans (SameFields.setMem _ _)).trans
      (SameFields.insert_at _ _ _)

theorem tag_out (m : Mem) (a sz : Nat) (al : Bool) (x : Nat) (h4 : 4 ≤ a) (h8 : 8 ≤ sz)
    (h : x < a - 4 ∨ (a ≤ x ∧ x < a + sz - 8) ∨ a + sz - 4 ≤ x) :
    tag m a sz al x = m x := by
  unfold tag
  rw [write32_out _ _ _ _ (by omega), write32_out _ _ _ _ (by omega)]

theorem LinkOnly.andThen {s s1 : State} {bl : List Blk} {m2 : Mem}
    (h1 : LinkOnly s bl s1.mem) (hL : s1.mem_start_brk = s.mem_start_brk)
    (h2 : LinkOnly s1 bl m2) : LinkOnly s bl m2 := by
  intro a ha hf
  rw [h2 a (by rw [hL]; exact ha) hf]
  exact h1 a ha hf

/-- Taking a listed free block off its list and pushing it on slot `k`. -/
theorem relist_core {s : State} {bl : List Blk} {fl : Nat → List Nat} (h : Core s bl fl)
    (c : Blk) (hc : c ∈ bl) (hcf : c.alloc = false) {j : Nat} (hcj : c.addr ∈ fl j)
    {k : Nat} (hk : k < 21) :
    Core (rmvll s c.addr) bl (Function.update fl j ((fl j).erase c.addr)) ∧
    LinkOnly s bl (rmvll s c.addr).mem ∧
    Core (insert_at (rmvll s c.addr) k c.addr) bl
      (Function.update (Function.update fl j ((fl j).erase c.addr)) k
        (c.addr :: Function.update fl j ((fl j).erase c.addr) k)) ∧
    LinkOnly s bl (insert_at (rmvll s c.addr) k c.addr).mem ∧
    SameFields s (insert_at (rmvll s c.addr) k c.addr) := by
  obtain ⟨h1, l1⟩ := rmvll_core h hcj
  obtain ⟨h2, l2⟩ := insert_core h1 hk c hc hcf (fun i => h.not_mem_erase hcj i)
  exact ⟨h1, l1, h2, l1.andThen (rmvll_fields s c.addr).1 l2,
    (SameFields.rmvll _ _).trans (SameFields.insert_at _ _ _)⟩

/-- Merging a run of blocks headed by a listed free block into one free block,
which is then moved to slot `k`. -/
theorem merge_relist {s : State} {pre mid post : List Blk} {fl : Nat → List Nat}
    (h : Core s (pre ++ mid ++ post) fl) (a sz : Nat)
    (hpre : Chain s.mem (s.mem_start_brk + 184) pre a)
    (hmid : Chain s.mem a mid (a + sz))
    (hpost : Chain s.mem (a + sz) post s.mem_brk)
    (h24 : 24 ≤ sz) (h8 : sz % 8 = 0) {j : Nat} (haj : a ∈ fl j)
    (hn : ∀ i x, x ∈ fl i → ∀ c, c ∈ mid → c.addr = x → x = a)
    {k : Nat} (hk : k < 21) :
    Core (insert_at (rmvll (s.setMem (tag s.mem a sz false)) a) k a)
      (pre ++ [⟨a, sz, false⟩] ++ post)
      (Function.update (Function.update fl j ((fl j).erase a)) k
        (a :: Function.update fl j ((fl j).erase a) k)) ∧
    SameFields s (insert_at (rmvll (s.setMem (tag s.mem a sz false)) a) k a) ∧
    (∀ x, s.mem_start_brk + 168 ≤ x →
      (x < a - 4 ∨ a + sz - 4 ≤ x ∨ (a + 16 ≤ x ∧ x < a + sz - 8)) →
      (∀ d, d ∈ pre ++ post → d.alloc = false → ¬ (d.addr ≤ x ∧ x < d.addr + 16)) →
      (rmvll (s.setMem (tag s.mem a sz false)) a).mem x = s.mem x ∧
      (insert_at (rmvll (s.setMem (tag s.mem a sz false)) a) k a).mem x = s.mem x) := by
  have ha : s.mem_start_brk + 184 ≤ a := Chain_le _ _ _ _ hpre
  have he : a + sz ≤ s.mem_brk := Chain_le _ _ _ _ hpost
  have hc2 := retag1 h a sz false hpre hmid hpost h24 h8
    (fun i x hx c hc hcx => ⟨hn i x hx c hc hcx, rfl⟩)
  obtain ⟨h3, l3, h4, l4, f4⟩ := relist_core hc2 ⟨a, sz, false⟩ (by simp) rfl haj hk
  refine ⟨h4, (SameFields.setMem _ _).trans f4, ?_⟩
  intro x hx hor hfree
  have key : ∀ d, d ∈ pre ++ [(⟨a, sz, false⟩ : Blk)] ++ post → d.alloc = false →
      ¬ (d.addr ≤ x ∧ x < d.addr + 16) := by
    intro d hd hdf
    have hd2 : d ∈ pre ∨ d = ⟨a, sz, false⟩ ∨ d ∈ post := by simpa using hd
    rcases hd2 with e1 | e1 | e1
    · exact hfree d (by simp [e1]) hdf
    · subst e1
      show ¬ (a ≤ x ∧ x < a + 16)
      omega
    · exact hfree d (by simp [e1]) hdf
  have hx2 : (s.setMem (tag s.mem a sz false)).mem_start_brk + 168 ≤ x := hx
  have e0 : tag s.mem a sz false x = s.mem x := tag_out _ _ _ _ _ (by omega) (by omega) (by omega)
  constructor
  · rw [l3 x hx2 key]; exact e0
  · rw [l4 x hx2 key]; exact e0

theorem PREV_BLKP_of (m : Mem) (x qa qs : Nat) (hft : read32 m (x - 8) = qs)
    (h8 : qs % 8 = 0) (hadj : qa + qs = x) (h8x : 8 ≤ x) (hx : x < 18446744073709551616) :
    PREV_BLKP m x = qa := by
  rw [PREV_BLKP_eq m x qs h8x (by rw [GET_SIZE_val _ _ _ hft]; omega) (by omega) hx]
  omega

/-- Case 3 of `coalesce`: the block before is free, the block after is not. -/
theorem coalesce_c3 {s : State} {pre2 post : List Blk} {q b : Blk} {fl : Nat → List Nat}
    (h : Core s (pre2 ++ q :: b :: post) fl) (hbf : b.alloc = false)
    (hnl : ∀ i, b.addr ∉ fl i) (hqf : q.alloc = false) {j : Nat} (hqj : q.addr ∈ fl j)
    (hn : post = [] ∨ ∃ r post2, post = r :: post2 ∧ r.alloc = true) :
    (coalesce s b.addr).2 = q.addr ∧
    Core (coalesce s b.addr).1 (pre2 ++ ⟨q.addr, q.size + b.size, false⟩ :: post)
      (Function.update (Function.update fl j ((fl j).erase q.addr))
        (addfree_index 21 (q.size + b.size))
        (q.addr :: Function.update fl j ((fl j).erase q.addr)
          (addfree_index 21 (q.size + b.size)))) ∧
    FreeOnly s (pre2 ++ q :: b :: post) (coalesce s b.addr).1.mem ∧
    SameFields s (coalesce s b.addr).1 ∧
    read32 (coalesce s b.addr).1.mem (b.addr - 4) = b.size := by
  have hqin : q ∈ pre2 ++ q :: b :: post := by simp
  have hbin : b ∈ pre2 ++ q :: b :: post := by simp
  have hl := h.lt64
  have hL := h.base_pos
  -- the walk around the two blocks
  have h2 : Core s (pre2 ++ [q, b] ++ post) fl := by simpa using h
  obtain ⟨a, e, g1, g2, g3⟩ := h2.split3
  have g2c := g2
  obtain ⟨gq, gq24, gq8, -, gqf, gb, gb24, gb8, gbh, -, ge⟩ := g2c
  have ge3 : a + q.size + b.size = e := ge
  have ge2 : a + (q.size + b.size) = e := by omega
  subst ge2
  subst gq
  have he : q.addr + (q.size + b.size) ≤ s.mem_brk := Chain_le _ _ _ _ g3
  have ha : s.mem_start_brk + 184 ≤ q.addr := Chain_le _ _ _ _ g1
  have hbw : b.word = b.size := by unfold Blk.word; rw [hbf]; rfl
  have hqw : q.word = q.size := by unfold Blk.word; rw [hqf]; rfl
  rw [hqw] at gqf
  rw [hbw] at gbh
  have hfb : read32 s.mem (b.addr - 8) = q.size := by
    have e1 : b.addr - 8 = q.addr + q.size - 8 := by clear * - gb; omega
    rw [e1]; exact gqf
  -- the merged state
  obtain ⟨hc4, hf4, hfr⟩ := merge_relist h2 q.addr (q.size + b.size) g1 g2 g3
    (by clear * - gq24; omega) (by clear * - gq8 gb8; omega) hqj (by
      intro i x hx c hc hcx
      rcases List.mem_cons.1 hc with e1 | e1
      · subst e1; exact hcx.symm
      · have e2 : c = b := by simpa using e1
        subst e2
        exact absurd (hcx ▸ hx) (hnl i)) (addfree_index_lt (q.size + b.size))
  have hoth : ∀ x, q.addr - 4 ≤ x → x < q.addr + (q.size + b.size) - 4 →
      ∀ d, d ∈ pre2 ++ post → d.alloc = false → ¬ (d.addr ≤ x ∧ x < d.addr + 16) := by
    intro x hx1 hx2 d hd hdf
    rcases List.mem_append.1 hd with e1 | e1
    · have h7 := (Chain_mem _ _ _ _ g1 d e1).2.1
      have h8 := (Chain_mem _ _ _ _ g1 d e1).2.2.1
      clear * - h7 h8 hx1 hx2
      omega
    · have h7 := (Chain_mem _ _ _ _ g3 d e1).1
      clear * - h7 hx1 hx2 gq24 gb24
      omega
  have hint : ∀ x, q.addr + 16 ≤ x → x < q.addr + (q.size + b.size) - 8 →
      (rmvll (s.setMem (tag s.mem q.addr (q.size + b.size) false)) q.addr).mem x = s.mem x ∧
      (insert_at (rmvll (s.setMem (tag s.mem q.addr (q.size + b.size) false)) q.addr)
        (addfree_index 21 (q.size + b.size)) q.addr).mem x = s.mem x := by
    intro x hx1 hx2
    exact hfr x (by clear * - hx1 ha; omega) (Or.inr (Or.inr ⟨hx1, hx2⟩))
      (hoth x (by clear * - hx1; omega) (by clear * - hx2; omega))
  -- what the code computes
  have hpa : GET_ALLOC s.mem (FTRP s.mem (PREV_BLKP s.mem b.addr)) = 0 := by
    have h3 : Core s ((pre2 ++ [q]) ++ b :: post) fl := by simpa using h
    rw [(h3.prev_alloc.2 pre2 q rfl).2.2, hqf]; rfl
  have hna : GET_ALLOC s.mem (HDRP (NEXT_BLKP s.mem b.addr)) = 1 := by
    have h3 : Core s ((pre2 ++ [q]) ++ b :: post) fl := by simpa using h
    exact h3.next_alloc_one hn
  have hsum : add64 b.size q.size = q.size + b.size := by
    rw [add64_eq _ _ (by clear * - he hl; omega)]; clear * - he; omega
  have hP0 : PREV_BLKP s.mem b.addr = q.addr :=
    PREV_BLKP_of _ _ _ _ hfb gq8 gb.symm (by clear * - gb gq24 gb24 gq8 gb8 ha he hl hL; omega) (by clear * - gb gq24 gb24 gq8 gb8 ha he hl hL; omega)
  have hP1 : PREV_BLKP (write32 s.mem (b.addr + b.size - 8) (q.size + b.size)) b.addr = q.addr := by
    refine PREV_BLKP_of _ _ _ _ ?_ gq8 gb.symm (by clear * - gb gq24 gb24 gq8 gb8 ha he hl hL; omega) (by clear * - gb gq24 gb24 gq8 gb8 ha he hl hL; omega)
    rw [read32_write32_ne _ _ _ _ (by clear * - gb gq24 gb24 gq8 gb8 ha he hl hL; omega)]; exact hfb
  have hcomm : write32 (write32 s.mem (b.addr + b.size - 8) (q.size + b.size)) (q.addr - 4)
      (q.size + b.size) = tag s.mem q.addr (q.size + b.size) false := by
    unfold tag
    rw [write32_comm _ _ _ _ _ (by clear * - gb gq24 gb24 gq8 gb8 ha he hl hL; omega)]
    have e1 : q.addr + (q.size + b.size) - 8 = b.addr + b.size - 8 := by
      clear * - gb gq24 gb24 gq8 gb8 ha he hl hL; omega
    rw [e1]; rfl
  have hP2 : PREV_BLKP (tag s.mem q.addr (q.size + b.size) false) b.addr = q.addr := by
    refine PREV_BLKP_of _ _ _ _ ?_ gq8 gb.symm (by clear * - gb gq24 gb24 gq8 gb8 ha he hl hL; omega) (by clear * - gb gq24 gb24 gq8 gb8 ha he hl hL; omega)
    exact (read32_congr _ _ _
      (fun x h1 h2 => tag_out _ _ _ _ _ (by clear * - gb gq24 gb24 gq8 gb8 ha he hl hL; omega) (by clear * - gb gq24 gb24 gq8 gb8 ha he hl hL; omega)
        (by clear * - h1 h2 gb gq24 gb24 ha; omega))).trans hfb
  have hP3 : PREV_BLKP (rmvll (s.setMem (tag s.mem q.addr (q.size + b.size) false)) q.addr).mem
      b.addr = q.addr := by
    refine PREV_BLKP_of _ _ _ _ ?_ gq8 gb.symm (by clear * - gb gq24 gb24 gq8 gb8 ha he hl hL; omega) (by clear * - gb gq24 gb24 gq8 gb8 ha he hl hL; omega)
    exact (read32_congr _ _ _ (fun x h1 h2 => (hint x
      (by clear * - h1 h2 gb gq24 gb24; omega) (by clear * - h1 h2 gb gq24 gb24; omega)).1)).trans hfb
  have hP4 : PREV_BLKP (insert_at (rmvll (s.setMem (tag s.mem q.addr (q.size + b.size) false))
      q.addr) (addfree_index 21 (q.size + b.size)) q.addr).mem b.addr = q.addr := by
    refine PREV_BLKP_of _ _ _ _ ?_ gq8 gb.symm (by clear * - gb gq24 gb24 gq8 gb8 ha he hl hL; omega) (by clear * - gb gq24 gb24 gq8 gb8 ha he hl hL; omega)
    exact (read32_congr _ _ _ (fun x h1 h2 => (hint x
      (by clear * - h1 h2 gb gq24 gb24; omega) (by clear * - h1 h2 gb gq24 gb24; omega)).2)).trans hfb
  have har : (rmvll (s.setMem (tag s.mem q.addr (q.size + b.size) false)) q.addr).arrsize = 21 := by
    rw [(rmvll_fields _ _).2.2.2.2.1, (setMem_fields _ _).2.2.2.2.1, h.arrsize_eq]
  have heq : coalesce s b.addr =
      (insert_at (rmvll (s.setMem (tag s.mem q.addr (q.size + b.size) false)) q.addr)
        (addfree_index 21 (q.size + b.size)) q.addr, q.addr) := by
    obtain ⟨hbH, hbS, -, -, hbF, -, -, -⟩ := h.macros b hbin
    obtain ⟨hqH, hqS, -, -, -, -, -, -⟩ := h.macros q hqin
    unfold coalesce
    simp only [hpa, hna]
    rw [if_neg (by simp), if_neg (by simp), if_pos (by simp)]
    unfold coalesce_case3
    simp only [hbH, hbS, hbF, hP0, hqH, hqS, hsum, PACK_zero, put32_eq, setMem_mem,
      setMem_setMem, hP1, hcomm, hP2, hP3, addfree, har, hP4]
  rw [heq]
  refine ⟨rfl, by simpa using hc4, ?_, hf4, ?_⟩
  · intro x hx hfree
    have fq := hfree q hqin hqf
    have fb := hfree b hbin hbf
    refine (hfr x hx (by clear * - fq fb gb gq24 gb24; omega) ?_).2
    intro d hd hdf
    have hd2 : d ∈ pre2 ++ q :: b :: post := by
      rcases List.mem_append.1 hd with e1 | e1
      · simp [e1]
      · simp [e1]
    have h5 := hfree d hd2 hdf
    have h6 := (h.blk d hd2).2.2.1
    clear * - h5 h6
    omega
  · have gbh2 : read32 s.mem (b.addr - 4) = b.size := by rw [gb]; exact gbh
    exact (read32_congr _ _ _ (fun x h1 h2 => (hint x (by clear * - h1 h2 gb gq24 gb24; omega)
      (by clear * - h1 h2 gb gq24 gb24; omega)).2)).trans gbh2

theorem mem_update_erase_of_ne {fl : Nat → List Nat} {j i x y : Nat} (h : x ∈ fl i)
    (hne : x ≠ y) : x ∈ Function.update fl j ((fl j).erase y) i := by
  by_cases hij : i = j
  · subst hij
    rw [Function.update_same]
    exact (List.mem_erase_of_ne hne).2 h
  · rw [Function.update_noteq hij]
    exact h

/-- Case 4 of `coalesce`: the blocks before and after are both free. -/
theorem coalesce_c4 {s : State} {pre2 post2 : List Blk} {q b r : Blk} {fl : Nat → List Nat}
    (h : Core s (pre2 ++ q :: b :: r :: post2) fl) (hbf : b.alloc = false)
    (hnl : ∀ i, b.addr ∉ fl i) (hqf : q.alloc = false) {j1 : Nat} (hqj : q.addr ∈ fl j1)
    (hrf : r.alloc = false) {j2 : Nat} (hrj : r.addr ∈ fl j2) :
    (coalesce s b.addr).2 = q.addr ∧
    Core (coalesce s b.addr).1 (pre2 ++ ⟨q.addr, q.size + b.size + r.size, false⟩ :: post2)
      (Function.update
        (Function.update (Function.update fl j2 ((fl j2).erase r.addr)) j1
          ((Function.update fl j2 ((fl j2).erase r.addr) j1).erase q.addr))
        (addfree_index 21 (q.size + b.size + r.size))
        (q.addr :: Function.update (Function.update fl j2 ((fl j2).erase r.addr)) j1
          ((Function.update fl j2 ((fl j2).erase r.addr) j1).erase q.addr)
          (addfree_index 21 (q.size + b.size + r.size)))) ∧
    FreeOnly s (pre2 ++ q :: b :: r :: post2) (coalesce s b.addr).1.mem ∧
    SameFields s (coalesce s b.addr).1 ∧
    read32 (coalesce s b.addr).1.mem (b.addr - 4) = b.size := by
  have hqin : q ∈ pre2 ++ q :: b :: r :: post2 := by simp
  have hbin : b ∈ pre2 ++ q :: b :: r :: post2 := by simp
  have hrin : r ∈ pre2 ++ q :: b :: r :: post2 := by simp
  have hl := h.lt64
  have hL := h.base_pos
  -- after the first rmvll
  obtain ⟨hc1, hlo1⟩ := rmvll_core h hrj
  have hfo1 := hlo1.freeOnly h
  have hf1 := rmvll_fields s r.addr
  have h2 : Core (rmvll s r.addr) (pre2 ++ [q, b, r] ++ post2)
      (Function.update fl j2 ((fl j2).erase r.addr)) := by simpa using hc1
  obtain ⟨a, e, g1, g2, g3⟩ := h2.split3
  have g2c := g2
  obtain ⟨gq, gq24, gq8, -, gqf, gb, gb24, gb8, gbh, -, gr, gr24, gr8, grh, -, ge⟩ := g2c
  have ge3 : a + q.size + b.size + r.size = e := ge
  have ge2 : a + (q.size + b.size + r.size) = e := by clear * - ge3; omega
  subst ge2
  subst gq
  have he : q.addr + (q.size + b.size + r.size) ≤ s.mem_brk := by
    have := Chain_le _ _ _ _ g3
    rw [hf1.2.1] at this
    exact this
  have ha : s.mem_start_brk + 184 ≤ q.addr := by
    have := Chain_le _ _ _ _ g1
    rw [hf1.1] at this
    exact this
  have hbw : b.word = b.size := by unfold Blk.word; rw [hbf]; rfl
  have hqw : q.word = q.size := by unfold Blk.word; rw [hqf]; rfl
  have hrw : r.word = r.size := by unfold Blk.word; rw [hrf]; rfl
  rw [hqw] at gqf
  rw [hbw] at gbh
  rw [hrw] at grh
  have hfb1 : read32 (rmvll s r.addr).mem (b.addr - 8) = q.size := by
    have e1 : b.addr - 8 = q.addr + q.size - 8 := by clear * - gb; omega
    rw [e1]; exact gqf
  have hbh1 : read32 (rmvll s r.addr).mem (b.addr - 4) = b.size := by
    have e1 : b.addr - 4 = q.addr + q.size - 4 := by clear * - gb; omega
    rw [e1]; exact gbh
  have hrh1 : read32 (rmvll s r.addr).mem (r.addr - 4) = r.size := by
    have e1 : r.addr - 4 = q.addr + q.size + b.size - 4 := by clear * - gr; omega
    rw [e1]; exact grh
  have hqne : q.addr ≠ r.addr := by clear * - gr gq24; omega
  -- the merged state
  obtain ⟨hc4, hf4, hfr⟩ := merge_relist h2 q.addr (q.size + b.size + r.size) g1 g2 g3
    (by clear * - gq24; omega) (by clear * - gq8 gb8 gr8; omega)
    (mem_update_erase_of_ne hqj hqne) (by
      intro i x hx c hc hcx
      rcases List.mem_cons.1 hc with e1 | e1
      · subst e1; exact hcx.symm
      · rcases List.mem_cons.1 e1 with e2 | e2
        · subst e2
          exact absurd (mem_update_erase (hcx ▸ hx)) (hnl i)
        · have e3 : c = r := by simpa using e2
          subst e3
          rw [← hcx] at hx
          exact absurd hx (h.not_mem_erase hrj i)) (addfree_index_lt (q.size + b.size + r.size))
  rw [hf1.1] at hfr
  have hoth : ∀ x, q.addr - 4 ≤ x → x < q.addr + (q.size + b.size + r.size) - 4 →
      ∀ d, d ∈ pre2 ++ post2 → d.alloc = false → ¬ (d.addr ≤ x ∧ x < d.addr + 16) := by
    intro x hx1 hx2 d hd hdf
    rcases List.mem_append.1 hd with e1 | e1
    · have h7 := (Chain_mem _ _ _ _ g1 d e1).2.1
      have h8 := (Chain_mem _ _ _ _ g1 d e1).2.2.1
      clear * - h7 h8 hx1 hx2
      omega
    · have h7 := (Chain_mem _ _ _ _ g3 d e1).1
      clear * - h7 hx1 hx2 gq24 gb24
      omega
  have hint : ∀ x, q.addr + 16 ≤ x → x < q.addr + (q.size + b.size + r.size) - 8 →
      (rmvll ((rmvll s r.addr).setMem (tag (rmvll s r.addr).mem q.addr
        (q.size + b.size + r.size) false)) q.addr).mem x = (rmvll s r.addr).mem x ∧
      (insert_at (rmvll ((rmvll s r.addr).setMem (tag (rmvll s r.addr).mem q.addr
        (q.size + b.size + r.size) false)) q.addr)
        (addfree_index 21 (q.size + b.size + r.size)) q.addr).mem x =
        (rmvll s r.addr).mem x := by
    intro x hx1 hx2
    exact hfr x (by clear * - hx1 ha; omega) (Or.inr (Or.inr ⟨hx1, hx2⟩))
      (hoth x (by clear * - hx1; omega) (by clear * - hx2; omega))
  -- what the code computes
  have h3 : Core s ((pre2 ++ [q]) ++ b :: r :: post2) fl := by simpa using h
  have hpa : GET_ALLOC s.mem (FTRP s.mem (PREV_BLKP s.mem b.addr)) = 0 := by
    rw [(h3.prev_alloc.2 pre2 q rfl).2.2, hqf]; rfl
  have hna : GET_ALLOC s.mem (HDRP (NEXT_BLKP s.mem b.addr)) = 0 := by
    rw [(h3.next_alloc.2.2 r post2 rfl).2, hrf]; rfl
  have hP0 : PREV_BLKP s.mem b.addr = q.addr := (h3.prev_alloc.2 pre2 q rfl).2.1
  have hN0 : NEXT_BLKP s.mem b.addr = r.addr := by
    rw [h3.next_alloc.1, (h3.next_alloc.2.2 r post2 rfl).1]
  have hsum : add64 b.size (add32 q.size r.size) = q.size + b.size + r.size := by
    have e32 : add32 q.size r.size = q.size + r.size := by
      unfold add32
      exact Nat.mod_eq_of_lt (by clear * - he hl ha gb gr; omega)
    rw [e32, add64_eq _ _ (by clear * - he hl; omega)]
    clear * - he; omega
  have G8 : 8 ≤ b.addr ∧ b.addr < 18446744073709551616 ∧ 4 ≤ b.addr ∧ 4 ≤ r.addr ∧
      8 ≤ r.addr + r.size ∧ r.addr + r.size < 18446744073709551616 ∧
      b.addr + b.size < 18446744073709551616 := by
    clear * - gb gr ha he hl; omega
  have hP1 : PREV_BLKP (rmvll s r.addr).mem b.addr = q.addr :=
    PREV_BLKP_of _ _ _ _ hfb1 gq8 gb.symm G8.1 G8.2.1
  have hN2 : NEXT_BLKP (write32 (rmvll s r.addr).mem (q.addr - 4) (q.size + b.size + r.size))
      b.addr = r.addr := by
    rw [NEXT_BLKP_eq _ _ b.size G8.2.2.1 ?_ G8.2.2.2.2.2.2]
    · clear * - gb gr; omega
    · rw [GET_SIZE_val _ _ b.size (by
        rw [read32_write32_ne _ _ _ _ (by clear * - gb gq24 ha; omega)]; exact hbh1)]
      clear * - gb8; omega
  have hF2 : FTRP (write32 (rmvll s r.addr).mem (q.addr - 4) (q.size + b.size + r.size))
      r.addr = r.addr + r.size - 8 := by
    refine FTRP_eq _ _ _ G8.2.2.2.1 ?_ G8.2.2.2.2.1 G8.2.2.2.2.2.1
    rw [GET_SIZE_val _ _ r.size (by
      rw [read32_write32_ne _ _ _ _ (by clear * - gb gr gq24 ha; omega)]; exact hrh1)]
    clear * - gr8; omega
  have htag : write32 (write32 (rmvll s r.addr).mem (q.addr - 4) (q.size + b.size + r.size))
      (r.addr + r.size - 8) (q.size + b.size + r.size) =
      tag (rmvll s r.addr).mem q.addr (q.size + b.size + r.size) false := by
    unfold tag
    have e1 : q.addr + (q.size + b.size + r.size) - 8 = r.addr + r.size - 8 := by
      clear * - gr; omega
    rw [e1]; rfl
  have hP3 : PREV_BLKP (tag (rmvll s r.addr).mem q.addr (q.size + b.size + r.size) false)
      b.addr = q.addr := by
    refine PREV_BLKP_of _ _ _ _ ?_ gq8 gb.symm G8.1 G8.2.1
    exact (read32_congr _ _ _
      (fun x h1 h2 => tag_out _ _ _ _ _ (by clear * - ha; omega) (by clear * - gq24; omega)
        (by clear * - h1 h2 gb gq24 gb24 ha; omega))).trans hfb1
  have hP4 : PREV_BLKP (rmvll ((rmvll s r.addr).setMem (tag (rmvll s r.addr).mem q.addr
      (q.size + b.size + r.size) false)) q.addr).mem b.addr = q.addr := by
    refine PREV_BLKP_of _ _ _ _ ?_ gq8 gb.symm G8.1 G8.2.1
    exact (read32_congr _ _ _ (fun x h1 h2 => (hint x
      (by clear * - h1 h2 gb gq24 gb24; omega) (by clear * - h1 h2 gb gq24 gb24; omega)).1)).trans
      hfb1
  have hP5 : PREV_BLKP (insert_at (rmvll ((rmvll s r.addr).setMem (tag (rmvll s r.addr).mem
      q.addr (q.size + b.size + r.size) false)) q.addr)
      (addfree_index 21 (q.size + b.size + r.size)) q.addr).mem b.addr = q.addr := by
    refine PREV_BLKP_of _ _ _ _ ?_ gq8 gb.symm G8.1 G8.2.1
    exact (read32_congr _ _ _ (fun x h1 h2 => (hint x
      (by clear * - h1 h2 gb gq24 gb24; omega) (by clear * - h1 h2 gb gq24 gb24; omega)).2)).trans
      hfb1
  have har : (rmvll ((rmvll s r.addr).setMem (tag (rmvll s r.addr).mem q.addr
      (q.size + b.size + r.size) false)) q.addr).arrsize = 21 := by
    rw [(rmvll_fields _ _).2.2.2.2.1, (setMem_fields _ _).2.2.2.2.1,
      (rmvll_fields _ _).2.2.2.2.1, h.arrsize_eq]
  have heq : coalesce s b.addr =
      (insert_at (rmvll ((rmvll s r.addr).setMem (tag (rmvll s r.addr).mem q.addr
        (q.size + b.size + r.size) false)) q.addr)
        (addfree_index 21 (q.size + b.size + r.size)) q.addr, q.addr) := by
    obtain ⟨hbH, hbS, -, -, -, -, -, -⟩ := h.macros b hbin
    obtain ⟨hqH, hqS, -, -, -, -, -, -⟩ := h.macros q hqin
    obtain ⟨-, -, -, -, hrF, hrS, -, -⟩ := h.macros r hrin
    unfold coalesce
    simp only [hpa, hna]
    rw [if_neg (by simp), if_neg (by simp), if_neg (by simp)]
    unfold coalesce_case4
    simp only [hbH, hbS, hP0, hN0, hqH, hqS, hrF, hrS, hsum, PACK_zero, put32_eq, setMem_mem,
      setMem_setMem, hP1, hN2, hF2, htag, hP3, hP4, addfree, har, hP5]
  rw [heq]
  refine ⟨rfl, by simpa using hc4, ?_, (SameFields.rmvll s r.addr).trans hf4, ?_⟩
  · intro x hx hfree
    have fq := hfree q hqin hqf
    have fb := hfree b hbin hbf
    have fr := hfree r hrin hrf
    rw [(hfr x hx (by clear * - fq fb fr gb gr gq24 gb24 gr24; omega) ?_).2]
    · exact hfo1 x hx hfree
    · intro d hd hdf
      have hd2 : d ∈ pre2 ++ q :: b :: r :: post2 := by
        rcases List.mem_append.1 hd with e1 | e1
        · simp [e1]
        · simp [e1]
      have h5 := hfree d hd2 hdf
      have h6 := (h.blk d hd2).2.2.1
      clear * - h5 h6
      omega
  · refine (read32_congr _ _ _ (fun x h1 h2 => ?_)).trans ((h.blk b hbin).2.2.2.2.2.1.trans hbw)
    rw [(hint x (by clear * - h1 h2 gb gq24 gb24; omega)
      (by clear * - h1 h2 gb gq24 gb24; omega)).2]
    exact hlo1.unch h b hbin x (by clear * - h1; omega) (by clear * - h2 gb24; omega)
      (Or.inr (Or.inl (by clear * - h2 ha gb; omega)))

/-! ## Assembling well-formedness -/

theorem Chain_notin (m : Mem) (l1 l2 : List Blk) (x : Blk) (a e : Nat)
    (h : Chain m a (l1 ++ x :: l2) e) (c : Blk) (hc : c ∈ l1 ++ l2) : c.addr ≠ x.addr := by
  obtain ⟨h1, h2, h3, -, -, -⟩ := Chain_split m l1 l2 x a e h
  rcases List.mem_append.1 hc with e1 | e1
  · have h4 := (Chain_mem _ _ _ _ h1 c e1).2.1
    have h5 := (Chain_mem _ _ _ _ h1 c e1).2.2.1
    clear * - h4 h5
    omega
  · have h4 := (Chain_mem _ _ _ _ h2 c e1).1
    clear * - h4 h3
    omega

theorem noadj_split {pre post : List Blk} {b : Blk} (h : (pre ++ b :: post).Chain' NA) :
    pre.Chain' NA ∧ post.Chain' NA ∧ (∀ x ∈ pre.getLast?, NA x b) ∧
    (∀ y ∈ post.head?, NA b y) := by
  obtain ⟨h1, h2, h3⟩ := List.chain'_append.1 h
  obtain ⟨h4, h5⟩ := List.chain'_cons'.1 h2
  refine ⟨h1, h5, ?_, h4⟩
  intro x hx
  exact h3 x hx b (by simp)

theorem noadj_join {pre post : List Blk} {b : Blk} (h1 : pre.Chain' NA) (h2 : post.Chain' NA)
    (h3 : ∀ x ∈ pre.getLast?, NA x b) (h4 : ∀ y ∈ post.head?, NA b y) :
    (pre ++ b :: post).Chain' NA := by
  refine List.chain'_append.2 ⟨h1, List.chain'_cons'.2 ⟨h4, h2⟩, ?_⟩
  intro x hx y hy
  have : y = b := by simpa using hy.symm
  subst this
  exact h3 x hx

/-- Well-formedness once a free block `m` with allocated neighbours has been
filed under the slot of its size, the blocks around being filed as they should. -/
theorem wf_assemble2 {s2 : State} (pre2 post2 : List Blk) (m : Blk) {fl1 : Nat → List Nat}
    (hc : Core s2 (pre2 ++ m :: post2)
      (Function.update fl1 (addfree_index 21 m.size) (m.addr :: fl1 (addfree_index 21 m.size))))
    (hm1 : ∀ i, m.addr ∉ fl1 i)
    (hkeep : ∀ c, c ∈ pre2 ++ post2 → c.alloc = false →
      c.addr ∈ fl1 (addfree_index 21 c.size))
    (hcls : ∀ i x, x ∈ fl1 i → ∀ c, c ∈ pre2 ++ post2 → c.addr = x →
      addfree_index 21 c.size = i)
    (hpre : pre2.Chain' NA) (hpost : post2.Chain' NA)
    (hl : ∀ x ∈ pre2.getLast?, x.alloc = true) (hh : ∀ y ∈ post2.head?, y.alloc = true) :
    WF s2 (pre2 ++ m :: post2)
      (Function.update fl1 (addfree_index 21 m.size)
        (m.addr :: fl1 (addfree_index 21 m.size))) := by
  refine ⟨hc, noadj_join hpre hpost (fun x hx => Or.inl (hl x hx))
    (fun y hy => Or.inr (hh y hy)), ?_, ?_⟩
  · intro i x hx c hcm hcx
    have hc2 : c ∈ pre2 ∨ c = m ∨ c ∈ post2 := by simpa using hcm
    have hcase : c = m ∨ c ∈ pre2 ++ post2 := by
      rcases hc2 with e | e | e
      · exact Or.inr (by simp [e])
      · exact Or.inl e
      · exact Or.inr (by simp [e])
    rcases hcase with e | e
    · subst e
      by_contra hne
      have hne2 : i ≠ addfree_index 21 c.size := fun e => hne e.symm
      rw [Function.update_noteq hne2] at hx
      rw [← hcx] at hx
      exact hm1 i hx
    · have hne := Chain_notin _ _ _ _ _ _ hc.chain c e
      have hx1 : x ∈ fl1 i := by
        by_cases hik : i = addfree_index 21 m.size
        · subst hik
          rw [Function.update_same] at hx
          rcases List.mem_cons.1 hx with e2 | e2
          · exact absurd (hcx.trans e2) hne
          · exact e2
        · rw [Function.update_noteq hik] at hx
          exact hx
      exact hcls i x hx1 c e hcx
  · intro c hcm hcf
    have hc2 : c ∈ pre2 ∨ c = m ∨ c ∈ post2 := by simpa using hcm
    have hcase : c = m ∨ c ∈ pre2 ++ post2 := by
      rcases hc2 with e | e | e
      · exact Or.inr (by simp [e])
      · exact Or.inl e
      · exact Or.inr (by simp [e])
    rcases hcase with e | e
    · subst e
      rw [Function.update_same]
      exact List.mem_cons_self _ _
    · have h1 := hkeep c e hcf
      by_cases hik : addfree_index 21 c.size = addfree_index 21 m.size
      · rw [hik, Function.update_same]
        rw [hik] at h1
        exact List.mem_cons_of_mem _ h1
      · rw [Function.update_noteq hik]
        exact h1

/-- The same, the blocks around being blocks of an earlier walk `bl` filed in `fl`. -/
theorem wf_assemble {s2 : State} {pre2 post2 : List Blk} (bl : List Blk) (m : Blk)
    (fl : Nat → List Nat) {fl1 : Nat → List Nat}
    (hc : Core s2 (pre2 ++ m :: post2)
      (Function.update fl1 (addfree_index 21 m.size) (m.addr :: fl1 (addfree_index 21 m.size))))
    (hsub : ∀ i x, x ∈ fl1 i → x ∈ fl i)
    (hm1 : ∀ i, m.addr ∉ fl1 i)
    (hold : ∀ c, c ∈ pre2 ++ post2 → c ∈ bl)
    (hkeep : ∀ c, c ∈ pre2 ++ post2 → c.alloc = false →
      c.addr ∈ fl1 (addfree_index 21 c.size))
    (hcls : ∀ i x, x ∈ fl i → ∀ c, c ∈ bl → c.addr = x → addfree_index 21 c.size = i)
    (hpre : pre2.Chain' NA) (hpost : post2.Chain' NA)
    (hl : ∀ x ∈ pre2.getLast?, x.alloc = true) (hh : ∀ y ∈ post2.head?, y.alloc = true) :
    WF s2 (pre2 ++ m :: post2)
      (Function.update fl1 (addfree_index 21 m.size)
        (m.addr :: fl1 (addfree_index 21 m.size))) :=
  wf_assemble2 pre2 post2 m hc hm1 hkeep
    (fun i x hx c hcm hcx => hcls i x (hsub i x hx) c (hold c hcm) hcx) hpre hpost hl hh

/-- Well-formedness once a listed free block has been taken off its list and
marked allocated, the blocks around being filed as they should. -/
theorem wf_assemble_alloc {s2 : State} (pre2 post2 : List Blk) (m : Blk) {fl1 : Nat → List Nat}
    (hc : Core s2 (pre2 ++ m :: post2) fl1) (hma : m.alloc = true)
    (hkeep : ∀ c, c ∈ pre2 ++ post2 → c.alloc = false →
      c.addr ∈ fl1 (addfree_index 21 c.size))
    (hcls : ∀ i x, x ∈ fl1 i → ∀ c, c ∈ pre2 ++ post2 → c.addr = x →
      addfree_index 21 c.size = i)
    (hpre : pre2.Chain' NA) (hpost : post2.Chain' NA) :
    WF s2 (pre2 ++ m :: post2) fl1 := by
  refine ⟨hc, noadj_join hpre hpost (fun x _ => Or.inr hma) (fun y _ => Or.inl hma), ?_, ?_⟩
  · intro i x hx c hcm hcx
    have hc2 : c ∈ pre2 ∨ c = m ∨ c ∈ post2 := by simpa using hcm
    rcases hc2 with e | e | e
    · exact hcls i x hx c (by simp [e]) hcx
    · subst e
      have := hc.node_free hx c hcm hcx
      rw [this] at hma
      exact absurd hma (by simp)
    · exact hcls i x hx c (by simp [e]) hcx
  · intro c hcm hcf
    have hc2 : c ∈ pre2 ∨ c = m ∨ c ∈ post2 := by simpa using hcm
    rcases hc2 with e | e | e
    · exact hkeep c (by simp [e]) hcf
    · subst e
      rw [hcf] at hma
      exact absurd hma (by simp)
    · exact hkeep c (by simp [e]) hcf

theorem last_alloc_of {pre2 : List Blk} {q : Blk} (h : (pre2 ++ [q]).Chain' NA)
    (hq : q.alloc = false) : ∀ x ∈ pre2.getLast?, x.alloc = true := by
  intro x hx
  have := (noadj_split h).2.2.1 x hx
  rcases this with e | e
  · exact e
  · rw [hq] at e; exact absurd e (by simp)

theorem head_alloc_of {post2 : List Blk} {r : Blk} (h : (r :: post2).Chain' NA)
    (hr : r.alloc = false) : ∀ y ∈ post2.head?, y.alloc = true := by
  intro y hy
  have := (List.chain'_cons'.1 h).1 y hy
  rcases this with e | e
  · rw [hr] at e; exact absurd e (by simp)
  · exact e

theorem even_of_free_word (b : Blk) (hf : b.alloc = false) (h8 : b.size % 8 = 0) :
    b.word % 2 = 0 := by
  unfold Blk.word
  rw [hf]
  simp only [Bool.toNat_false, Nat.add_zero]
  omega

/-- `coalesce` on a free, unlisted block of a heap that is well-formed but for
that block: the result is well-formed, the returned block is free and covers
the given one, allocated blocks are left alone. -/
theorem coalesce_wf {s : State} {pre post : List Blk} {b : Blk} {fl : Nat → List Nat}
    (h : Core s (pre ++ b :: post) fl) (hbf : b.alloc = false) (hnl : ∀ i, b.addr ∉ fl i)
    (hcls : ∀ i x, x ∈ fl i → ∀ c, c ∈ pre ++ b :: post → c.addr = x →
      addfree_index 21 c.size = i)
    (hall : ∀ c, c ∈ pre ++ post → c.alloc = false → c.addr ∈ fl (addfree_index 21 c.size))
    (npre : pre.Chain' NA) (npost : post.Chain' NA) :
    ∃ bl2 fl2 m, (coalesce s b.addr).2 = m.addr ∧ WF (coalesce s b.addr).1 bl2 fl2 ∧
      m ∈ bl2 ∧ m.alloc = false ∧ m.addr ≤ b.addr ∧ b.addr + b.size ≤ m.addr + m.size ∧
      (∀ c, c.alloc = true → (c ∈ bl2 ↔ c ∈ pre ++ b :: post)) ∧
      FreeOnly s (pre ++ b :: post) (coalesce s b.addr).1.mem ∧
      SameFields s (coalesce s b.addr).1 ∧
      read32 (coalesce s b.addr).1.mem (b.addr - 4) % 2 = 0 := by
  have hbin : b ∈ pre ++ b :: post := by simp
  have hb8 := (h.blk b hbin).2.2.2.1
  have hbh := (h.blk b hbin).2.2.2.2.2.1
  have hb24 := (h.blk b hbin).2.2.1
  -- the shape of the neighbours
  have hpc : (pre = [] ∨ ∃ pre2 q, pre = pre2 ++ [q] ∧ q.alloc = true) ∨
      (∃ pre2 q, pre = pre2 ++ [q] ∧ q.alloc = false) := by
    rcases List.eq_nil_or_concat pre with e | ⟨pre2, q, e⟩
    · exact Or.inl (Or.inl e)
    · cases hq : q.alloc
      · exact Or.inr ⟨pre2, q, by rw [e, List.concat_eq_append], hq⟩
      · exact Or.inl (Or.inr ⟨pre2, q, by rw [e, List.concat_eq_append], hq⟩)
  have hnc : (post = [] ∨ ∃ r post2, post = r :: post2 ∧ r.alloc = true) ∨
      (∃ r post2, post = r :: post2 ∧ r.alloc = false) := by
    cases post with
    | nil => exact Or.inl (Or.inl rfl)
    | cons r post2 =>
      cases hr : r.alloc
      · exact Or.inr ⟨r, post2, rfl, hr⟩
      · exact Or.inl (Or.inr ⟨r, post2, rfl, hr⟩)
  have hlastA : (pre = [] ∨ ∃ pre2 q, pre = pre2 ++ [q] ∧ q.alloc = true) →
      ∀ x ∈ pre.getLast?, x.alloc = true := by
    intro hp x hx
    rcases hp with e | ⟨pre2, q, e, hq⟩
    · subst e; simp at hx
    · subst e
      have : x = q := by simpa using hx.symm
      rw [this]; exact hq
  have hheadA : (post = [] ∨ ∃ r post2, post = r :: post2 ∧ r.alloc = true) →
      ∀ y ∈ post.head?, y.alloc = true := by
    intro hp y hy
    rcases hp with e | ⟨r, post2, e, hr⟩
    · subst e; simp at hy
    · subst e
      have : y = r := by simpa using hy.symm
      rw [this]; exact hr
  rcases hpc with hp | ⟨pre2, q, hpe, hqf⟩
  · rcases hnc with hn | ⟨r, post2, hne, hrf⟩
    · -- case 1
      have heq := coalesce_c1 h hbf hnl hp hn
      obtain ⟨hc4, hlo4⟩ := insert_core h (addfree_index_lt b.size) b hbin hbf hnl
      rw [heq]
      have hwf := wf_assemble (pre ++ b :: post) b fl hc4 (fun i x hx => hx) hnl
          (fun c hc => by
            rcases List.mem_append.1 hc with e | e
            · simp [e]
            · simp [e]) hall hcls npre npost (hlastA hp) (hheadA hn)
      refine ⟨_, _, b, rfl, hwf, hbin, hbf, le_refl _, le_refl _,
        fun c _ => Iff.rfl, hlo4.freeOnly h, SameFields.insert_at _ _ _, ?_⟩
      · have e1 : read32 (insert_at s (addfree_index 21 b.size) b.addr).mem (b.addr - 4) =
            read32 s.mem (b.addr - 4) :=
          read32_congr _ _ _ (fun x h1 h2 => hlo4.unch h b hbin x h1
            (by clear * - h2 hb24; omega) (Or.inr (Or.inl (by
              have := (h.blk b hbin).1
              clear * - h2 this; omega))))
        show read32 (insert_at s (addfree_index 21 b.size) b.addr).mem (b.addr - 4) % 2 = 0
        rw [e1, hbh]
        exact even_of_free_word b hbf hb8
    · -- case 2
      subst hne
      have hrin : r ∈ pre ++ b :: r :: post2 := by simp
      have hrj := hall r (by simp) hrf
      obtain ⟨e1, hc4, hfo, hsf⟩ := coalesce_c2 h hbf hnl hp hrf hrj
      have hwf := wf_assemble (pre ++ b :: r :: post2) ⟨b.addr, b.size + r.size, false⟩ fl hc4
          (fun i x hx => mem_update_erase hx)
          (fun i hx => hnl i (mem_update_erase hx))
          (fun c hc => by
            rcases List.mem_append.1 hc with e | e
            · simp [e]
            · simp [e]) (by
        intro c hc hcf
        refine mem_update_erase_of_ne (hall c ?_ hcf) ?_
        · rcases List.mem_append.1 hc with e | e
          · simp [e]
          · simp [e]
        · have h5 : Chain s.mem (s.mem_start_brk + 184) ((pre ++ [b]) ++ r :: post2)
              s.mem_brk := by simpa using h.chain
          refine Chain_notin _ _ _ _ _ _ h5 c ?_
          rcases List.mem_append.1 hc with e | e
          · simp [e]
          · simp [e]) hcls npre (List.Chain'.tail npost) (hlastA hp)
          (head_alloc_of npost hrf)
      refine ⟨_, _, ⟨b.addr, b.size + r.size, false⟩, e1, hwf, by simp, rfl, le_refl _,
        by show b.addr + b.size ≤ b.addr + (b.size + r.size); omega, ?_, hfo, hsf, ?_⟩
      · intro c hca
        simp only [List.mem_append, List.mem_cons]
        constructor
        · rintro (e | e | e)
          · exact Or.inl e
          · rw [e] at hca; simp at hca
          · exact Or.inr (Or.inr (Or.inr e))
        · rintro (e | e | e | e)
          · exact Or.inl e
          · rw [e, hbf] at hca; exact absurd hca (by simp)
          · rw [e, hrf] at hca; exact absurd hca (by simp)
          · exact Or.inr (Or.inr e)
      · have := (hc4.blk ⟨b.addr, b.size + r.size, false⟩ (by simp)).2.2.2.2.2.1
        have e2 : read32 (coalesce s b.addr).1.mem (b.addr - 4) =
            (⟨b.addr, b.size + r.size, false⟩ : Blk).word := this
        rw [e2]
        refine even_of_free_word _ rfl ?_
        show (b.size + r.size) % 8 = 0
        have := (h.blk r hrin).2.2.2.1
        clear * - this hb8
        omega
  · subst hpe
    have h2 : Core s (pre2 ++ q :: b :: post) fl := by simpa using h
    have hqin : q ∈ pre2 ++ q :: b :: post := by simp
    have hqj := hall q (by simp) hqf
    have hcls2 : ∀ i x, x ∈ fl i → ∀ c, c ∈ pre2 ++ q :: b :: post → c.addr = x →
        addfree_index 21 c.size = i := by
      intro i x hx c hc hcx
      exact hcls i x hx c (by simpa using hc) hcx
    have hq8 := (h2.blk q hqin).2.2.2.1
    have hadj : q.addr + q.size = b.addr := (h.prev_alloc.2 pre2 q rfl).1
    rcases hnc with hn | ⟨r, post2, hne, hrf⟩
    · -- case 3
      obtain ⟨e1, hc4, hfo, hsf, hrd⟩ := coalesce_c3 h2 hbf hnl hqf hqj hn
      have e0 : pre2 ++ [q] ++ b :: post = pre2 ++ q :: b :: post := by simp
      rw [e0]
      have hwf := wf_assemble (pre2 ++ q :: b :: post) ⟨q.addr, q.size + b.size, false⟩ fl hc4
          (fun i x hx => mem_update_erase hx)
          (fun i => h.not_mem_erase hqj i)
          (fun c hc => by
            rcases List.mem_append.1 hc with e | e
            · simp [e]
            · simp [e]) (by
        intro c hc hcf
        refine mem_update_erase_of_ne (hall c ?_ hcf) ?_
        · rcases List.mem_append.1 hc with e | e
          · simp [e]
          · simp [e]
        · refine Chain_notin _ _ _ _ _ _ h2.chain c ?_
          rcases List.mem_append.1 hc with e | e
          · simp [e]
          · simp [e]) hcls2 (List.Chain'.left_of_append npre) npost
          (last_alloc_of npre hqf) (hheadA hn)
      refine ⟨_, _, ⟨q.addr, q.size + b.size, false⟩, e1, hwf, by simp, rfl,
        by show q.addr ≤ b.addr; clear * - hadj; omega,
        by show b.addr + b.size ≤ q.addr + (q.size + b.size); clear * - hadj; omega,
        ?_, hfo, hsf, ?_⟩
      · intro c hca
        simp only [List.mem_append, List.mem_cons]
        constructor
        · rintro (e | e | e)
          · exact Or.inl e
          · rw [e] at hca; simp at hca
          · exact Or.inr (Or.inr (Or.inr e))
        · rintro (e | e | e | e)
          · exact Or.inl e
          · rw [e, hqf] at hca; exact absurd hca (by simp)
          · rw [e, hbf] at hca; exact absurd hca (by simp)
          · exact Or.inr (Or.inr e)
      · rw [hrd]; clear * - hb8; omega
    · -- case 4
      subst hne
      have h3 : Core s (pre2 ++ q :: b :: r :: post2) fl := by simpa using h
      have hrin : r ∈ pre2 ++ q :: b :: r :: post2 := by simp
      have hrj := hall r (by simp) hrf
      obtain ⟨e1, hc4, hfo, hsf, hrd⟩ := coalesce_c4 h3 hbf hnl hqf hqj hrf hrj
      obtain ⟨hc1, -⟩ := rmvll_core h3 hrj
      have hqne : q.addr ≠ r.addr := by
        have h5 : Chain s.mem (s.mem_start_brk + 184) ((pre2 ++ [q, b]) ++ r :: post2)
            s.mem_brk := by simpa using h3.chain
        exact Chain_notin _ _ _ _ _ _ h5 q (by simp)
      have hqj1 : q.addr ∈ Function.update fl (addfree_index 21 r.size)
          ((fl (addfree_index 21 r.size)).erase r.addr) (addfree_index 21 q.size) :=
        mem_update_erase_of_ne hqj hqne
      have e0 : pre2 ++ [q] ++ b :: r :: post2 = pre2 ++ q :: b :: r :: post2 := by simp
      rw [e0]
      have hr8 := (h3.blk r hrin).2.2.2.1
      have hwf := wf_assemble (pre2 ++ q :: b :: r :: post2)
          ⟨q.addr, q.size + b.size + r.size, false⟩ fl hc4
          (fun i x hx => mem_update_erase (mem_update_erase hx))
          (fun i => hc1.not_mem_erase hqj1 i)
          (fun c hc => by
            rcases List.mem_append.1 hc with e | e
            · simp [e]
            · simp [e]) (by
          intro c hc hcf
          have hcin : c ∈ pre2 ++ [q] ++ r :: post2 := by
            rcases List.mem_append.1 hc with e | e
            · simp [e]
            · simp [e]
          have hcq : c.addr ≠ q.addr := by
            refine Chain_notin _ _ _ _ _ _ h3.chain c ?_
            rcases List.mem_append.1 hc with e | e
            · simp [e]
            · simp [e]
          have hcr : c.addr ≠ r.addr := by
            have h5 : Chain s.mem (s.mem_start_brk + 184) ((pre2 ++ [q, b]) ++ r :: post2)
                s.mem_brk := by simpa using h3.chain
            refine Chain_notin _ _ _ _ _ _ h5 c ?_
            rcases List.mem_append.1 hc with e | e
            · simp [e]
            · simp [e]
          exact mem_update_erase_of_ne (mem_update_erase_of_ne (hall c hcin hcf) hcr) hcq)
          (by
          intro i x hx c hc hcx
          exact hcls i x hx c (by simpa using hc) hcx)
          (List.Chain'.left_of_append npre) (List.Chain'.tail npost)
          (last_alloc_of npre hqf) (head_alloc_of npost hrf)
      refine ⟨_, _, ⟨q.addr, q.size + b.size + r.size, false⟩, e1, hwf, by simp, rfl,
        by show q.addr ≤ b.addr; clear * - hadj; omega,
        by show b.addr + b.size ≤ q.addr + (q.size + b.size + r.size); clear * - hadj; omega,
        ?_, hfo, hsf, ?_⟩
      · intro c hca
        simp only [List.mem_append, List.mem_cons]
        constructor
        · rintro (e | e | e)
          · exact Or.inl e
          · rw [e] at hca; simp at hca
          · exact Or.inr (Or.inr (Or.inr (Or.inr e)))
        · rintro (e | e | e | e | e)
          · exact Or.inl e
          · rw [e, hqf] at hca; exact absurd hca (by simp)
          · rw [e, hbf] at hca; exact absurd hca (by simp)
          · rw [e, hrf] at hca; exact absurd hca (by simp)
          · exact Or.inr (Or.inr e)
      · rw [hrd]; clear * - hb8; omega

/-! ## `mm_free` -/

/-- A change confined to free blocks and the table leaves every allocated block alone. -/
theorem FreeOnly.keep {s : State} {bl : List Blk} {fl : Nat → List Nat} {m2 : Mem}
    (h : Core s bl fl) (hfo : FreeOnly s bl m2) (c : Blk) (hc : c ∈ bl) (hca : c.alloc = true)
    (a : Nat) (ha1 : c.addr - 4 ≤ a) (ha2 : a < c.addr + c.size - 4) : m2 a = s.mem a := by
  have hc1 := (h.blk c hc).1
  have hc3 := (h.blk c hc).2.2.1
  refine hfo a (by clear * - hc1 ha1; omega) ?_
  intro d hd hdf
  have hd3 := (h.blk d hd).2.2.1
  have hd1 := (h.blk d hd).1
  rcases Chain_disj s.mem bl _ _ h.chain c d hc hd with e | e | e
  · rw [e, hdf] at hca; exact absurd hca (by simp)
  · clear * - e ha2 hd1; omega
  · clear * - e ha1 hc1 hd3; omega

/-- Marking an allocated block free. -/
theorem mark_free_core {s : State} {pre post : List Blk} {b : Blk} {fl : Nat → List Nat}
    (h : Core s (pre ++ b :: post) fl) (hba : b.alloc = true) :
    Core (s.setMem (tag s.mem b.addr b.size false)) (pre ++ ⟨b.addr, b.size, false⟩ :: post) fl ∧
    (∀ i, b.addr ∉ fl i) := by
  have hbin : b ∈ pre ++ b :: post := by simp
  have hnl : ∀ i, b.addr ∉ fl i := by
    intro i hx
    have := h.node_free hx b hbin rfl
    rw [this] at hba
    exact absurd hba (by simp)
  have h2 : Core s (pre ++ [b] ++ post) fl := by simpa using h
  obtain ⟨a, e, g1, g2, g3⟩ := h2.split3
  have g2c := g2
  obtain ⟨ga, g24, g8, -, -, ge⟩ := g2c
  have ge2 : a + b.size = e := ge
  subst ge2
  subst ga
  have := retag1 h2 b.addr b.size false g1 g2 g3 g24 g8 (by
    intro i x hx c hc hcx
    have e1 : c = b := by simpa using hc
    subst e1
    exact absurd (hcx ▸ hx) (hnl i))
  exact ⟨by simpa using this, hnl⟩

/-- What `mm_free` computes on an allocated block of the walk. -/
theorem mm_free_eq {s : State} {pre post : List Blk} {b : Blk} {fl : Nat → List Nat}
    (h : Core s (pre ++ b :: post) fl) (hba : b.alloc = true) :
    mm_free s b.addr = (coalesce (s.setMem (tag s.mem b.addr b.size false)) b.addr).1 := by
  have hbin : b ∈ pre ++ b :: post := by simp
  have hl := h.lt64
  have hL := h.base_pos
  obtain ⟨hb1, hb2, hb3, hb4, -, -, -⟩ := h.blk b hbin
  obtain ⟨hbH, hbS, hbA, -, -, -, -, hb32⟩ := h.macros b hbin
  have hal : allocated s b.addr = 1 := by
    unfold allocated
    rw [hbH, hbA, hba]
    simp
  have hin : in_heap s b.addr = 1 := by
    unfold in_heap mem_heap_hi mem_heap_lo
    rw [sub64_eq _ _ (by clear * - hb1 hb2; omega) (by clear * - hl; omega)]
    rw [if_pos (by clear * - hb1 hb2 hb3; omega)]
  have hF : FTRP (write32 s.mem (b.addr - 4) b.size) b.addr = b.addr + b.size - 8 := by
    refine FTRP_eq _ _ _ (by clear * - hb1; omega) ?_ (by clear * - hb1; omega)
      (by clear * - hb2 hl; omega)
    rw [GET_SIZE_val _ _ _ (read32_write32_same _ _ _)]
    clear * - hb4 hb32
    omega
  unfold mm_free
  rw [if_neg (by rw [hal, hin]; simp)]
  simp only [hbH, hbS, PACK_zero, put32_eq, setMem_mem, setMem_setMem, hF, tag,
    Bool.toNat_false, Nat.add_zero]

/-- `mm_free` on an allocated block of a well-formed heap. -/
theorem free_spec {s : State} {pre post : List Blk} {b : Blk} {fl : Nat → List Nat}
    (h : WF s (pre ++ b :: post) fl) (hba : b.alloc = true) :
    ∃ bl2 fl2, WF (mm_free s b.addr) bl2 fl2 ∧
      (∀ c, c.alloc = true → (c ∈ bl2 ↔ c ∈ pre ++ post)) ∧
      (∀ c, c ∈ pre ++ post → c.alloc = true → ∀ a, c.addr - 4 ≤ a →
        a < c.addr + c.size - 4 → (mm_free s b.addr).mem a = s.mem a) ∧
      SameFields s (mm_free s b.addr) ∧
      GET_ALLOC (mm_free s b.addr).mem (HDRP b.addr) = 0 := by
  have hbin : b ∈ pre ++ b :: post := by simp
  obtain ⟨hc2, hnl⟩ := mark_free_core h.core hba
  obtain ⟨npre, npost, -, -⟩ := noadj_split h.noadj
  have hb1 := (h.core.blk b hbin).1
  have hb3 := (h.core.blk b hbin).2.2.1
  have hl := h.core.lt64
  obtain ⟨bl2, fl2, m, -, hwf, -, -, -, -, hal, hfo, hsf, hrd⟩ :=
    coalesce_wf hc2 rfl hnl (by
      intro i x hx c hc hcx
      have hc3 : c ∈ pre ∨ c = ⟨b.addr, b.size, false⟩ ∨ c ∈ post := by simpa using hc
      rcases hc3 with e | e | e
      · exact h.fl_class i x hx c (by simp [e]) hcx
      · subst e
        exact absurd (hcx ▸ hx) (hnl i)
      · exact h.fl_class i x hx c (by simp [e]) hcx)
      (by
        intro c hc hcf
        refine h.fl_all c ?_ hcf
        rcases List.mem_append.1 hc with e | e
        · simp [e]
        · simp [e]) npre npost
  rw [mm_free_eq h.core hba]
  refine ⟨bl2, fl2, hwf, ?_, ?_, (SameFields.setMem _ _).trans hsf, ?_⟩
  · intro c hca
    rw [hal c hca]
    simp only [List.mem_append, List.mem_cons]
    constructor
    · rintro (e | e | e)
      · exact Or.inl e
      · rw [e] at hca; simp at hca
      · exact Or.inr e
    · rintro (e | e)
      · exact Or.inl e
      · exact Or.inr (Or.inr e)
  · intro c hc hca a ha1 ha2
    have hcin : c ∈ pre ++ ⟨b.addr, b.size, false⟩ :: post := by
      rcases List.mem_append.1 hc with e | e
      · simp [e]
      · simp [e]
    have hcin2 : c ∈ pre ++ b :: post := by
      rcases List.mem_append.1 hc with e | e
      · simp [e]
      · simp [e]
    rw [hfo.keep hc2 c hcin hca a ha1 ha2]
    show tag s.mem b.addr b.size false a = s.mem a
    have hne : c ≠ b := by
      intro e
      have := Chain_notin _ _ _ _ _ _ h.core.chain c hc
      exact this (by rw [e])
    have hc3 := (h.core.blk c hcin2).2.2.1
    refine tag_out _ _ _ _ _ (by clear * - hb1; omega) (by clear * - hb3; omega) ?_
    rcases Chain_disj s.mem _ _ _ h.core.chain c b hcin2 hbin with e | e | e
    · exact absurd e hne
    · left; clear * - e ha2 hc3; omega
    · right; right; clear * - e ha1 hb3; omega
  · rw [HDRP_eq _ (by clear * - hb1; omega) (by
      have := (h.core.blk b hbin).2.1
      clear * - this hl; omega)]
    rw [GET_ALLOC_val _ _ _ rfl]
    have e1 : (coalesce (s.setMem (tag s.mem b.addr b.size false))
        (⟨b.addr, b.size, false⟩ : Blk).addr).1 =
        (coalesce (s.setMem (tag s.mem b.addr b.size false)) b.addr).1 := rfl
    rw [← e1]
    exact hrd

/-! ## `place` -/

/-- The core invariant after a run of unlisted blocks has been rewritten as two blocks. -/
theorem retag2 {s : State} {pre mid post : List Blk} {fl : Nat → List Nat}
    (h : Core s (pre ++ mid ++ post) fl) (a s1 s2 : Nat) (al1 al2 : Bool)
    (hpre : Chain s.mem (s.mem_start_brk + 184) pre a)
    (_hmid : Chain s.mem a mid (a + (s1 + s2)))
    (hpost : Chain s.mem (a + (s1 + s2)) post s.mem_brk)
    (h1 : 24 ≤ s1) (h18 : s1 % 8 = 0) (h2 : 24 ≤ s2) (h28 : s2 % 8 = 0)
    (hn : ∀ i x, x ∈ fl i → ∀ c, c ∈ mid → c.addr ≠ x) :
    Core (s.setMem (tag (tag s.mem a s1 al1) (a + s1) s2 al2))
      (pre ++ [⟨a, s1, al1⟩, ⟨a + s1, s2, al2⟩] ++ post) fl := by
  have ha : s.mem_start_brk + 184 ≤ a := Chain_le _ _ _ _ hpre
  have he : a + (s1 + s2) ≤ s.mem_brk := Chain_le _ _ _ _ hpost
  have hl := h.lt64
  have hal1 := toNat_le_one al1
  have hal2 := toNat_le_one al2
  refine retag_core h _ _ a (a + (s1 + s2)) hpre hpost ?_ ?_ ?_
  · refine ⟨rfl, h1, h18, ?_, ?_, rfl, h2, h28, ?_, ?_, ?_⟩
    · show read32 (tag (tag s.mem a s1 al1) (a + s1) s2 al2) (a - 4) = s1 + al1.toNat
      unfold tag
      rw [read32_write32_ne _ _ _ _ (by clear * - h1 h2 ha; omega),
        read32_write32_ne _ _ _ _ (by clear * - h1 h2 ha; omega),
        read32_write32_ne _ _ _ _ (by clear * - h1 h2 ha; omega), read32_write32_same]
      clear * - he hl hal1 ha
      omega
    · show read32 (tag (tag s.mem a s1 al1) (a + s1) s2 al2) (a + s1 - 8) = s1 + al1.toNat
      unfold tag
      rw [read32_write32_ne _ _ _ _ (by clear * - h1 h2 ha; omega),
        read32_write32_ne _ _ _ _ (by clear * - h1 h2 ha; omega), read32_write32_same]
      clear * - he hl hal1 ha
      omega
    · show read32 (tag (tag s.mem a s1 al1) (a + s1) s2 al2) (a + s1 - 4) = s2 + al2.toNat
      unfold tag
      rw [read32_write32_ne _ _ _ _ (by clear * - h1 h2 ha; omega), read32_write32_same]
      clear * - he hl hal2 ha
      omega
    · show read32 (tag (tag s.mem a s1 al1) (a + s1) s2 al2) (a + s1 + s2 - 8) = s2 + al2.toNat
      unfold tag
      rw [read32_write32_same]
      clear * - he hl hal2 ha
      omega
    · show a + s1 + s2 = a + (s1 + s2)
      omega
  · intro x hx
    rw [tag_out _ _ _ _ _ (by clear * - ha; omega) (by clear * - h2; omega)
      (by clear * - hx h1 h2 ha; omega),
      tag_out _ _ _ _ _ (by clear * - ha; omega) (by clear * - h1; omega)
      (by clear * - hx h1 h2 ha; omega)]
  · intro i x hx c hc hcx
    exact absurd hcx (hn i x hx c hc)

/-- What `place` computes when it splits the block. -/
theorem place_split_eq {s : State} {pre post : List Blk} {b : Blk} {fl : Nat → List Nat}
    (h : Core s (pre ++ b :: post) fl) (asize : Nat) (h24 : 24 ≤ asize) (h8 : asize % 8 = 0)
    (hle : asize + 24 ≤ b.size) :
    place s b.addr asize =
      insert_at ((rmvll s b.addr).setMem
          (tag (tag (rmvll s b.addr).mem b.addr asize true) (b.addr + asize)
            (b.size - asize) false))
        (addfree_index 21 (b.size - asize)) (b.addr + asize) := by
  have hbin : b ∈ pre ++ b :: post := by simp
  have hl := h.lt64
  have hL := h.base_pos
  obtain ⟨hb1, hb2, -, hb4, -, -, -⟩ := h.blk b hbin
  obtain ⟨hbH, hbS, -, -, -, -, -, hb32⟩ := h.macros b hbin
  have hsub : sub64 b.size asize = b.size - asize :=
    sub64_eq _ _ (by clear * - hle; omega) (by clear * - hb32; omega)
  have hP : PACK asize 1 = asize + 1 := PACK_one _ h8
  have hF1 : FTRP (write32 (rmvll s b.addr).mem (b.addr - 4) (asize + 1)) b.addr =
      b.addr + asize - 8 := by
    refine FTRP_eq _ _ _ (by clear * - hb1; omega) ?_ (by clear * - hb1; omega)
      (by clear * - hb2 hl hle; omega)
    rw [GET_SIZE_val _ _ _ (read32_write32_same _ _ _)]
    clear * - h8 hle hb32
    omega
  have hN : NEXT_BLKP (write32 (write32 (rmvll s b.addr).mem (b.addr - 4) (asize + 1))
      (b.addr + asize - 8) (asize + 1)) b.addr = b.addr + asize := by
    refine NEXT_BLKP_eq _ _ _ (by clear * - hb1; omega) ?_ (by clear * - hb2 hl hle; omega)
    rw [GET_SIZE_val _ _ _ ((read32_write32_ne _ _ _ _ (by clear * - h24 hb1; omega)).trans
      (read32_write32_same _ _ _))]
    clear * - h8 hle hb32
    omega
  have hH2 : HDRP (b.addr + asize) = b.addr + asize - 4 :=
    HDRP_eq _ (by clear * - hb1; omega) (by clear * - hb2 hl hle; omega)
  have hF2 : FTRP (write32 (write32 (write32 (rmvll s b.addr).mem (b.addr - 4) (asize + 1))
      (b.addr + asize - 8) (asize + 1)) (b.addr + asize - 4) (b.size - asize))
      (b.addr + asize) = b.addr + asize + (b.size - asize) - 8 := by
    refine FTRP_eq _ _ _ (by clear * - hb1; omega) ?_ (by clear * - hb1; omega)
      (by clear * - hb2 hl hle; omega)
    rw [GET_SIZE_val _ _ _ (read32_write32_same _ _ _)]
    clear * - h8 hle hb32 hb4
    omega
  have har : (rmvll s b.addr).arrsize = 21 := by
    rw [(rmvll_fields s b.addr).2.2.2.2.1, h.arrsize_eq]
  unfold place
  simp only [hbH, hbS, hsub]
  rw [if_pos (by show 24 ≤ b.size - asize; clear * - hle; omega)]
  unfold place_split
  simp only [hbH, hbS, hsub, hP, PACK_zero, put32_eq, setMem_mem, setMem_setMem, hF1, hN, hH2,
    hF2, addfree, setMem_fields, har, Bool.toNat_false, Bool.toNat_true, Nat.add_zero, tag]

/-- What `place` computes when it takes the whole block. -/
theorem place_whole_eq {s : State} {pre post : List Blk} {b : Blk} {fl : Nat → List Nat}
    (h : Core s (pre ++ b :: post) fl) (asize : Nat) (hle : asize ≤ b.size)
    (hlt : b.size < asize + 24) :
    place s b.addr asize = (rmvll s b.addr).setMem (tag (rmvll s b.addr).mem b.addr b.size true) := by
  have hbin : b ∈ pre ++ b :: post := by simp
  have hl := h.lt64
  have hL := h.base_pos
  obtain ⟨hb1, hb2, hb3, hb4, -, -, -⟩ := h.blk b hbin
  obtain ⟨hbH, hbS, -, -, -, -, -, hb32⟩ := h.macros b hbin
  have hsub : sub64 b.size asize = b.size - asize :=
    sub64_eq _ _ hle (by clear * - hb32; omega)
  have hP : PACK b.size 1 = b.size + 1 := PACK_one _ hb4
  have hF1 : FTRP (write32 (rmvll s b.addr).mem (b.addr - 4) (b.size + 1)) b.addr =
      b.addr + b.size - 8 := by
    refine FTRP_eq _ _ _ (by clear * - hb1; omega) ?_ (by clear * - hb1; omega)
      (by clear * - hb2 hl; omega)
    rw [GET_SIZE_val _ _ _ (read32_write32_same _ _ _)]
    clear * - hb4 hb32
    omega
  unfold place
  simp only [hbH, hbS, hsub]
  rw [if_neg (by show ¬ 24 ≤ b.size - asize; clear * - hlt; omega)]
  unfold place_whole
  simp only [hbH, hbS, hP, put32_eq, setMem_mem, setMem_setMem, hF1, Bool.toNat_true, tag]

theorem noadj_snoc {pre : List Blk} {a : Blk} (h : pre.Chain' NA) (ha : a.alloc = true) :
    (pre ++ [a]).Chain' NA := by
  refine List.chain'_append.2 ⟨h, List.chain'_singleton a, ?_⟩
  intro x _ y hy
  have : y = a := by simpa using hy.symm
  subst this
  exact Or.inr ha

theorem getLast_snoc_alloc {pre : List Blk} {a : Blk} (ha : a.alloc = true) :
    ∀ x ∈ (pre ++ [a]).getLast?, x.alloc = true := by
  intro x hx
  rw [List.getLast?_append] at hx
  have : x = a := by simpa using hx.symm
  rw [this]; exact ha

/-- The split branch of `place` on a free block of a well-formed heap. -/
theorem place_split_spec {s : State} {pre post : List Blk} {b : Blk} {fl : Nat → List Nat}
    (h : WF s (pre ++ b :: post) fl) (hbf : b.alloc = false)
    (asize : Nat) (h24 : 24 ≤ asize) (h8 : asize % 8 = 0) (hle : asize + 24 ≤ b.size) :
    ∃ fl2, WF (place s b.addr asize)
      (pre ++ ⟨b.addr, asize, true⟩ :: ⟨b.addr + asize, b.size - asize, false⟩ :: post) fl2 ∧
      (∀ i x, x ∈ fl2 i → x = b.addr + asize ∨ (x ∈ fl i ∧ x ≠ b.addr)) ∧
      FreeOnly s (pre ++ b :: post) (place s b.addr asize).mem ∧
      SameFields s (place s b.addr asize) := by
  have hc := h.core
  have hbin : b ∈ pre ++ b :: post := by simp
  have hbj := h.fl_all b hbin hbf
  rw [place_split_eq hc asize h24 h8 hle]
  obtain ⟨hc1, hlo1⟩ := rmvll_core hc hbj
  have hfo1 := hlo1.freeOnly hc
  have hc1b : Core (rmvll s b.addr) (pre ++ [b] ++ post)
      (Function.update fl (addfree_index 21 b.size)
        ((fl (addfree_index 21 b.size)).erase b.addr)) := by simpa using hc1
  obtain ⟨a, e, g1, g2, g3⟩ := hc1b.split3
  have g2c := g2
  obtain ⟨ga, gb24, gb8, -, -, ge⟩ := g2c
  have ge2 : a + (asize + (b.size - asize)) = e := by
    have ge3 : a + b.size = e := ge
    clear * - ge3 hle
    omega
  subst ge2
  subst ga
  have hL1 : (rmvll s b.addr).mem_start_brk = s.mem_start_brk := (rmvll_fields s b.addr).1
  have hc3 := retag2 hc1b b.addr asize (b.size - asize) true false g1 g2 g3 h24 h8
    (by clear * - hle; omega) (by clear * - h8 gb8; omega) (by
    intro i x hx c hc2 hcx
    have e1 : c = b := by simpa using hc2
    subst e1
    rw [← hcx] at hx
    exact hc.not_mem_erase hbj i hx)
  obtain ⟨hb1, hb2, hb3, hb4, -, -, -⟩ := hc.blk b hbin
  have hnl3 : ∀ i, (⟨b.addr + asize, b.size - asize, false⟩ : Blk).addr ∉
      Function.update fl (addfree_index 21 b.size)
        ((fl (addfree_index 21 b.size)).erase b.addr) i := by
    intro i hx
    have hx2 := mem_update_erase hx
    obtain ⟨c, hcm, hcx, -⟩ := hc.fl_free i _ hx2
    have hc3 := (hc.blk c hcm).2.2.1
    have hcx2 : c.addr = b.addr + asize := hcx
    rcases Chain_disj s.mem _ _ _ hc.chain c b hcm hbin with e1 | e1 | e1
    · rw [e1] at hcx2
      clear * - hcx2 h24
      omega
    · clear * - e1 hcx2 hc3
      omega
    · clear * - e1 hcx2 hle
      omega
  obtain ⟨hc4, hlo4⟩ := insert_core hc3 (addfree_index_lt (b.size - asize))
    ⟨b.addr + asize, b.size - asize, false⟩ (by simp) rfl hnl3
  have hsp := noadj_split h.noadj
  have hwf := wf_assemble2 (pre ++ [⟨b.addr, asize, true⟩]) post
    ⟨b.addr + asize, b.size - asize, false⟩ (by simpa using hc4) hnl3
    (by
      intro c hcm hcf
      have hc2 : c ∈ pre ∨ c = ⟨b.addr, asize, true⟩ ∨ c ∈ post := by simpa using hcm
      have hc5 : c ∈ pre ++ post := by
        rcases hc2 with e1 | e1 | e1
        · simp [e1]
        · rw [e1] at hcf; simp at hcf
        · simp [e1]
      have hne := Chain_notin _ _ _ _ _ _ hc.chain c hc5
      have hin : c ∈ pre ++ b :: post := by
        rcases List.mem_append.1 hc5 with e1 | e1
        · simp [e1]
        · simp [e1]
      exact mem_update_erase_of_ne (h.fl_all c hin hcf) hne)
    (by
      intro i x hx c hcm hcx
      have hc2 : c ∈ pre ∨ c = ⟨b.addr, asize, true⟩ ∨ c ∈ post := by simpa using hcm
      have hx2 := mem_update_erase hx
      rcases hc2 with e1 | e1 | e1
      · exact h.fl_class i x hx2 c (by simp [e1]) hcx
      · exfalso
        rw [e1] at hcx
        have hcx2 : b.addr = x := hcx
        rw [← hcx2] at hx
        exact hc.not_mem_erase hbj i hx
      · exact h.fl_class i x hx2 c (by simp [e1]) hcx)
    (noadj_snoc hsp.1 rfl) hsp.2.1 (getLast_snoc_alloc rfl)
    (by
      intro y hy
      rcases hsp.2.2.2 y hy with e1 | e1
      · rw [hbf] at e1; exact absurd e1 (by simp)
      · exact e1)
  refine ⟨_, by simpa using hwf, ?_, ?_, ?_⟩
  · intro i x hx
    by_cases hik : i = addfree_index 21 (b.size - asize)
    · subst hik
      rw [Function.update_same] at hx
      rcases List.mem_cons.1 hx with e1 | e1
      · exact Or.inl e1
      · refine Or.inr ⟨mem_update_erase e1, fun e2 => ?_⟩
        rw [e2] at e1
        exact hc.not_mem_erase hbj _ e1
    · rw [Function.update_noteq hik] at hx
      refine Or.inr ⟨mem_update_erase hx, fun e2 => ?_⟩
      rw [e2] at hx
      exact hc.not_mem_erase hbj _ hx
  · intro x hx hfree
    have fb := hfree b hbin hbf
    have e4 : (insert_at ((rmvll s b.addr).setMem
        (tag (tag (rmvll s b.addr).mem b.addr asize true) (b.addr + asize)
          (b.size - asize) false))
        (addfree_index 21 (b.size - asize)) (b.addr + asize)).mem x =
        (tag (tag (rmvll s b.addr).mem b.addr asize true) (b.addr + asize)
          (b.size - asize) false) x := by
      refine hlo4 x (by rw [(setMem_fields _ _).1, hL1]; exact hx) ?_
      intro c hcm hcf
      have hc2 : c ∈ pre ∨ c = ⟨b.addr, asize, true⟩ ∨
          c = ⟨b.addr + asize, b.size - asize, false⟩ ∨ c ∈ post := by
        simpa using hcm
      rcases hc2 with e1 | e1 | e1 | e1
      · have := hfree c (by simp [e1]) hcf
        have := (hc.blk c (by simp [e1])).2.2.1
        omega
      · rw [e1] at hcf; simp at hcf
      · subst e1
        show ¬ (b.addr + asize ≤ x ∧ x < b.addr + asize + 16)
        clear * - fb hle hb1
        omega
      · have := hfree c (by simp [e1]) hcf
        have := (hc.blk c (by simp [e1])).2.2.1
        omega
    rw [e4, tag_out _ _ _ _ _ (by clear * - hb1; omega) (by clear * - hle; omega)
      (by clear * - fb hle hb1 h24; omega),
      tag_out _ _ _ _ _ (by clear * - hb1; omega) (by clear * - h24; omega)
      (by clear * - fb hle hb1 h24; omega)]
    exact hfo1 x hx hfree
  · exact ((SameFields.rmvll s b.addr).trans (SameFields.setMem _ _)).trans
      (SameFields.insert_at _ _ _)

/-- The other branch of `place` on a free block of a well-formed heap. -/
theorem place_whole_spec {s : State} {pre post : List Blk} {b : Blk} {fl : Nat → List Nat}
    (h : WF s (pre ++ b :: post) fl) (hbf : b.alloc = false)
    (asize : Nat) (hle : asize ≤ b.size) (hlt : b.size < asize + 24) :
    ∃ fl2, WF (place s b.addr asize) (pre ++ ⟨b.addr, b.size, true⟩ :: post) fl2 ∧
      (∀ i x, x ∈ fl2 i → (x ∈ fl i ∧ x ≠ b.addr)) ∧
      FreeOnly s (pre ++ b :: post) (place s b.addr asize).mem ∧
      SameFields s (place s b.addr asize) := by
  have hc := h.core
  have hbin : b ∈ pre ++ b :: post := by simp
  have hbj := h.fl_all b hbin hbf
  rw [place_whole_eq hc asize hle hlt]
  obtain ⟨hc1, hlo1⟩ := rmvll_core hc hbj
  have hfo1 := hlo1.freeOnly hc
  have hc1b : Core (rmvll s b.addr) (pre ++ [b] ++ post)
      (Function.update fl (addfree_index 21 b.size)
        ((fl (addfree_index 21 b.size)).erase b.addr)) := by simpa using hc1
  obtain ⟨a, e, g1, g2, g3⟩ := hc1b.split3
  have g2c := g2
  obtain ⟨ga, gb24, gb8, -, -, ge⟩ := g2c
  have ge2 : a + b.size = e := ge
  subst ge2
  subst ga
  have hc3 := retag1 hc1b b.addr b.size true g1 g2 g3 gb24 gb8 (by
    intro i x hx c hc2 hcx
    exfalso
    have e1 : c = b := by simpa using hc2
    subst e1
    rw [← hcx] at hx
    exact hc.not_mem_erase hbj i hx)
  obtain ⟨hb1, hb2, hb3, hb4, -, -, -⟩ := hc.blk b hbin
  have hsp := noadj_split h.noadj
  have hwf := wf_assemble_alloc pre post ⟨b.addr, b.size, true⟩
    (by simpa using hc3) rfl
    (by
      intro c hc5 hcf
      have hne := Chain_notin _ _ _ _ _ _ hc.chain c hc5
      have hin : c ∈ pre ++ b :: post := by
        rcases List.mem_append.1 hc5 with e1 | e1
        · simp [e1]
        · simp [e1]
      exact mem_update_erase_of_ne (h.fl_all c hin hcf) hne)
    (by
      intro i x hx c hc5 hcx
      have hin : c ∈ pre ++ b :: post := by
        rcases List.mem_append.1 hc5 with e1 | e1
        · simp [e1]
        · simp [e1]
      exact h.fl_class i x (mem_update_erase hx) c hin hcx)
    hsp.1 hsp.2.1
  refine ⟨_, hwf, ?_, ?_, ?_⟩
  · intro i x hx
    refine ⟨mem_update_erase hx, fun e2 => ?_⟩
    rw [e2] at hx
    exact hc.not_mem_erase hbj _ hx
  · intro x hx hfree
    have fb := hfree b hbin hbf
    show tag (rmvll s b.addr).mem b.addr b.size true x = s.mem x
    rw [tag_out _ _ _ _ _ (by clear * - hb1; omega) (by clear * - hb3; omega)
      (by clear * - fb hb1 hb3; omega)]
    exact hfo1 x hx hfree
  · exact (SameFields.rmvll s b.addr).trans (SameFields.setMem _ _)

/-! ## `extend_heap` -/

/-- The byte count `extend_heap` derives from a word count that is a quarter of
a multiple of 8. -/
theorem extend_size (esz : Nat) (h8 : esz % 8 = 0) (h64 : esz < 18446744073709551616) :
    (if (esz / 4) % 2 ≠ 0 then mul64 (add64 (esz / 4) 1) WSIZE else mul64 (esz / 4) WSIZE) =
      esz := by
  rw [if_neg (by omega)]
  unfold mul64 WSIZE
  omega

/-- When the arena cannot grow, `extend_heap` returns `NULL` and changes nothing. -/
theorem extend_heap_fail (s : State) (esz : Nat) (h8 : esz % 8 = 0)
    (h64 : esz < 18446744073709551616) (hgt : s.mem_max_addr < s.mem_brk + esz) :
    extend_heap s (esz / 4) = (s, 0) := by
  unfold extend_heap
  simp only [extend_size esz h8 h64]
  unfold mem_sbrk
  rw [if_pos hgt]
  simp

/-- The core invariant once the arena has grown by a free block of `esz` bytes
written over the old epilogue, with a new epilogue behind it. -/
theorem grow_core {s s5 : State} {bl : List Blk} {fl : Nat → List Nat} (h : Core s bl fl)
    (esz : Nat) (h24 : 24 ≤ esz) (h8 : esz % 8 = 0) (hmax : s.mem_brk + esz ≤ s.mem_max_addr)
    (hmem : s5.mem = write32 (tag s.mem s.mem_brk esz false) (s.mem_brk + esz - 4) 1)
    (f1 : s5.mem_start_brk = s.mem_start_brk) (f2 : s5.mem_brk = s.mem_brk + esz)
    (f3 : s5.mem_max_addr = s.mem_max_addr) (f4 : s5.grouparr = s.grouparr)
    (f5 : s5.arrsize = s.arrsize) (f6 : s5.heap_listp = s.heap_listp) :
    Core s5 (bl ++ [⟨s.mem_brk, esz, false⟩]) fl ∧
    (∀ a, a < s.mem_brk - 4 → s5.mem a = s.mem a) := by
  have hbrk := h.brk_al.2
  have hm1 := h.max_lt
  have hm2 := h.max_lt64
  have hfr : ∀ a, a < s.mem_brk - 4 → s5.mem a = s.mem a := by
    intro a ha
    rw [hmem, write32_out _ _ _ _ (by clear * - ha h24; omega),
      tag_out _ _ _ _ _ (by clear * - hbrk; omega) (by clear * - h24; omega) (Or.inl ha)]
  refine ⟨?_, hfr⟩
  refine
    { base_pos := by rw [f1]; exact h.base_pos
      max_lt := by rw [f1, f3]; exact h.max_lt
      max_lt64 := by rw [f3]; exact h.max_lt64
      brk_le := by rw [f2, f3]; exact hmax
      grouparr_eq := by rw [f4, f1]; exact h.grouparr_eq
      arrsize_eq := by rw [f5]; exact h.arrsize_eq
      hl_eq := by rw [f6, f1]; exact h.hl_eq
      pro_hdr := ?_
      pro_ftr := ?_
      chain := ?_
      epi := ?_
      flist := ?_
      fl_out := h.fl_out
      fl_nodup := h.fl_nodup
      fl_disj := h.fl_disj
      fl_free := ?_ }
  · rw [f1, ← h.pro_hdr]
    exact read32_congr _ _ _ (fun x h1 h2 => hfr x (by clear * - h2 hbrk; omega))
  · rw [f1, ← h.pro_ftr]
    exact read32_congr _ _ _ (fun x h1 h2 => hfr x (by clear * - h2 hbrk; omega))
  · rw [f1, f2]
    refine (Chain_append _ _ _ _ _).2 ⟨s.mem_brk, ?_, ?_⟩
    · refine Chain_congr s.mem _ bl _ _ h.chain ?_
      intro b hb
      have hb1 := h.blk b hb
      obtain ⟨hb2, hb3, hb4, -⟩ := hb1
      exact ⟨read32_congr _ _ _ (fun x h1 h2 => hfr x (by clear * - h2 hb2 hb3 hb4; omega)),
        read32_congr _ _ _ (fun x h1 h2 => hfr x (by clear * - h2 hb2 hb3 hb4; omega))⟩
    · refine ⟨rfl, h24, h8, ?_, ?_, rfl⟩
      · show read32 s5.mem (s.mem_brk - 4) = esz + 0
        rw [hmem]
        unfold tag
        rw [read32_write32_ne _ _ _ _ (by clear * - h24 hbrk; omega),
          read32_write32_ne _ _ _ _ (by clear * - h24 hbrk; omega), read32_write32_same]
        simp only [Bool.toNat_false, Nat.add_zero]
        clear * - hmax hm1 hbrk
        omega
      · show read32 s5.mem (s.mem_brk + esz - 8) = esz + 0
        rw [hmem]
        unfold tag
        rw [read32_write32_ne _ _ _ _ (by clear * - h24 hbrk; omega), read32_write32_same]
        simp only [Bool.toNat_false, Nat.add_zero]
        clear * - hmax hm1 hbrk
        omega
  · rw [f2, hmem, read32_write32_same]
  · intro i hi
    rw [f1]
    refine FList_congr s.mem _ _ _ (h.flist i hi) ?_ ?_
    · exact read64_congr _ _ _ (fun x h1 h2 => hfr x (by clear * - h2 hbrk hi; omega))
    · intro x hx
      have hn := h.node_bd hx
      exact ⟨read64_congr _ _ _ (fun y h1 h2 => hfr y (by clear * - h2 hn; omega)),
        read64_congr _ _ _ (fun y h1 h2 => hfr y (by clear * - h2 hn; omega))⟩
  · intro i x hx
    obtain ⟨b, hb, hbx, hbf⟩ := h.fl_free i x hx
    exact ⟨b, by simp [hb], hbx, hbf⟩

/-- What `extend_heap` computes when the arena can grow. -/
theorem extend_heap_eq {s : State} {bl : List Blk} {fl : Nat → List Nat} (h : Core s bl fl)
    (esz : Nat) (h24 : 24 ≤ esz) (h8 : esz % 8 = 0) (hle : s.mem_brk + esz ≤ s.mem_max_addr) :
    ∃ s5, extend_heap s (esz / 4) = coalesce s5 s.mem_brk ∧
      s5.mem = write32 (tag s.mem s.mem_brk esz false) (s.mem_brk + esz - 4) 1 ∧
      s5.mem_start_brk = s.mem_start_brk ∧ s5.mem_brk = s.mem_brk + esz ∧
      s5.mem_max_addr = s.mem_max_addr ∧ s5.grouparr = s.grouparr ∧
      s5.arrsize = s.arrsize ∧ s5.heap_listp = s.heap_listp ∧ s5.lo = s.lo ∧
      s5.hi = s.mem_brk + esz - 1 := by
  have hbrk := h.brk_al.2
  have hm1 := h.max_lt
  have hm2 := h.max_lt64
  have hl := h.lt64
  have h64 : esz < 18446744073709551616 := by clear * - hle hm2; omega
  have hH : HDRP s.mem_brk = s.mem_brk - 4 :=
    HDRP_eq _ (by clear * - hbrk; omega) (by clear * - hl; omega)
  have hF : FTRP (write32 s.mem (s.mem_brk - 4) esz) s.mem_brk = s.mem_brk + esz - 8 := by
    refine FTRP_eq _ _ _ (by clear * - hbrk; omega) ?_ (by clear * - hbrk; omega)
      (by clear * - hle hm2; omega)
    rw [GET_SIZE_val _ _ _ (read32_write32_same _ _ _)]
    clear * - h8 hle hm1 hbrk
    omega
  have hN : NEXT_BLKP (write32 (write32 s.mem (s.mem_brk - 4) esz) (s.mem_brk + esz - 8) esz)
      s.mem_brk = s.mem_brk + esz := by
    refine NEXT_BLKP_eq _ _ _ (by clear * - hbrk; omega) ?_ (by clear * - hle hm2; omega)
    rw [GET_SIZE_val _ _ _ ((read32_write32_ne _ _ _ _ (by clear * - h24 hbrk; omega)).trans
      (read32_write32_same _ _ _))]
    clear * - h8 hle hm1 hbrk
    omega
  have hH2 : HDRP (s.mem_brk + esz) = s.mem_brk + esz - 4 :=
    HDRP_eq _ (by clear * - hbrk; omega) (by clear * - hle hm2; omega)
  have hP : PACK 0 1 = 1 := by decide
  have hne : s.mem_brk ≠ 18446744073709551615 := by clear * - hl; omega
  have hhi : sub64 (s.mem_brk + esz) 1 = s.mem_brk + esz - 1 :=
    sub64_eq _ _ (by clear * - hbrk; omega) (by clear * - hle hm2; omega)
  unfold extend_heap
  simp only [extend_size esz h8 h64]
  unfold mem_sbrk
  rw [if_neg (show ¬ s.mem_brk + esz > s.mem_max_addr by clear * - hle; omega)]
  simp only [if_neg hne]
  refine ⟨_, rfl, ?_, rfl, rfl, rfl, rfl, rfl, rfl, rfl, ?_⟩
  · simp only [put32_eq, setMem_mem, hH, PACK_zero, hF, hN, hH2, hP, tag, Bool.toNat_false,
      Nat.add_zero]
  · simp only [mem_heap_hi, put32_eq, setMem_fields, hhi]

/-- `extend_heap` on a well-formed heap whose arena can grow: the result is
well-formed and the returned block is free and at least as large as asked. -/
theorem extend_spec {s : State} {bl : List Blk} {fl : Nat → List Nat} (h : WF s bl fl)
    (esz : Nat) (h24 : 24 ≤ esz) (h8 : esz % 8 = 0) (hle : s.mem_brk + esz ≤ s.mem_max_addr) :
    ∃ bl2 fl2 m, (extend_heap s (esz / 4)).2 = m.addr ∧
      WF (extend_heap s (esz / 4)).1 bl2 fl2 ∧ m ∈ bl2 ∧ m.alloc = false ∧ esz ≤ m.size ∧
      (∀ c, c.alloc = true → (c ∈ bl2 ↔ c ∈ bl)) ∧
      (∀ c, c ∈ bl → c.alloc = true → ∀ a, c.addr - 4 ≤ a → a < c.addr + c.size - 4 →
        (extend_heap s (esz / 4)).1.mem a = s.mem a) ∧
      (extend_heap s (esz / 4)).1.mem_start_brk = s.mem_start_brk ∧
      (extend_heap s (esz / 4)).1.mem_brk = s.mem_brk + esz ∧
      (extend_heap s (esz / 4)).1.mem_max_addr = s.mem_max_addr ∧
      (extend_heap s (esz / 4)).1.lo = s.lo ∧
      (extend_heap s (esz / 4)).1.hi = s.mem_brk + esz - 1 := by
  obtain ⟨s5, heq, hmem, f1, f2, f3, f4, f5, f6, f7, f8⟩ := extend_heap_eq h.core esz h24 h8 hle
  obtain ⟨hc5, hfr⟩ := grow_core h.core esz h24 h8 hle hmem f1 f2 f3 f4 f5 f6
  rw [heq]
  have hnl : ∀ i, (⟨s.mem_brk, esz, false⟩ : Blk).addr ∉ fl i := by
    intro i hx
    have := h.core.node_bd hx
    have e : (⟨s.mem_brk, esz, false⟩ : Blk).addr = s.mem_brk := rfl
    rw [e] at this
    clear * - this
    omega
  obtain ⟨bl2, fl2, m, r1, r2, r3, r4, r5, r6, r7, r8, r9, -⟩ :=
    @coalesce_wf s5 bl [] ⟨s.mem_brk, esz, false⟩ fl hc5 rfl hnl
    (by
      intro i x hx c hcm hcx
      have hc2 : c ∈ bl ∨ c = ⟨s.mem_brk, esz, false⟩ := by simpa using hcm
      rcases hc2 with e1 | e1
      · exact h.fl_class i x hx c e1 hcx
      · exfalso
        rw [e1] at hcx
        rw [← hcx] at hx
        exact hnl i hx)
    (by
      intro c hcm hcf
      exact h.fl_all c (by simpa using hcm) hcf)
    h.noadj List.chain'_nil
  have hbrk := h.core.brk_al.2
  refine ⟨bl2, fl2, m, r1, r2, r3, r4, ?_, ?_, ?_, ?_, ?_, ?_, ?_, ?_⟩
  · have e1 : m.addr ≤ s.mem_brk := r5
    have e2 : s.mem_brk + esz ≤ m.addr + m.size := r6
    clear * - e1 e2
    omega
  · intro c hca
    rw [r7 c hca]
    constructor
    · intro hcm
      have hc2 : c ∈ bl ∨ c = ⟨s.mem_brk, esz, false⟩ := by simpa using hcm
      rcases hc2 with e1 | e1
      · exact e1
      · rw [e1] at hca; simp at hca
    · intro hcm
      simp [hcm]
  · intro c hcm hca a ha1 ha2
    rw [FreeOnly.keep hc5 r8 c (by simp [hcm]) hca a ha1 ha2]
    have := (h.core.blk c hcm).2.1
    exact hfr a (by clear * - this ha2; omega)
  · rw [r9.1, f1]
  · rw [r9.2.1, f2]
  · rw [r9.2.2.1, f3]
  · rw [r9.2.2.2.2.2.2.1, f7]
  · rw [r9.2.2.2.2.2.2.2, f8]

/-! ## The search of `mm_malloc` -/

/-- The inner loop of the search returns the first fitting node of the list. -/
theorem find_in_list_spec (m : Mem) (size : Nat) (l : List Nat) :
    ∀ q fuel, FList m q l → l.length < fuel →
      find_in_list m size fuel (read64 m q) = some ((l.find? (fits m size)).getD 0) := by
  induction l with
  | nil =>
    intro q fuel h hf
    have h0 : read64 m q = 0 := h
    rw [h0]
    cases fuel with
    | zero => simp at hf
    | succ f => simp [find_in_list]
  | cons x xs ih =>
    intro q fuel h hf
    obtain ⟨h1, h2, -, h4⟩ := h
    rw [h1]
    cases fuel with
    | zero => simp at hf
    | succ f =>
      unfold find_in_list
      rw [if_neg h2]
      by_cases hfit : GET_SIZE m (HDRP x) ≥ size
      · rw [if_pos hfit]
        have : fits m size x = true := by unfold fits; simpa using hfit
        simp [List.find?, this]
      · rw [if_neg hfit]
        have : fits m size x = false := by unfold fits; simpa using hfit
        have e := ih x f h4 (by simpa using hf)
        unfold NEXT_LL
        rw [e]
        simp [List.find?, this]

theorem find_some_ne_zero {s : State} {bl : List Blk} {fl : Nat → List Nat} (h : Core s bl fl)
    {i x : Nat} {p : Nat → Bool} (hx : (fl i).find? p = some x) : x ≠ 0 ∧ x ∈ fl i := by
  have hm := List.mem_of_find?_eq_some hx
  have := h.node_bd hm
  exact ⟨by omega, hm⟩

/-- The outer loop of the search computes `firstFit`. -/
theorem find_fit_spec {s : State} {bl : List Blk} {fl : Nat → List Nat} (h : Core s bl fl)
    (size fuel : Nat) (hf : ∀ i, (fl i).length < fuel) :
    ∀ n i, n ≤ 21 - i → find_fit s size fuel n i = some (firstFit s.mem fl size n i) := by
  intro n
  induction n with
  | zero => intro i _; simp [find_fit, firstFit]
  | succ n ih =>
    intro i hi
    unfold find_fit firstFit
    have hs := h.slot i (by omega)
    rw [hs, find_in_list_spec s.mem size (fl i) _ fuel (h.flist i (by omega)) (hf i)]
    cases hfd : (fl i).find? (fits s.mem size) with
    | none =>
      simp only [Option.getD_none]
      rw [if_neg (by simp)]
      exact ih (i + 1) (by omega)
    | some x =>
      simp only [Option.getD_some]
      rw [if_pos (find_some_ne_zero h hfd).1]

/-- What `firstFit` returns: nothing when no listed block fits, else a listed
block that fits. -/
theorem firstFit_spec (m : Mem) (fl : Nat → List Nat) (size : Nat) :
    ∀ n i, (firstFit m fl size n i = 0 ∧
        ∀ j, i ≤ j → j < i + n → ∀ x, x ∈ fl j → ¬ GET_SIZE m (HDRP x) ≥ size) ∨
      (∃ j, i ≤ j ∧ j < i + n ∧ firstFit m fl size n i ∈ fl j ∧
        GET_SIZE m (HDRP (firstFit m fl size n i)) ≥ size) := by
  intro n
  induction n with
  | zero =>
    intro i
    left
    refine ⟨rfl, ?_⟩
    intro j h1 h2
    omega
  | succ n ih =>
    intro i
    unfold firstFit
    cases hfd : (fl i).find? (fits m size) with
    | none =>
      simp only
      rcases ih (i + 1) with ⟨e1, e2⟩ | ⟨j, e1, e2, e3, e4⟩
      · left
        refine ⟨e1, ?_⟩
        intro j h1 h2 x hx
        by_cases hji : j = i
        · subst hji
          have := List.find?_eq_none.1 hfd x hx
          unfold fits at this
          simpa using this
        · exact e2 j (by omega) (by omega) x hx
      · right
        exact ⟨j, by omega, by omega, e3, e4⟩
    | some x =>
      simp only
      right
      refine ⟨i, le_refl _, by omega, List.mem_of_find?_eq_some hfd, ?_⟩
      have := List.find?_some hfd
      unfold fits at this
      simpa using this

/-- No list is longer than the walk. -/
theorem Core.fl_length {s : State} {bl : List Blk} {fl : Nat → List Nat} (h : Core s bl fl)
    (i : Nat) : (fl i).length ≤ bl.length := by
  have hsub : fl i ⊆ bl.map Blk.addr := by
    intro x hx
    obtain ⟨b, hb, hbx, -⟩ := h.fl_free i x hx
    exact List.mem_map.2 ⟨b, hb, hbx⟩
  have := ((h.fl_nodup i).subperm hsub).length_le
  simpa using this

/-! ## `adjust` -/

theorem ALIGN_eq (x : Nat) (h : x + 7 < 18446744073709551616) :
    ALIGN x = x + 7 - (x + 7) % 8 := by
  unfold ALIGN
  rw [add64_eq _ _ h, and_mask64 _ h]

theorem ALIGN_mod (x : Nat) : ALIGN x % 8 = 0 ∧ ALIGN x < 18446744073709551616 := by
  unfold ALIGN
  have hlt : add64 x 7 < 18446744073709551616 := by unfold add64; omega
  rw [and_mask64 _ hlt]
  omega

theorem adjust_mod (n : Nat) : adjust n % 8 = 0 ∧ adjust n < 18446744073709551616 := by
  unfold adjust
  split
  · simp [MINBLKSIZE]
  · exact ALIGN_mod _

/-- The adjusted size of a request that does not wrap around. -/
theorem adjust_spec (n : Nat) (h : n + 15 < 18446744073709551616) :
    24 ≤ adjust n ∧ adjust n % 8 = 0 ∧ n + 8 ≤ adjust n ∧ adjust n ≤ n + 24 := by
  unfold adjust DSIZE MINBLKSIZE
  by_cases hc : n ≤ 2 * 8
  · rw [if_pos hc]
    omega
  · rw [if_neg hc, add64_eq _ _ (by omega), ALIGN_eq _ (by omega)]
    omega

/-! ## `place`, both branches -/

/-- Placing a request in a free block of a well-formed heap. -/
theorem place_spec {s : State} {pre post : List Blk} {b : Blk} {fl : Nat → List Nat}
    (h : WF s (pre ++ b :: post) fl) (hbf : b.alloc = false)
    (asize : Nat) (h24 : 24 ≤ asize) (h8 : asize % 8 = 0) (hle : asize ≤ b.size) :
    ∃ bl2 fl2 sz, WF (place s b.addr asize) bl2 fl2 ∧ ⟨b.addr, sz, true⟩ ∈ bl2 ∧
      asize ≤ sz ∧ sz ≤ b.size ∧
      (∀ c, c.alloc = true → (c ∈ bl2 ↔ c = ⟨b.addr, sz, true⟩ ∨ c ∈ pre ++ b :: post)) ∧
      FreeOnly s (pre ++ b :: post) (place s b.addr asize).mem ∧
      SameFields s (place s b.addr asize) := by
  by_cases hsp : asize + 24 ≤ b.size
  · obtain ⟨fl2, h1, -, h3, h4⟩ := place_split_spec h hbf asize h24 h8 hsp
    refine ⟨_, fl2, asize, h1, by simp, le_refl _, hle, ?_, h3, h4⟩
    intro c hca
    constructor
    · intro hcm
      have hc2 : c ∈ pre ∨ c = ⟨b.addr, asize, true⟩ ∨
          c = ⟨b.addr + asize, b.size - asize, false⟩ ∨ c ∈ post := by simpa using hcm
      rcases hc2 with e | e | e | e
      · exact Or.inr (by simp [e])
      · exact Or.inl e
      · rw [e] at hca; simp at hca
      · exact Or.inr (by simp [e])
    · intro hcm
      rcases hcm with e | e
      · simp [e]
      · have hc2 : c ∈ pre ∨ c = b ∨ c ∈ post := by simpa using e
        rcases hc2 with e | e | e
        · simp [e]
        · rw [e, hbf] at hca; simp at hca
        · simp [e]
  · obtain ⟨fl2, h1, -, h3, h4⟩ := place_whole_spec h hbf asize hle (by omega)
    refine ⟨_, fl2, b.size, h1, by simp, hle, le_refl _, ?_, h3, h4⟩
    intro c hca
    constructor
    · intro hcm
      have hc2 : c ∈ pre ∨ c = ⟨b.addr, b.size, true⟩ ∨ c ∈ post := by simpa using hcm
      rcases hc2 with e | e | e
      · exact Or.inr (by simp [e])
      · exact Or.inl e
      · exact Or.inr (by simp [e])
    · intro hcm
      rcases hcm with e | e
      · simp [e]
      · have hc2 : c ∈ pre ∨ c = b ∨ c ∈ post := by simpa using e
        rcases hc2 with e | e | e
        · simp [e]
        · rw [e, hbf] at hca; simp at hca
        · simp [e]

/-! ## `mm_malloc` -/

/-- The three ways through `mm_malloc` on a well-formed heap: a listed block
fits; nothing fits and the arena cannot grow; nothing fits and the arena grows. -/
theorem malloc_cases {s : State} {bl : List Blk} {fl : Nat → List Nat} (h : WF s bl fl)
    (n fuel : Nat) (hn : n ≠ 0) (hf : bl.length < fuel) :
    (firstFit s.mem fl (adjust n) (21 - malloc_index 21 (adjust n))
        (malloc_index 21 (adjust n)) ≠ 0 ∧
      mm_malloc fuel s n = some (place s (firstFit s.mem fl (adjust n)
        (21 - malloc_index 21 (adjust n)) (malloc_index 21 (adjust n))) (adjust n),
        firstFit s.mem fl (adjust n) (21 - malloc_index 21 (adjust n))
          (malloc_index 21 (adjust n)))) ∨
    (firstFit s.mem fl (adjust n) (21 - malloc_index 21 (adjust n))
        (malloc_index 21 (adjust n)) = 0 ∧
      s.mem_max_addr < s.mem_brk + max (adjust n) 64 ∧
      mm_malloc fuel s n = some (s, 0)) ∨
    (firstFit s.mem fl (adjust n) (21 - malloc_index 21 (adjust n))
        (malloc_index 21 (adjust n)) = 0 ∧
      s.mem_brk + max (adjust n) 64 ≤ s.mem_max_addr ∧
      (extend_heap s (max (adjust n) 64 / 4)).2 ≠ 0 ∧
      mm_malloc fuel s n = some (place (extend_heap s (max (adjust n) 64 / 4)).1
        (extend_heap s (max (adjust n) 64 / 4)).2 (adjust n),
        (extend_heap s (max (adjust n) 64 / 4)).2)) := by
  have hc := h.core
  have hff := find_fit_spec hc (adjust n) fuel
    (fun i => lt_of_le_of_lt (hc.fl_length i) hf) (21 - malloc_index 21 (adjust n))
    (malloc_index 21 (adjust n)) (le_refl _)
  have ha := adjust_mod n
  have he8 : max (adjust n) 64 % 8 = 0 := by
    rcases max_cases (adjust n) 64 with ⟨e, -⟩ | ⟨e, -⟩
    · rw [e]; exact ha.1
    · rw [e]
  have he64 : max (adjust n) 64 < 18446744073709551616 := by
    rcases max_cases (adjust n) 64 with ⟨e, -⟩ | ⟨e, -⟩
    · rw [e]; exact ha.2
    · rw [e]; decide
  have he24 : 24 ≤ max (adjust n) 64 := le_trans (by decide) (le_max_right _ _)
  unfold mm_malloc
  rw [if_neg hn]
  simp only [hc.arrsize_eq, hff, CHUNKSIZE, WSIZE]
  by_cases h0 : firstFit s.mem fl (adjust n) (21 - malloc_index 21 (adjust n))
      (malloc_index 21 (adjust n)) = 0
  · right
    by_cases hgt : s.mem_max_addr < s.mem_brk + max (adjust n) 64
    · left
      refine ⟨h0, hgt, ?_⟩
      rw [if_neg (by rw [h0]; simp), extend_heap_fail s _ he8 he64 hgt]
      simp
    · right
      have hle : s.mem_brk + max (adjust n) 64 ≤ s.mem_max_addr := by omega
      obtain ⟨bl2, fl2, m, r1, r2, r3, -⟩ := extend_spec h _ he24 he8 hle
      have hb := (r2.core.blk m r3).1
      have hne : (extend_heap s (max (adjust n) 64 / 4)).2 ≠ 0 := by
        rw [r1]
        clear * - hb
        omega
      refine ⟨h0, hle, hne, ?_⟩
      rw [if_neg (by rw [h0]; simp), if_neg hne]
  · left
    refine ⟨h0, ?_⟩
    rw [if_pos h0]

/-- The adjusted size is what the header of a listed block is compared with. -/
theorem Core.fit_block {s : State} {bl : List Blk} {fl : Nat → List Nat} (h : Core s bl fl)
    {size n i : Nat} (h0 : firstFit s.mem fl size n i ≠ 0) :
    ∃ b, b ∈ bl ∧ b.addr = firstFit s.mem fl size n i ∧ b.alloc = false ∧ size ≤ b.size := by
  rcases firstFit_spec s.mem fl size n i with ⟨e, -⟩ | ⟨j, -, -, e3, e4⟩
  · exact absurd e h0
  · obtain ⟨b, hb, hbx, hbf⟩ := h.fl_free j _ e3
    refine ⟨b, hb, hbx, hbf, ?_⟩
    obtain ⟨hbH, hbS, -⟩ := h.macros b hb
    rw [← hbx, hbH, hbS] at e4
    exact e4

/-- The function `mm_malloc` on a well-formed heap, for a request that does not
wrap around: it returns, and either it returns `NULL` and changes nothing, or
the heap is well-formed again with one more allocated block, at the returned
address, large enough, every other allocated block being untouched. -/
theorem malloc_spec {s : State} {bl : List Blk} {fl : Nat → List Nat} (h : WF s bl fl)
    (n fuel : Nat) (hn : 0 < n) (hw : n + 15 < 18446744073709551616) (hf : bl.length < fuel) :
    ∃ s2 p, mm_malloc fuel s n = some (s2, p) ∧ (p = 0 → s2 = s) ∧
      (p ≠ 0 → ∃ bl2 fl2 sz, WF s2 bl2 fl2 ∧ ⟨p, sz, true⟩ ∈ bl2 ∧ adjust n ≤ sz ∧
        (∀ c, c ∈ bl → c.alloc = true → c.addr ≠ p) ∧
        (∀ c, c.alloc = true → (c ∈ bl2 ↔ c = ⟨p, sz, true⟩ ∨ c ∈ bl)) ∧
        (∀ c, c ∈ bl → c.alloc = true → ∀ a, c.addr - 4 ≤ a → a < c.addr + c.size - 4 →
          s2.mem a = s.mem a) ∧
        s2.mem_start_brk = s.mem_start_brk ∧ s2.mem_max_addr = s.mem_max_addr ∧
        s.mem_brk ≤ s2.mem_brk ∧ (Bounds s → Bounds s2)) := by
  have hc := h.core
  obtain ⟨a24, a8, -, -⟩ := adjust_spec n hw
  rcases malloc_cases h n fuel (by omega) hf with ⟨h0, heq⟩ | ⟨h0, hgt, heq⟩ | ⟨h0, hle, hne, heq⟩
  · refine ⟨_, _, heq, fun e => absurd e h0, fun _ => ?_⟩
    obtain ⟨b, hb, hbx, hbf, hsz⟩ := hc.fit_block h0
    rw [← hbx]
    obtain ⟨pre, post, e⟩ := List.append_of_mem hb
    subst e
    obtain ⟨bl2, fl2, sz, r1, r2, r3, -, r5, r6, r7⟩ := place_spec h hbf (adjust n) a24 a8 hsz
    refine ⟨bl2, fl2, sz, r1, r2, r3, ?_, r5, ?_, r7.1, r7.2.2.1, ?_, ?_⟩
    · intro c hcm hca hcx
      have := Chain_inj _ _ _ _ hc.chain c b hcm hb hcx
      rw [this, hbf] at hca
      simp at hca
    · intro c hcm hca a ha1 ha2
      exact FreeOnly.keep hc r6 c hcm hca a ha1 ha2
    · rw [r7.2.1]
    · intro hB
      exact ⟨by rw [r7.2.2.2.2.2.2.1, r7.1]; exact hB.1,
        by rw [r7.2.2.2.2.2.2.2, r7.2.1]; exact hB.2⟩
  · exact ⟨_, _, heq, fun _ => rfl, fun e => absurd rfl e⟩
  · refine ⟨_, _, heq, fun e => absurd e hne, fun _ => ?_⟩
    have he8 : max (adjust n) 64 % 8 = 0 := by
      rcases max_cases (adjust n) 64 with ⟨e, -⟩ | ⟨e, -⟩
      · rw [e]; exact a8
      · rw [e]
    have he24 : 24 ≤ max (adjust n) 64 := le_trans (by decide) (le_max_right _ _)
    obtain ⟨bl1, fl1, m, q1, q2, q3, q4, q5, q6, q7, q8, q9, q10, q11, q12⟩ :=
      extend_spec h _ he24 he8 hle
    rw [q1]
    obtain ⟨pre, post, e⟩ := List.append_of_mem q3
    subst e
    have hsz : adjust n ≤ m.size := le_trans (le_max_left _ _) q5
    obtain ⟨bl2, fl2, sz, r1, r2, r3, -, r5, r6, r7⟩ := place_spec q2 q4 (adjust n) a24 a8 hsz
    refine ⟨bl2, fl2, sz, r1, r2, r3, ?_, ?_, ?_, ?_, ?_, ?_, ?_⟩
    · intro c hcm hca hcx
      have hc1 := (q6 c hca).2 hcm
      have := Chain_inj _ _ _ _ q2.core.chain c m hc1 q3 hcx
      rw [this, q4] at hca
      simp at hca
    · intro c hca
      rw [r5 c hca, q6 c hca]
    · intro c hcm hca a ha1 ha2
      have hc1 := (q6 c hca).2 hcm
      rw [FreeOnly.keep q2.core r6 c hc1 hca a ha1 ha2]
      exact q7 c hcm hca a ha1 ha2
    · rw [r7.1, q8]
    · rw [r7.2.2.1, q10]
    · rw [r7.2.1, q9]
      omega
    · intro hB
      refine ⟨by rw [r7.2.2.2.2.2.2.1, r7.1, q11, q8]; exact hB.1, ?_⟩
      rw [r7.2.2.2.2.2.2.2, r7.2.1, q12, q9]

/-! ## `mm_init` -/

/-- The loop that clears the slots: it writes zeros over the cells from `i` to
`i + n` and nothing else. -/
theorem init_slots_spec (g : Nat) : ∀ (n i : Nat) (s : State), s.grouparr = g →
    g + 8 * (i + n) < 18446744073709551616 →
    SameFields s (init_slots s n i) ∧
    (∀ a, a < g + 8 * i ∨ g + 8 * (i + n) ≤ a → (init_slots s n i).mem a = s.mem a) ∧
    (∀ j, i ≤ j → j < i + n → read64 (init_slots s n i).mem (g + 8 * j) = 0) := by
  intro n
  induction n with
  | zero =>
    intro i s _ _
    refine ⟨SameFields.refl s, fun a _ => rfl, ?_⟩
    intro j h1 h2
    omega
  | succ n ih =>
    intro i s hg hb
    have hsl : slotAddr s i = g + 8 * i := by
      unfold slotAddr
      rw [hg, mul64_eq _ _ (by omega), add64_eq _ _ (by omega)]
    unfold init_slots
    rw [hsl, put64_eq]
    obtain ⟨r1, r2, r3⟩ := ih (i + 1) (s.setMem (write64 s.mem (g + 8 * i) 0))
      (by rw [(setMem_fields _ _).2.2.2.1]; exact hg) (by omega)
    refine ⟨(SameFields.setMem _ _).trans r1, ?_, ?_⟩
    · intro a ha
      rw [r2 a (by omega), setMem_mem, write64_out _ _ _ _ (by omega)]
    · intro j h1 h2
      by_cases hji : j = i
      · subst hji
        rw [read64_congr _ _ _ (fun x hx1 hx2 => r2 x (by omega)), setMem_mem,
          read64_write64_same]
      · exact r3 j (by omega) (by omega)


/-- The heap that `mm_init` lays out before it asks for the first block: the
table, the prologue and the epilogue, and no block. -/
theorem init_arena_spec (s1 : State) (h0 : 0 < s1.mem_start_brk)
    (hhl : s1.heap_listp = s1.mem_start_brk) (hbrk : s1.mem_brk = s1.mem_start_brk + 184)
    (har : s1.arrsize = 168) (hm1 : s1.mem_max_addr < s1.mem_start_brk + 4294967296)
    (hm2 : s1.mem_max_addr < 18446744073709551615) (hle : s1.mem_brk ≤ s1.mem_max_addr) :
    WF (init_arena s1) [] (fun _ => []) ∧
    (init_arena s1).mem_start_brk = s1.mem_start_brk ∧
    (init_arena s1).mem_brk = s1.mem_brk ∧
    (init_arena s1).mem_max_addr = s1.mem_max_addr ∧
    (∀ a, a < s1.mem_start_brk ∨ s1.mem_start_brk + 184 ≤ a →
      (init_arena s1).mem a = s1.mem a) := by
  have hlt : s1.mem_start_brk + 184 < 18446744073709551616 := by omega
  have e1 : add64 s1.mem_start_brk 168 = s1.mem_start_brk + 168 :=
    add64_eq _ _ (by clear * - hlt; omega)
  have e2 : add64 s1.mem_start_brk 172 = s1.mem_start_brk + 172 :=
    add64_eq _ _ (by clear * - hlt; omega)
  have e3 : add64 s1.mem_start_brk 176 = s1.mem_start_brk + 176 :=
    add64_eq _ _ (by clear * - hlt; omega)
  have e4 : add64 s1.mem_start_brk 180 = s1.mem_start_brk + 180 :=
    add64_eq _ _ (by clear * - hlt; omega)
  have e5 : add64 s1.mem_start_brk 184 = s1.mem_start_brk + 184 :=
    add64_eq _ _ (by clear * - hlt; omega)
  have p1 : PACK 8 1 = 9 := by decide
  have p2 : PACK 0 1 = 1 := by decide
  unfold init_arena
  simp only [put32_eq, setMem_mem, setMem_fields, hhl, har, WSIZE, DSIZE, Nat.reduceMul,
    Nat.reduceAdd, Nat.reduceDiv, e1, e2, e3, e4, e5, p1, p2, State.setMem]
  generalize hs8 : ({
    mem := (write32 (write32 (write32 (write32 s1.mem
      (s1.mem_start_brk + 168) 0) (s1.mem_start_brk + 172) 9) (s1.mem_start_brk + 176) 9)
      (s1.mem_start_brk + 180) 1),
    mem_start_brk := s1.mem_start_brk, mem_brk := s1.mem_brk,
    mem_max_addr := s1.mem_max_addr, grouparr := s1.mem_start_brk, arrsize := 21,
    heap_listp := s1.mem_start_brk + 184, lo := s1.lo, hi := s1.hi } : State) = s8
  have g1 : s8.mem = write32 (write32 (write32 (write32 s1.mem
      (s1.mem_start_brk + 168) 0) (s1.mem_start_brk + 172) 9) (s1.mem_start_brk + 176) 9)
      (s1.mem_start_brk + 180) 1 := by rw [← hs8]
  have g2 : s8.mem_start_brk = s1.mem_start_brk := by rw [← hs8]
  have g3 : s8.mem_brk = s1.mem_brk := by rw [← hs8]
  have g4 : s8.mem_max_addr = s1.mem_max_addr := by rw [← hs8]
  have g5 : s8.grouparr = s1.mem_start_brk := by rw [← hs8]
  have g6 : s8.arrsize = 21 := by rw [← hs8]
  have g7 : s8.heap_listp = s1.mem_start_brk + 184 := by rw [← hs8]
  clear hs8
  obtain ⟨r1, r2, r3⟩ := init_slots_spec s1.mem_start_brk 21 0 s8 g5
    (by clear * - hm2 hle hbrk; omega)
  generalize init_slots s8 21 0 = s9 at r1 r2 r3 ⊢
  obtain ⟨f1, f2, f3, f4, f5, f6, -, -⟩ := r1
  have hout : ∀ a, a < s1.mem_start_brk ∨ s1.mem_start_brk + 184 ≤ a →
      s9.mem a = s1.mem a := by
    intro a ha
    rw [r2 a (by clear * - ha; omega), g1, write32_out _ _ _ _ (by clear * - ha; omega),
      write32_out _ _ _ _ (by clear * - ha; omega),
      write32_out _ _ _ _ (by clear * - ha; omega), write32_out _ _ _ _ (by clear * - ha; omega)]
  refine ⟨⟨?_, List.chain'_nil, ?_, ?_⟩, by rw [f1, g2], by rw [f2, g3], by rw [f3, g4], hout⟩
  · refine
      { base_pos := by rw [f1, g2]; exact h0
        max_lt := by rw [f1, f3, g2, g4]; exact hm1
        max_lt64 := by rw [f3, g4]; exact hm2
        brk_le := by rw [f2, f3, g3, g4]; exact hle
        grouparr_eq := by rw [f4, f1, g5, g2]
        arrsize_eq := by rw [f5, g6]
        hl_eq := by rw [f6, f1, g7, g2]
        pro_hdr := ?_
        pro_ftr := ?_
        chain := ?_
        epi := ?_
        flist := ?_
        fl_out := fun _ _ => rfl
        fl_nodup := fun _ => List.nodup_nil
        fl_disj := fun i j x hx _ => absurd hx (List.not_mem_nil x)
        fl_free := fun i x hx => absurd hx (List.not_mem_nil x) }
    · rw [f1, g2, read32_congr _ _ _ (fun x h1 h2 => r2 x (by clear * - h1 h2; omega)), g1,
        read32_write32_ne _ _ _ _ (by clear * - h0; omega), read32_write32_ne _ _ _ _ (by clear * - h0; omega),
        read32_write32_same]
    · rw [f1, g2, read32_congr _ _ _ (fun x h1 h2 => r2 x (by clear * - h1 h2; omega)), g1,
        read32_write32_ne _ _ _ _ (by clear * - h0; omega), read32_write32_same]
    · show s9.mem_start_brk + 184 = s9.mem_brk
      rw [f1, f2, g2, g3, hbrk]
    · rw [f2, g3, hbrk, read32_congr _ _ _ (fun x h1 h2 => r2 x (by clear * - h1 h2; omega)), g1]
      have : s1.mem_start_brk + 184 - 4 = s1.mem_start_brk + 180 := by clear * - h0; omega
      rw [this, read32_write32_same]
    · intro i hi
      show read64 s9.mem (s9.mem_start_brk + 8 * i) = 0
      rw [f1, g2]
      exact r3 i (by clear * - hi; omega) (by clear * - hi; omega)
  · intro i x hx
    exact absurd hx (List.not_mem_nil x)
  · intro b hb
    exact absurd hb (List.not_mem_nil b)

/-- The globals `lo` and `hi` play no part in well-formedness. -/
theorem WF.set_lohi {s : State} {bl : List Blk} {fl : Nat → List Nat} (h : WF s bl fl)
    (a b : Nat) : WF { s with lo := a, hi := b } bl fl :=
  { core :=
      { base_pos := h.core.base_pos
        max_lt := h.core.max_lt
        max_lt64 := h.core.max_lt64
        brk_le := h.core.brk_le
        grouparr_eq := h.core.grouparr_eq
        arrsize_eq := h.core.arrsize_eq
        hl_eq := h.core.hl_eq
        pro_hdr := h.core.pro_hdr
        pro_ftr := h.core.pro_ftr
        chain := h.core.chain
        epi := h.core.epi
        flist := h.core.flist
        fl_out := h.core.fl_out
        fl_nodup := h.core.fl_nodup
        fl_disj := h.core.fl_disj
        fl_free := h.core.fl_free }
    noadj := h.noadj
    fl_class := h.fl_class
    fl_all := h.fl_all }

/-- The lists after `mm_init`: one block, in slot 5. -/
theorem init_lists (L : Nat) :
    Function.update (fun (_ : Nat) => ([] : List Nat)) (addfree_index 21 64)
      (L :: (fun (_ : Nat) => ([] : List Nat)) (addfree_index 21 64)) =
    fun i => if i = 5 then [L] else [] := by
  have e : addfree_index 21 64 = 5 := by decide
  rw [e]
  funext i
  by_cases hi : i = 5
  · subst hi; simp
  · simp [hi]

/-- The function `mm_init` on an empty arena: it fails exactly when the arena
cannot hold the 248 bytes of the table, the sentinels and the first block, and
otherwise leaves a well-formed heap of one free block of 64 bytes in slot 5. -/
theorem mm_init_spec (s0 : State) (h : HostOK s0) :
    (s0.mem_max_addr < s0.mem_start_brk + 248 → (mm_init s0).2 = -1) ∧
    (s0.mem_start_brk + 248 ≤ s0.mem_max_addr →
      (mm_init s0).2 = 0 ∧
      WF (mm_init s0).1 [⟨s0.mem_start_brk + 184, 64, false⟩]
        (fun i => if i = 5 then [s0.mem_start_brk + 184] else []) ∧
      Bounds (mm_init s0).1 ∧
      (mm_init s0).1.mem_start_brk = s0.mem_start_brk ∧
      (mm_init s0).1.mem_brk = s0.mem_start_brk + 248 ∧
      (mm_init s0).1.mem_max_addr = s0.mem_max_addr) := by
  obtain ⟨h1, h2, h3, h4⟩ := h
  by_cases hgt : s0.mem_max_addr < s0.mem_brk + 184
  · refine ⟨fun _ => ?_, fun hle => ?_⟩
    · unfold mm_init mem_sbrk
      simp only [MAXCLASS, MINCLASS, SMALLBLK, WSIZE, Nat.reduceMul, Nat.reduceAdd,
        Nat.reduceSub]
      rw [if_pos hgt]
      simp
    · exfalso
      clear * - hgt hle h2
      omega
  · have hne : s0.mem_brk ≠ 18446744073709551615 := by clear * - h2 h3 h4 hgt; omega
    unfold mm_init mem_sbrk
    simp only [MAXCLASS, MINCLASS, SMALLBLK, WSIZE, CHUNKSIZE, Nat.reduceMul, Nat.reduceAdd,
      Nat.reduceSub, Nat.reduceDiv]
    rw [if_neg hgt]
    simp only [if_neg hne]
    generalize hs1 : ({
      mem := s0.mem, mem_start_brk := s0.mem_start_brk, mem_brk := s0.mem_brk + 184,
      mem_max_addr := s0.mem_max_addr, grouparr := s0.grouparr, arrsize := 168,
      heap_listp := s0.mem_brk, lo := s0.lo, hi := s0.hi } : State) = s1
    have g1 : s1.mem_start_brk = s0.mem_start_brk := by rw [← hs1]
    have g2 : s1.mem_brk = s0.mem_start_brk + 184 := by rw [← hs1, ← h2]
    have g3 : s1.mem_max_addr = s0.mem_max_addr := by rw [← hs1]
    have g4 : s1.heap_listp = s0.mem_start_brk := by rw [← hs1, ← h2]
    have g5 : s1.arrsize = 168 := by rw [← hs1]
    clear hs1
    obtain ⟨w, q1, q2, q3, -⟩ := init_arena_spec s1 (by rw [g1]; exact h1) (by rw [g4, g1])
      (by rw [g2, g1]) g5 (by rw [g3, g1]; exact h3) (by rw [g3]; exact h4)
      (by rw [g2, g3]; clear * - hgt h2; omega)
    generalize init_arena s1 = s9 at w q1 q2 q3 ⊢
    have b9 : s9.mem_brk = s0.mem_start_brk + 184 := by rw [q2, g2]
    have m9 : s9.mem_max_addr = s0.mem_max_addr := by rw [q3, g3]
    have l9 : s9.mem_start_brk = s0.mem_start_brk := by rw [q1, g1]
    have e16 : (16 : Nat) = 64 / 4 := by decide
    rw [e16]
    refine ⟨fun hlt => ?_, fun hle => ?_⟩
    · rw [extend_heap_fail s9 64 (by decide) (by decide) (by rw [b9, m9]; clear * - hlt; omega)]
      simp
    · have hle9 : s9.mem_brk + 64 ≤ s9.mem_max_addr := by rw [b9, m9]; clear * - hle; omega
      obtain ⟨s5, heq, hmem, f1, f2, f3, f4, f5, f6, f7, f8⟩ :=
        extend_heap_eq w.core 64 (by decide) (by decide) hle9
      obtain ⟨hc5, -⟩ := grow_core w.core 64 (by decide) (by decide) hle9 hmem f1 f2 f3 f4 f5 f6
      have hnl : ∀ i : Nat, (⟨s9.mem_brk, 64, false⟩ : Blk).addr ∉
          (fun (_ : Nat) => ([] : List Nat)) i :=
        fun i hx => List.not_mem_nil _ hx
      have hc1 := @coalesce_c1 s5 [] [] ⟨s9.mem_brk, 64, false⟩ (fun (_ : Nat) => ([] : List Nat)) hc5 rfl hnl
        (Or.inl rfl) (Or.inl rfl)
      obtain ⟨hc6, -⟩ := insert_core hc5 (addfree_index_lt 64) ⟨s9.mem_brk, 64, false⟩
        (by simp) rfl hnl
      have hsf := SameFields.insert_at s5 (addfree_index 21 64) s9.mem_brk
      have hwf := wf_assemble2 [] [] ⟨s9.mem_brk, 64, false⟩ hc6 hnl
        (fun c hc _ => absurd hc (List.not_mem_nil c))
        (fun i x hx => absurd hx (List.not_mem_nil x)) List.chain'_nil List.chain'_nil
        (fun x hx => by simp at hx) (fun x hx => by simp at hx)
      rw [init_lists, b9] at hwf
      have hwf2 : WF (insert_at s5 (addfree_index 21 64) s9.mem_brk)
          [⟨s0.mem_start_brk + 184, 64, false⟩]
          (fun i => if i = 5 then [s0.mem_start_brk + 184] else []) := by
        rw [b9]
        exact hwf
      rw [heq, hc1]
      have hb0 : s9.mem_brk ≠ 0 := by rw [b9]; clear * - h1; omega
      simp only [if_neg hb0]
      refine ⟨trivial, hwf2.set_lohi _ _, ⟨rfl, ?_⟩, ?_, ?_, ?_⟩
      · show mem_heap_hi (insert_at s5 (addfree_index 21 64) s9.mem_brk) =
          (insert_at s5 (addfree_index 21 64) s9.mem_brk).mem_brk - 1
        unfold mem_heap_hi
        rw [hsf.2.1, f2, b9]
        exact sub64_eq _ _ (by clear * - h1; omega) (by clear * - hle h4; omega)
      · show (insert_at s5 (addfree_index 21 64) s9.mem_brk).mem_start_brk = s0.mem_start_brk
        rw [hsf.1, f1, l9]
      · show (insert_at s5 (addfree_index 21 64) s9.mem_brk).mem_brk = s0.mem_start_brk + 248
        rw [hsf.2.1, f2, b9]
      · show (insert_at s5 (addfree_index 21 64) s9.mem_brk).mem_max_addr = s0.mem_max_addr
        rw [hsf.2.2.1, f3, m9]

/-! ## A second `rmvll` of the same node -/

theorem write32_at (m m0 : Mem) (a v x : Nat) (h1 : a ≤ x) (h2 : x < a + 4) :
    write32 m a v x = write32 m0 a v x := by
  unfold write32
  by_cases e0 : x = a
  · simp [e0]
  · by_cases e1 : x = a + 1
    · simp [e1]
    · by_cases e2 : x = a + 2
      · simp [e2]
      · have e3 : x = a + 3 := by omega
        simp [e3]

/-- Inside the cell it writes, `write64` does not depend on the memory it writes to. -/
theorem write64_at (m m0 : Mem) (a v x : Nat) (h1 : a ≤ x) (h2 : x < a + 8) :
    write64 m a v x = write64 m0 a v x := by
  unfold write64
  by_cases hx : x < a + 4
  · rw [write32_out _ _ _ _ (Or.inl hx), write32_out _ _ _ _ (Or.inl hx)]
    exact write32_at _ _ _ _ _ h1 hx
  · exact write32_at _ _ _ _ _ (by omega) (by omega)

theorem State.eq_of {s s2 : State} (h : SameFields s s2) (hm : s2.mem = s.mem) : s2 = s := by
  obtain ⟨a1, a2, a3, a4, a5, a6, a7, a8⟩ := h
  cases s
  cases s2
  simp only at a1 a2 a3 a4 a5 a6 a7 a8 hm
  subst a1 a2 a3 a4 a5 a6 a7 a8 hm
  rfl

/-- The link fields of a listed node: its parent cell `P`, its successor `N`,
where they lie, and the memory `rmvll` leaves. -/
theorem Core.links {s : State} {bl : List Blk} {fl : Nat → List Nat} (h : Core s bl fl)
    {i x : Nat} (hx : x ∈ fl i) :
    ∃ P N, read64 s.mem (x + 8) = P ∧ read64 s.mem x = N ∧ P ≠ 0 ∧
      (P + 16 ≤ x ∨ x + 16 ≤ P) ∧ x + 16 ≤ 18446744073709551616 ∧
      N + 16 ≤ 18446744073709551616 ∧
      (P = s.mem_start_brk + 8 * i ∨ (P ∈ fl i ∧ P ≠ x)) ∧
      (N = 0 ∨ (N ∈ fl i ∧ N ≠ x)) ∧ (N = 0 ∨ P + 16 ≤ N ∨ N + 16 ≤ P) ∧
      (N = 0 ∨ N + 16 ≤ x ∨ x + 16 ≤ N) ∧
      (rmvll s x).mem =
        if N = 0 then write64 s.mem P 0 else write64 (write64 s.mem P N) (N + 8) P := by
  have hi := h.idx_lt hx
  obtain ⟨l1, l2, hl⟩ := List.append_of_mem hx
  have hfl := h.flist i hi
  have hpw := h.pairwise i
  have hbd := h.bd64 i hi
  have hnd := h.fl_nodup i
  rw [hl] at hfl hpw hbd hnd
  have hat := FList_at s.mem l1 x l2 _ hfl
  have hbx := hbd x (by simp)
  have hL := h.base_pos
  have hpm : lastOr (s.mem_start_brk + 8 * i) l1 ∈ (s.mem_start_brk + 8 * i) :: l1 :=
    lastOr_mem l1 _
  have hpfar : Far (lastOr (s.mem_start_brk + 8 * i) l1) x := by
    rcases List.mem_cons.1 hpm with e | e
    · rw [e]; exact (List.pairwise_cons.1 hpw).1 x (by simp)
    · have hh := List.pairwise_append.1 (List.pairwise_cons.1 hpw).2
      exact hh.2.2 _ e x (by simp)
  have hp0 : lastOr (s.mem_start_brk + 8 * i) l1 ≠ 0 := by
    rcases List.mem_cons.1 hpm with e | e
    · rw [e]; omega
    · exact FList_ne_zero s.mem _ _ hfl _ (List.mem_append_left _ e)
  have hnx : read64 s.mem x = 0 ∨ read64 s.mem x ∈ l2 := by
    rw [hat.2.1]
    cases l2 with
    | nil => left; rfl
    | cons z zs => right; simp
  have hnb : read64 s.mem x + 16 ≤ 18446744073709551616 := by
    rcases hnx with e | e
    · omega
    · exact hbd _ (by simp [e])
  unfold Far at hpfar
  have hxl1 : x ∉ l1 := fun hx1 =>
    (List.nodup_append.1 hnd).2.2 hx1 (List.mem_cons_self _ _)
  have hxl2 : x ∉ l2 := (List.nodup_cons.1 (List.nodup_append.1 hnd).2.1).1
  have hpn : read64 s.mem x = 0 ∨
      Far (lastOr (s.mem_start_brk + 8 * i) l1) (read64 s.mem x) := by
    rcases hnx with e | e
    · exact Or.inl e
    · right
      rcases List.mem_cons.1 hpm with e1 | e1
      · rw [e1]; exact (List.pairwise_cons.1 hpw).1 _ (by simp [e])
      · have hh := List.pairwise_append.1 (List.pairwise_cons.1 hpw).2
        exact hh.2.2 _ e1 _ (by simp [e])
  unfold Far at hpn
  have hnfar : read64 s.mem x = 0 ∨ Far (read64 s.mem x) x := by
    rcases hnx with e | e
    · exact Or.inl e
    · right
      have hh := List.pairwise_append.1 (List.pairwise_cons.1 hpw).2
      have h3 := (List.pairwise_cons.1 hh.2.1).1 _ e
      unfold Far at h3 ⊢
      omega
  unfold Far at hnfar
  refine ⟨lastOr (s.mem_start_brk + 8 * i) l1, read64 s.mem x, hat.1, rfl, hp0, hpfar, hbx,
    hnb, ?_, ?_, hpn, hnfar, ?_⟩
  · rcases List.mem_cons.1 hpm with e | e
    · exact Or.inl e
    · right
      refine ⟨by rw [hl]; exact List.mem_append_left _ e, fun e2 => hxl1 (e2 ▸ e)⟩
  · rcases hnx with e | e
    · exact Or.inl e
    · right
      refine ⟨by rw [hl]; simp [e], fun e2 => hxl2 (e2 ▸ e)⟩
  · have := rmvll_mem s x hbx (by rw [hat.1]; exact hp0) (by rw [hat.1]; omega) hnb
    rw [hat.1] at this
    exact this

/-- A second `rmvll` of a node changes nothing when the two cells it writes
already hold what it writes. -/
theorem rmvll_again (s3 : State) (m : Mem) (x P N : Nat)
    (hP : read64 s3.mem (x + 8) = P) (hN : read64 s3.mem x = N) (hp0 : P ≠ 0)
    (hfar : P + 16 ≤ x ∨ x + 16 ≤ P) (hx : x + 16 ≤ 18446744073709551616)
    (hn : N + 16 ≤ 18446744073709551616) (hpn : N = 0 ∨ P + 16 ≤ N ∨ N + 16 ≤ P)
    (hcP : ∀ a, P ≤ a → a < P + 8 → s3.mem a = write64 m P N a)
    (hcN : N ≠ 0 → ∀ a, N + 8 ≤ a → a < N + 16 → s3.mem a = write64 m (N + 8) P a) :
    rmvll s3 x = s3 := by
  refine State.eq_of (rmvll_fields s3 x) ?_
  rw [rmvll_mem s3 x hx (by rw [hP]; exact hp0) (by rw [hP]; omega) (by rw [hN]; exact hn),
    hP, hN]
  funext a
  by_cases h0 : N = 0
  · rw [if_pos h0]
    by_cases ha : P ≤ a ∧ a < P + 8
    · rw [hcP a ha.1 ha.2, h0]
      exact write64_at _ _ _ _ _ ha.1 ha.2
    · exact write64_out _ _ _ _ (by omega)
  · rw [if_neg h0]
    by_cases ha : P ≤ a ∧ a < P + 8
    · rw [write64_out _ _ _ _ (by omega), hcP a ha.1 ha.2]
      exact write64_at _ _ _ _ _ ha.1 ha.2
    · by_cases hb : N + 8 ≤ a ∧ a < N + 16
      · rw [hcN h0 a hb.1 hb.2]
        exact write64_at _ _ _ _ _ hb.1 hb.2
      · rw [write64_out _ _ _ _ (by omega), write64_out _ _ _ _ (by omega)]

/-! ## `mm_realloc` in place -/

/-- The slots, and the link fields of a listed block other than `r`, are clear
of the header of `b` and of the footer of `r`. -/
theorem Core.cell_clear {s : State} {pre post2 : List Blk} {b r : Blk} {fl : Nat → List Nat}
    (h : Core s (pre ++ b :: r :: post2) fl) (hba : b.alloc = true) {i y : Nat}
    (hy : y = s.mem_start_brk + 8 * i ∨ (y ∈ fl i ∧ y ≠ r.addr)) (hi : i < 21)
    (x : Nat) (h1 : y ≤ x) (h2 : x < y + 16) :
    x < b.addr - 4 ∨ (b.addr ≤ x ∧ x < b.addr + (b.size + r.size) - 8) ∨
      b.addr + (b.size + r.size) - 4 ≤ x := by
  have hbin : b ∈ pre ++ b :: r :: post2 := by simp
  have hrin : r ∈ pre ++ b :: r :: post2 := by simp
  obtain ⟨hb1, -, hb3, -⟩ := h.blk b hbin
  obtain ⟨-, -, hr3, -⟩ := h.blk r hrin
  have hra : r.addr = b.addr + b.size := (h.next_alloc.2.2 r post2 rfl).1
  rcases hy with e | ⟨e1, e2⟩
  · left
    clear * - e hi hb1 h2
    omega
  · obtain ⟨c, hc, hcx, hcf⟩ := h.fl_free i y e1
    have hc3 := (h.blk c hc).2.2.1
    have hcb : c ≠ b := by
      intro e
      rw [e, hba] at hcf
      simp at hcf
    have hcr : c ≠ r := by
      intro e
      rw [e] at hcx
      exact e2 hcx.symm
    rcases Chain_disj _ _ _ _ h.chain c b hc hbin with d1 | d1 | d1
    · exact absurd d1 hcb
    · left
      clear * - d1 hcx h2 hc3
      omega
    · rcases Chain_disj _ _ _ _ h.chain c r hc hrin with d2 | d2 | d2
      · exact absurd d2 hcr
      · exfalso
        clear * - d1 d2 hra hc3
        omega
      · right; right
        clear * - d2 hra hcx h1
        omega

/-- What the branch of `mm_realloc` that splits the next block computes. -/
theorem realloc_split_eq {s : State} {pre post2 : List Blk} {b r : Blk} {fl : Nat → List Nat}
    (h : Core s (pre ++ b :: r :: post2) fl) (asize : Nat) (h24 : 24 ≤ asize)
    (h8 : asize % 8 = 0) (hge : b.size ≤ asize) (hle : asize + 24 ≤ b.size + r.size) :
    realloc_split s b.addr asize =
      insert_at ((rmvll s r.addr).setMem
          (tag (tag (rmvll s r.addr).mem b.addr asize true) (b.addr + asize)
            (b.size + r.size - asize) false))
        (addfree_index 21 (b.size + r.size - asize)) (b.addr + asize) := by
  have hbin : b ∈ pre ++ b :: r :: post2 := by simp
  have hrin : r ∈ pre ++ b :: r :: post2 := by simp
  have hl := h.lt64
  have hnx := h.next_alloc
  have hra : r.addr = b.addr + b.size := (hnx.2.2 r post2 rfl).1
  have hnb : NEXT_BLKP s.mem b.addr = r.addr := by rw [hnx.1, hra]
  obtain ⟨hb1, hb2, -, hb4, -, -, -⟩ := h.blk b hbin
  obtain ⟨-, hr2, -, hr4, -, -, -⟩ := h.blk r hrin
  obtain ⟨hbH, hbS, -, -, -, -, -, hb32⟩ := h.macros b hbin
  obtain ⟨hrH, hrS, -, -, -, -, -, hr32⟩ := h.macros r hrin
  have hs32 : b.size + r.size < 4294967296 := by clear * - hb1 hr2 hra hl; omega
  have hsub : sub64 asize b.size = asize - b.size :=
    sub64_eq _ _ hge (by clear * - hle hb32 hr32; omega)
  have hrem : sub64 r.size (asize - b.size) = b.size + r.size - asize := by
    rw [sub64_eq _ _ (by clear * - hle hge; omega) (by clear * - hr32; omega)]
    clear * - hle hge
    omega
  have hP : PACK asize 1 = asize + 1 := PACK_one _ h8
  have hF1 : FTRP (write32 (rmvll s r.addr).mem (b.addr - 4) (asize + 1)) b.addr =
      b.addr + asize - 8 := by
    refine FTRP_eq _ _ _ (by clear * - hb1; omega) ?_ (by clear * - hb1; omega)
      (by clear * - hr2 hra hl hle; omega)
    rw [GET_SIZE_val _ _ _ (read32_write32_same _ _ _)]
    clear * - h8 hle hs32
    omega
  have hN : NEXT_BLKP (write32 (write32 (rmvll s r.addr).mem (b.addr - 4) (asize + 1))
      (b.addr + asize - 8) (asize + 1)) b.addr = b.addr + asize := by
    refine NEXT_BLKP_eq _ _ _ (by clear * - hb1; omega) ?_ (by clear * - hr2 hra hl hle; omega)
    rw [GET_SIZE_val _ _ _ ((read32_write32_ne _ _ _ _ (by clear * - h24 hb1; omega)).trans
      (read32_write32_same _ _ _))]
    clear * - h8 hle hs32
    omega
  have hH2 : HDRP (b.addr + asize) = b.addr + asize - 4 :=
    HDRP_eq _ (by clear * - hb1; omega) (by clear * - hr2 hra hl hle; omega)
  have hF2 : FTRP (write32 (write32 (write32 (rmvll s r.addr).mem (b.addr - 4) (asize + 1))
      (b.addr + asize - 8) (asize + 1)) (b.addr + asize - 4) (b.size + r.size - asize))
      (b.addr + asize) = b.addr + asize + (b.size + r.size - asize) - 8 := by
    refine FTRP_eq _ _ _ (by clear * - hb1; omega) ?_ (by clear * - hb1; omega)
      (by clear * - hr2 hra hl hle; omega)
    rw [GET_SIZE_val _ _ _ (read32_write32_same _ _ _)]
    clear * - h8 hle hs32 hb4 hr4
    omega
  have har : (rmvll s r.addr).arrsize = 21 := by
    rw [(rmvll_fields s r.addr).2.2.2.2.1, h.arrsize_eq]
  unfold realloc_split
  simp only [hnb, hbH, hbS, hrH, hrS, hsub, hrem, hP, PACK_zero, put32_eq, setMem_mem,
    setMem_setMem, hF1, hN, hH2, hF2, addfree, setMem_fields, har, Bool.toNat_false,
    Bool.toNat_true, Nat.add_zero, tag]

/-- What the branch of `mm_realloc` that takes the whole next block computes;
its second `rmvll` finds the work done. -/
theorem realloc_whole_eq {s : State} {pre post2 : List Blk} {b r : Blk} {fl : Nat → List Nat}
    (h : Core s (pre ++ b :: r :: post2) fl) (hba : b.alloc = true)
    {j : Nat} (hrj : r.addr ∈ fl j) :
    realloc_whole s b.addr =
      (rmvll s r.addr).setMem (tag (rmvll s r.addr).mem b.addr (b.size + r.size) true) := by
  have hbin : b ∈ pre ++ b :: r :: post2 := by simp
  have hrin : r ∈ pre ++ b :: r :: post2 := by simp
  have hl := h.lt64
  have hj := h.idx_lt hrj
  have hnx := h.next_alloc
  have hra : r.addr = b.addr + b.size := (hnx.2.2 r post2 rfl).1
  have hnb : NEXT_BLKP s.mem b.addr = r.addr := by rw [hnx.1, hra]
  obtain ⟨hb1, hb2, hb3, hb4, -, -, -⟩ := h.blk b hbin
  obtain ⟨-, hr2, hr3, hr4, -, -, -⟩ := h.blk r hrin
  obtain ⟨hbH, hbS, -, -, -, -, -, hb32⟩ := h.macros b hbin
  obtain ⟨hrH, hrS, -, -, -, -, -, hr32⟩ := h.macros r hrin
  have hsum : add64 b.size r.size = b.size + r.size :=
    add64_eq _ _ (by clear * - hb32 hr32; omega)
  have hP : PACK (b.size + r.size) 1 = b.size + r.size + 1 :=
    PACK_one _ (by clear * - hb4 hr4; omega)
  have hF1 : FTRP (write32 (rmvll s r.addr).mem (b.addr - 4) (b.size + r.size + 1)) b.addr =
      b.addr + (b.size + r.size) - 8 := by
    refine FTRP_eq _ _ _ (by clear * - hb1; omega) ?_ (by clear * - hb1; omega)
      (by clear * - hr2 hra hl; omega)
    rw [GET_SIZE_val _ _ _ (read32_write32_same _ _ _)]
    have : b.size + r.size + 1 < 4294967296 := by clear * - hr2 hra hl hb1; omega
    clear * - hb4 hr4 this
    omega
  obtain ⟨P, N, k1, k2, k3, k4, k5, k6, k7, k8, k9, k10, k11⟩ := h.links hrj
  have hm1 : ∀ a, ¬ (P ≤ a ∧ a < P + 8) → (N = 0 ∨ ¬ (N + 8 ≤ a ∧ a < N + 16)) →
      (rmvll s r.addr).mem a = s.mem a := by
    intro a ha1 ha2
    rw [k11]
    by_cases h0 : N = 0
    · rw [if_pos h0]
      exact write64_out _ _ _ _ (by clear * - ha1; omega)
    · rw [if_neg h0]
      rw [write64_out _ _ _ _ (by clear * - ha2 h0; omega),
        write64_out _ _ _ _ (by clear * - ha1; omega)]
  have hPc : P = s.mem_start_brk + 8 * j ∨ (P ∈ fl j ∧ P ≠ r.addr) := k7
  have htag : ∀ a, r.addr ≤ a → a < r.addr + 16 →
      tag (rmvll s r.addr).mem b.addr (b.size + r.size) true a = s.mem a := by
    intro a ha1 ha2
    rw [tag_out _ _ _ _ _ (by clear * - hb1; omega) (by clear * - hb3; omega)
      (by clear * - ha1 ha2 hra hr3 hb3; omega)]
    exact hm1 a (by clear * - k4 ha1 ha2; omega) (by
      rcases k10 with e | e
      · exact Or.inl e
      · right
        clear * - e ha1 ha2
        omega)
  have hag : rmvll ((rmvll s r.addr).setMem
      (tag (rmvll s r.addr).mem b.addr (b.size + r.size) true)) r.addr =
      (rmvll s r.addr).setMem (tag (rmvll s r.addr).mem b.addr (b.size + r.size) true) := by
    refine rmvll_again _ s.mem r.addr P N ?_ ?_ k3 k4 k5 k6 k9 ?_ ?_
    · rw [setMem_mem, ← k1]
      exact read64_congr _ _ _ (fun a ha1 ha2 => htag a (by clear * - ha1; omega) (by omega))
    · rw [setMem_mem, ← k2]
      exact read64_congr _ _ _ (fun a ha1 ha2 => htag a ha1 (by clear * - ha2; omega))
    · intro a ha1 ha2
      rw [setMem_mem, tag_out _ _ _ _ _ (by clear * - hb1; omega) (by clear * - hb3; omega)
        (h.cell_clear hba hPc hj a ha1 (by clear * - ha2; omega)), k11]
      by_cases h0 : N = 0
      · rw [if_pos h0, h0]
      · rw [if_neg h0]
        exact write64_out _ _ _ _ (by
          rcases k9 with e | e
          · exact absurd e h0
          · clear * - e ha1 ha2
            omega)
    · intro h0 a ha1 ha2
      have hNc : N = s.mem_start_brk + 8 * j ∨ (N ∈ fl j ∧ N ≠ r.addr) := by
        rcases k8 with e | e
        · exact absurd e h0
        · exact Or.inr e
      rw [setMem_mem, tag_out _ _ _ _ _ (by clear * - hb1; omega) (by clear * - hb3; omega)
        (h.cell_clear hba hNc hj a (by clear * - ha1; omega) ha2), k11, if_neg h0]
      exact write64_at _ _ _ _ _ ha1 ha2
  unfold realloc_whole
  simp only [hnb, hbH, hbS, hrH, hrS, hsum, hP, put32_eq, setMem_mem, setMem_setMem, hF1]
  exact hag

/-- The lists of a heap whose block `r` has been unlisted, seen from the blocks
around `b` and `r`. -/
theorem WF.around {s : State} {pre post2 : List Blk} {b r : Blk} {fl : Nat → List Nat}
    (h : WF s (pre ++ b :: r :: post2) fl) (hba : b.alloc = true) (hrf : r.alloc = false) :
    r.addr ∈ fl (addfree_index 21 r.size) ∧
    (∀ c, c ∈ pre ++ post2 → c.alloc = false →
      c.addr ∈ Function.update fl (addfree_index 21 r.size)
        ((fl (addfree_index 21 r.size)).erase r.addr) (addfree_index 21 c.size)) ∧
    (∀ i x, x ∈ Function.update fl (addfree_index 21 r.size)
        ((fl (addfree_index 21 r.size)).erase r.addr) i →
      ∀ c, c ∈ pre ++ post2 → c.addr = x → addfree_index 21 c.size = i) ∧
    (∀ i, b.addr ∉ fl i) ∧ pre.Chain' NA ∧ post2.Chain' NA ∧
    (∀ y ∈ post2.head?, y.alloc = true) := by
  have hc := h.core
  have hbin : b ∈ pre ++ b :: r :: post2 := by simp
  have hrin : r ∈ pre ++ b :: r :: post2 := by simp
  have hsp := noadj_split h.noadj
  refine ⟨h.fl_all r hrin hrf, ?_, ?_, ?_, hsp.1, (List.chain'_cons'.1 hsp.2.1).2,
    head_alloc_of hsp.2.1 hrf⟩
  · intro c hcm hcf
    have hc2 : c ∈ pre ∨ c ∈ post2 := List.mem_append.1 hcm
    have hin : c ∈ pre ++ b :: r :: post2 := by
      rcases hc2 with e | e
      · simp [e]
      · simp [e]
    have hc3 : c ∈ (pre ++ [b]) ++ post2 := by
      rcases hc2 with e | e
      · simp [e]
      · simp [e]
    have hch : Chain s.mem (s.mem_start_brk + 184) ((pre ++ [b]) ++ r :: post2) s.mem_brk := by
      simpa using hc.chain
    have hne := Chain_notin _ _ _ _ _ _ hch c hc3
    exact mem_update_erase_of_ne (h.fl_all c hin hcf) hne
  · intro i x hx c hcm hcx
    have hc2 : c ∈ pre ∨ c ∈ post2 := List.mem_append.1 hcm
    have hin : c ∈ pre ++ b :: r :: post2 := by
      rcases hc2 with e | e
      · simp [e]
      · simp [e]
    exact h.fl_class i x (mem_update_erase hx) c hin hcx
  · intro i hx
    have := hc.node_free hx b hbin rfl
    rw [this] at hba
    simp at hba

/-- Growing an allocated block in place into part of the free block after it. -/
theorem realloc_split_spec {s : State} {pre post2 : List Blk} {b r : Blk}
    {fl : Nat → List Nat} (h : WF s (pre ++ b :: r :: post2) fl) (hba : b.alloc = true)
    (hrf : r.alloc = false) (asize : Nat) (h24 : 24 ≤ asize) (h8 : asize % 8 = 0)
    (hge : b.size ≤ asize) (hle : asize + 24 ≤ b.size + r.size) :
    ∃ fl2, WF (realloc_split s b.addr asize)
      (pre ++ ⟨b.addr, asize, true⟩ :: ⟨b.addr + asize, b.size + r.size - asize, false⟩ ::
        post2) fl2 ∧
      (∀ a, s.mem_start_brk + 168 ≤ a →
        (∀ c, c ∈ pre ++ b :: r :: post2 → c.alloc = false →
          ¬ (c.addr - 4 ≤ a ∧ a < c.addr + c.size - 4)) →
        ¬ (b.addr - 4 ≤ a ∧ a < b.addr) →
        ¬ (b.addr + b.size - 8 ≤ a ∧ a < b.addr + b.size - 4) →
        (realloc_split s b.addr asize).mem a = s.mem a) ∧
      SameFields s (realloc_split s b.addr asize) := by
  have hc := h.core
  have hbin : b ∈ pre ++ b :: r :: post2 := by simp
  have hrin : r ∈ pre ++ b :: r :: post2 := by simp
  obtain ⟨hrj, w2, w3, w4, w5, w6, w7⟩ := h.around hba hrf
  rw [realloc_split_eq hc asize h24 h8 hge hle]
  obtain ⟨hc1, hlo1⟩ := rmvll_core hc hrj
  have hfo1 := hlo1.freeOnly hc
  have hc1b : Core (rmvll s r.addr) (pre ++ [b, r] ++ post2)
      (Function.update fl (addfree_index 21 r.size)
        ((fl (addfree_index 21 r.size)).erase r.addr)) := by simpa using hc1
  obtain ⟨a, e, g1, g2, g3⟩ := hc1b.split3
  have g2c := g2
  obtain ⟨ga, gb24, gb8, -, -, gr, gr24, gr8, -, -, ge⟩ := g2c
  have ge2 : a + (asize + (b.size + r.size - asize)) = e := by
    have ge3 : a + b.size + r.size = e := ge
    clear * - ge3 hle
    omega
  subst ge2
  subst ga
  have hra : r.addr = b.addr + b.size := gr
  have hL1 : (rmvll s r.addr).mem_start_brk = s.mem_start_brk := (rmvll_fields s r.addr).1
  have hc3 := retag2 hc1b b.addr asize (b.size + r.size - asize) true false g1 g2 g3 h24 h8
    (by clear * - hle; omega) (by clear * - h8 gb8 gr8; omega) (by
    intro i x hx c hc2 hcx
    have hc4 : c = b ∨ c = r := by simpa using hc2
    rcases hc4 with e1 | e1
    · subst e1
      rw [← hcx] at hx
      exact w4 i (mem_update_erase hx)
    · subst e1
      rw [← hcx] at hx
      exact hc.not_mem_erase hrj i hx)
  obtain ⟨hb1, hb2, hb3, hb4, -, -, -⟩ := hc.blk b hbin
  obtain ⟨hr1, hr2, hr3, hr4, -, -, -⟩ := hc.blk r hrin
  have hnl3 : ∀ i, (⟨b.addr + asize, b.size + r.size - asize, false⟩ : Blk).addr ∉
      Function.update fl (addfree_index 21 r.size)
        ((fl (addfree_index 21 r.size)).erase r.addr) i := by
    intro i hx
    have hx2 := mem_update_erase hx
    obtain ⟨c, hcm, hcx, hcf⟩ := hc.fl_free i _ hx2
    have hc3 := (hc.blk c hcm).2.2.1
    have hcx2 : c.addr = b.addr + asize := hcx
    rcases Chain_disj s.mem _ _ _ hc.chain c b hcm hbin with e1 | e1 | e1
    · rw [e1, hba] at hcf
      simp at hcf
    · clear * - e1 hcx2 hc3
      omega
    · rcases Chain_disj s.mem _ _ _ hc.chain c r hcm hrin with e2 | e2 | e2
      · have e3 : (⟨b.addr + asize, b.size + r.size - asize, false⟩ : Blk).addr = r.addr := by
          rw [← e2]; exact hcx2.symm
        rw [e3] at hx
        exact hc.not_mem_erase hrj i hx
      · clear * - e1 e2 hra hc3
        omega
      · clear * - e2 hcx2 hle hra
        omega
  obtain ⟨hc4, hlo4⟩ := insert_core hc3 (addfree_index_lt (b.size + r.size - asize))
    ⟨b.addr + asize, b.size + r.size - asize, false⟩ (by simp) rfl hnl3
  have hwf := wf_assemble2 (pre ++ [⟨b.addr, asize, true⟩]) post2
    ⟨b.addr + asize, b.size + r.size - asize, false⟩ (by simpa using hc4) hnl3
    (by
      intro c hcm hcf
      have hc2 : c ∈ pre ∨ c = ⟨b.addr, asize, true⟩ ∨ c ∈ post2 := by simpa using hcm
      rcases hc2 with e1 | e1 | e1
      · exact w2 c (by simp [e1]) hcf
      · rw [e1] at hcf; simp at hcf
      · exact w2 c (by simp [e1]) hcf)
    (by
      intro i x hx c hcm hcx
      have hc2 : c ∈ pre ∨ c = ⟨b.addr, asize, true⟩ ∨ c ∈ post2 := by simpa using hcm
      rcases hc2 with e1 | e1 | e1
      · exact w3 i x hx c (by simp [e1]) hcx
      · exfalso
        rw [e1] at hcx
        have hcx2 : b.addr = x := hcx
        rw [← hcx2] at hx
        exact w4 i (mem_update_erase hx)
      · exact w3 i x hx c (by simp [e1]) hcx)
    (noadj_snoc w5 rfl) w6 (getLast_snoc_alloc rfl) w7
  refine ⟨_, by simpa using hwf, ?_, ?_⟩
  · intro x hx hfree hhd hft
    have fr := hfree r hrin hrf
    have e4 : (insert_at ((rmvll s r.addr).setMem
        (tag (tag (rmvll s r.addr).mem b.addr asize true) (b.addr + asize)
          (b.size + r.size - asize) false))
        (addfree_index 21 (b.size + r.size - asize)) (b.addr + asize)).mem x =
        (tag (tag (rmvll s r.addr).mem b.addr asize true) (b.addr + asize)
          (b.size + r.size - asize) false) x := by
      refine hlo4 x (by rw [(setMem_fields _ _).1, hL1]; exact hx) ?_
      intro c hcm hcf
      have hc2 : c ∈ pre ∨ c = ⟨b.addr, asize, true⟩ ∨
          c = ⟨b.addr + asize, b.size + r.size - asize, false⟩ ∨ c ∈ post2 := by
        simpa using hcm
      rcases hc2 with e1 | e1 | e1 | e1
      · have := hfree c (by simp [e1]) hcf
        have := (hc.blk c (by simp [e1])).2.2.1
        omega
      · rw [e1] at hcf; simp at hcf
      · subst e1
        show ¬ (b.addr + asize ≤ x ∧ x < b.addr + asize + 16)
        clear * - fr hle hge hra hb1
        omega
      · have := hfree c (by simp [e1]) hcf
        have := (hc.blk c (by simp [e1])).2.2.1
        omega
    rw [e4, tag_out _ _ _ _ _ (by clear * - hb1; omega) (by clear * - hle; omega)
      (by clear * - fr hle hge hra hb1 h24; omega),
      tag_out _ _ _ _ _ (by clear * - hb1; omega) (by clear * - h24; omega)
      (by clear * - fr hle hge hra hb1 h24 hhd hft; omega)]
    exact hfo1 x hx hfree
  · exact ((SameFields.rmvll s r.addr).trans (SameFields.setMem _ _)).trans
      (SameFields.insert_at _ _ _)

/-- Growing an allocated block in place over the whole free block after it. -/
theorem realloc_whole_spec {s : State} {pre post2 : List Blk} {b r : Blk}
    {fl : Nat → List Nat} (h : WF s (pre ++ b :: r :: post2) fl) (hba : b.alloc = true)
    (hrf : r.alloc = false) :
    ∃ fl2, WF (realloc_whole s b.addr) (pre ++ ⟨b.addr, b.size + r.size, true⟩ :: post2) fl2 ∧
      (∀ a, s.mem_start_brk + 168 ≤ a →
        (∀ c, c ∈ pre ++ b :: r :: post2 → c.alloc = false →
          ¬ (c.addr - 4 ≤ a ∧ a < c.addr + c.size - 4)) →
        ¬ (b.addr - 4 ≤ a ∧ a < b.addr) →
        ¬ (b.addr + b.size - 8 ≤ a ∧ a < b.addr + b.size - 4) →
        (realloc_whole s b.addr).mem a = s.mem a) ∧
      SameFields s (realloc_whole s b.addr) := by
  have hc := h.core
  have hbin : b ∈ pre ++ b :: r :: post2 := by simp
  have hrin : r ∈ pre ++ b :: r :: post2 := by simp
  obtain ⟨hrj, w2, w3, w4, w5, w6, w7⟩ := h.around hba hrf
  rw [realloc_whole_eq hc hba hrj]
  obtain ⟨hc1, hlo1⟩ := rmvll_core hc hrj
  have hfo1 := hlo1.freeOnly hc
  have hc1b : Core (rmvll s r.addr) (pre ++ [b, r] ++ post2)
      (Function.update fl (addfree_index 21 r.size)
        ((fl (addfree_index 21 r.size)).erase r.addr)) := by simpa using hc1
  obtain ⟨a, e, g1, g2, g3⟩ := hc1b.split3
  have g2c := g2
  obtain ⟨ga, gb24, gb8, -, -, gr, gr24, gr8, -, -, ge⟩ := g2c
  have ge2 : a + (b.size + r.size) = e := by
    have ge3 : a + b.size + r.size = e := ge
    clear * - ge3
    omega
  subst ge2
  subst ga
  have hra : r.addr = b.addr + b.size := gr
  have hc3 := retag1 hc1b b.addr (b.size + r.size) true g1 g2 g3 (by clear * - gb24; omega)
    (by clear * - gb8 gr8; omega) (by
    intro i x hx c hc2 hcx
    exfalso
    have hc4 : c = b ∨ c = r := by simpa using hc2
    rcases hc4 with e1 | e1
    · subst e1
      rw [← hcx] at hx
      exact w4 i (mem_update_erase hx)
    · subst e1
      rw [← hcx] at hx
      exact hc.not_mem_erase hrj i hx)
  obtain ⟨hb1, hb2, hb3, hb4, -, -, -⟩ := hc.blk b hbin
  obtain ⟨hr1, hr2, hr3, hr4, -, -, -⟩ := hc.blk r hrin
  have hwf := wf_assemble_alloc pre post2 ⟨b.addr, b.size + r.size, true⟩
    (by simpa using hc3) rfl w2 w3 w5 w6
  refine ⟨_, hwf, ?_, ?_⟩
  · intro x hx hfree hhd hft
    have fr := hfree r hrin hrf
    show tag (rmvll s r.addr).mem b.addr (b.size + r.size) true x = s.mem x
    rw [tag_out _ _ _ _ _ (by clear * - hb1; omega) (by clear * - hb3; omega)
      (by clear * - fr hra hb1 hb3 hr3 hhd; omega)]
    exact hfo1 x hx hfree
  · exact (SameFields.rmvll s r.addr).trans (SameFields.setMem _ _)

/-! ## Writes into a payload -/

/-- A change of memory confined to the payload of an allocated block keeps the
heap well-formed. -/
theorem WF.payload_write {s : State} {bl : List Blk} {fl : Nat → List Nat} (h : WF s bl fl)
    (c : Blk) (hc : c ∈ bl) (hca : c.alloc = true) (m2 : Mem)
    (hm : ∀ a, a < c.addr ∨ c.addr + c.size - 8 ≤ a → m2 a = s.mem a) :
    WF (s.setMem m2) bl fl := by
  obtain ⟨pre, post, e⟩ := List.append_of_mem hc
  subst e
  have h2 : Core s (pre ++ [c] ++ post) fl := by simpa using h.core
  obtain ⟨a, e, g1, g2, g3⟩ := h2.split3
  have g2c := g2
  obtain ⟨ga, g24, g8, gh, gf, ge⟩ := g2c
  have ge2 : a + c.size = e := ge
  subst ge2
  subst ga
  have hb1 := (h.core.blk c hc).1
  have hcore := retag_core h2 m2 [c] c.addr (c.addr + c.size) g1 g3
    ⟨rfl, g24, g8,
      (read32_congr _ _ _ (fun x h1 h2 => hm x (by clear * - h2 hb1; omega))).trans gh,
      (read32_congr _ _ _ (fun x h1 h2 => hm x (by clear * - h1 g24; omega))).trans gf, rfl⟩
    (fun x hx => hm x (by clear * - hx g24; omega))
    (by
      intro i x hx b hb hbx
      exfalso
      have e1 : b = c := by simpa using hb
      subst e1
      have := h.core.node_free hx b hc hbx
      rw [this] at hca
      simp at hca)
  exact ⟨by simpa using hcore, h.noadj, h.fl_class, h.fl_all⟩

theorem Core.in_heap_blk {s : State} {bl : List Blk} {fl : Nat → List Nat} (h : Core s bl fl)
    (b : Blk) (hb : b ∈ bl) : in_heap s b.addr = 1 ∧ b.addr ≠ 0 := by
  have hl := h.lt64
  obtain ⟨hb1, hb2, hb3, -⟩ := h.blk b hb
  refine ⟨?_, by clear * - hb1; omega⟩
  unfold in_heap mem_heap_hi mem_heap_lo
  rw [sub64_eq _ _ (by clear * - hb1 hb2; omega) (by clear * - hl; omega)]
  rw [if_pos (by clear * - hb1 hb2 hb3; omega)]

/-! ## The ways through `mm_realloc` -/

/-- The ways through `mm_realloc` for an allocated block and a size that is not
zero: growth in place with a split; growth in place over the whole next block;
allocate, copy and free with the size asked for, when the next block is not
free; and the same with the adjusted size, which has by then replaced the size
asked for, when the next block is free but does not fit. -/
theorem realloc_cases {s : State} {pre post : List Blk} {b : Blk} {fl : Nat → List Nat}
    (h : Core s (pre ++ b :: post) fl) (n fuel : Nat) (hn : n ≠ 0) :
    (∃ r post2, post = r :: post2 ∧ r.alloc = false ∧ b.size ≤ adjust n ∧
      adjust n + 24 ≤ b.size + r.size ∧
      mm_realloc fuel s b.addr n = some (realloc_split s b.addr (adjust n), b.addr)) ∨
    (∃ r post2, post = r :: post2 ∧ r.alloc = false ∧ b.size ≤ adjust n ∧
      adjust n ≤ b.size + r.size ∧ b.size + r.size < adjust n + 24 ∧
      mm_realloc fuel s b.addr n = some (realloc_whole s b.addr, b.addr)) ∨
    ((post = [] ∨ ∃ r post2, post = r :: post2 ∧ r.alloc = true) ∧
      mm_realloc fuel s b.addr n = realloc_move fuel s b.addr n) ∨
    (∃ r post2, post = r :: post2 ∧ r.alloc = false ∧
      (adjust n < b.size ∨ b.size + r.size < adjust n) ∧
      mm_realloc fuel s b.addr n = realloc_move fuel s b.addr (adjust n)) := by
  have hbin : b ∈ pre ++ b :: post := by simp
  obtain ⟨hin, hb0⟩ := h.in_heap_blk b hbin
  obtain ⟨hbH, hbS, -, -, -, -, -, hb32⟩ := h.macros b hbin
  have hnx := h.next_alloc
  have ha := adjust_mod n
  unfold mm_realloc
  rw [if_neg hn, if_neg hb0, if_neg (by rw [hin]; decide)]
  cases post with
  | nil =>
    right; right; left
    refine ⟨Or.inl rfl, ?_⟩
    rw [if_neg (by rw [(hnx.2.1 rfl).2]; decide)]
  | cons r post2 =>
    have hrin : r ∈ pre ++ b :: r :: post2 := by simp
    obtain ⟨hra, hga⟩ := hnx.2.2 r post2 rfl
    obtain ⟨hrH, hrS, -, -, -, -, -, hr32⟩ := h.macros r hrin
    have hnb : NEXT_BLKP s.mem b.addr = r.addr := by rw [hnx.1, hra]
    by_cases hrf : r.alloc = false
    · rw [if_pos (by rw [hga, hrf]; rfl)]
      simp only [hnb, hbH, hbS, hrH, hrS, MINBLKSIZE]
      by_cases hge : b.size ≤ adjust n
      · have hsub : sub64 (adjust n) b.size = adjust n - b.size :=
          sub64_eq _ _ hge ha.2
        rw [hsub]
        by_cases hfit : adjust n ≤ b.size + r.size
        · rw [if_pos (show r.size ≥ adjust n - b.size by clear * - hfit; omega)]
          have hrem : sub64 r.size (adjust n - b.size) = b.size + r.size - adjust n := by
            rw [sub64_eq _ _ (by clear * - hfit hge; omega) (by clear * - hr32; omega)]
            clear * - hfit hge
            omega
          rw [hrem]
          by_cases hsp : adjust n + 24 ≤ b.size + r.size
          · left
            refine ⟨r, post2, rfl, hrf, hge, hsp, ?_⟩
            rw [if_pos (show b.size + r.size - adjust n ≥ 24 by clear * - hsp; omega)]
          · right; left
            refine ⟨r, post2, rfl, hrf, hge, hfit, by clear * - hsp; omega, ?_⟩
            rw [if_neg (show ¬ b.size + r.size - adjust n ≥ 24 by clear * - hsp; omega)]
        · right; right; right
          refine ⟨r, post2, rfl, hrf, Or.inr (by clear * - hfit; omega), ?_⟩
          rw [if_neg (show ¬ r.size ≥ adjust n - b.size by clear * - hfit; omega)]
      · right; right; right
        refine ⟨r, post2, rfl, hrf, Or.inl (by clear * - hge; omega), ?_⟩
        have hsub : sub64 (adjust n) b.size =
            adjust n + (18446744073709551616 - b.size) := by
          unfold sub64
          rw [Nat.mod_eq_of_lt (show b.size < 18446744073709551616 by clear * - hb32; omega),
            Nat.mod_eq_of_lt (by clear * - hge hb32; omega)]
        rw [hsub, if_neg (by clear * - hr32 hb32; omega)]
    · have hra1 : r.alloc = true := by
        cases hr : r.alloc with
        | false => exact absurd hr hrf
        | true => rfl
      right; right; left
      refine ⟨Or.inr ⟨r, post2, rfl, hra1⟩, ?_⟩
      rw [if_neg (by rw [hga, hra1]; decide)]

/-! ## `mm_realloc`: allocate, copy, free -/

/-- The tail of `mm_realloc` on a well-formed heap, for an allocated block `b`
and a request `q` that does not wrap around: it returns; on `NULL` nothing has
changed; otherwise `b` has gone, a new allocated block holds the start of its
content, and every other allocated block is untouched. -/
theorem realloc_move_spec {s : State} {bl : List Blk} {fl : Nat → List Nat} (h : WF s bl fl)
    (b : Blk) (hb : b ∈ bl) (hba : b.alloc = true) (q fuel : Nat) (hq : 0 < q)
    (hw : q + 15 < 18446744073709551616) (hf : bl.length < fuel) :
    ∃ s2 p, realloc_move fuel s b.addr q = some (s2, p) ∧ (p = 0 → s2 = s) ∧
      (p ≠ 0 → ∃ bl2 fl2 sz, WF s2 bl2 fl2 ∧ ⟨p, sz, true⟩ ∈ bl2 ∧ adjust q ≤ sz ∧
        (∀ c, c ∈ bl → c.alloc = true → c.addr ≠ p) ∧
        (∀ c, c.alloc = true → (c ∈ bl2 ↔ c = ⟨p, sz, true⟩ ∨ (c ∈ bl ∧ c ≠ b))) ∧
        (∀ c, c ∈ bl → c.alloc = true → c ≠ b → ∀ a, c.addr - 4 ≤ a →
          a < c.addr + c.size - 4 → s2.mem a = s.mem a) ∧
        (∀ i, i < q → i < b.size - 8 → s2.mem (p + i) = s.mem (b.addr + i)) ∧
        s2.mem_start_brk = s.mem_start_brk ∧ s2.mem_max_addr = s.mem_max_addr ∧
        s.mem_brk ≤ s2.mem_brk ∧ (Bounds s → Bounds s2)) := by
  obtain ⟨s1, p, heq, hz, hnz⟩ := malloc_spec h q fuel hq hw hf
  unfold realloc_move
  rw [heq]
  simp only
  by_cases hp : p = 0
  · rw [if_pos hp]
    exact ⟨s1, 0, rfl, fun _ => hz hp, fun e => absurd rfl e⟩
  · rw [if_neg hp]
    refine ⟨_, p, rfl, fun e => absurd e hp, fun _ => ?_⟩
    obtain ⟨bl1, fl1, sz, w1, w2, w3, w4, w5, w6, w7, w8, w9, w10⟩ := hnz hp
    obtain ⟨a24, a8, aq, -⟩ := adjust_spec q hw
    have hb1 : b ∈ bl1 := (w5 b hba).2 (Or.inr hb)
    obtain ⟨hbH, hbS, -, -, -, -, -, hb32⟩ := w1.core.macros b hb1
    rw [hbH, hbS]
    have hN := w1.core.blk _ w2
    have hNa : (⟨p, sz, true⟩ : Blk).addr = p := rfl
    have hNs : (⟨p, sz, true⟩ : Blk).size = sz := rfl
    rw [hNa, hNs] at hN
    obtain ⟨hN1, hN2, hN3, -⟩ := hN
    have hlen : (if q < b.size then q else b.size) ≤ q ∧
        ∀ i, i < q → i < b.size → i < (if q < b.size then q else b.size) := by
      split
      · exact ⟨le_refl _, fun i h1 _ => h1⟩
      · exact ⟨by omega, fun i _ h2 => h2⟩
    generalize (if q < b.size then q else b.size) = len at hlen ⊢
    obtain ⟨hlen, hlen2⟩ := hlen
    -- the copy lands inside the new payload
    have hw2 : WF (s1.setMem (memcpy s1.mem p b.addr len)) bl1 fl1 :=
      w1.payload_write ⟨p, sz, true⟩ w2 rfl _ (by
        intro a ha
        refine memcpy_out _ _ _ _ _ ?_
        rw [hNa, hNs] at ha
        clear * - ha hlen aq w3
        omega)
    obtain ⟨pre, post, e⟩ := List.append_of_mem hb1
    subst e
    obtain ⟨bl2, fl2, r1, r2, r3, r4, -⟩ := free_spec hw2 hba
    have hNb : (⟨p, sz, true⟩ : Blk) ≠ b := by
      intro e
      have := w4 b hb hba
      rw [← e] at this
      exact this rfl
    have hmemb : ∀ c, c ∈ pre ++ b :: post → c ≠ b → c ∈ pre ++ post := by
      intro c hc hne
      have hc2 : c ∈ pre ∨ c = b ∨ c ∈ post := by simpa using hc
      rcases hc2 with e | e | e
      · simp [e]
      · exact absurd e hne
      · simp [e]
    have hmemb2 : ∀ c, c ∈ pre ++ post → c ∈ pre ++ b :: post ∧ c ≠ b := by
      intro c hc
      have hne := Chain_notin _ _ _ _ _ _ w1.core.chain c hc
      refine ⟨?_, fun e => hne (by rw [e])⟩
      rcases List.mem_append.1 hc with e | e
      · simp [e]
      · simp [e]
    have hNin : (⟨p, sz, true⟩ : Blk) ∈ pre ++ post := hmemb _ w2 hNb
    refine ⟨bl2, fl2, sz, r1, (r2 _ rfl).2 hNin, w3, w4, ?_, ?_, ?_, ?_, ?_, ?_, ?_⟩
    · intro c hca
      rw [r2 c hca]
      constructor
      · intro hc
        obtain ⟨hc1, hc2⟩ := hmemb2 c hc
        rcases (w5 c hca).1 hc1 with e | e
        · exact Or.inl e
        · exact Or.inr ⟨e, hc2⟩
      · intro hc
        rcases hc with e | ⟨e1, e2⟩
        · rw [e]; exact hNin
        · exact hmemb c ((w5 c hca).2 (Or.inr e1)) e2
    · intro c hc hca hne a ha1 ha2
      have hc1 : c ∈ pre ++ b :: post := (w5 c hca).2 (Or.inr hc)
      rw [r3 c (hmemb c hc1 hne) hca a ha1 ha2, setMem_mem]
      have hcN : c ≠ ⟨p, sz, true⟩ := by
        intro e
        exact w4 c hc hca (by rw [e])
      have hc3 := (w1.core.blk c hc1).2.2.1
      rw [memcpy_out _ _ _ _ _ (by
        rcases Chain_disj _ _ _ _ w1.core.chain c _ hc1 w2 with d | d | d
        · exact absurd d hcN
        · rw [hNa] at d
          clear * - d ha2 hc3
          omega
        · rw [hNa, hNs] at d
          clear * - d ha1 hlen aq w3
          omega)]
      exact w6 c hc hca a ha1 ha2
    · intro i hi1 hi2
      rw [r3 _ hNin rfl (p + i) (by rw [hNa]; clear * - hp; omega)
        (by rw [hNa, hNs]; clear * - hi1 aq w3; omega), setMem_mem,
        memcpy_in _ _ _ _ _ (by clear * - hp; omega)
          (by have := hlen2 i hi1 (by clear * - hi2; omega); clear * - this; omega)]
      have e : b.addr + (p + i - p) = b.addr + i := by clear * - hp; omega
      rw [e]
      exact w6 b hb hba (b.addr + i) (by clear * - hp; omega) (by clear * - hi2; omega)
    · rw [r4.1, setMem_fields s1 _ |>.1, w7]
    · rw [r4.2.2.1, setMem_fields s1 _ |>.2.2.1, w8]
    · rw [r4.2.1, setMem_fields s1 _ |>.2.1]
      exact w9
    · intro hB
      have hB1 := w10 hB
      exact ⟨by rw [r4.2.2.2.2.2.2.1, r4.1]; exact hB1.1,
        by rw [r4.2.2.2.2.2.2.2, r4.2.1]; exact hB1.2⟩

/-! ## `mm_realloc` -/

/-- What a change confined to free blocks, the table, and the header and the
footer of the allocated block `b` leaves alone: the other allocated blocks and
the payload of `b`. -/
theorem inplace_frame {s : State} {bl : List Blk} {fl : Nat → List Nat} (h : Core s bl fl)
    (b : Blk) (hb : b ∈ bl) (hba : b.alloc = true) (m2 : Mem)
    (hF : ∀ a, s.mem_start_brk + 168 ≤ a →
      (∀ c, c ∈ bl → c.alloc = false → ¬ (c.addr - 4 ≤ a ∧ a < c.addr + c.size - 4)) →
      ¬ (b.addr - 4 ≤ a ∧ a < b.addr) →
      ¬ (b.addr + b.size - 8 ≤ a ∧ a < b.addr + b.size - 4) → m2 a = s.mem a) :
    (∀ c, c ∈ bl → c.alloc = true → c ≠ b → ∀ a, c.addr - 4 ≤ a →
      a < c.addr + c.size - 4 → m2 a = s.mem a) ∧
    (∀ i, i < b.size - 8 → m2 (b.addr + i) = s.mem (b.addr + i)) := by
  have hclear : ∀ c, c ∈ bl → c.alloc = true → ∀ a, c.addr - 4 ≤ a →
      a < c.addr + c.size - 4 →
      ∀ d, d ∈ bl → d.alloc = false → ¬ (d.addr - 4 ≤ a ∧ a < d.addr + d.size - 4) := by
    intro c hc hca a ha1 ha2 d hd hdf
    have hc1 := (h.blk c hc).1
    have hd3 := (h.blk d hd).2.2.1
    have hd1 := (h.blk d hd).1
    rcases Chain_disj s.mem bl _ _ h.chain c d hc hd with e | e | e
    · rw [e, hdf] at hca; exact absurd hca (by simp)
    · clear * - e ha2 hd1; omega
    · clear * - e ha1 hc1 hd3; omega
  obtain ⟨hb1, -, hb3, -⟩ := h.blk b hb
  constructor
  · intro c hc hca hne a ha1 ha2
    obtain ⟨hc1, -, hc3, -⟩ := h.blk c hc
    have hd := Chain_disj s.mem bl _ _ h.chain c b hc hb
    refine hF a (by clear * - hc1 ha1; omega) (hclear c hc hca a ha1 ha2) ?_ ?_
    · rcases hd with e | e | e
      · exact absurd e hne
      · clear * - e ha2 hc3; omega
      · clear * - e ha1 hb3; omega
    · rcases hd with e | e | e
      · exact absurd e hne
      · clear * - e ha2 hc3 hb3; omega
      · clear * - e ha1 hb3 hc1; omega
  · intro i hi
    refine hF _ (by clear * - hb1; omega)
      (hclear b hb hba _ (by clear * - hb1; omega) (by clear * - hi; omega)) ?_ ?_
    · clear * - hb1; omega
    · clear * - hi; omega

/-- The function `mm_realloc` on a well-formed heap, for an allocated block `b`
and a size that is neither zero nor close to wrapping around: it returns; on
`NULL` nothing has changed; otherwise the heap is well-formed again, the
returned block is allocated and large enough and holds the start of the old
content, and every other allocated block is untouched. -/
theorem realloc_spec {s : State} {bl : List Blk} {fl : Nat → List Nat} (h : WF s bl fl)
    (b : Blk) (hb : b ∈ bl) (hba : b.alloc = true) (n fuel : Nat) (hn : 0 < n)
    (hw : n + 39 < 18446744073709551616) (hf : bl.length < fuel) :
    ∃ s2 p, mm_realloc fuel s b.addr n = some (s2, p) ∧ (p = 0 → s2 = s) ∧
      (p ≠ 0 → ∃ bl2 fl2 sz, WF s2 bl2 fl2 ∧ ⟨p, sz, true⟩ ∈ bl2 ∧ adjust n ≤ sz ∧
        (∀ c, c ∈ bl → c.alloc = true → c ≠ b → c.addr ≠ p) ∧
        (∀ c, c.alloc = true → (c ∈ bl2 ↔ c = ⟨p, sz, true⟩ ∨ (c ∈ bl ∧ c ≠ b))) ∧
        (∀ c, c ∈ bl → c.alloc = true → c ≠ b → ∀ a, c.addr - 4 ≤ a →
          a < c.addr + c.size - 4 → s2.mem a = s.mem a) ∧
        (∀ i, i < n → i < b.size - 8 → s2.mem (p + i) = s.mem (b.addr + i)) ∧
        s2.mem_start_brk = s.mem_start_brk ∧ s2.mem_max_addr = s.mem_max_addr ∧
        s.mem_brk ≤ s2.mem_brk ∧ (Bounds s → Bounds s2)) := by
  have hc := h.core
  obtain ⟨a24, a8, aq, aq2⟩ := adjust_spec n (by clear * - hw; omega)
  obtain ⟨pre, post, e⟩ := List.append_of_mem hb
  subst e
  have hb0 := (hc.in_heap_blk b hb).2
  have hother : ∀ c, c ∈ pre ++ b :: post → c ≠ b → c.addr ≠ b.addr := by
    intro c hcm hne e
    exact hne (Chain_inj _ _ _ _ hc.chain c b hcm hb e)
  rcases realloc_cases hc n fuel (by clear * - hn; omega) with
    ⟨r, post2, e, hrf, hge, hsp, heq⟩ | ⟨r, post2, e, hrf, hge, hfit, hsp, heq⟩ |
    ⟨-, heq⟩ | ⟨r, post2, e, hrf, -, heq⟩
  · subst e
    obtain ⟨fl2, w1, w2, w3⟩ := realloc_split_spec h hba hrf (adjust n) a24 a8 hge hsp
    obtain ⟨k1, k2⟩ := inplace_frame hc b hb hba _ w2
    refine ⟨_, _, heq, fun e => absurd e hb0, fun _ => ⟨_, fl2, adjust n, w1, by simp,
      le_refl _, fun c hcm _ hne => hother c hcm hne, ?_, k1, fun i _ hi => k2 i hi, w3.1,
      w3.2.2.1, by rw [w3.2.1], ?_⟩⟩
    · intro c hca
      constructor
      · intro hcm
        have hc2 : c ∈ pre ∨ c = ⟨b.addr, adjust n, true⟩ ∨
            c = ⟨b.addr + adjust n, b.size + r.size - adjust n, false⟩ ∨ c ∈ post2 := by
          simpa using hcm
        rcases hc2 with e | e | e | e
        · exact Or.inr ⟨by simp [e], fun e2 =>
            Chain_notin _ _ _ _ _ _ hc.chain c (by simp [e]) (by rw [e2])⟩
        · exact Or.inl e
        · rw [e] at hca; simp at hca
        · exact Or.inr ⟨by simp [e], fun e2 =>
            Chain_notin _ _ _ _ _ _ hc.chain c (by simp [e]) (by rw [e2])⟩
      · intro hcm
        rcases hcm with e | ⟨e1, e2⟩
        · simp [e]
        · have hc2 : c ∈ pre ∨ c = b ∨ c = r ∨ c ∈ post2 := by simpa using e1
          rcases hc2 with e | e | e | e
          · simp [e]
          · exact absurd e e2
          · rw [e, hrf] at hca; simp at hca
          · simp [e]
    · intro hB
      exact ⟨by rw [w3.2.2.2.2.2.2.1, w3.1]; exact hB.1,
        by rw [w3.2.2.2.2.2.2.2, w3.2.1]; exact hB.2⟩
  · subst e
    obtain ⟨fl2, w1, w2, w3⟩ := realloc_whole_spec h hba hrf
    obtain ⟨k1, k2⟩ := inplace_frame hc b hb hba _ w2
    refine ⟨_, _, heq, fun e => absurd e hb0, fun _ => ⟨_, fl2, b.size + r.size, w1, by simp,
      hfit, fun c hcm _ hne => hother c hcm hne, ?_, k1, fun i _ hi => k2 i hi, w3.1,
      w3.2.2.1, by rw [w3.2.1], ?_⟩⟩
    · intro c hca
      constructor
      · intro hcm
        have hc2 : c ∈ pre ∨ c = ⟨b.addr, b.size + r.size, true⟩ ∨ c ∈ post2 := by
          simpa using hcm
        rcases hc2 with e | e | e
        · exact Or.inr ⟨by simp [e], fun e2 =>
            Chain_notin _ _ _ _ _ _ hc.chain c (by simp [e]) (by rw [e2])⟩
        · exact Or.inl e
        · exact Or.inr ⟨by simp [e], fun e2 =>
            Chain_notin _ _ _ _ _ _ hc.chain c (by simp [e]) (by rw [e2])⟩
      · intro hcm
        rcases hcm with e | ⟨e1, e2⟩
        · simp [e]
        · have hc2 : c ∈ pre ∨ c = b ∨ c = r ∨ c ∈ post2 := by simpa using e1
          rcases hc2 with e | e | e | e
          · simp [e]
          · exact absurd e e2
          · rw [e, hrf] at hca; simp at hca
          · simp [e]
    · intro hB
      exact ⟨by rw [w3.2.2.2.2.2.2.1, w3.1]; exact hB.1,
        by rw [w3.2.2.2.2.2.2.2, w3.2.1]; exact hB.2⟩
  · obtain ⟨s2, p, m1, m2, m3⟩ := realloc_move_spec h b hb hba n fuel hn
      (by clear * - hw; omega) hf
    refine ⟨s2, p, by rw [heq]; exact m1, m2, fun hp => ?_⟩
    obtain ⟨bl2, fl2, sz, v1, v2, v3, v4, v5, v6, v7, v8⟩ := m3 hp
    exact ⟨bl2, fl2, sz, v1, v2, v3, fun c hcm hca _ => v4 c hcm hca, v5, v6, v7, v8⟩
  · obtain ⟨s2, p, m1, m2, m3⟩ := realloc_move_spec h b hb hba (adjust n) fuel
      (by clear * - a24; omega) (by clear * - hw aq2; omega) hf
    refine ⟨s2, p, by rw [heq]; exact m1, m2, fun hp => ?_⟩
    obtain ⟨bl2, fl2, sz, v1, v2, v3, v4, v5, v6, v7, v8⟩ := m3 hp
    have a2 := adjust_spec (adjust n) (by clear * - hw aq2; omega)
    refine ⟨bl2, fl2, sz, v1, v2, by clear * - v3 a2; omega,
      fun c hcm hca _ => v4 c hcm hca, v5, v6, ?_, v8⟩
    intro i hi1 hi2
    exact v7 i (by clear * - hi1 aq; omega) hi2

/-! ## More fuel changes no result -/

theorem find_in_list_mono (m : Mem) (size : Nat) : ∀ fuel bp r,
    find_in_list m size fuel bp = some r → ∀ k, find_in_list m size (fuel + k) bp = some r := by
  intro fuel
  induction fuel with
  | zero => intro bp r h; simp [find_in_list] at h
  | succ f ih =>
    intro bp r h k
    have e : f + 1 + k = (f + k) + 1 := by omega
    rw [e]
    unfold find_in_list at h ⊢
    by_cases h0 : bp = 0
    · rw [if_pos h0] at h ⊢; exact h
    · rw [if_neg h0] at h ⊢
      by_cases h1 : GET_SIZE m (HDRP bp) ≥ size
      · rw [if_pos h1] at h ⊢; exact h
      · rw [if_neg h1] at h ⊢
        exact ih _ _ h k

theorem find_fit_mono (s : State) (size fuel k : Nat) : ∀ n i r,
    find_fit s size fuel n i = some r → find_fit s size (fuel + k) n i = some r := by
  intro n
  induction n with
  | zero => intro i r h; simpa [find_fit] using h
  | succ n ih =>
    intro i r h
    unfold find_fit at h ⊢
    cases hf : find_in_list s.mem size fuel (read64 s.mem (slotAddr s i)) with
    | none => rw [hf] at h; simp at h
    | some bp =>
      rw [hf] at h
      rw [find_in_list_mono _ _ _ _ _ hf k]
      simp only at h ⊢
      by_cases h0 : bp ≠ 0
      · rw [if_pos h0] at h ⊢; exact h
      · rw [if_neg h0] at h ⊢
        exact ih _ _ h

theorem mm_malloc_mono (s : State) (n fuel k : Nat) (r : State × Nat)
    (h : mm_malloc fuel s n = some r) : mm_malloc (fuel + k) s n = some r := by
  unfold mm_malloc at h ⊢
  by_cases h0 : n = 0
  · rw [if_pos h0] at h ⊢; exact h
  · rw [if_neg h0] at h ⊢
    simp only at h ⊢
    cases hf : find_fit s (adjust n) fuel (s.arrsize - malloc_index s.arrsize (adjust n))
        (malloc_index s.arrsize (adjust n)) with
    | none => rw [hf] at h; simp at h
    | some bp =>
      rw [hf] at h
      rw [find_fit_mono _ _ _ k _ _ _ hf]
      exact h

theorem realloc_move_mono (s : State) (p n fuel k : Nat) (r : State × Nat)
    (h : realloc_move fuel s p n = some r) : realloc_move (fuel + k) s p n = some r := by
  unfold realloc_move at h ⊢
  cases hf : mm_malloc fuel s n with
  | none => rw [hf] at h; simp at h
  | some x =>
    rw [hf] at h
    rw [mm_malloc_mono _ _ _ k _ hf]
    exact h

theorem mm_realloc_mono (s : State) (p n fuel k : Nat) (r : State × Nat)
    (h : mm_realloc fuel s p n = some r) : mm_realloc (fuel + k) s p n = some r := by
  unfold mm_realloc at h ⊢
  by_cases h0 : n = 0
  · rw [if_pos h0] at h ⊢; exact h
  · rw [if_neg h0] at h ⊢
    by_cases h1 : p = 0
    · rw [if_pos h1] at h ⊢
      exact mm_malloc_mono _ _ _ k _ h
    · rw [if_neg h1] at h ⊢
      by_cases h2 : in_heap s p = 0
      · rw [if_pos h2] at h ⊢; exact h
      · rw [if_neg h2] at h ⊢
        by_cases h3 : GET_ALLOC s.mem (HDRP (NEXT_BLKP s.mem p)) = 0
        · rw [if_pos h3] at h ⊢
          simp only at h ⊢
          split at h
          · rename_i h4
            rw [if_pos h4]
            exact h
          · rename_i h4
            rw [if_neg h4]
            exact realloc_move_mono _ _ _ _ k _ h
        · rw [if_neg h3] at h ⊢
          exact realloc_move_mono _ _ _ _ k _ h

/-- A result of `mm_malloc` is its result with any other fuel that suffices. -/
theorem mm_malloc_fuel (s : State) (n f1 f2 : Nat) (r1 r2 : State × Nat)
    (h1 : mm_malloc f1 s n = some r1) (h2 : mm_malloc f2 s n = some r2) : r1 = r2 := by
  have e1 := mm_malloc_mono s n f1 f2 r1 h1
  have e2 := mm_malloc_mono s n f2 f1 r2 h2
  rw [Nat.add_comm] at e2
  rw [e1] at e2
  exact Option.some.inj e2

theorem mm_realloc_fuel (s : State) (p n f1 f2 : Nat) (r1 r2 : State × Nat)
    (h1 : mm_realloc f1 s p n = some r1) (h2 : mm_realloc f2 s p n = some r2) : r1 = r2 := by
  have e1 := mm_realloc_mono s p n f1 f2 r1 h1
  have e2 := mm_realloc_mono s p n f2 f1 r2 h2
  rw [Nat.add_comm] at e2
  rw [e1] at e2
  exact Option.some.inj e2

/-! ## The invariant of reached states -/

theorem Chain_around (m : Mem) (pre post : List Blk) (b : Blk) (a e : Nat)
    (h : Chain m a (pre ++ b :: post) e) (c : Blk) :
    c ∈ pre ++ post ↔ (c ∈ pre ++ b :: post ∧ c ≠ b) := by
  constructor
  · intro hc
    have hne := Chain_notin _ _ _ _ _ _ h c hc
    refine ⟨?_, fun e => hne (by rw [e])⟩
    rcases List.mem_append.1 hc with e | e
    · simp [e]
    · simp [e]
  · intro ⟨hc, hne⟩
    have hc2 : c ∈ pre ∨ c = b ∨ c ∈ post := by simpa using hc
    rcases hc2 with e | e | e
    · simp [e]
    · exact absurd e hne
    · simp [e]

/-- The live pointers once the block `b` has gone. -/
theorem live_erase {s : State} {bl : List Blk} {fl : Nat → List Nat} (h : Core s bl fl)
    (b : Blk) (hb : b ∈ bl) (L : List Nat) (hnd : L.Nodup)
    (hL : ∀ x, x ∈ L ↔ ∃ c, c ∈ bl ∧ c.alloc = true ∧ c.addr = x) (x : Nat) :
    x ∈ L.erase b.addr ↔ ∃ c, c ∈ bl ∧ c ≠ b ∧ c.alloc = true ∧ c.addr = x := by
  rw [hnd.mem_erase_iff, hL]
  constructor
  · intro ⟨hne, c, hc, hca, hcx⟩
    exact ⟨c, hc, fun e => hne (by rw [← hcx, e]), hca, hcx⟩
  · intro ⟨c, hc, hne, hca, hcx⟩
    refine ⟨fun e => hne (Chain_inj _ _ _ _ h.chain c b hc hb (by rw [hcx, e])), c, hc, hca, hcx⟩

theorem Bounds.of_same {s s2 : State} (h : SameFields s s2) (hB : Bounds s) : Bounds s2 :=
  ⟨by rw [h.2.2.2.2.2.2.1, h.1]; exact hB.1, by rw [h.2.2.2.2.2.2.2, h.2.1]; exact hB.2⟩

/-- `mm_free` of a live pointer keeps the invariant. -/
theorem good_free {s : State} {L : List Nat} (h : Good s L) (p : Nat) (hp : p ∈ L) :
    Good (mm_free s p) (L.erase p) := by
  obtain ⟨bl, fl, hwf, hB, hnd, hL⟩ := h
  obtain ⟨b, hb, hba, hbp⟩ := (hL p).1 hp
  subst hbp
  have hc := hwf.core
  have hle := live_erase hc b hb L hnd hL
  obtain ⟨pre, post, e⟩ := List.append_of_mem hb
  subst e
  obtain ⟨bl2, fl2, r1, r2, -, r4, -⟩ := free_spec hwf hba
  refine ⟨bl2, fl2, r1, hB.of_same r4, hnd.erase _, ?_⟩
  intro x
  rw [hle x]
  constructor
  · intro ⟨c, hc1, hne, hca, hcx⟩
    exact ⟨c, (r2 c hca).2 ((Chain_around _ _ _ _ _ _ hc.chain c).2 ⟨hc1, hne⟩), hca, hcx⟩
  · intro ⟨c, hc1, hca, hcx⟩
    obtain ⟨k1, k2⟩ := (Chain_around _ _ _ _ _ _ hc.chain c).1 ((r2 c hca).1 hc1)
    exact ⟨c, k1, k2, hca, hcx⟩

/-- `mm_malloc` with a size below `2^31` keeps the invariant. -/
theorem good_malloc {s : State} {L : List Nat} (h : Good s L) (fuel n : Nat) (s2 : State)
    (p : Nat) (hn : n < 2147483648) (hm : mm_malloc fuel s n = some (s2, p)) :
    Good s2 (if p = 0 then L else p :: L) := by
  obtain ⟨bl, fl, hwf, hB, hnd, hL⟩ := h
  by_cases h0 : n = 0
  · subst h0
    have : mm_malloc fuel s 0 = some (s, 0) := by unfold mm_malloc; simp
    rw [this] at hm
    have e := Option.some.inj hm
    have e1 : s = s2 := congrArg Prod.fst e
    have e2 : 0 = p := congrArg Prod.snd e
    subst e1 e2
    rw [if_pos rfl]
    exact ⟨bl, fl, hwf, hB, hnd, hL⟩
  · obtain ⟨s3, q, heq, hz, hnz⟩ := malloc_spec hwf n (bl.length + 1) (by omega)
      (by omega) (by omega)
    have e := mm_malloc_fuel s n _ _ _ _ hm heq
    have e1 : s2 = s3 := congrArg Prod.fst e
    have e2 : p = q := congrArg Prod.snd e
    subst e1 e2
    by_cases hp : p = 0
    · rw [if_pos hp, hz hp]
      exact ⟨bl, fl, hwf, hB, hnd, hL⟩
    · rw [if_neg hp]
      obtain ⟨bl2, fl2, sz, w1, w2, -, w4, w5, -, -, -, -, w10⟩ := hnz hp
      refine ⟨bl2, fl2, w1, w10 hB, List.nodup_cons.2 ⟨?_, hnd⟩, ?_⟩
      · intro hin
        obtain ⟨c, hc, hca, hcx⟩ := (hL p).1 hin
        exact w4 c hc hca hcx
      · intro x
        rw [List.mem_cons, hL]
        constructor
        · intro hx
          rcases hx with e | ⟨c, hc, hca, hcx⟩
          · exact ⟨_, w2, rfl, e.symm⟩
          · exact ⟨c, (w5 c hca).2 (Or.inr hc), hca, hcx⟩
        · intro ⟨c, hc, hca, hcx⟩
          rcases (w5 c hca).1 hc with e | e
          · left
            rw [← hcx, e]
          · exact Or.inr ⟨c, e, hca, hcx⟩

/-- `mm_realloc` of a live pointer with a size below `2^31` keeps the invariant. -/
theorem good_realloc {s : State} {L : List Nat} (h : Good s L) (fuel p n : Nat) (s2 : State)
    (q : Nat) (hp : p ∈ L) (hn : n < 2147483648)
    (hm : mm_realloc fuel s p n = some (s2, q)) :
    Good s2 (if n = 0 then L.erase p else if q = 0 then L else q :: L.erase p) := by
  by_cases h0 : n = 0
  · subst h0
    have : mm_realloc fuel s p 0 = some (mm_free s p, 0) := by unfold mm_realloc; simp
    rw [this] at hm
    have e := Option.some.inj hm
    have e1 : mm_free s p = s2 := congrArg Prod.fst e
    subst e1
    rw [if_pos rfl]
    exact good_free h p hp
  · rw [if_neg h0]
    obtain ⟨bl, fl, hwf, hB, hnd, hL⟩ := h
    obtain ⟨b, hb, hba, hbp⟩ := (hL p).1 hp
    subst hbp
    have hle := live_erase hwf.core b hb L hnd hL
    obtain ⟨s3, q3, heq, hz, hnz⟩ := realloc_spec hwf b hb hba n (bl.length + 1) (by omega)
      (by omega) (by omega)
    have e := mm_realloc_fuel s _ n _ _ _ _ hm heq
    have e1 : s2 = s3 := congrArg Prod.fst e
    have e2 : q = q3 := congrArg Prod.snd e
    subst e1 e2
    by_cases hq : q = 0
    · rw [if_pos hq, hz hq]
      exact ⟨bl, fl, hwf, hB, hnd, hL⟩
    · rw [if_neg hq]
      obtain ⟨bl2, fl2, sz, w1, w2, -, w4, w5, -, -, -, -, -, w10⟩ := hnz hq
      refine ⟨bl2, fl2, w1, w10 hB, List.nodup_cons.2 ⟨?_, hnd.erase _⟩, ?_⟩
      · intro hin
        obtain ⟨c, hc, hne, hca, hcx⟩ := (hle q).1 hin
        exact w4 c hc hca hne hcx
      · intro x
        rw [List.mem_cons, hle]
        constructor
        · intro hx
          rcases hx with e | ⟨c, hc, hne, hca, hcx⟩
          · exact ⟨_, w2, rfl, e.symm⟩
          · exact ⟨c, (w5 c hca).2 (Or.inr ⟨hc, hne⟩), hca, hcx⟩
        · intro ⟨c, hc, hca, hcx⟩
          rcases (w5 c hca).1 hc with e | ⟨e1, e2⟩
          · left
            rw [← hcx, e]
          · exact Or.inr ⟨c, e1, e2, hca, hcx⟩

/-- `mm_realloc` of `NULL` with a size below `2^31` keeps the invariant. -/
theorem good_realloc_null {s : State} {L : List Nat} (h : Good s L) (fuel n : Nat)
    (s2 : State) (q : Nat) (hn : n < 2147483648)
    (hm : mm_realloc fuel s 0 n = some (s2, q)) :
    Good s2 (if q = 0 then L else q :: L) := by
  by_cases h0 : n = 0
  · subst h0
    have hin : in_heap s 0 = 0 := by
      obtain ⟨bl, fl, hwf, -⟩ := h
      have := hwf.core.base_pos
      unfold in_heap mem_heap_lo
      rw [if_neg (by omega)]
    have : mm_realloc fuel s 0 0 = some (s, 0) := by
      unfold mm_realloc
      simp only [if_true]
      unfold mm_free
      rw [if_pos (Or.inr hin)]
    rw [this] at hm
    have e := Option.some.inj hm
    have e1 : s = s2 := congrArg Prod.fst e
    have e2 : 0 = q := congrArg Prod.snd e
    subst e1 e2
    rw [if_pos rfl]
    exact h
  · have : mm_realloc fuel s 0 n = mm_malloc fuel s n := by
      unfold mm_realloc
      rw [if_neg h0, if_pos rfl]
    rw [this] at hm
    exact good_malloc h fuel n s2 q hn hm

/-- A store into the payload of a live block keeps the invariant. -/
theorem good_store {s : State} {L : List Nat} (h : Good s L) (p a v : Nat) (hp : p ∈ L)
    (h1 : p ≤ a) (h2 : a < p + (GET_SIZE s.mem (HDRP p) - 8)) :
    Good (s.setMem (write8 s.mem a v)) L := by
  obtain ⟨bl, fl, hwf, hB, hnd, hL⟩ := h
  obtain ⟨b, hb, hba, hbp⟩ := (hL p).1 hp
  subst hbp
  obtain ⟨hbH, hbS, -⟩ := hwf.core.macros b hb
  rw [hbH, hbS] at h2
  refine ⟨bl, fl, hwf.payload_write b hb hba _ ?_, hB.of_same (SameFields.setMem _ _), hnd, hL⟩
  intro x hx
  exact write8_out _ _ _ _ (by clear * - hx h1 h2; omega)

/-- Every reached state is good. -/
theorem reach_good {s0 s : State} {L : List Nat} (h : Reach s0 s L) : Good s L := by
  induction h with
  | init hh h0 =>
    have hs := mm_init_spec s0 hh
    by_cases hle : s0.mem_start_brk + 248 ≤ s0.mem_max_addr
    · obtain ⟨-, w, hB, -⟩ := hs.2 hle
      refine ⟨_, _, w, hB, List.nodup_nil, ?_⟩
      intro p
      constructor
      · intro hp; simp at hp
      · intro ⟨b, hb, hba, _⟩
        have e : b = ⟨s0.mem_start_brk + 184, 64, false⟩ := by simpa using hb
        rw [e] at hba
        simp at hba
    · have := hs.1 (by omega)
      rw [this] at h0
      simp at h0
  | malloc s s2 L fuel n p _ hn hm ih => exact good_malloc ih fuel n s2 p hn hm
  | free s L p _ hp ih => exact good_free ih p hp
  | realloc s s2 L fuel p n q _ hp hn hm ih => exact good_realloc ih fuel p n s2 q hp hn hm
  | realloc_null s s2 L fuel n q _ hn hm ih => exact good_realloc_null ih fuel n s2 q hn hm
  | store s L p a v _ hp h1 h2 ih => exact good_store ih p a v hp h1 h2

/-! ## Walking the arena and the lists -/

/-- The walk of a tiled arena visits the blocks of the tiling and stops at the epilogue. -/
theorem walk_chain (m : Mem) (e : Nat) (he : e < 18446744073709551616)
    (hepi : read32 m (e - 4) = 1) (l : List Blk) :
    ∀ a fuel, 4 ≤ a → Chain m a l e → l.length < fuel →
      walk m fuel a = some (l.map Blk.addr, e) := by
  induction l with
  | nil =>
    intro a fuel ha h hf
    have hae : a = e := h
    subst hae
    cases fuel with
    | zero => simp at hf
    | succ f =>
      unfold walk
      rw [HDRP_eq _ ha he, GET_SIZE_val _ _ _ hepi]
      simp
  | cons b bs ih =>
    intro a fuel ha h hf
    have hle := Chain_le _ _ _ _ h
    obtain ⟨h1, h2, h3, h4, h5, h6⟩ := h
    have hle2 := Chain_le _ _ _ _ h6
    cases fuel with
    | zero => simp at hf
    | succ f =>
      have hs : GET_SIZE m (a - 4) = b.size := GET_SIZE_eq m _ b h4 h3
      unfold walk
      rw [HDRP_eq _ ha (by omega), hs, if_neg (by omega),
        NEXT_BLKP_eq m a b.size ha hs (by omega),
        ih (a + b.size) f (by omega) h6 (by simpa using hf)]
      simp [h1]

theorem Core.walk {s : State} {bl : List Blk} {fl : Nat → List Nat} (h : Core s bl fl)
    (fuel : Nat) (hf : bl.length < fuel) :
    walk s.mem fuel s.heap_listp = some (bl.map Blk.addr, s.mem_brk) := by
  have hl := h.lt64
  rw [h.hl_eq]
  exact walk_chain s.mem s.mem_brk (by omega) h.epi bl _ fuel (by omega) h.chain hf

/-- Following the links of a list in memory gives the list. -/
theorem chase_flist (m : Mem) (l : List Nat) :
    ∀ q fuel, FList m q l → l.length < fuel → chase m fuel (read64 m q) = some l := by
  induction l with
  | nil =>
    intro q fuel h hf
    have h0 : read64 m q = 0 := h
    rw [h0]
    cases fuel with
    | zero => simp at hf
    | succ f => simp [chase]
  | cons x xs ih =>
    intro q fuel h hf
    obtain ⟨h1, h2, -, h4⟩ := h
    rw [h1]
    cases fuel with
    | zero => simp at hf
    | succ f =>
      unfold chase
      rw [if_neg h2]
      unfold NEXT_LL
      rw [ih x f h4 (by simpa using hf)]

theorem Core.chase {s : State} {bl : List Blk} {fl : Nat → List Nat} (h : Core s bl fl)
    (fuel : Nat) (hf : bl.length < fuel) (i : Nat) (hi : i < 21) :
    chase s.mem fuel (read64 s.mem (slotAddr s i)) = some (fl i) := by
  rw [h.slot i hi]
  exact chase_flist s.mem (fl i) _ fuel (h.flist i hi) (lt_of_le_of_lt (h.fl_length i) hf)

/-! ## The slot of a size -/

/-- The slot under which `addfree` files a block satisfies the predicate of that slot. -/
theorem slotPred_index (sz : Nat) (h24 : 24 ≤ sz) (h8 : sz % 8 = 0) :
    slotPred (addfree_index 21 sz) sz := by
  have e : sub64 21 1 = 20 := by decide
  unfold slotPred addfree_index
  rw [e]
  by_cases h1 : sz < 64
  · rw [if_pos h1]
    have hcase : sz = 24 ∨ sz = 32 ∨ sz = 40 ∨ sz = 48 ∨ sz = 56 := by omega
    rcases hcase with c | c | c | c | c <;> subst c <;> simp [smallClass, SMALLBLK]
  · rw [if_neg h1]
    by_cases h2 : sz < 2 ^ MAXCLASS
    · rw [if_pos h2]
      cases hp : powClass sz (MAXCLASS - MINCLASS) MINCLASS with
      | none =>
        simp only
        have : ∀ n i, powClass sz n i = none → ∀ j, i ≤ j → j < i + n → ¬ sz ≤ 2 ^ j := by
          intro n
          induction n with
          | zero => intro i _ j h1 h2; omega
          | succ n ih =>
            intro i hn j hj1 hj2
            unfold powClass at hn
            by_cases hc : sz ≤ 2 ^ i
            · rw [if_pos hc] at hn; simp at hn
            · rw [if_neg hc] at hn
              by_cases hji : j = i
              · subst hji; exact hc
              · exact ih (i + 1) hn j (by omega) (by omega)
        have h21 := this _ _ hp 21 (by simp [MINCLASS]) (by simp [MINCLASS, MAXCLASS])
        have h4 : (2 : Nat) ^ 21 = 2097152 := by norm_num
        have h5 : (2 : Nat) ^ 20 = 1048576 := by norm_num
        rw [h4] at h21
        right; right; right
        refine ⟨trivial, ?_⟩
        rw [h5]
        omega
      | some k =>
        simp only
        obtain ⟨k1, k2, k3, k4⟩ := powClass_spec sz _ _ _ hp
        simp only [MINCLASS, MAXCLASS] at k1 k2 k4
        by_cases hk6 : k = 6
        · subst hk6
          right; left
          have h6 : (2 : Nat) ^ 6 = 64 := by norm_num
          rw [h6] at k3
          exact ⟨rfl, by omega⟩
        · obtain ⟨i, hi⟩ : ∃ i, k = i + 1 := ⟨k - 1, by omega⟩
          subst hi
          simp only [Nat.add_sub_cancel]
          have hlt : 2 ^ i < sz := Nat.lt_of_not_le (k4 i (by omega) (by omega))
          by_cases h19 : i ≤ 19
          · right; right; left
            exact ⟨by omega, h19, hlt, k3⟩
          · have hi20 : i = 20 := by omega
            subst hi20
            right; right; right
            exact ⟨rfl, hlt⟩
    · rw [if_neg h2]
      simp only [MAXCLASS] at h2
      right; right; right
      refine ⟨rfl, ?_⟩
      have h3 : (2 : Nat) ^ 22 = 4194304 := by norm_num
      have h4 : (2 : Nat) ^ 20 = 1048576 := by norm_num
      rw [h3] at h2
      rw [h4]
      omega

/-! ## `mm_check` on a well-formed heap -/

theorem check_blocks_chain (s : State) (hl : s.mem_brk < 18446744073709551616)
    (hh : sub64 s.hi 7 = s.mem_brk - 8) (l : List Blk) :
    ∀ a fuel, 4 ≤ a → Chain s.mem a l s.mem_brk → l.length < fuel →
      check_blocks s fuel a = some 1 := by
  induction l with
  | nil =>
    intro a fuel ha h hf
    have hae : a = s.mem_brk := h
    cases fuel with
    | zero => simp at hf
    | succ f =>
      rw [check_blocks]
      rw [hh, if_neg (show ¬ a < s.mem_brk - 8 by omega)]
  | cons b bs ih =>
    intro a fuel ha h hf
    obtain ⟨h1, h2, h3, h4, h5, h6⟩ := h
    have hle2 := Chain_le _ _ _ _ h6
    cases fuel with
    | zero => simp at hf
    | succ f =>
      have hs : GET_SIZE s.mem (a - 4) = b.size := GET_SIZE_eq s.mem _ b h4 h3
      rw [check_blocks]
      rw [hh, if_pos (show a < s.mem_brk - 8 by omega), HDRP_eq _ ha (by omega), hs,
        if_neg (show ¬ b.size < MINBLKSIZE by simp only [MINBLKSIZE]; omega),
        NEXT_BLKP_eq s.mem a b.size ha hs (by omega)]
      exact ih (a + b.size) f (by omega) h6 (by simpa using hf)

theorem check_list_flist (s : State) (l : List Nat) :
    ∀ q fuel, FList s.mem q l → (∀ x, x ∈ l → allocated s x = 0) → l.length < fuel →
      check_list s fuel (read64 s.mem q) = some 1 := by
  induction l with
  | nil =>
    intro q fuel h _ hf
    have h0 : read64 s.mem q = 0 := h
    rw [h0]
    cases fuel with
    | zero => simp at hf
    | succ f => simp [check_list]
  | cons x xs ih =>
    intro q fuel h hal hf
    obtain ⟨h1, h2, -, h4⟩ := h
    rw [h1]
    cases fuel with
    | zero => simp at hf
    | succ f =>
      unfold check_list
      rw [if_neg h2, if_neg (by rw [hal x (List.mem_cons_self _ _)]; decide)]
      unfold NEXT_LL
      exact ih x f h4 (fun y hy => hal y (List.mem_cons_of_mem _ hy)) (by simpa using hf)

theorem Core.allocated_node {s : State} {bl : List Blk} {fl : Nat → List Nat}
    (h : Core s bl fl) {i x : Nat} (hx : x ∈ fl i) : allocated s x = 0 := by
  obtain ⟨b, hb, hbx, hbf⟩ := h.fl_free i x hx
  obtain ⟨hbH, -, hbA, -⟩ := h.macros b hb
  unfold allocated
  rw [← hbx, hbH, hbA, hbf]
  simp

theorem check_lists_core {s : State} {bl : List Blk} {fl : Nat → List Nat} (h : Core s bl fl)
    (fuel : Nat) (hf : bl.length < fuel) :
    ∀ n i, n ≤ 21 - i → check_lists s fuel n i = some 1 := by
  intro n
  induction n with
  | zero => intro i _; simp [check_lists]
  | succ n ih =>
    intro i hi
    unfold check_lists
    rw [h.slot i (by omega), check_list_flist s (fl i) _ fuel (h.flist i (by omega))
      (fun x hx => h.allocated_node hx) (lt_of_le_of_lt (h.fl_length i) hf)]
    simp only
    rw [if_neg (by decide)]
    exact ih (i + 1) (by omega)

/-- On a well-formed heap whose globals hold the bounds, `mm_check` returns 1. -/
theorem mm_check_wf {s : State} {bl : List Blk} {fl : Nat → List Nat} (h : Core s bl fl)
    (hB : Bounds s) (fuel : Nat) (hf : bl.length < fuel) : mm_check fuel s = some 1 := by
  have hl := h.lt64
  have hb := h.brk_al.2
  have hh : sub64 s.hi 7 = s.mem_brk - 8 := by
    rw [hB.2, sub64_eq _ _ (by omega) (by omega)]
    omega
  unfold mm_check
  rw [h.hl_eq, check_blocks_chain s (by omega) hh bl _ fuel (by omega) h.chain hf]
  simp only
  rw [if_neg (by decide)]
  exact check_lists_core h fuel hf _ 0 (by simp [MAXCLASS, MINCLASS, SMALLBLK])

/-! ## Two concrete states -/

theorem hostState_ok : HostOK hostState := by
  unfold HostOK hostState
  simp

theorem initState_ret : (mm_init hostState).2 = 0 :=
  ((mm_init_spec hostState hostState_ok).2 (by unfold hostState; simp)).1

theorem initState_wf :
    WF initState [⟨4280, 64, false⟩] (fun i => if i = 5 then [4280] else []) :=
  ((mm_init_spec hostState hostState_ok).2 (by unfold hostState; simp)).2.1

theorem initState_reach : Reach hostState initState [] :=
  Reach.init hostState_ok initState_ret

theorem initState_heap : Heap initState := ⟨_, _, initState_wf⟩

set_option maxRecDepth 100000 in
theorem oneBlock_ptr : (mm_malloc 10 initState 16).map Prod.snd = some 4280 := by
  decide!

theorem oneBlock_eq : mm_malloc 10 initState 16 = some (oneBlock, 4280) := by
  have h := oneBlock_ptr
  unfold oneBlock
  cases hm : mm_malloc 10 initState 16 with
  | none => rw [hm] at h; simp at h
  | some r =>
    rw [hm] at h
    have e : r.2 = 4280 := by simpa using h
    simp only
    rw [← e]

theorem oneBlock_reach : Reach hostState oneBlock [4280] :=
  Reach.malloc initState oneBlock [] 10 16 4280 initState_reach (by decide) oneBlock_eq

/-! ## Steps from a well-formed heap -/

theorem Chain_length (m : Mem) (l : List Blk) :
    ∀ a e, Chain m a l e → a + 24 * l.length ≤ e := by
  induction l with
  | nil => intro a e h; have : a = e := h; simp; omega
  | cons b bs ih =>
    intro a e h
    obtain ⟨h1, h2, h3, h4, h5, h6⟩ := h
    have := ih _ _ h6
    simp only [List.length_cons]
    omega

/-- A fuel of `mem_brk` is enough for every walk. -/
theorem Core.fuel {s : State} {bl : List Blk} {fl : Nat → List Nat} (h : Core s bl fl)
    (fuel : Nat) (hf : s.mem_brk ≤ fuel) : bl.length < fuel := by
  have := Chain_length _ _ _ _ h.chain
  omega

theorem Good.allocated {s : State} {L : List Nat} (h : Good s L) (p : Nat) (hp : p ∈ L) :
    Allocated s p := by
  obtain ⟨bl, fl, hwf, -, -, hL⟩ := h
  exact ⟨bl, fl, hwf, (hL p).1 hp⟩

theorem Good.heap {s : State} {L : List Nat} (h : Good s L) : Heap s := by
  obtain ⟨bl, fl, hwf, -⟩ := h
  exact ⟨bl, fl, hwf⟩

theorem mm_free_noop (s : State) (p : Nat) (h : allocated s p = 0 ∨ in_heap s p = 0) :
    mm_free s p = s := by
  unfold mm_free
  rw [if_pos h]

theorem mem_heap_hi_eq {s : State} {bl : List Blk} {fl : Nat → List Nat} (h : Core s bl fl) :
    mem_heap_hi s = s.mem_brk - 1 := by
  have hl := h.lt64
  have hb := h.brk_al.2
  unfold mem_heap_hi
  exact sub64_eq _ _ (by omega) (by omega)

theorem oneBlock_good : Good oneBlock [4280] := reach_good oneBlock_reach

theorem oneBlock_allocated : Allocated oneBlock 4280 := oneBlock_good.allocated 4280 (by simp)

set_option maxRecDepth 100000 in
theorem initState_brk : initState.mem_brk ≤ 5000 := by decide!

set_option maxRecDepth 100000 in
theorem oneBlock_brk : oneBlock.mem_brk ≤ 5000 := by decide!

/-! # The claims -/

set_option maxRecDepth 100000 in
/-- C1 as stated fails.  The state after `mm_init` is a well-formed heap, and on it
the request `n = 2^64 - 8`, whose adjusted size wraps around to 0, is answered
with the non-null pointer 4280 to a block whose header holds the size 64, so
that the payload has 56 bytes and not `n`. -/
theorem C1_counterexample :
    Heap initState ∧
    (mm_malloc 10 initState 18446744073709551608).map
      (fun r => (r.2, GET_SIZE r.1.mem (HDRP r.2))) = some (4280, 64) ∧
    ¬ (18446744073709551608 ≤ 64 - 8) :=
  ⟨initState_heap, by decide!, by decide⟩

/-- C1, amended with the bound `n + 15 < 2^64` under which the adjusted size does
not wrap around: on a well-formed heap, for every such request `n > 0`,
`mm_malloc(n)` returns, and if the pointer `p` it returns is not null, the
header of the block at `p` holds a size that is a multiple of 8 and is at least
`n + 8` (a payload of at least `n` bytes), with the allocated bit set. -/
theorem C1_malloc_size (s : State) (h : Heap s) (n : Nat) (hn : 0 < n)
    (hw : n + 15 < 18446744073709551616) (fuel : Nat) (hf : s.mem_brk ≤ fuel) :
    ∃ s2 p, mm_malloc fuel s n = some (s2, p) ∧
      (p ≠ 0 → GET_SIZE s2.mem (HDRP p) % 8 = 0 ∧ n + 8 ≤ GET_SIZE s2.mem (HDRP p) ∧
        GET_ALLOC s2.mem (HDRP p) = 1) := by
  obtain ⟨bl, fl, hwf⟩ := h
  obtain ⟨s2, p, heq, -, hnz⟩ := malloc_spec hwf n fuel hn hw (hwf.core.fuel fuel hf)
  refine ⟨s2, p, heq, fun hp => ?_⟩
  obtain ⟨bl2, fl2, sz, w1, w2, w3, -⟩ := hnz hp
  obtain ⟨-, -, -, hb4, -⟩ := w1.core.blk _ w2
  obtain ⟨hH, hS, hA, -⟩ := w1.core.macros _ w2
  have hH2 : HDRP p = p - 4 := hH
  have hS2 : GET_SIZE s2.mem (p - 4) = sz := hS
  have hA2 : GET_ALLOC s2.mem (p - 4) = 1 := hA
  have hb5 : sz % 8 = 0 := hb4
  have := (adjust_spec n hw).2.2.1
  rw [hH2, hS2, hA2]
  exact ⟨hb5, by omega, rfl⟩

theorem C1_malloc_size_witness :
    Heap initState ∧ 0 < 16 ∧ 16 + 15 < 18446744073709551616 ∧ initState.mem_brk ≤ 5000 ∧
    ∃ s2 p, mm_malloc 5000 initState 16 = some (s2, p) ∧
      (p ≠ 0 → GET_SIZE s2.mem (HDRP p) % 8 = 0 ∧ 16 + 8 ≤ GET_SIZE s2.mem (HDRP p) ∧
        GET_ALLOC s2.mem (HDRP p) = 1) :=
  ⟨initState_heap, by decide, by decide, initState_brk,
    C1_malloc_size initState initState_heap 16 (by decide) (by decide) 5000 initState_brk⟩

/-- C3: resize keeps the content.  On a well-formed heap, for every allocated
block `p`, of payload capacity `S` (its size less 8), and every size `n` with
`0 < n < 2^31`, `mm_realloc(p, n)` returns, and if the pointer `q` it returns
is not null, be it `p` or another block, the first `min(S, n)` bytes at `q`
are the first `min(S, n)` bytes that were at `p`. -/
theorem C3_realloc_content (s : State) (p : Nat) (h : Allocated s p) (n : Nat) (hn : 0 < n)
    (hn2 : n < 2147483648) (fuel : Nat) (hf : s.mem_brk ≤ fuel) :
    ∃ s2 q, mm_realloc fuel s p n = some (s2, q) ∧
      (q ≠ 0 → ∀ i, i < min (GET_SIZE s.mem (HDRP p) - 8) n →
        s2.mem (q + i) = s.mem (p + i)) := by
  obtain ⟨bl, fl, hwf, b, hb, hba, hbp⟩ := h
  subst hbp
  obtain ⟨hH, hS, -⟩ := hwf.core.macros b hb
  obtain ⟨s2, q, heq, -, hnz⟩ := realloc_spec hwf b hb hba n fuel hn (by omega)
    (hwf.core.fuel fuel hf)
  refine ⟨s2, q, heq, fun hq i hi => ?_⟩
  obtain ⟨bl2, fl2, sz, -, -, -, -, -, -, w7, -⟩ := hnz hq
  rw [hH, hS] at hi
  exact w7 i (lt_of_lt_of_le hi (min_le_right _ _)) (lt_of_lt_of_le hi (min_le_left _ _))

theorem C3_realloc_content_witness :
    Allocated oneBlock 4280 ∧ 0 < 100 ∧ 100 < 2147483648 ∧ oneBlock.mem_brk ≤ 5000 ∧
    ∃ s2 q, mm_realloc 5000 oneBlock 4280 100 = some (s2, q) ∧
      (q ≠ 0 → ∀ i, i < min (GET_SIZE oneBlock.mem (HDRP 4280) - 8) 100 →
        s2.mem (q + i) = oneBlock.mem (4280 + i)) :=
  ⟨oneBlock_allocated, by decide, by decide, oneBlock_brk,
    C3_realloc_content oneBlock 4280 oneBlock_allocated 100 (by decide) (by decide) 5000
      oneBlock_brk⟩

/-- C6: the table is exact.  In every state reached from `mm_init`, the walk of
the arena and the chase of each of the 21 slots along `next` links end; the
blocks on the slots are the blocks of the walk with allocated flag 0; no block
is twice on a slot or on two slots; and the size of a block on slot `i`
satisfies the predicate of slot `i`. -/
theorem C6_index_exact (s0 s : State) (L : List Nat) (h : Reach s0 s L) :
    ∃ fuel ps e, ∃ ls : Nat → List Nat, walk s.mem fuel s.heap_listp = some (ps, e) ∧
      (∀ i, i < 21 → chase s.mem fuel (read64 s.mem (slotAddr s i)) = some (ls i)) ∧
      (∀ x, (∃ i, i < 21 ∧ x ∈ ls i) ↔ (x ∈ ps ∧ GET_ALLOC s.mem (HDRP x) = 0)) ∧
      (∀ i, i < 21 → (ls i).Nodup) ∧
      (∀ i j, i < 21 → j < 21 → i ≠ j → ∀ x, x ∈ ls i → x ∉ ls j) ∧
      (∀ i, i < 21 → ∀ x, x ∈ ls i → slotPred i (GET_SIZE s.mem (HDRP x))) := by
  obtain ⟨bl, fl, hwf, -⟩ := reach_good h
  have hc := hwf.core
  refine ⟨bl.length + 1, _, _, fl, hc.walk _ (by omega),
    fun i hi => hc.chase _ (by omega) i hi, ?_, fun i _ => hc.fl_nodup i, ?_, ?_⟩
  · intro x
    constructor
    · intro ⟨i, hi, hx⟩
      obtain ⟨b, hb, hbx, hbf⟩ := hc.fl_free i x hx
      obtain ⟨hH, -, hA, -⟩ := hc.macros b hb
      refine ⟨List.mem_map.2 ⟨b, hb, hbx⟩, ?_⟩
      rw [← hbx, hH, hA, hbf]
      rfl
    · intro ⟨hx, hx0⟩
      obtain ⟨b, hb, hbx⟩ := List.mem_map.1 hx
      obtain ⟨hH, -, hA, -⟩ := hc.macros b hb
      rw [← hbx, hH, hA] at hx0
      have hbf : b.alloc = false := by
        cases hb2 : b.alloc with
        | false => rfl
        | true => rw [hb2] at hx0; simp at hx0
      exact ⟨_, addfree_index_lt b.size, hbx ▸ hwf.fl_all b hb hbf⟩
  · intro i j _ _ hij x hx hx2
    exact hij (hc.fl_disj i j x hx hx2)
  · intro i _ x hx
    obtain ⟨b, hb, hbx, -⟩ := hc.fl_free i x hx
    obtain ⟨hH, hS, -⟩ := hc.macros b hb
    obtain ⟨-, -, hb3, hb4, -⟩ := hc.blk b hb
    rw [← hbx, hH, hS, ← hwf.fl_class i x hx b hb hbx]
    exact slotPred_index b.size hb3 hb4

theorem C6_index_exact_witness :
    Reach hostState initState [] ∧
    ∃ fuel ps e, ∃ ls : Nat → List Nat, walk initState.mem fuel initState.heap_listp = some (ps, e) ∧
      (∀ i, i < 21 →
        chase initState.mem fuel (read64 initState.mem (slotAddr initState i)) = some (ls i)) ∧
      (∀ x, (∃ i, i < 21 ∧ x ∈ ls i) ↔ (x ∈ ps ∧ GET_ALLOC initState.mem (HDRP x) = 0)) ∧
      (∀ i, i < 21 → (ls i).Nodup) ∧
      (∀ i j, i < 21 → j < 21 → i ≠ j → ∀ x, x ∈ ls i → x ∉ ls j) ∧
      (∀ i, i < 21 → ∀ x, x ∈ ls i → slotPred i (GET_SIZE initState.mem (HDRP x))) :=
  ⟨initState_reach, C6_index_exact hostState initState [] initState_reach⟩

/-- C7: the blocks are well-formed.  In every state reached from `mm_init`, the
walk from `heap_listp` by `NEXT_BLKP` ends; it stops at the epilogue, a header
word of size 0 with the allocated bit, which fills the last four bytes of the
arena; and every block visited has a size that is a multiple of 8 and at
least 24, and a footer word equal to its header word. -/
theorem C7_blocks_well_formed (s0 s : State) (L : List Nat) (h : Reach s0 s L) :
    ∃ fuel ps e, walk s.mem fuel s.heap_listp = some (ps, e) ∧
      HDRP e + 3 = mem_heap_hi s ∧ GET s.mem (HDRP e) = PACK 0 1 ∧
      ∀ p, p ∈ ps → GET_SIZE s.mem (HDRP p) % 8 = 0 ∧ 24 ≤ GET_SIZE s.mem (HDRP p) ∧
        GET s.mem (FTRP s.mem p) = GET s.mem (HDRP p) := by
  obtain ⟨bl, fl, hwf, -⟩ := reach_good h
  have hc := hwf.core
  have hl := hc.lt64
  have hb := hc.brk_al.2
  refine ⟨bl.length + 1, _, _, hc.walk _ (by omega), ?_, ?_, ?_⟩
  · rw [mem_heap_hi_eq hc, HDRP_eq _ (by omega) (by omega)]
    omega
  · rw [HDRP_eq _ (by omega) (by omega)]
    unfold GET
    rw [hc.epi]
    decide
  · intro p hp
    obtain ⟨b, hb, hbx⟩ := List.mem_map.1 hp
    obtain ⟨hH, hS, -, -, hF, -⟩ := hc.macros b hb
    obtain ⟨-, -, hb3, hb4, -, hb6, hb7⟩ := hc.blk b hb
    rw [← hbx, hH, hS, hF]
    unfold GET
    rw [hb6, hb7]
    exact ⟨hb4, hb3, rfl⟩

theorem C7_blocks_well_formed_witness :
    Reach hostState initState [] ∧
    ∃ fuel ps e, walk initState.mem fuel initState.heap_listp = some (ps, e) ∧
      HDRP e + 3 = mem_heap_hi initState ∧ GET initState.mem (HDRP e) = PACK 0 1 ∧
      ∀ p, p ∈ ps → GET_SIZE initState.mem (HDRP p) % 8 = 0 ∧
        24 ≤ GET_SIZE initState.mem (HDRP p) ∧
        GET initState.mem (FTRP initState.mem p) = GET initState.mem (HDRP p) :=
  ⟨initState_reach, C7_blocks_well_formed hostState initState [] initState_reach⟩

/-- C9: double free is a no-op.  On a well-formed heap, for every allocated block
`p`, after `mm_free(p)` the word at `p - 4` has the allocated bit 0, whichever
case `coalesce` took, and so a second `mm_free(p)` changes nothing: the state
after the two calls is the state after the first. -/
theorem C9_double_free (s : State) (p : Nat) (h : Allocated s p) :
    GET_ALLOC (mm_free s p).mem (HDRP p) = 0 ∧ mm_free (mm_free s p) p = mm_free s p := by
  obtain ⟨bl, fl, hwf, b, hb, hba, hbp⟩ := h
  subst hbp
  obtain ⟨pre, post, e⟩ := List.append_of_mem hb
  subst e
  obtain ⟨bl2, fl2, -, -, -, -, r5⟩ := free_spec hwf hba
  refine ⟨r5, mm_free_noop _ _ (Or.inl ?_)⟩
  unfold allocated
  rw [r5]
  simp

theorem C9_double_free_witness :
    Allocated oneBlock 4280 ∧
    GET_ALLOC (mm_free oneBlock 4280).mem (HDRP 4280) = 0 ∧
    mm_free (mm_free oneBlock 4280) 4280 = mm_free oneBlock 4280 :=
  ⟨oneBlock_allocated, C9_double_free oneBlock 4280 oneBlock_allocated⟩

/-- For a request that does not wrap around, the size `mm_malloc` and
`mm_realloc` compute is the rounding of the specification. -/
theorem adjust_rounded (n : Nat) (h : n + 15 < 18446744073709551616) : adjust n = rounded n := by
  unfold adjust rounded DSIZE MINBLKSIZE
  by_cases hc : n ≤ 16
  · rw [if_pos (show n ≤ 2 * 8 by omega), if_pos hc]
  · rw [if_neg (show ¬ n ≤ 2 * 8 by omega), if_neg hc, add64_eq _ _ (by omega),
      ALIGN_eq _ (by omega)]
    omega

theorem rounded_ge (n : Nat) : 24 ≤ rounded n ∧ n + 8 ≤ rounded n ∧ rounded n % 8 = 0 := by
  unfold rounded
  by_cases hc : n ≤ 16
  · rw [if_pos hc]; omega
  · rw [if_neg hc]; omega

/-! ## More concrete states -/

set_option maxRecDepth 100000 in
theorem twoBlocks_ptr : (mm_malloc 10 initState 32).map Prod.snd = some 4280 := by
  decide!

theorem twoBlocks_eq : mm_malloc 10 initState 32 = some (twoBlocks, 4280) := by
  have h := twoBlocks_ptr
  unfold twoBlocks
  cases hm : mm_malloc 10 initState 32 with
  | none => rw [hm] at h; simp at h
  | some r =>
    rw [hm] at h
    have e : r.2 = 4280 := by simpa using h
    simp only
    rw [← e]

theorem twoBlocks_reach : Reach hostState twoBlocks [4280] :=
  Reach.malloc initState twoBlocks [] 10 32 4280 initState_reach (by decide) twoBlocks_eq

theorem twoBlocks_allocated : Allocated twoBlocks 4280 :=
  (reach_good twoBlocks_reach).allocated 4280 (by simp)

theorem wideHost_ok : HostOK wideHost := by
  unfold HostOK wideHost
  simp

theorem wideInit_reach : Reach wideHost wideInit [] :=
  Reach.init wideHost_ok
    ((mm_init_spec wideHost wideHost_ok).2 (by unfold wideHost; simp)).1

set_option maxRecDepth 100000 in
theorem bigBlock_ptr : (mm_malloc 10 wideInit 2097152).map Prod.snd = some 4280 := by
  decide!

theorem bigBlock_eq : mm_malloc 10 wideInit 2097152 = some (bigBlock, 4280) := by
  have h := bigBlock_ptr
  unfold bigBlock
  cases hm : mm_malloc 10 wideInit 2097152 with
  | none => rw [hm] at h; simp at h
  | some r =>
    rw [hm] at h
    have e : r.2 = 4280 := by simpa using h
    simp only
    rw [← e]

theorem bigBlock_reach : Reach wideHost bigBlock [4280] :=
  Reach.malloc wideInit bigBlock [] 10 2097152 4280 wideInit_reach (by decide) bigBlock_eq

theorem bigFree_reach : Reach wideHost bigFree [] :=
  Reach.free bigBlock [4280] 4280 bigBlock_reach (by simp)

theorem bigFree_heap : Heap bigFree := (reach_good bigFree_reach).heap

/-! # The claims on resizing and on the search -/

set_option maxRecDepth 100000 in
/-- C11 as stated fails.  In the state after `mm_init` and `mm_malloc(32)` the
block at 4280 is allocated, with 40 bytes, and the block after it is free, with
24 bytes.  For `n = 8` the two sizes cover `rounded(8) = 24`, yet
`mm_realloc(4280, 8)` does not return 4280: the difference `24 - 40` wraps
around as a `size_t`, the next block is found too small for it, and the block
is moved to 4320. -/
theorem C11_counterexample :
    Allocated twoBlocks 4280 ∧
    GET_ALLOC twoBlocks.mem (HDRP (NEXT_BLKP twoBlocks.mem 4280)) = 0 ∧
    rounded 8 ≤ GET_SIZE twoBlocks.mem (HDRP 4280) +
      GET_SIZE twoBlocks.mem (HDRP (NEXT_BLKP twoBlocks.mem 4280)) ∧
    (mm_realloc 10 twoBlocks 4280 8).map Prod.snd = some 4320 :=
  ⟨twoBlocks_allocated, by decide!, by decide!, by decide!⟩

/-- C11, amended to requests that do not shrink the block: on a well-formed
heap, for every allocated block `p` and every `n > 0` such that the block after
`p` is free and `size(p) ≤ rounded(n) ≤ size(p) + size(next)`, `mm_realloc(p, n)`
returns `p` itself, and afterwards the heap is well-formed and the block at `p`
is allocated with a size of at least `rounded(n)`. -/
theorem C11_realloc_in_place (s : State) (p : Nat) (h : Allocated s p) (n : Nat) (hn : 0 < n)
    (hfree : GET_ALLOC s.mem (HDRP (NEXT_BLKP s.mem p)) = 0)
    (hge : GET_SIZE s.mem (HDRP p) ≤ rounded n)
    (hle : rounded n ≤ GET_SIZE s.mem (HDRP p) + GET_SIZE s.mem (HDRP (NEXT_BLKP s.mem p)))
    (fuel : Nat) :
    ∃ s2, mm_realloc fuel s p n = some (s2, p) ∧ Heap s2 ∧
      GET_ALLOC s2.mem (HDRP p) = 1 ∧ rounded n ≤ GET_SIZE s2.mem (HDRP p) := by
  obtain ⟨bl, fl, hwf, b, hb, hba, hbp⟩ := h
  subst hbp
  obtain ⟨pre, post, e⟩ := List.append_of_mem hb
  subst e
  have hc := hwf.core
  obtain ⟨hH, hS, -, hN, -, -, -, hb32⟩ := hc.macros b hb
  obtain ⟨-, hn1, hn2⟩ := hc.next_alloc
  -- the block after `b` is a free block of the walk
  obtain ⟨r, post2, hpost, hrf⟩ : ∃ r post2, post = r :: post2 ∧ r.alloc = false := by
    cases post with
    | nil =>
      have := (hn1 rfl).2
      rw [this] at hfree
      exact absurd hfree (by decide)
    | cons r post2 =>
      refine ⟨r, post2, rfl, ?_⟩
      have := (hn2 r post2 rfl).2
      rw [this] at hfree
      cases hr : r.alloc with
      | false => rfl
      | true => rw [hr] at hfree; simp at hfree
  subst hpost
  have hrin : r ∈ pre ++ b :: r :: post2 := by simp
  obtain ⟨hrH, hrS, -, -, -, -, -, hr32⟩ := hc.macros r hrin
  have hra : r.addr = b.addr + b.size := (hn2 r post2 rfl).1
  rw [hN, ← hra, hrH, hrS] at hle
  rw [hH, hS] at hge hle
  have hr := rounded_ge n
  have hadj : adjust n = rounded n := adjust_rounded n (by omega)
  rcases realloc_cases hc n fuel (by omega) with
    ⟨r2, q2, e2, -, k1, k2, heq⟩ | ⟨r2, q2, e2, -, k1, k2, k3, heq⟩ | ⟨k1, -⟩ |
    ⟨r2, q2, e2, -, k1, -⟩
  · obtain ⟨fl2, w, -⟩ := realloc_split_spec hwf hba hrf (adjust n) (by omega) (by omega)
      (by omega) (by
        have e3 := (List.cons.inj e2).1
        rw [← e3] at k2
        exact k2)
    refine ⟨_, heq, ⟨_, _, w⟩, ?_⟩
    obtain ⟨mH, mS, mA, -⟩ := w.core.macros ⟨b.addr, adjust n, true⟩ (by simp)
    have mH2 : HDRP b.addr = b.addr - 4 := mH
    have mS2 : GET_SIZE (realloc_split s b.addr (adjust n)).mem (b.addr - 4) = adjust n := mS
    have mA2 : GET_ALLOC (realloc_split s b.addr (adjust n)).mem (b.addr - 4) = 1 := mA
    rw [mH2, mS2, mA2, hadj]
    exact ⟨rfl, le_refl _⟩
  · obtain ⟨fl2, w, -⟩ := realloc_whole_spec hwf hba hrf
    refine ⟨_, heq, ⟨_, _, w⟩, ?_⟩
    obtain ⟨mH, mS, mA, -⟩ := w.core.macros ⟨b.addr, b.size + r.size, true⟩ (by simp)
    have mH2 : HDRP b.addr = b.addr - 4 := mH
    have mS2 : GET_SIZE (realloc_whole s b.addr).mem (b.addr - 4) = b.size + r.size := mS
    have mA2 : GET_ALLOC (realloc_whole s b.addr).mem (b.addr - 4) = 1 := mA
    rw [mH2, mS2, mA2]
    exact ⟨rfl, hle⟩
  · exfalso
    rcases k1 with e3 | ⟨r3, q3, e3, hr3⟩
    · simp at e3
    · have e4 := (List.cons.inj e3).1
      rw [← e4, hrf] at hr3
      simp at hr3
  · exfalso
    have e3 := (List.cons.inj e2).1
    rw [← e3] at k1
    omega

set_option maxRecDepth 100000 in
theorem C11_realloc_in_place_witness :
    Allocated oneBlock 4280 ∧ 0 < 24 ∧
    GET_ALLOC oneBlock.mem (HDRP (NEXT_BLKP oneBlock.mem 4280)) = 0 ∧
    GET_SIZE oneBlock.mem (HDRP 4280) ≤ rounded 24 ∧
    rounded 24 ≤ GET_SIZE oneBlock.mem (HDRP 4280) +
      GET_SIZE oneBlock.mem (HDRP (NEXT_BLKP oneBlock.mem 4280)) ∧
    ∃ s2, mm_realloc 10 oneBlock 4280 24 = some (s2, 4280) ∧ Heap s2 ∧
      GET_ALLOC s2.mem (HDRP 4280) = 1 ∧ rounded 24 ≤ GET_SIZE s2.mem (HDRP 4280) :=
  ⟨oneBlock_allocated, by decide, by decide!, by decide!, by decide!,
    C11_realloc_in_place oneBlock 4280 oneBlock_allocated 24 (by decide) (by decide!)
      (by decide!) (by decide!) 10⟩

set_option maxRecDepth 100000 in
/-- C12 at the input on which the code departs from it.  In the state after
`mm_init` and `mm_malloc(16)` the block at 4280 is allocated, with 24 bytes, and
the block after it is free, with 40 bytes, too few for `rounded(100) = 112`.
`mm_realloc(4280, 100)` returns 4304 as a block of 120 bytes: having replaced
the size by the rounded size 112, it passes that to `mm_malloc`, which rounds
once more.  The sequence `q = mm_malloc(100)`; copy; `mm_free(4280)` returns
4304 as a block of 112 bytes. -/
theorem C12_realloc_rounds_twice :
    Allocated oneBlock 4280 ∧
    GET_ALLOC oneBlock.mem (HDRP (NEXT_BLKP oneBlock.mem 4280)) = 0 ∧
    GET_SIZE oneBlock.mem (HDRP 4280) +
      GET_SIZE oneBlock.mem (HDRP (NEXT_BLKP oneBlock.mem 4280)) < rounded 100 ∧
    (mm_realloc 10 oneBlock 4280 100).map (fun r => (r.2, GET_SIZE r.1.mem (HDRP r.2))) =
      some (4304, 120) ∧
    (alloc_copy_free 10 oneBlock 4280 100).map (fun r => (r.2, GET_SIZE r.1.mem (HDRP r.2))) =
      some (4304, 112) :=
  ⟨oneBlock_allocated, by decide!, by decide!, by decide!, by decide!⟩

set_option maxRecDepth 100000 in
/-- C13 at the input on which the code departs from it.  The state after
`mm_init`, `p = mm_malloc(2097152)` and `mm_free(p)` is a well-formed heap whose
slot 20 holds the free block 4280 of 2097224 bytes, enough for
`rounded(2097152) = 2097160`.  Yet `mm_malloc(2097152)` grows the arena, from
the break 2101504 to 4198664: for a size between `2^21` and `2^22` its search
starts at index 22 and looks at no slot. -/
theorem C13_grows_despite_fit :
    Heap bigFree ∧ 0 < 2097152 ∧ 2097152 < 2147483648 ∧
    chase bigFree.mem 10 (read64 bigFree.mem (slotAddr bigFree 20)) = some [4280] ∧
    rounded 2097152 ≤ GET_SIZE bigFree.mem (HDRP 4280) ∧
    bigFree.mem_brk = 2101504 ∧
    find_fit bigFree (adjust 2097152) 10
      (bigFree.arrsize - malloc_index bigFree.arrsize (adjust 2097152))
      (malloc_index bigFree.arrsize (adjust 2097152)) = some 0 ∧
    (mm_malloc 10 bigFree 2097152).map (fun r => (r.2, r.1.mem_brk)) = some (4280, 4198664) :=
  ⟨bigFree_heap, by decide, by decide, by decide!, by decide!, by decide!, by decide!,
    by decide!⟩

/-- C14 at the input on which the code departs from it.  For the block size
`2097160 = 2^21 + 8`, a multiple of 8, the loop of `mm_malloc` over the powers
of two ends without a match and leaves the index 22, outside the table, where
`addfree` files a block of that size under slot 20. -/
theorem C14_index_gap :
    2097160 % 8 = 0 ∧ 24 ≤ 2097160 ∧ malloc_index 21 2097160 = 22 ∧
    addfree_index 21 2097160 = 20 ∧ ¬ (malloc_index 21 2097160 ≤ 20) := by
  decide

theorem unlist_one (fl : Nat → List Nat) (d i : Nat) : unlist fl [d] i = (fl i).erase d := rfl

theorem unlist_two (fl : Nat → List Nat) (d e i : Nat) :
    unlist fl [d, e] i = ((fl i).erase d).erase e := rfl

/-- Taking a listed node off its list is erasing it from every list. -/
theorem update_erase_unlist {s : State} {bl : List Blk} {fl : Nat → List Nat}
    (h : Core s bl fl) {j d : Nat} (hd : d ∈ fl j) :
    Function.update fl j ((fl j).erase d) = unlist fl [d] := by
  funext i
  by_cases e : i = j
  · subst e
    rw [Function.update_same]
    rfl
  · rw [Function.update_noteq e]
    show fl i = (fl i).erase d
    rw [List.erase_of_not_mem]
    intro hx
    exact e (h.fl_disj i j d hx hd)

theorem update_cons_relist (fl : Nat → List Nat) (del : List Nat) (k x : Nat) :
    Function.update (unlist fl del) k (x :: unlist fl del k) = relist fl del k x := by
  funext i
  unfold relist
  by_cases e : i = k
  · subst e
    rw [Function.update_same, if_pos rfl]
    rfl
  · rw [Function.update_noteq e, if_neg e]
    rfl

theorem unlist_nil (fl : Nat → List Nat) : unlist fl [] = fl := rfl

theorem unlist_unlist (fl : Nat → List Nat) (d e : Nat) :
    unlist (unlist fl [d]) [e] = unlist fl [d, e] := rfl

/-! ## The first fit -/

/-- In a well-formed heap whose globals hold the bounds, the blocks below
`hi - 7` are the blocks of the walk up to the epilogue. -/
theorem visited_chain (s : State) (hl : s.mem_brk < 18446744073709551616)
    (hh : sub64 s.hi 7 = s.mem_brk - 8) (l : List Blk) :
    ∀ a fuel, 4 ≤ a → Chain s.mem a l s.mem_brk → l.length < fuel →
      visited s.mem (sub64 s.hi 7) fuel a = some (l.map Blk.addr) := by
  induction l with
  | nil =>
    intro a fuel ha h hf
    have hae : a = s.mem_brk := h
    cases fuel with
    | zero => simp at hf
    | succ f =>
      unfold visited
      rw [hh, if_neg (show ¬ a < s.mem_brk - 8 by omega)]
      rfl
  | cons b bs ih =>
    intro a fuel ha h hf
    obtain ⟨h1, h2, h3, h4, h5, h6⟩ := h
    have hle2 := Chain_le _ _ _ _ h6
    cases fuel with
    | zero => simp at hf
    | succ f =>
      have hs : GET_SIZE s.mem (a - 4) = b.size := GET_SIZE_eq s.mem _ b h4 h3
      unfold visited
      rw [hh, if_pos (show a < s.mem_brk - 8 by omega),
        NEXT_BLKP_eq s.mem a b.size ha hs (by omega),
        ← hh, ih (a + b.size) f (by omega) h6 (by simpa using hf)]
      simp [h1]

theorem Core.visited {s : State} {bl : List Blk} {fl : Nat → List Nat} (h : Core s bl fl)
    (hB : Bounds s) (fuel : Nat) (hf : bl.length < fuel) :
    visited s.mem (sub64 s.hi 7) fuel s.heap_listp = some (bl.map Blk.addr) := by
  have hl := h.lt64
  have hb := h.brk_al.2
  have hh : sub64 s.hi 7 = s.mem_brk - 8 := by
    rw [hB.2, sub64_eq _ _ (by omega) (by omega)]
    omega
  rw [h.hl_eq]
  exact visited_chain s (by omega) hh bl _ fuel (by omega) h.chain hf

/-! # The claims on the search order, the list edits and the checker -/

theorem update_erase_unlist2 (fl : Nat → List Nat) (j d : Nat) (hd : ∀ i, d ∈ fl i → i = j) :
    Function.update fl j ((fl j).erase d) = unlist fl [d] := by
  funext i
  by_cases e : i = j
  · subst e
    rw [Function.update_same]
    rfl
  · rw [Function.update_noteq e]
    show fl i = (fl i).erase d
    rw [List.erase_of_not_mem]
    intro hx
    exact e (hd i hx)

/-- The split branch of `place`, with the lists it leaves. -/
theorem place_split_wf {s : State} {pre post : List Blk} {b : Blk} {fl : Nat → List Nat}
    (h : WF s (pre ++ b :: post) fl) (hbf : b.alloc = false)
    (asize : Nat) (h24 : 24 ≤ asize) (h8 : asize % 8 = 0) (hle : asize + 24 ≤ b.size) :
    WF (place s b.addr asize)
      (pre ++ ⟨b.addr, asize, true⟩ :: ⟨b.addr + asize, b.size - asize, false⟩ :: post)
      (relist fl [b.addr] (addfree_index 21 (b.size - asize)) (b.addr + asize)) := by
  have hc := h.core
  have hbin : b ∈ pre ++ b :: post := by simp
  have hbj := h.fl_all b hbin hbf
  rw [place_split_eq hc asize h24 h8 hle]
  obtain ⟨hc1, hlo1⟩ := rmvll_core hc hbj
  have hc1b : Core (rmvll s b.addr) (pre ++ [b] ++ post)
      (Function.update fl (addfree_index 21 b.size)
        ((fl (addfree_index 21 b.size)).erase b.addr)) := by simpa using hc1
  obtain ⟨a, e, g1, g2, g3⟩ := hc1b.split3
  have g2c := g2
  obtain ⟨ga, gb24, gb8, -, -, ge⟩ := g2c
  have ge2 : a + (asize + (b.size - asize)) = e := by
    have ge3 : a + b.size = e := ge
    clear * - ge3 hle
    omega
  subst ge2
  subst ga
  have hc3 := retag2 hc1b b.addr asize (b.size - asize) true false g1 g2 g3 h24 h8
    (by clear * - hle; omega) (by clear * - h8 gb8; omega) (by
    intro i x hx c hc2 hcx
    have e1 : c = b := by simpa using hc2
    subst e1
    rw [← hcx] at hx
    exact hc.not_mem_erase hbj i hx)
  obtain ⟨hb1, hb2, hb3, hb4, -, -, -⟩ := hc.blk b hbin
  have hnl3 : ∀ i, (⟨b.addr + asize, b.size - asize, false⟩ : Blk).addr ∉
      Function.update fl (addfree_index 21 b.size)
        ((fl (addfree_index 21 b.size)).erase b.addr) i := by
    intro i hx
    have hx2 := mem_update_erase hx
    obtain ⟨c, hcm, hcx, -⟩ := hc.fl_free i _ hx2
    have hc3 := (hc.blk c hcm).2.2.1
    have hcx2 : c.addr = b.addr + asize := hcx
    rcases Chain_disj s.mem _ _ _ hc.chain c b hcm hbin with e1 | e1 | e1
    · rw [e1] at hcx2
      clear * - hcx2 h24
      omega
    · clear * - e1 hcx2 hc3
      omega
    · clear * - e1 hcx2 hle
      omega
  obtain ⟨hc4, -⟩ := insert_core hc3 (addfree_index_lt (b.size - asize))
    ⟨b.addr + asize, b.size - asize, false⟩ (by simp) rfl hnl3
  have hsp := noadj_split h.noadj
  have hwf := wf_assemble2 (pre ++ [⟨b.addr, asize, true⟩]) post
    ⟨b.addr + asize, b.size - asize, false⟩ (by simpa using hc4) hnl3
    (by
      intro c hcm hcf
      have hc2 : c ∈ pre ∨ c = ⟨b.addr, asize, true⟩ ∨ c ∈ post := by simpa using hcm
      have hc5 : c ∈ pre ++ post := by
        rcases hc2 with e1 | e1 | e1
        · simp [e1]
        · rw [e1] at hcf; simp at hcf
        · simp [e1]
      have hne := Chain_notin _ _ _ _ _ _ hc.chain c hc5
      have hin : c ∈ pre ++ b :: post := by
        rcases List.mem_append.1 hc5 with e1 | e1
        · simp [e1]
        · simp [e1]
      exact mem_update_erase_of_ne (h.fl_all c hin hcf) hne)
    (by
      intro i x hx c hcm hcx
      have hc2 : c ∈ pre ∨ c = ⟨b.addr, asize, true⟩ ∨ c ∈ post := by simpa using hcm
      have hx2 := mem_update_erase hx
      rcases hc2 with e1 | e1 | e1
      · exact h.fl_class i x hx2 c (by simp [e1]) hcx
      · exfalso
        rw [e1] at hcx
        have hcx2 : b.addr = x := hcx
        rw [← hcx2] at hx
        exact hc.not_mem_erase hbj i hx
      · exact h.fl_class i x hx2 c (by simp [e1]) hcx)
    (noadj_snoc hsp.1 rfl) hsp.2.1 (getLast_snoc_alloc rfl)
    (by
      intro y hy
      rcases hsp.2.2.2 y hy with e1 | e1
      · rw [hbf] at e1; exact absurd e1 (by simp)
      · exact e1)
  rw [← update_cons_relist, ← update_erase_unlist hc hbj]
  have e0 : pre ++ ⟨b.addr, asize, true⟩ :: ⟨b.addr + asize, b.size - asize, false⟩ :: post =
      pre ++ [⟨b.addr, asize, true⟩] ++ ⟨b.addr + asize, b.size - asize, false⟩ :: post := by
    simp
  rw [e0]
  exact hwf

/-- The other branch of `place`, with the lists it leaves. -/
theorem place_whole_wf {s : State} {pre post : List Blk} {b : Blk} {fl : Nat → List Nat}
    (h : WF s (pre ++ b :: post) fl) (hbf : b.alloc = false)
    (asize : Nat) (hle : asize ≤ b.size) (hlt : b.size < asize + 24) :
    WF (place s b.addr asize) (pre ++ ⟨b.addr, b.size, true⟩ :: post)
      (unlist fl [b.addr]) := by
  have hc := h.core
  have hbin : b ∈ pre ++ b :: post := by simp
  have hbj := h.fl_all b hbin hbf
  rw [place_whole_eq hc asize hle hlt]
  obtain ⟨hc1, hlo1⟩ := rmvll_core hc hbj
  have hc1b : Core (rmvll s b.addr) (pre ++ [b] ++ post)
      (Function.update fl (addfree_index 21 b.size)
        ((fl (addfree_index 21 b.size)).erase b.addr)) := by simpa using hc1
  obtain ⟨a, e, g1, g2, g3⟩ := hc1b.split3
  have g2c := g2
  obtain ⟨ga, gb24, gb8, -, -, ge⟩ := g2c
  have ge2 : a + b.size = e := ge
  subst ge2
  subst ga
  have hc3 := retag1 hc1b b.addr b.size true g1 g2 g3 gb24 gb8 (by
    intro i x hx c hc2 hcx
    exfalso
    have e1 : c = b := by simpa using hc2
    subst e1
    rw [← hcx] at hx
    exact hc.not_mem_erase hbj i hx)
  have hsp := noadj_split h.noadj
  have hwf := wf_assemble_alloc pre post ⟨b.addr, b.size, true⟩
    (by simpa using hc3) rfl
    (by
      intro c hc5 hcf
      have hne := Chain_notin _ _ _ _ _ _ hc.chain c hc5
      have hin : c ∈ pre ++ b :: post := by
        rcases List.mem_append.1 hc5 with e1 | e1
        · simp [e1]
        · simp [e1]
      exact mem_update_erase_of_ne (h.fl_all c hin hcf) hne)
    (by
      intro i x hx c hc5 hcx
      have hin : c ∈ pre ++ b :: post := by
        rcases List.mem_append.1 hc5 with e1 | e1
        · simp [e1]
        · simp [e1]
      exact h.fl_class i x (mem_update_erase hx) c hin hcx)
    hsp.1 hsp.2.1
  rw [← update_erase_unlist hc hbj]
  exact hwf

/-! ## The four cases of `coalesce`, with the walk and the lists they leave -/

/-- Marking an allocated block of a well-formed heap free gives a heap that is
well-formed but for that block. -/
theorem FreedIn.of_wf {s : State} {pre post : List Blk} {b : Blk} {fl : Nat → List Nat}
    (h : WF s (pre ++ b :: post) fl) (hba : b.alloc = true) :
    FreedIn (s.setMem (tag s.mem b.addr b.size false)) pre ⟨b.addr, b.size, false⟩ post fl := by
  obtain ⟨hc2, hnl⟩ := mark_free_core h.core hba
  obtain ⟨npre, npost, -, -⟩ := noadj_split h.noadj
  refine ⟨hc2, rfl, hnl, ?_, ?_, npre, npost⟩
  · intro i x hx c hc hcx
    have hc3 : c ∈ pre ∨ c = ⟨b.addr, b.size, false⟩ ∨ c ∈ post := by simpa using hc
    rcases hc3 with e | e | e
    · exact h.fl_class i x hx c (by simp [e]) hcx
    · subst e
      exact absurd (hcx ▸ hx) (hnl i)
    · exact h.fl_class i x hx c (by simp [e]) hcx
  · intro c hc hcf
    refine h.fl_all c ?_ hcf
    rcases List.mem_append.1 hc with e | e
    · simp [e]
    · simp [e]

theorem lastA_of {pre : List Blk} (h : ∀ q ∈ pre.getLast?, q.alloc = true) :
    pre = [] ∨ ∃ pre2 q, pre = pre2 ++ [q] ∧ q.alloc = true := by
  rcases List.eq_nil_or_concat pre with e | ⟨pre2, q, e⟩
  · exact Or.inl e
  · rw [List.concat_eq_append] at e
    subst e
    exact Or.inr ⟨pre2, q, rfl, h q (by simp)⟩

theorem headA_of {post : List Blk} (h : ∀ r ∈ post.head?, r.alloc = true) :
    post = [] ∨ ∃ r post2, post = r :: post2 ∧ r.alloc = true := by
  cases post with
  | nil => exact Or.inl rfl
  | cons r post2 => exact Or.inr ⟨r, post2, rfl, h r (by simp)⟩

theorem mem_around {pre post : List Blk} {b c : Blk} (hc : c ∈ pre ++ post) :
    c ∈ pre ++ b :: post := by
  rcases List.mem_append.1 hc with e | e
  · simp [e]
  · simp [e]

/-- Case 1 of `coalesce`: no neighbour is free. -/
theorem coalesce_wf1 {s : State} {pre post : List Blk} {b : Blk} {fl : Nat → List Nat}
    (h : FreedIn s pre b post fl) (hp : ∀ q ∈ pre.getLast?, q.alloc = true)
    (hn : ∀ r ∈ post.head?, r.alloc = true) :
    (coalesce s b.addr).2 = b.addr ∧
    WF (coalesce s b.addr).1 (pre ++ b :: post)
      (relist fl [] (addfree_index 21 b.size) b.addr) := by
  have hbin : b ∈ pre ++ b :: post := by simp
  have heq := coalesce_c1 h.core h.free h.unlisted (lastA_of hp) (headA_of hn)
  obtain ⟨hc4, -⟩ := insert_core h.core (addfree_index_lt b.size) b hbin h.free h.unlisted
  rw [heq]
  have hwf := wf_assemble (pre ++ b :: post) b fl hc4 (fun i x hx => hx) h.unlisted
    (fun c hc => mem_around hc) h.fl_all h.fl_class h.noadj_pre h.noadj_post hp hn
  refine ⟨rfl, ?_⟩
  rw [← update_cons_relist]
  exact hwf

/-- Case 2 of `coalesce`: the block after is free, the block before is not. -/
theorem coalesce_wf2 {s : State} {pre post2 : List Blk} {b r : Blk} {fl : Nat → List Nat}
    (h : FreedIn s pre b (r :: post2) fl) (hp : ∀ q ∈ pre.getLast?, q.alloc = true)
    (hrf : r.alloc = false) :
    (coalesce s b.addr).2 = b.addr ∧
    WF (coalesce s b.addr).1 (pre ++ ⟨b.addr, b.size + r.size, false⟩ :: post2)
      (relist fl [r.addr] (addfree_index 21 (b.size + r.size)) b.addr) := by
  have hc := h.core
  have hrj := h.fl_all r (by simp) hrf
  obtain ⟨e1, hc4, -, -⟩ := coalesce_c2 hc h.free h.unlisted (lastA_of hp) hrf hrj
  have hwf := wf_assemble (pre ++ b :: r :: post2) ⟨b.addr, b.size + r.size, false⟩ fl hc4
    (fun i x hx => mem_update_erase hx)
    (fun i hx => h.unlisted i (mem_update_erase hx))
    (fun c hc => by
      rcases List.mem_append.1 hc with e | e
      · simp [e]
      · simp [e]) (by
    intro c hc2 hcf
    refine mem_update_erase_of_ne (h.fl_all c ?_ hcf) ?_
    · rcases List.mem_append.1 hc2 with e | e
      · simp [e]
      · simp [e]
    · have h5 : Chain s.mem (s.mem_start_brk + 184) ((pre ++ [b]) ++ r :: post2)
          s.mem_brk := by simpa using hc.chain
      refine Chain_notin _ _ _ _ _ _ h5 c ?_
      rcases List.mem_append.1 hc2 with e | e
      · simp [e]
      · simp [e]) h.fl_class h.noadj_pre (List.Chain'.tail h.noadj_post) hp
    (head_alloc_of h.noadj_post hrf)
  refine ⟨e1, ?_⟩
  rw [← update_cons_relist, ← update_erase_unlist hc hrj]
  exact hwf

/-- Case 3 of `coalesce`: the block before is free, the block after is not. -/
theorem coalesce_wf3 {s : State} {pre2 post : List Blk} {q b : Blk} {fl : Nat → List Nat}
    (h : FreedIn s (pre2 ++ [q]) b post fl) (hqf : q.alloc = false)
    (hn : ∀ r ∈ post.head?, r.alloc = true) :
    (coalesce s b.addr).2 = q.addr ∧
    WF (coalesce s b.addr).1 (pre2 ++ ⟨q.addr, q.size + b.size, false⟩ :: post)
      (relist fl [q.addr] (addfree_index 21 (q.size + b.size)) q.addr) := by
  have hc := h.core
  have h2 : Core s (pre2 ++ q :: b :: post) fl := by simpa using hc
  have hqj := h.fl_all q (by simp) hqf
  have hcls2 : ∀ i x, x ∈ fl i → ∀ c, c ∈ pre2 ++ q :: b :: post → c.addr = x →
      addfree_index 21 c.size = i := by
    intro i x hx c hc3 hcx
    exact h.fl_class i x hx c (by simpa using hc3) hcx
  obtain ⟨e1, hc4, -, -, -⟩ := coalesce_c3 h2 h.free h.unlisted hqf hqj (headA_of hn)
  have hwf := wf_assemble (pre2 ++ q :: b :: post) ⟨q.addr, q.size + b.size, false⟩ fl hc4
    (fun i x hx => mem_update_erase hx)
    (fun i => hc.not_mem_erase hqj i)
    (fun c hc => by
      rcases List.mem_append.1 hc with e | e
      · simp [e]
      · simp [e]) (by
    intro c hc2 hcf
    refine mem_update_erase_of_ne (h.fl_all c ?_ hcf) ?_
    · rcases List.mem_append.1 hc2 with e | e
      · simp [e]
      · simp [e]
    · refine Chain_notin _ _ _ _ _ _ h2.chain c ?_
      rcases List.mem_append.1 hc2 with e | e
      · simp [e]
      · simp [e]) hcls2 (List.Chain'.left_of_append h.noadj_pre) h.noadj_post
    (last_alloc_of h.noadj_pre hqf) hn
  refine ⟨e1, ?_⟩
  rw [← update_cons_relist, ← update_erase_unlist hc hqj]
  exact hwf

/-- Case 4 of `coalesce`: the blocks before and after are both free. -/
theorem coalesce_wf4 {s : State} {pre2 post2 : List Blk} {q b r : Blk} {fl : Nat → List Nat}
    (h : FreedIn s (pre2 ++ [q]) b (r :: post2) fl) (hqf : q.alloc = false)
    (hrf : r.alloc = false) :
    (coalesce s b.addr).2 = q.addr ∧
    WF (coalesce s b.addr).1 (pre2 ++ ⟨q.addr, q.size + b.size + r.size, false⟩ :: post2)
      (relist fl [r.addr, q.addr] (addfree_index 21 (q.size + b.size + r.size)) q.addr) := by
  have hc := h.core
  have h3 : Core s (pre2 ++ q :: b :: r :: post2) fl := by simpa using hc
  have hqj := h.fl_all q (by simp) hqf
  have hrj := h.fl_all r (by simp) hrf
  obtain ⟨e1, hc4, -, -, -⟩ := coalesce_c4 h3 h.free h.unlisted hqf hqj hrf hrj
  obtain ⟨hc1, -⟩ := rmvll_core h3 hrj
  have hqne : q.addr ≠ r.addr := by
    have h5 : Chain s.mem (s.mem_start_brk + 184) ((pre2 ++ [q, b]) ++ r :: post2)
        s.mem_brk := by simpa using h3.chain
    exact Chain_notin _ _ _ _ _ _ h5 q (by simp)
  have hqj1 : q.addr ∈ Function.update fl (addfree_index 21 r.size)
      ((fl (addfree_index 21 r.size)).erase r.addr) (addfree_index 21 q.size) :=
    mem_update_erase_of_ne hqj hqne
  have hwf := wf_assemble (pre2 ++ q :: b :: r :: post2)
    ⟨q.addr, q.size + b.size + r.size, false⟩ fl hc4
    (fun i x hx => mem_update_erase (mem_update_erase hx))
    (fun i => hc1.not_mem_erase hqj1 i)
    (fun c hc => by
      rcases List.mem_append.1 hc with e | e
      · simp [e]
      · simp [e]) (by
    intro c hc2 hcf
    have hcin : c ∈ pre2 ++ [q] ++ r :: post2 := by
      rcases List.mem_append.1 hc2 with e | e
      · simp [e]
      · simp [e]
    have hcq : c.addr ≠ q.addr := by
      refine Chain_notin _ _ _ _ _ _ h3.chain c ?_
      rcases List.mem_append.1 hc2 with e | e
      · simp [e]
      · simp [e]
    have hcr : c.addr ≠ r.addr := by
      have h5 : Chain s.mem (s.mem_start_brk + 184) ((pre2 ++ [q, b]) ++ r :: post2)
          s.mem_brk := by simpa using h3.chain
      refine Chain_notin _ _ _ _ _ _ h5 c ?_
      rcases List.mem_append.1 hc2 with e | e
      · simp [e]
      · simp [e]
    exact mem_update_erase_of_ne (mem_update_erase_of_ne (h.fl_all c hcin hcf) hcr) hcq)
    (by
    intro i x hx c hc2 hcx
    exact h.fl_class i x hx c (by simpa using hc2) hcx)
    (List.Chain'.left_of_append h.noadj_pre) (List.Chain'.tail h.noadj_post)
    (last_alloc_of h.noadj_pre hqf) (head_alloc_of h.noadj_post hrf)
  refine ⟨e1, ?_⟩
  have e2 : unlist fl [r.addr, q.addr] =
      Function.update (Function.update fl (addfree_index 21 r.size)
        ((fl (addfree_index 21 r.size)).erase r.addr)) (addfree_index 21 q.size)
        ((Function.update fl (addfree_index 21 r.size)
          ((fl (addfree_index 21 r.size)).erase r.addr) (addfree_index 21 q.size)).erase
            q.addr) := by
    rw [update_erase_unlist h3 hrj]
    rw [update_erase_unlist2 (unlist fl [r.addr]) (addfree_index 21 q.size) q.addr (by
      intro i hx
      exact hc.fl_disj i _ q.addr (List.mem_of_mem_erase hx) hqj)]
    rfl
  rw [← update_cons_relist, e2]
  exact hwf

/-! ## Freeing two neighbours -/

/-- What `mm_free` leaves of an allocated block `a` whose successor `b` is
allocated: a free block that ends where `a` ended and starts at `a` or before,
followed by `b`. -/
theorem free_before_alloc {s : State} {pre post : List Blk} {a b : Blk} {fl : Nat → List Nat}
    (h : WF s (pre ++ a :: b :: post) fl) (ha : a.alloc = true) (hb : b.alloc = true) :
    ∃ P m fl2, WF (mm_free s a.addr) (P ++ m :: b :: post) fl2 ∧ m.alloc = false ∧
      m.addr ≤ a.addr ∧ m.addr + m.size = a.addr + a.size := by
  have hF := FreedIn.of_wf h ha
  rw [mm_free_eq h.core ha]
  have hn : ∀ r ∈ (b :: post).head?, r.alloc = true := by
    intro r hr
    have : r = b := by simpa using hr.symm
    rw [this]
    exact hb
  rcases List.eq_nil_or_concat pre with e | ⟨pre2, q, e⟩
  · subst e
    obtain ⟨-, w⟩ := coalesce_wf1 hF (by simp) hn
    exact ⟨[], _, _, w, rfl, le_refl _, rfl⟩
  · rw [List.concat_eq_append] at e
    subst e
    cases hq : q.alloc with
    | true =>
      obtain ⟨-, w⟩ := coalesce_wf1 hF (by
        intro x hx
        have : x = q := by simpa using hx.symm
        rw [this]
        exact hq) hn
      exact ⟨_, _, _, w, rfl, le_refl _, rfl⟩
    | false =>
      obtain ⟨-, w⟩ := coalesce_wf3 hF hq hn
      have hadj : q.addr + q.size = a.addr := (h.core.prev_alloc.2 pre2 q rfl).1
      refine ⟨_, _, _, w, rfl, ?_, ?_⟩
      · show q.addr ≤ a.addr
        omega
      · show q.addr + (q.size + a.size) = a.addr + a.size
        omega

/-- Freeing two allocated neighbours, the lower first, leaves one free block
that covers both. -/
theorem free_two_adjacent {s : State} {pre post : List Blk} {a b : Blk} {fl : Nat → List Nat}
    (h : WF s (pre ++ a :: b :: post) fl) (ha : a.alloc = true) (hb : b.alloc = true) :
    ∃ bl2 fl2 m, WF (mm_free (mm_free s a.addr) b.addr) bl2 fl2 ∧ m ∈ bl2 ∧
      m.alloc = false ∧ m.addr ≤ a.addr ∧ b.addr + b.size ≤ m.addr + m.size := by
  have hab : b.addr = a.addr + a.size := (h.core.next_alloc.2.2 b post rfl).1
  obtain ⟨P, m, fl2, w, hmf, hm1, hm2⟩ := free_before_alloc h ha hb
  have w2 : WF (mm_free s a.addr) ((P ++ [m]) ++ b :: post) fl2 := by simpa using w
  have hF := FreedIn.of_wf w2 hb
  rw [mm_free_eq w2.core hb]
  cases post with
  | nil =>
    obtain ⟨-, w3⟩ := coalesce_wf3 hF hmf (by simp)
    refine ⟨_, _, ⟨m.addr, m.size + b.size, false⟩, w3, by simp, rfl, hm1, ?_⟩
    show b.addr + b.size ≤ m.addr + (m.size + b.size)
    omega
  | cons r post2 =>
    cases hr : r.alloc with
    | true =>
      obtain ⟨-, w3⟩ := coalesce_wf3 hF hmf (by
        intro x hx
        have : x = r := by simpa using hx.symm
        rw [this]
        exact hr)
      refine ⟨_, _, ⟨m.addr, m.size + b.size, false⟩, w3, by simp, rfl, hm1, ?_⟩
      show b.addr + b.size ≤ m.addr + (m.size + b.size)
      omega
    | false =>
      obtain ⟨-, w3⟩ := coalesce_wf4 hF hmf hr
      refine ⟨_, _, ⟨m.addr, m.size + b.size + r.size, false⟩, w3, by simp, rfl, hm1, ?_⟩
      show b.addr + b.size ≤ m.addr + (m.size + b.size + r.size)
      omega

/-! # The claims on placement and coalescing -/

theorem placedState_wf :
    WF placedState [⟨4280, 24, true⟩, ⟨4304, 40, false⟩] placedLists :=
  @place_split_wf initState [] [] ⟨4280, 64, false⟩ initLists initState_wf rfl 24
    (by decide) (by decide) (by decide)

theorem filledState_wf :
    WF filledState [⟨4280, 24, true⟩, ⟨4304, 40, true⟩] (unlist placedLists [4304]) :=
  @place_whole_wf placedState [⟨4280, 24, true⟩] [] ⟨4304, 40, false⟩ placedLists
    placedState_wf rfl 24 (by decide) (by decide)

theorem markedState_freed :
    FreedIn markedState [] ⟨4280, 24, false⟩ [⟨4304, 40, false⟩] placedLists :=
  @FreedIn.of_wf placedState [] [⟨4304, 40, false⟩] ⟨4280, 24, true⟩ placedLists
    placedState_wf rfl

/-- C16: the placement policy.  On a well-formed heap, for a free block `b` of
size `c` (which is on the list of its size) and a target `t`, a multiple of 8
with `24 ≤ t ≤ c`, after `place(b, t)` the heap is well-formed again and `b` is
off every list.  If `c - t ≥ 24`, the walk has at `b` an allocated block of size
`t` and at `b + t` a free block of size `c - t`, which heads the list of the
slot for `c - t`; the two sizes sum to `c`.  Otherwise the walk has at `b` an
allocated block of size `c`.  In both cases the size of the allocated block is
at least `t` and less than `t + 24`. -/
theorem C16_place_policy (s : State) (pre post : List Blk) (b : Blk) (fl : Nat → List Nat)
    (h : WF s (pre ++ b :: post) fl) (hbf : b.alloc = false) (t : Nat) (h24 : 24 ≤ t)
    (h8 : t % 8 = 0) (hle : t ≤ b.size) :
    (24 ≤ b.size - t →
      WF (place s b.addr t)
        (pre ++ ⟨b.addr, t, true⟩ :: ⟨b.addr + t, b.size - t, false⟩ :: post)
        (relist fl [b.addr] (addfree_index 21 (b.size - t)) (b.addr + t)) ∧
      GET (place s b.addr t).mem (HDRP b.addr) = PACK t 1 ∧
      GET (place s b.addr t).mem (HDRP (b.addr + t)) = PACK (b.size - t) 0 ∧
      t + (b.size - t) = b.size) ∧
    (b.size - t < 24 →
      WF (place s b.addr t) (pre ++ ⟨b.addr, b.size, true⟩ :: post) (unlist fl [b.addr]) ∧
      GET (place s b.addr t).mem (HDRP b.addr) = PACK b.size 1) ∧
    t ≤ GET_SIZE (place s b.addr t).mem (HDRP b.addr) ∧
    GET_SIZE (place s b.addr t).mem (HDRP b.addr) < t + 24 := by
  have hb8 := (h.core.blk b (by simp)).2.2.2.1
  have key : ∀ (bl2 : List Blk) (fl2 : Nat → List Nat) (c : Blk),
      WF (place s b.addr t) bl2 fl2 → c ∈ bl2 →
      GET (place s b.addr t).mem (HDRP c.addr) = c.size + c.alloc.toNat ∧
      GET_SIZE (place s b.addr t).mem (HDRP c.addr) = c.size := by
    intro bl2 fl2 c w hc
    obtain ⟨mH, mS, -⟩ := w.core.macros c hc
    have mW := (w.core.blk c hc).2.2.2.2.2.1
    unfold GET
    rw [mH, mS, mW]
    exact ⟨rfl, rfl⟩
  by_cases hsp : 24 ≤ b.size - t
  · have w := place_split_wf h hbf t h24 h8 (by omega)
    have k1 := key _ _ ⟨b.addr, t, true⟩ w (by simp)
    have k2 := key _ _ ⟨b.addr + t, b.size - t, false⟩ w (by simp)
    have k1a : GET (place s b.addr t).mem (HDRP b.addr) = t + 1 := k1.1
    have k1b : GET_SIZE (place s b.addr t).mem (HDRP b.addr) = t := k1.2
    have k2a : GET (place s b.addr t).mem (HDRP (b.addr + t)) = b.size - t + 0 := k2.1
    refine ⟨fun _ => ⟨w, ?_, ?_, by omega⟩, fun hlt => absurd hsp (by omega), ?_, ?_⟩
    · rw [k1a, PACK_one t h8]
    · rw [k2a, PACK_zero]
      rfl
    · rw [k1b]
    · rw [k1b]
      omega
  · have w := place_whole_wf h hbf t hle (by omega)
    have k1 := key _ _ ⟨b.addr, b.size, true⟩ w (by simp)
    have k1a : GET (place s b.addr t).mem (HDRP b.addr) = b.size + 1 := k1.1
    have k1b : GET_SIZE (place s b.addr t).mem (HDRP b.addr) = b.size := k1.2
    refine ⟨fun hge => absurd hge hsp, fun _ => ⟨w, ?_⟩, ?_, ?_⟩
    · rw [k1a, PACK_one b.size hb8]
    · rw [k1b]
      exact hle
    · rw [k1b]
      omega

theorem C16_place_policy_witness :
    WF initState ([] ++ ⟨4280, 64, false⟩ :: []) initLists ∧
    (⟨4280, 64, false⟩ : Blk).alloc = false ∧ 24 ≤ 24 ∧ 24 % 8 = 0 ∧
    24 ≤ (⟨4280, 64, false⟩ : Blk).size ∧
    WF (place initState 4280 24) [⟨4280, 24, true⟩, ⟨4304, 40, false⟩]
      (relist initLists [4280] (addfree_index 21 40) 4304) ∧
    GET (place initState 4280 24).mem (HDRP 4280) = PACK 24 1 ∧
    GET (place initState 4280 24).mem (HDRP 4304) = PACK 40 0 ∧
    24 ≤ GET_SIZE (place initState 4280 24).mem (HDRP 4280) ∧
    GET_SIZE (place initState 4280 24).mem (HDRP 4280) < 24 + 24 :=
  have k := C16_place_policy initState [] [] ⟨4280, 64, false⟩ initLists initState_wf rfl 24
    (by decide) (by decide) (by decide)
  ⟨initState_wf, rfl, by decide, by decide, by decide, (k.1 (by decide)).1,
    (k.1 (by decide)).2.1, (k.1 (by decide)).2.2.1, k.2.2.1, k.2.2.2⟩

/-- C17: the four cases of `coalesce`.  Take a heap that is well-formed but for a
block `b` just marked free: its header and footer say free, it is on no list,
`pre` are the blocks before it and `post` the blocks after it.  Then
`coalesce(b)` leaves a well-formed heap, and:
if neither neighbour is free it returns `b`, and `b` heads the list of its size;
if only the next block `r` is free it returns `b`, and the walk has at `b` one
free block of size `size(b) + size(r)`;
if only the previous block `q` is free it returns `q`, and the walk has at `q`
one free block of size `size(q) + size(b)`;
if both are free it returns `q`, and the walk has at `q` one free block of size
`size(q) + size(b) + size(r)`.
In each case the blocks around are as they were, the merged neighbours are
erased from the lists, and the returned block heads the list of the slot for
its new size.  In particular, freeing two allocated neighbours of a
well-formed heap, the lower first, leaves a well-formed heap with one free
block that covers both. -/
theorem C17_coalesce_cases (s : State) (pre : List Blk) (b : Blk) (post : List Blk)
    (fl : Nat → List Nat) (h : FreedIn s pre b post fl) :
    ((∀ q ∈ pre.getLast?, q.alloc = true) → (∀ r ∈ post.head?, r.alloc = true) →
      (coalesce s b.addr).2 = b.addr ∧
      WF (coalesce s b.addr).1 (pre ++ b :: post)
        (relist fl [] (addfree_index 21 b.size) b.addr)) ∧
    (∀ r post2, post = r :: post2 → r.alloc = false →
      (∀ q ∈ pre.getLast?, q.alloc = true) →
      (coalesce s b.addr).2 = b.addr ∧
      WF (coalesce s b.addr).1 (pre ++ ⟨b.addr, b.size + r.size, false⟩ :: post2)
        (relist fl [r.addr] (addfree_index 21 (b.size + r.size)) b.addr)) ∧
    (∀ pre2 q, pre = pre2 ++ [q] → q.alloc = false →
      (∀ r ∈ post.head?, r.alloc = true) →
      (coalesce s b.addr).2 = q.addr ∧
      WF (coalesce s b.addr).1 (pre2 ++ ⟨q.addr, q.size + b.size, false⟩ :: post)
        (relist fl [q.addr] (addfree_index 21 (q.size + b.size)) q.addr)) ∧
    (∀ pre2 q r post2, pre = pre2 ++ [q] → post = r :: post2 → q.alloc = false →
      r.alloc = false →
      (coalesce s b.addr).2 = q.addr ∧
      WF (coalesce s b.addr).1
        (pre2 ++ ⟨q.addr, q.size + b.size + r.size, false⟩ :: post2)
        (relist fl [r.addr, q.addr] (addfree_index 21 (q.size + b.size + r.size)) q.addr)) ∧
    (∀ (t : State) (p1 p2 : List Blk) (a c : Blk) (gl : Nat → List Nat),
      WF t (p1 ++ a :: c :: p2) gl → a.alloc = true → c.alloc = true →
      ∃ bl2 fl2 m, WF (mm_free (mm_free t a.addr) c.addr) bl2 fl2 ∧ m ∈ bl2 ∧
        m.alloc = false ∧ m.addr ≤ a.addr ∧ c.addr + c.size ≤ m.addr + m.size) := by
  refine ⟨fun hp hn => coalesce_wf1 h hp hn, ?_, ?_, ?_, ?_⟩
  · intro r post2 e hrf hp
    subst e
    exact coalesce_wf2 h hp hrf
  · intro pre2 q e hqf hn
    subst e
    exact coalesce_wf3 h hqf hn
  · intro pre2 q r post2 e1 e2 hqf hrf
    subst e1 e2
    exact coalesce_wf4 h hqf hrf
  · intro t p1 p2 a c gl w ha hc
    exact free_two_adjacent w ha hc

theorem C17_coalesce_cases_witness :
    FreedIn markedState [] ⟨4280, 24, false⟩ [⟨4304, 40, false⟩] placedLists ∧
    ((coalesce markedState 4280).2 = 4280 ∧
      WF (coalesce markedState 4280).1 [⟨4280, 64, false⟩]
        (relist placedLists [4304] (addfree_index 21 64) 4280)) ∧
    WF filledState [⟨4280, 24, true⟩, ⟨4304, 40, true⟩] (unlist placedLists [4304]) ∧
    ∃ bl2 fl2 m, WF (mm_free (mm_free filledState 4280) 4304) bl2 fl2 ∧ m ∈ bl2 ∧
      m.alloc = false ∧ m.addr ≤ 4280 ∧ 4304 + 40 ≤ m.addr + m.size :=
  have k := C17_coalesce_cases markedState [] ⟨4280, 24, false⟩ [⟨4304, 40, false⟩]
    placedLists markedState_freed
  ⟨markedState_freed, k.2.1 ⟨4304, 40, false⟩ [] rfl rfl (by simp), filledState_wf,
    k.2.2.2.2 filledState [] [] ⟨4280, 24, true⟩ ⟨4304, 40, true⟩ _ filledState_wf rfl rfl⟩

/-! ## Where the two searches for a slot agree -/

theorem smallClass_some (size : Nat) : ∀ n i, 0 < n → size ≤ (i + n) * 8 + 16 →
    ∃ k, smallClass size n i = some k := by
  intro n
  induction n with
  | zero => intro i h; omega
  | succ n ih =>
    intro i _ h
    unfold smallClass
    by_cases hc : size ≤ i * 8 + 24
    · rw [if_pos hc]
      exact ⟨i, rfl⟩
    · rw [if_neg hc]
      exact ih (i + 1) (by omega) (by omega)

theorem powClass_some (size : Nat) : ∀ n i, 0 < n → size ≤ 2 ^ (i + n - 1) →
    ∃ k, powClass size n i = some k := by
  intro n
  induction n with
  | zero => intro i h; omega
  | succ n ih =>
    intro i _ h
    unfold powClass
    by_cases hc : size ≤ 2 ^ i
    · rw [if_pos hc]
      exact ⟨i, rfl⟩
    · rw [if_neg hc]
      have hn : 0 < n := by
        rcases Nat.eq_zero_or_pos n with e | e
        · subst e
          simp at h
          exact absurd h hc
        · exact e
      refine ih (i + 1) hn ?_
      have e : i + 1 + n - 1 = i + (n + 1) - 1 := by omega
      rw [e]
      exact h

/-- For a size that is a multiple of 8 and does not lie between `2^21` and
`2^22`, `mm_malloc` starts its search at the slot under which `addfree` files a
block of that size. -/
theorem index_agree (sz : Nat) (h8 : sz % 8 = 0) (h : sz ≤ 2 ^ 21 ∨ 2 ^ 22 ≤ sz) :
    malloc_index 21 sz = addfree_index 21 sz := by
  unfold malloc_index addfree_index
  by_cases h1 : sz < 64
  · rw [if_pos h1, if_pos h1]
    obtain ⟨k, hk⟩ := smallClass_some sz SMALLBLK 0 (by decide) (by
      simp only [SMALLBLK]
      omega)
    rw [hk]
  · rw [if_neg h1, if_neg h1]
    by_cases h2 : sz < 2 ^ MAXCLASS
    · rw [if_pos h2, if_pos h2]
      have h3 : sz ≤ 2 ^ 21 := by
        rcases h with e | e
        · exact e
        · simp only [MAXCLASS] at h2
          omega
      obtain ⟨k, hk⟩ := powClass_some sz (MAXCLASS - MINCLASS) MINCLASS (by decide) (by
        simpa [MAXCLASS, MINCLASS] using h3)
      rw [hk]
    · rw [if_neg h2, if_neg h2]

/-- A larger size is not filed under a lower slot. -/
theorem slotPred_mono (i j a b : Nat) (hi : slotPred i a) (hj : slotPred j b) (hab : a ≤ b) :
    i ≤ j := by
  by_contra hlt
  have hji : j + 1 ≤ i := by omega
  have p6 : (2 : Nat) ^ 6 = 64 := by norm_num
  have pw : ∀ k, 6 ≤ k → 64 ≤ 2 ^ k := by
    intro k hk
    rw [← p6]
    exact Nat.pow_le_pow_right (by decide) hk
  have pm : ∀ k l, k ≤ l → 2 ^ k ≤ 2 ^ l := fun k l hkl =>
    Nat.pow_le_pow_right (by decide) hkl
  rcases hi with ⟨i1, i2⟩ | ⟨i1, i2⟩ | ⟨i1, i2, i3, i4⟩ | ⟨i1, i2⟩
  · rcases hj with ⟨j1, j2⟩ | ⟨j1, j2⟩ | ⟨j1, j2, j3, j4⟩ | ⟨j1, j2⟩ <;> omega
  · rcases hj with ⟨j1, j2⟩ | ⟨j1, j2⟩ | ⟨j1, j2, j3, j4⟩ | ⟨j1, j2⟩ <;> omega
  · have := pw i i1
    rcases hj with ⟨j1, j2⟩ | ⟨j1, j2⟩ | ⟨j1, j2, j3, j4⟩ | ⟨j1, j2⟩
    · omega
    · omega
    · have := pm (j + 1) i hji
      omega
    · omega
  · subst i1
    have p20 := pw 20 (by decide)
    rcases hj with ⟨j1, j2⟩ | ⟨j1, j2⟩ | ⟨j1, j2, j3, j4⟩ | ⟨j1, j2⟩
    · omega
    · omega
    · have := pm (j + 1) 20 hji
      omega
    · omega

/-- On a well-formed heap, for a request whose rounded size does not lie between
`2^21` and `2^22`: when some block on a slot is large enough, `mm_malloc`
returns a block that was on a slot and leaves the break of the arena as it is. -/
theorem malloc_no_growth {s : State} {bl : List Blk} {fl : Nat → List Nat} (h : WF s bl fl)
    (n : Nat) (hn : 0 < n) (hw : n + 15 < 18446744073709551616)
    (hgap : adjust n ≤ 2 ^ 21 ∨ 2 ^ 22 ≤ adjust n) (fuel : Nat) (hf : bl.length < fuel)
    (x j : Nat) (hx : x ∈ fl j) (hfit : adjust n ≤ GET_SIZE s.mem (HDRP x)) :
    ∃ s2 p i, mm_malloc fuel s n = some (s2, p) ∧ p ≠ 0 ∧ p ∈ fl i ∧
      s2.mem_brk = s.mem_brk := by
  have hc := h.core
  obtain ⟨a24, a8, -, -⟩ := adjust_spec n hw
  obtain ⟨c, hcm, hcx, -⟩ := hc.fl_free j x hx
  obtain ⟨cH, cS, -⟩ := hc.macros c hcm
  obtain ⟨-, -, c24, c8, -⟩ := hc.blk c hcm
  rw [← hcx, cH, cS] at hfit
  have hj : addfree_index 21 c.size = j := h.fl_class j x hx c hcm hcx
  have hle : malloc_index 21 (adjust n) ≤ j := by
    rw [index_agree (adjust n) a8 hgap, ← hj]
    exact slotPred_mono _ _ _ _ (slotPred_index (adjust n) a24 a8)
      (slotPred_index c.size c24 c8) hfit
  have hj21 : j < 21 := hc.idx_lt hx
  have hne : firstFit s.mem fl (adjust n) (21 - malloc_index 21 (adjust n))
      (malloc_index 21 (adjust n)) ≠ 0 := by
    rcases firstFit_spec s.mem fl (adjust n) (21 - malloc_index 21 (adjust n))
      (malloc_index 21 (adjust n)) with ⟨-, k2⟩ | ⟨i, -, -, k3, -⟩
    · exfalso
      refine k2 j hle (by omega) x hx ?_
      rw [← hcx, cH, cS]
      exact hfit
    · exact (hc.node_bd k3).1 |> fun hb => by
        have := hc.base_pos
        omega
  rcases malloc_cases h n fuel (by omega) hf with ⟨-, k2⟩ | ⟨k1, -⟩ | ⟨k1, -⟩
  · obtain ⟨b, hb, hba, hbf, hbs⟩ := hc.fit_block hne
    obtain ⟨pre, post, e⟩ := List.append_of_mem hb
    subst e
    obtain ⟨bl2, fl2, sz, -, -, -, -, -, -, hsf⟩ := place_spec h hbf (adjust n) a24 a8 hbs
    rw [hba] at hsf
    rcases firstFit_spec s.mem fl (adjust n) (21 - malloc_index 21 (adjust n))
      (malloc_index 21 (adjust n)) with ⟨m1, -⟩ | ⟨i, -, -, k3, -⟩
    · exact absurd m1 hne
    · exact ⟨_, _, i, k2, hne, k3, hsf.2.1⟩
  · exact absurd k1 hne
  · exact absurd k1 hne

/-! ## Where the relocating resize is the sequence of the specification -/

/-- On a well-formed heap, for an allocated block `b` whose successor is not
free and a request that does not wrap around: `mm_malloc(n)` returns, and when
it returns a block, `mm_realloc(b, n)` is the sequence allocate, copy, free;
when it returns `NULL`, so does `mm_realloc`, and nothing changes. -/
theorem realloc_relocate_eq {s : State} {pre post : List Blk} {b : Blk} {fl : Nat → List Nat}
    (h : WF s (pre ++ b :: post) fl) (hba : b.alloc = true)
    (hnx : post = [] ∨ ∃ r post2, post = r :: post2 ∧ r.alloc = true)
    (n : Nat) (hn : 0 < n) (hw : n + 15 < 18446744073709551616) (fuel : Nat)
    (hf : (pre ++ b :: post).length < fuel) :
    ∃ s1 q, mm_malloc fuel s n = some (s1, q) ∧
      (q ≠ 0 → mm_realloc fuel s b.addr n = alloc_copy_free fuel s b.addr n) ∧
      (q = 0 → mm_realloc fuel s b.addr n = some (s, 0)) := by
  have hc := h.core
  have hbin : b ∈ pre ++ b :: post := by simp
  have hmove : mm_realloc fuel s b.addr n = realloc_move fuel s b.addr n := by
    rcases realloc_cases hc n fuel (by omega) with
      ⟨r2, q2, e2, hr2, -⟩ | ⟨r2, q2, e2, hr2, -⟩ | ⟨-, k⟩ | ⟨r2, q2, e2, hr2, -⟩
    · exfalso
      rcases hnx with e | ⟨r, q, e, hr⟩
      · rw [e] at e2; simp at e2
      · rw [e] at e2
        rw [(List.cons.inj e2).1, hr2] at hr
        simp at hr
    · exfalso
      rcases hnx with e | ⟨r, q, e, hr⟩
      · rw [e] at e2; simp at e2
      · rw [e] at e2
        rw [(List.cons.inj e2).1, hr2] at hr
        simp at hr
    · exact k
    · exfalso
      rcases hnx with e | ⟨r, q, e, hr⟩
      · rw [e] at e2; simp at e2
      · rw [e] at e2
        rw [(List.cons.inj e2).1, hr2] at hr
        simp at hr
  obtain ⟨s1, q, heq, hz, hnz⟩ := malloc_spec h n fuel hn hw hf
  refine ⟨s1, q, heq, ?_, ?_⟩
  · intro hq
    obtain ⟨bl2, fl2, sz, -, -, -, -, -, w6, -⟩ := hnz hq
    obtain ⟨hH, -⟩ := hc.macros b hbin
    have hb3 := (hc.blk b hbin).2.2.1
    have hsz : GET_SIZE s1.mem (HDRP b.addr) = GET_SIZE s.mem (HDRP b.addr) := by
      rw [hH]
      unfold GET_SIZE GET
      rw [read32_congr s.mem s1.mem (b.addr - 4) (fun x h1 h2 =>
        w6 b hbin hba x h1 (by clear * - h2 hb3; omega))]
    rw [hmove]
    unfold realloc_move alloc_copy_free
    rw [heq]
    simp only
    rw [if_neg hq, hsz]
    by_cases hlt : n < GET_SIZE s.mem (HDRP b.addr)
    · rw [if_pos hlt, Nat.min_eq_right (le_of_lt hlt)]
    · rw [if_neg hlt, Nat.min_eq_left (by omega)]
  · intro hq
    rw [hmove]
    unfold realloc_move
    rw [heq]
    simp only
    rw [if_pos hq, hz hq]

/-! ## The two requests of `mm_init` -/

/-- The first request fails exactly when the arena has no room for 184 bytes. -/
theorem init_sbrk1_fail (s0 : State) (h : HostOK s0) :
    ((init_sbrk1 s0).2 = 18446744073709551615 ↔ s0.mem_max_addr < s0.mem_start_brk + 184) ∧
    (s0.mem_start_brk + 184 ≤ s0.mem_max_addr →
      (init_sbrk1 s0).2 = s0.mem_start_brk ∧
      (init_sbrk1 s0).1.mem_start_brk = s0.mem_start_brk ∧
      (init_sbrk1 s0).1.mem_brk = s0.mem_start_brk + 184 ∧
      (init_sbrk1 s0).1.mem_max_addr = s0.mem_max_addr ∧
      (init_sbrk1 s0).1.arrsize = 168) := by
  obtain ⟨h1, h2, h3, h4⟩ := h
  unfold init_sbrk1 mem_sbrk
  simp only [MAXCLASS, MINCLASS, SMALLBLK, WSIZE, Nat.reduceMul, Nat.reduceAdd, Nat.reduceSub]
  by_cases hgt : s0.mem_brk + 184 > s0.mem_max_addr
  · rw [if_pos hgt]
    refine ⟨⟨fun _ => by omega, fun _ => rfl⟩, fun hle => ?_⟩
    omega
  · rw [if_neg hgt]
    refine ⟨⟨fun e => ?_, fun e => ?_⟩, fun _ => ⟨h2, rfl, ?_, rfl, rfl⟩⟩
    · have e2 : s0.mem_brk = 18446744073709551615 := e
      omega
    · omega
    · show s0.mem_brk + 184 = s0.mem_start_brk + 184
      rw [h2]

/-- Once the first request has been granted, the second fails exactly when the
arena has no room for 64 bytes more. -/
theorem init_sbrk2_fail (s0 : State) (h : HostOK s0)
    (hle : s0.mem_start_brk + 184 ≤ s0.mem_max_addr) :
    ((init_sbrk2 s0).2 = 18446744073709551615 ↔ s0.mem_max_addr < s0.mem_start_brk + 248) := by
  obtain ⟨k1, k2, k3, k4, k5⟩ := (init_sbrk1_fail s0 h).2 hle
  obtain ⟨h1, h2, h3, h4⟩ := h
  unfold init_sbrk2
  generalize hs1 : ({ (init_sbrk1 s0).1 with heap_listp := (init_sbrk1 s0).2 } : State) = s1
  have g1 : s1.mem_start_brk = s0.mem_start_brk := by rw [← hs1]; exact k2
  have g2 : s1.mem_brk = s0.mem_start_brk + 184 := by rw [← hs1]; exact k3
  have g3 : s1.mem_max_addr = s0.mem_max_addr := by rw [← hs1]; exact k4
  have g4 : s1.heap_listp = s0.mem_start_brk := by rw [← hs1]; exact k1
  have g5 : s1.arrsize = 168 := by rw [← hs1]; exact k5
  clear hs1
  obtain ⟨-, q1, q2, q3, -⟩ := init_arena_spec s1 (by rw [g1]; exact h1) (by rw [g4, g1])
    (by rw [g2, g1]) g5 (by rw [g3, g1]; exact h3) (by rw [g3]; exact h4)
    (by rw [g2, g3]; exact hle)
  generalize init_arena s1 = s9 at q1 q2 q3 ⊢
  have e64 : mul64 (CHUNKSIZE / WSIZE) WSIZE = 64 := by decide
  rw [e64]
  unfold mem_sbrk
  rw [q2, q3, g2, g3]
  by_cases hgt : s0.mem_start_brk + 184 + 64 > s0.mem_max_addr
  · rw [if_pos hgt]
    exact ⟨fun _ => by omega, fun _ => rfl⟩
  · rw [if_neg hgt]
    constructor
    · intro e
      have e2 : s0.mem_start_brk + 184 = 18446744073709551615 := e
      omega
    · intro e
      omega

/-! ## The first request after `mm_init` -/

/-- On the heap that `mm_init` leaves, a request of at most 16 bytes is placed
at the start of the one block, which is split. -/
theorem init_malloc {s : State} {L : Nat}
    (h : WF s [⟨L, 64, false⟩] (fun i => if i = 5 then [L] else [])) (hB : Bounds s)
    (n : Nat) (h1 : 1 ≤ n) (h16 : n ≤ 16) (fuel : Nat) (hf : 3 ≤ fuel) :
    mm_malloc fuel s n = some (place s L 24, L) ∧
    WF (place s L 24) [⟨L, 24, true⟩, ⟨L + 24, 40, false⟩]
      (relist (fun i => if i = 5 then [L] else []) [L] (addfree_index 21 40) (L + 24)) ∧
    Bounds (place s L 24) := by
  have hc := h.core
  have hadj : adjust n = 24 := by
    unfold adjust DSIZE MINBLKSIZE
    rw [if_pos (by omega)]
  have hidx : malloc_index 21 24 = 0 := by decide
  obtain ⟨hH, hS, -⟩ := hc.macros ⟨L, 64, false⟩ (by simp)
  have hH2 : HDRP L = L - 4 := hH
  have hS2 : GET_SIZE s.mem (L - 4) = 64 := hS
  have hL0 : L ≠ 0 := by
    have := (hc.blk ⟨L, 64, false⟩ (by simp)).1
    have e : s.mem_start_brk + 184 ≤ L := this
    omega
  have hff : firstFit s.mem (fun i => if i = 5 then [L] else []) 24 21 0 = L := by
    rcases firstFit_spec s.mem (fun i => if i = 5 then [L] else []) 24 21 0 with
      ⟨-, k2⟩ | ⟨j, -, -, k3, -⟩
    · exfalso
      refine k2 5 (by omega) (by omega) L (by simp) ?_
      rw [hH2, hS2]
      omega
    · by_cases e : j = 5
      · subst e
        simpa using k3
      · simp [e] at k3
  have h48 : 24 + 24 ≤ (⟨L, 64, false⟩ : Blk).size := by
    show 24 + 24 ≤ 64
    decide
  have w := @place_split_wf s [] [] ⟨L, 64, false⟩ (fun i => if i = 5 then [L] else []) h rfl 24
    (by decide) (by decide) h48
  obtain ⟨-, -, -, -, hsf⟩ := @place_split_spec s [] [] ⟨L, 64, false⟩
    (fun i => if i = 5 then [L] else []) h rfl 24 (by decide) (by decide) h48
  refine ⟨?_, w, Bounds.of_same hsf hB⟩
  rcases malloc_cases h n fuel (by omega) (by simp; omega) with ⟨-, k2⟩ | ⟨k1, -⟩ | ⟨k1, -⟩
  · rw [hadj, hidx, hff] at k2
    exact k2
  · rw [hadj, hidx, hff] at k1
    exact absurd k1 hL0
  · rw [hadj, hidx, hff] at k1
    exact absurd k1 hL0

/-! # The claim on initialization -/

/-- The two requests are the calls that `mm_init` makes: whatever the host
state, a failure of the first, or of the second after the first was granted,
makes `mm_init` return -1. -/
theorem mm_init_fail (s : State) :
    ((init_sbrk1 s).2 = 18446744073709551615 → (mm_init s).2 = -1) ∧
    ((init_sbrk1 s).2 ≠ 18446744073709551615 → (init_sbrk2 s).2 = 18446744073709551615 →
      (mm_init s).2 = -1) := by
  have e64 : mul64 (CHUNKSIZE / WSIZE) WSIZE = 64 := by decide
  have e16 : CHUNKSIZE / WSIZE = 16 := by decide
  constructor
  · intro e
    unfold init_sbrk1 at e
    unfold mm_init
    simp only
    rw [if_pos e]
  · intro e1 e2
    unfold init_sbrk2 at e2
    unfold init_sbrk1 at e1 e2
    rw [e64] at e2
    unfold mm_init
    simp only
    rw [if_neg e1, e16]
    unfold extend_heap
    have e3 : mul64 16 WSIZE = 64 := by decide
    simp only [show ¬ (16 % 2 ≠ 0) by decide, if_false, e3]
    rw [if_pos e2]
    simp

/-- C21: the postcondition of `mm_init`, on an empty arena at a non-null
address (`HostOK`).  `mm_init` returns -1 exactly when its first request to
`mem_sbrk` fails, or that request is granted and the second, made by
`extend_heap`, fails; otherwise it returns 0.  After a return of 0: the table
of 21 slots lies at the start of the arena, which has 248 bytes; the prologue,
header and footer of size 8 with the allocated bit, lies before `heap_listp`;
the walk from `heap_listp` visits one block, free and of 64 bytes, and ends at
the epilogue header, which fills the last four bytes; slot 5 holds that block
alone and every other slot is empty; `lo` and `hi` hold the bounds; `mm_check`
returns 1; and for every `1 ≤ n ≤ 16`, `mm_malloc(n)` returns `heap_listp` as an
allocated block of 24 bytes, after which `mm_check` returns 1 again. -/
theorem C21_init_postcondition (s0 : State) (h : HostOK s0) (fuel : Nat) (hf : 3 ≤ fuel) :
    ((mm_init s0).2 = -1 ↔
      ((init_sbrk1 s0).2 = 18446744073709551615 ∨
        ((init_sbrk1 s0).2 ≠ 18446744073709551615 ∧
          (init_sbrk2 s0).2 = 18446744073709551615))) ∧
    ((mm_init s0).2 ≠ -1 → (mm_init s0).2 = 0) ∧
    (∀ s, mm_init s0 = (s, 0) →
      s.grouparr = mem_heap_lo s ∧ s.arrsize = 21 ∧ s.heap_listp = mem_heap_lo s + 184 ∧
      mem_heap_hi s = mem_heap_lo s + 247 ∧ s.lo = mem_heap_lo s ∧ s.hi = mem_heap_hi s ∧
      GET s.mem (s.heap_listp - 12) = PACK 8 1 ∧ GET s.mem (s.heap_listp - 8) = PACK 8 1 ∧
      walk s.mem fuel s.heap_listp = some ([s.heap_listp], s.heap_listp + 64) ∧
      GET s.mem (HDRP s.heap_listp) = PACK 64 0 ∧
      GET s.mem (FTRP s.mem s.heap_listp) = PACK 64 0 ∧
      GET s.mem (HDRP (s.heap_listp + 64)) = PACK 0 1 ∧
      HDRP (s.heap_listp + 64) + 3 = mem_heap_hi s ∧
      (∀ i, i < 21 → chase s.mem fuel (read64 s.mem (slotAddr s i)) =
        some (if i = 5 then [s.heap_listp] else [])) ∧
      mm_check fuel s = some 1 ∧
      ∀ n, 1 ≤ n → n ≤ 16 →
        ∃ s2, mm_malloc fuel s n = some (s2, s.heap_listp) ∧
          GET s2.mem (HDRP s.heap_listp) = PACK 24 1 ∧
          GET s2.mem (FTRP s2.mem s.heap_listp) = PACK 24 1 ∧
          mm_check fuel s2 = some 1) := by
  obtain ⟨sp1, sp2⟩ := mm_init_spec s0 h
  obtain ⟨f1, f2⟩ := init_sbrk1_fail s0 h
  have hcases : s0.mem_start_brk + 248 ≤ s0.mem_max_addr ∨
      s0.mem_max_addr < s0.mem_start_brk + 248 := by omega
  refine ⟨?_, ?_, ?_⟩
  · rcases hcases with hcap | hcap
    · have r0 := (sp2 hcap).1
      have g2 := init_sbrk2_fail s0 h (by omega)
      rw [r0]
      constructor
      · intro e
        exact absurd e (by decide)
      · rintro (e | ⟨-, e⟩)
        · have := f1.1 e
          omega
        · have := g2.1 e
          omega
    · have r1 := sp1 hcap
      refine ⟨fun _ => ?_, fun _ => r1⟩
      by_cases h184 : s0.mem_max_addr < s0.mem_start_brk + 184
      · exact Or.inl (f1.2 h184)
      · refine Or.inr ⟨fun e => h184 (f1.1 e), ?_⟩
        exact (init_sbrk2_fail s0 h (by omega)).2 hcap
  · intro hne
    rcases hcases with hcap | hcap
    · exact (sp2 hcap).1
    · exact absurd (sp1 hcap) hne
  · intro s hs
    have e1 : (mm_init s0).1 = s := by rw [hs]
    have e2 : (mm_init s0).2 = 0 := by rw [hs]
    have hcap : s0.mem_start_brk + 248 ≤ s0.mem_max_addr := by
      rcases hcases with hcap | hcap
      · exact hcap
      · have := sp1 hcap
        rw [e2] at this
        exact absurd this (by decide)
    obtain ⟨-, hwf, hB, b1, b2, b3⟩ := sp2 hcap
    rw [e1] at hwf hB b1 b2 b3
    obtain ⟨h1, h2, h3, h4⟩ := h
    have hc := hwf.core
    have hL : s.heap_listp = s0.mem_start_brk + 184 := by rw [hc.hl_eq, b1]
    have hhi : mem_heap_hi s = s.mem_brk - 1 := mem_heap_hi_eq hc
    have hlo : mem_heap_lo s = s.mem_start_brk := rfl
    have hbin : (⟨s0.mem_start_brk + 184, 64, false⟩ : Blk) ∈
        [(⟨s0.mem_start_brk + 184, 64, false⟩ : Blk)] := by simp
    obtain ⟨mH, -, -, -, mF, -⟩ := hc.macros _ hbin
    have mH2 : HDRP (s0.mem_start_brk + 184) = s0.mem_start_brk + 184 - 4 := mH
    have mF2 : FTRP s.mem (s0.mem_start_brk + 184) = s0.mem_start_brk + 184 + 64 - 8 := mF
    obtain ⟨-, -, -, -, -, w1, w2⟩ := hc.blk _ hbin
    have w1b : read32 s.mem (s0.mem_start_brk + 184 - 4) = 64 := w1
    have w2b : read32 s.mem (s0.mem_start_brk + 184 + 64 - 8) = 64 := w2
    have hpro := hc.pro_hdr
    have hpro2 := hc.pro_ftr
    have hepi := hc.epi
    rw [b1] at hpro hpro2
    rw [b2] at hepi
    have p8 : PACK 8 1 = 9 := by decide
    have p0 : PACK 0 1 = 1 := by decide
    have hwalk := hc.walk fuel (by simp; omega)
    have hchk := mm_check_wf hc hB fuel (by simp; omega)
    rw [hL, hlo, hhi, b1, b2]
    refine ⟨by rw [hc.grouparr_eq, b1], hc.arrsize_eq, rfl, by omega, by rw [hB.1, b1],
      by rw [hB.2, b2], ?_, ?_, ?_, ?_, ?_, ?_, ?_, ?_, hchk, ?_⟩
    · unfold GET
      rw [show s0.mem_start_brk + 184 - 12 = s0.mem_start_brk + 172 by omega, hpro, p8]
    · unfold GET
      rw [show s0.mem_start_brk + 184 - 8 = s0.mem_start_brk + 176 by omega, hpro2, p8]
    · rw [hL, b2] at hwalk
      rw [hwalk]
      simp
    · unfold GET
      rw [mH2, w1b, PACK_zero]
    · unfold GET
      rw [mF2, w2b, PACK_zero]
    · unfold GET
      rw [HDRP_eq _ (by omega) (by omega),
        show s0.mem_start_brk + 184 + 64 - 4 = s0.mem_start_brk + 248 - 4 by omega, hepi, p0]
    · rw [HDRP_eq _ (by omega) (by omega)]
      omega
    · intro i hi
      exact hc.chase fuel (by simp; omega) i hi
    · intro n hn1 hn16
      obtain ⟨q1, q2, q3⟩ := init_malloc hwf hB n hn1 hn16 fuel hf
      refine ⟨_, q1, ?_, ?_, mm_check_wf q2.core q3 fuel (by simp; omega)⟩
      · obtain ⟨nH, -⟩ := q2.core.macros ⟨s0.mem_start_brk + 184, 24, true⟩ (by simp)
        have nH2 : HDRP (s0.mem_start_brk + 184) = s0.mem_start_brk + 184 - 4 := nH
        have v1 := (q2.core.blk ⟨s0.mem_start_brk + 184, 24, true⟩ (by simp)).2.2.2.2.2.1
        have v1b : read32 (place s (s0.mem_start_brk + 184) 24).mem
            (s0.mem_start_brk + 184 - 4) = 25 := v1
        unfold GET
        rw [nH2, v1b]
        decide
      · obtain ⟨-, -, -, -, nF, -⟩ :=
          q2.core.macros ⟨s0.mem_start_brk + 184, 24, true⟩ (by simp)
        have nF2 : FTRP (place s (s0.mem_start_brk + 184) 24).mem (s0.mem_start_brk + 184) =
            s0.mem_start_brk + 184 + 24 - 8 := nF
        have v2 := (q2.core.blk ⟨s0.mem_start_brk + 184, 24, true⟩ (by simp)).2.2.2.2.2.2
        have v2b : read32 (place s (s0.mem_start_brk + 184) 24).mem
            (s0.mem_start_brk + 184 + 24 - 8) = 25 := v2
        unfold GET
        rw [nF2, v2b]
        decide

theorem C21_init_postcondition_witness :
    HostOK hostState ∧ 3 ≤ 3 ∧
    ((mm_init hostState).2 = -1 ↔
      ((init_sbrk1 hostState).2 = 18446744073709551615 ∨
        ((init_sbrk1 hostState).2 ≠ 18446744073709551615 ∧
          (init_sbrk2 hostState).2 = 18446744073709551615))) ∧
    ((mm_init hostState).2 ≠ -1 → (mm_init hostState).2 = 0) ∧
    mm_init hostState = (initState, 0) ∧
    walk initState.mem 3 initState.heap_listp =
      some ([initState.heap_listp], initState.heap_listp + 64) ∧
    (∀ i, i < 21 → chase initState.mem 3 (read64 initState.mem (slotAddr initState i)) =
      some (if i = 5 then [initState.heap_listp] else [])) ∧
    mm_check 3 initState = some 1 ∧
    (∀ n, 1 ≤ n → n ≤ 16 →
      ∃ s2, mm_malloc 3 initState n = some (s2, initState.heap_listp) ∧
        GET s2.mem (HDRP initState.heap_listp) = PACK 24 1 ∧
        GET s2.mem (FTRP s2.mem initState.heap_listp) = PACK 24 1 ∧
        mm_check 3 s2 = some 1) :=
  have k := C21_init_postcondition hostState hostState_ok 3 (by decide)
  have e : mm_init hostState = (initState, 0) := Prod.ext rfl initState_ret
  have k3 := k.2.2 initState e
  ⟨hostState_ok, by decide, k.1, k.2.1, e, k3.2.2.2.2.2.2.2.2.1,
    k3.2.2.2.2.2.2.2.2.2.2.2.2.2.1, k3.2.2.2.2.2.2.2.2.2.2.2.2.2.2.1,
    k3.2.2.2.2.2.2.2.2.2.2.2.2.2.2.2⟩

end MM
